import Mathlib

/-!
Object-graph persistence engine (`aether/obj/obj.h`).

A shallow embedding of the handle / registry / serialization code of `obj.h`.

* The heap is a list of object cells; an address is an index into it.  Cells are
  never reused: `delete` leaves the cell in place with `alive := false`, so that the
  writes the code performs through stale pointers hit the old cell.
* A stream is a list of 32-bit words (the byte-level encoding of `mstream` is not
  part of this development).
* User classes are described by a `ClassDecl`: the interface list given to
  `AETHER_INTERFACES` and the member fields streamed by `Serializator`, in
  declaration order.
* Recursive procedures carry a recursion budget (`fuel`); running out of it is
  reported as `Fault.fuel` and is kept apart from the faults of the code itself.
-/

namespace aether

/-! ## Data model -/

/-- Ways in which a run of the modelled code stops early. -/
inductive Fault where
  /-- the recursion budget of the model is exhausted -/
  | fuel
  /-- a null pointer is dereferenced (or `assert(ptr_)` fails) -/
  | null
  /-- an address that is not a heap cell is dereferenced -/
  | wild
  /-- a read past the end of a stream -/
  | underflow
  /-- the override chain of the registry never reaches a fixed point -/
  | loop
  /-- `RegisterClass` throws `std::runtime_error` -/
  | duplicate
  deriving DecidableEq, Repr

deriving instance DecidableEq for Except

/-- `InstanceId::kLoaded = ~(numeric_limits<uint32_t>::max() >> 1)`. -/
def kLoaded : Nat := 4294967295 ^^^ (4294967295 >>> 1)

/-- `InstanceId::kIdBitMask = ~kLoaded`. -/
def kIdBitMask : Nat := 4294967295 ^^^ kLoaded

/-- Modelled from the spec: the class identifier of the root class, the 32-bit hash
`crc32::from_literal("Obj")` (the hash header is third-party code outside the
sources); nothing below depends on the numeric value. -/
def kObjClassId : Nat := 2116784780

/-- The class `InstanceId`: an id and a flag word. -/
structure InstanceId where
  id_ : Nat
  flags_ : Nat
  deriving DecidableEq, Repr

/-- `InstanceId::IsValid`. -/
def InstanceId.IsValid (i : InstanceId) : Bool := i.id_ != 0

/-- `InstanceId::ToString`: the decimal form of the id. -/
def InstanceId.ToString (i : InstanceId) : String := Nat.repr i.id_

/-- `operator <<` of `InstanceId`: the single word `id_ | flags_`. -/
def InstanceId.encode (i : InstanceId) : Nat := i.id_ ||| i.flags_

/-- `operator >>` of `InstanceId`: split a word into flags and id. -/
def InstanceId.decode (w : Nat) : InstanceId :=
  { id_ := w &&& kIdBitMask, flags_ := w &&& (4294967295 ^^^ kIdBitMask) }

/-- A member streamed by `Serializator`: a scalar word, or a handle `Ptr<T>` with
its declared class `T` and its `ptr_`. -/
inductive Field where
  | scalar (v : Nat)
  | handle (T : Nat) (ptr_ : Option Nat)
  deriving DecidableEq, Repr

/-- A heap cell holding an `Obj` (or an object of a class derived from it). -/
structure Obj where
  /-- result of the virtual `GetClassId()` -/
  class_id : Nat
  /-- the class list of `AETHER_INTERFACES`, the implicit `Obj` left out -/
  interfaces : List Nat
  id_ : InstanceId
  reference_count_ : Int
  fields : List Field
  /-- ghost: `false` once the destructor has run -/
  alive : Bool
  deriving DecidableEq, Repr

/-- A member declaration of a user class. -/
inductive FieldDecl where
  | scalar (init : Nat)
  | handle (T : Nat)
  deriving DecidableEq, Repr

/-- A user class: what `AETHER_OBJECT`, `AETHER_INTERFACES` and `Serializator`
declare for it. -/
structure ClassDecl where
  class_id_ : Nat
  interfaces : List Nat
  fields : List FieldDecl
  deriving DecidableEq, Repr

/-- `LoadFacility`: the words put into the stream for a key. -/
abbrev LoadFacility := String → List Nat

/-- The process-wide state: the heap, the counter of `GenerateUnique`, the statics
of `Obj::Registry<void>`, and two ghost logs. -/
structure World where
  heap : List Obj
  /-- the static `i` of `InstanceId::GenerateUnique` -/
  counter : Nat
  root_ : Option Nat
  /-- `all_objects_`, newest binding of a key first -/
  all_objects_ : List (Nat × Nat)
  first_release_ : Bool
  /-- `registry_`: class id to the class its factory constructs; `none` is the null
  pointer before the first `RegisterClass` -/
  registry_ : Option (List (Nat × ClassDecl))
  /-- `base_to_derived_`; like `registry_` a null pointer until the first
  `RegisterClass` -/
  base_to_derived_ : Option (List (Nat × Nat))
  /-- ghost: the addresses given to `delete`, oldest first -/
  deleted : List Nat
  /-- ghost: the keys given to the load facility, oldest first -/
  loads : List String
  deriving DecidableEq, Repr

/-- The class `Domain`: the visited set and (ghost) the calls of `store_facility_`,
oldest first. -/
structure Domain where
  objects_ : List Nat
  stored : List (String × List Nat)
  deriving DecidableEq, Repr

/-! ## Serialization -/

/-- `Domain::FindAndAddObject`. -/
def Domain.FindAndAddObject (d : Domain) (o : Nat) : Bool × Domain :=
  if o ∈ d.objects_ then (true, d) else (false, { d with objects_ := o :: d.objects_ })

/-- `Ptr::IsPlaceholder` on the cell the handle points to. -/
def Obj.IsPlaceholder (o : Obj) : Bool := o.class_id == kObjClassId

/-- `o->Serialize(os)`: `Serializator` streams the members in order; `ser` is
`SerializeObj` for the handle members. -/
def serializeFields (ser : Domain → List Nat → Option Nat → Except Fault (Domain × List Nat)) :
    Domain → List Nat → List Field → Except Fault (Domain × List Nat)
  | d, os, [] => .ok (d, os)
  | d, os, .scalar v :: fs => serializeFields ser d (os ++ [v]) fs
  | d, os, .handle _ p :: fs =>
    match ser d os p with
    | .error e => .error e
    | .ok (d1, os1) => serializeFields ser d1 os1 fs

/-- `SerializeObj(s, o)` for a handle with `ptr_ = p`, over a fixed heap. -/
def SerializeObj : Nat → List Obj → Domain → List Nat → Option Nat →
    Except Fault (Domain × List Nat)
  | 0, _, _, _, _ => .error .fuel
  | fuel + 1, heap, d, s, p =>
    match p with
    | none => .error .null
    | some a =>
      match heap[a]? with
      | none => .error .wild
      | some o =>
        let s1 := s ++ [o.id_.encode]
        if o.IsPlaceholder then .ok (d, s1)
        else if a ∈ d.objects_ then .ok (d, s1)
        else
          match serializeFields (SerializeObj fuel heap)
              { d with objects_ := a :: d.objects_ } [o.class_id] o.fields with
          | .error e => .error e
          | .ok (d1, os) =>
            .ok ({ d1 with stored := d1.stored ++ [(o.id_.ToString, os)] }, s1)

/-- `Ptr::Serialize(store_facility)`: a fresh `Domain`, a fresh stream, then
`os << *this`.  The result is the final `Domain`, whose `stored` lists the calls of
the store facility. -/
def Ptr.Serialize (heap : List Obj) (p : Option Nat) : Except Fault Domain :=
  match SerializeObj (heap.length + 1) heap ⟨[], []⟩ [] p with
  | .error e => .error e
  | .ok (d, _) => .ok d

/-! ## Cells, maps and handles -/

/-- `find` on a `std::map` / `std::unordered_map` kept as an association list. -/
def mapFind {α : Type} (m : List (Nat × α)) (k : Nat) : Option α :=
  match m with
  | [] => none
  | (k1, v) :: rest => if k1 = k then some v else mapFind rest k

/-- `erase` of a key. -/
def mapErase {α : Type} (m : List (Nat × α)) (k : Nat) : List (Nat × α) :=
  m.filter (fun e => e.1 != k)

/-- `m[k] = v`. -/
def mapSet {α : Type} (m : List (Nat × α)) (k : Nat) (v : α) : List (Nat × α) :=
  (k, v) :: mapErase m k

/-- Apply `f` to the cell at address `a`. -/
def World.update (w : World) (a : Nat) (f : Obj → Obj) : World :=
  match w.heap[a]? with
  | none => w
  | some o => { w with heap := w.heap.set a (f o) }

/-- Overwrite member `i` of the cell at `a`. -/
def World.setField (w : World) (a i : Nat) (f : Field) : World :=
  w.update a (fun o => { o with fields := o.fields.set i f })

/-- `InstanceId::GenerateUnique`: `++i` on the static `int`, returned as `uint32_t`.
The conversion is the identity for the first `2^31 - 1` calls; after those the
increment overflows the `int`, which is undefined behaviour and outside the model. -/
def GenerateUnique (w : World) : Nat × World :=
  (w.counter + 1, { w with counter := w.counter + 1 })

/-- Allocation of a cell followed by the constructor `Obj::Obj()`: a fresh id with
`kLoaded`, reference count 0, and the cell becomes the root when there is none.
The members are constructed afterwards. -/
def World.construct (w : World) (cls : Nat) (ifs : List Nat) : Nat × World :=
  let a := w.heap.length
  let (i, w1) := GenerateUnique w
  (a, { w1 with
        heap := w1.heap ++ [{ class_id := cls, interfaces := ifs, id_ := ⟨i, kLoaded⟩,
                              reference_count_ := 0, fields := [], alive := true }],
        root_ := if w1.root_.isSome then w1.root_ else some a })

/-- `Ptr::NewPlaceholder`: `new Obj()` with the reference count set to 1. -/
def Ptr.NewPlaceholder (w : World) : Nat × World :=
  let (a, w1) := w.construct kObjClassId []
  (a, w1.update a (fun o => { o with reference_count_ := 1 }))

/-- `Ptr::Init(p)`: bind to `p` and count the reference, or bind to a new
placeholder when `p` is null.  Returns the new `ptr_`. -/
def Ptr.Init (w : World) (p : Option Nat) : Except Fault (Nat × World) :=
  match p with
  | none => .ok (Ptr.NewPlaceholder w)
  | some a =>
    match w.heap[a]? with
    | none => .error .wild
    | some _ =>
      .ok (a, w.update a (fun o => { o with reference_count_ := o.reference_count_ + 1 }))

/-- `operator bool` of a handle. -/
def Ptr.toBool (w : World) (p : Option Nat) : Except Fault Bool :=
  match p with
  | none => .error .null
  | some a =>
    match w.heap[a]? with
    | none => .error .wild
    | some o => .ok (!o.IsPlaceholder)

/-- `Ptr::get`: null for a placeholder, `ptr_` otherwise. -/
def Ptr.get (w : World) (p : Option Nat) : Except Fault (Option Nat) :=
  match p with
  | none => .error .null
  | some a =>
    match w.heap[a]? with
    | none => .error .wild
    | some o => .ok (if o.IsPlaceholder then none else some a)

/-- `Ptr::GetId`. -/
def Ptr.GetId (w : World) (p : Option Nat) : Except Fault Nat :=
  match p with
  | none => .error .null
  | some a =>
    match w.heap[a]? with
    | none => .error .wild
    | some o => .ok o.id_.id_

/-- `Ptr::SetId`. -/
def Ptr.SetId (w : World) (p : Option Nat) (i : Nat) : Except Fault World :=
  match p with
  | none => .error .null
  | some a =>
    match w.heap[a]? with
    | none => .error .wild
    | some _ => .ok (w.update a (fun o => { o with id_ := { o.id_ with id_ := i } }))

/-- `Ptr::Unload`: just `Init(nullptr)`.  Returns the new `ptr_`. -/
def Ptr.Unload (w : World) (_p : Option Nat) : Except Fault (Nat × World) :=
  Ptr.Init w none

/-- `DynamicCast(id)` on the cell at `a`: the cell itself when `id` is in its
interface list or is the root class, null otherwise. -/
def DynamicCast (o : Obj) (a : Nat) (id : Nat) : Option Nat :=
  if id ∈ o.interfaces ∨ id = kObjClassId then some a else none

/-! ## Destruction and release -/

/-- The member destructors of the cell at `a`, last member first: members
`i-1, …, 0`.  A handle member runs `release()` (`rel`), which ends with
`ptr_ = nullptr`. -/
def destroyMembers (rel : World → Option Nat → Except Fault World) (a : Nat) :
    Nat → World → Except Fault World
  | 0, w => .ok w
  | i + 1, w =>
    match w.heap[a]? with
    | none => .error .wild
    | some o =>
      match o.fields[i]? with
      | some (.handle T p) =>
        match rel w p with
        | .error e => .error e
        | .ok w1 => destroyMembers rel a i (w1.setField a i (.handle T none))
      | _ => destroyMembers rel a i w

/-- `delete o` for the cell at `a`: the member destructors, then `Obj::~Obj()`
(clear `root_` when it is this cell, erase the entry of `all_objects_` under this
cell's id).  The destroyed cell stays in the heap with `alive := false`: an access
through a pointer that still holds its address, undefined in the source, shows in the
model as a read or a write of a cell that is not alive. -/
def deleteObj (rel : World → Option Nat → Except Fault World) (w : World) (a : Nat) :
    Except Fault World :=
  match w.heap[a]? with
  | none => .error .wild
  | some o =>
    match destroyMembers rel a o.fields.length { w with deleted := w.deleted ++ [a] } with
    | .error e => .error e
    | .ok w1 =>
      match w1.heap[a]? with
      | none => .error .wild
      | some o1 =>
        .ok { w1 with
              root_ := if w1.root_ = some a then none else w1.root_,
              all_objects_ := mapErase w1.all_objects_ o1.id_.id_,
              heap := w1.heap.set a { o1 with alive := false } }

/-- The tail of `Ptr::release`: `if (--ptr_->reference_count_ == 0) delete ptr_;`.  Like
the source it does not ask whether the cell is alive. -/
def releaseTail (rel : World → Option Nat → Except Fault World) (w : World) (a : Nat) :
    Except Fault World :=
  match w.heap[a]? with
  | none => .error .wild
  | some o =>
    let w1 := w.update a (fun o => { o with reference_count_ := o.reference_count_ - 1 })
    if o.reference_count_ - 1 = 0 then deleteObj rel w1 a else .ok w1

/-- The visited set of a scan, in the iteration order of `std::set<Obj*>`. -/
def delOrder (objects : List Nat) : List Nat :=
  objects.insertionSort (fun x y => x ≤ y)

/-- The second loop over `del_list`: `delete o` for each member in turn. -/
def deleteAll (rel : World → Option Nat → Except Fault World) :
    World → List Nat → Except Fault World
  | w, [] => .ok w
  | w, o :: rest =>
    match deleteObj rel w o with
    | .error e => .error e
    | .ok w1 => deleteAll rel w1 rest

/-- The first loop over `del_list`: `o->reference_count_ = 0`. -/
def zeroCounts (w : World) (del_list : List Nat) : World :=
  del_list.foldl (fun w o => w.update o (fun c => { c with reference_count_ := 0 })) w

/-- `Ptr::release()` of a handle with `ptr_ = p`; the caller stores the final
`ptr_ = nullptr`.  With `first_release_` set this is the scan: `del_list` is the
visited set of `os2 << *this`, less the visited set of `os1 << root_` when `ptr_`
is not the root.  `os1 << root_` goes through a temporary `Ptr<Obj>(root_)`, which
is initialised before and released after the scan. -/
def release : Nat → World → Option Nat → Except Fault World
  | 0, _, _ => .error .fuel
  | fuel + 1, w, p =>
    match p with
    | none => .error .null
    | some a =>
      if w.first_release_ then
        let w0 := { w with first_release_ := false }
        match Ptr.Serialize w0.heap (some a) with
        | .error e => .error e
        | .ok domain =>
          let scanned : Except Fault (World × List Nat) :=
            if some a ≠ w0.root_ then
              match Ptr.Init w0 w0.root_ with
              | .error e => .error e
              | .ok (t, w1) =>
                match Ptr.Serialize w1.heap (some t) with
                | .error e => .error e
                | .ok root =>
                  match release fuel w1 (some t) with
                  | .error e => .error e
                  | .ok w2 =>
                    .ok (w2, (delOrder domain.objects_).filter (fun o => o ∉ root.objects_))
            else .ok (w0, delOrder domain.objects_)
          match scanned with
          | .error e => .error e
          | .ok (w2, del_list) =>
            match deleteAll (release fuel) (zeroCounts w2 del_list) del_list with
            | .error e => .error e
            | .ok w3 =>
              let w4 := { w3 with first_release_ := true }
              if a ∈ del_list then .ok w4 else releaseTail (release fuel) w4 a
      else releaseTail (release fuel) w a

/-! ## Class registry -/

/-- `Registry::RegisterClass(id, base_id, factory)`, the factory being
`new T()` for the class `T` described by `c`. -/
def Registry.RegisterClass (w : World) (id base_id : Nat) (c : ClassDecl) :
    Except Fault World :=
  let reg := w.registry_.getD []
  let b2d := w.base_to_derived_.getD []
  match mapFind reg id with
  | some _ => .error .duplicate
  | none =>
    .ok { w with
          registry_ := some (mapSet reg id c),
          base_to_derived_ := some (if base_id ≠ kObjClassId then mapSet b2d base_id id else b2d) }

/-- `Registry::UnregisterClass(id)`. -/
def Registry.UnregisterClass (w : World) (id : Nat) : Except Fault World :=
  match w.registry_, w.base_to_derived_ with
  | some reg, some b2d =>
    .ok { w with
          registry_ := some (mapErase reg id),
          base_to_derived_ := some (b2d.filter (fun e => e.2 != id)) }
  | _, _ => .error .null

/-- The `while (true)` loop of `Registry::CreateClassById`; `none` when the budget
runs out. -/
def resolveChain : Nat → List (Nat × Nat) → Nat → Option Nat
  | 0, _, _ => none
  | fuel + 1, m, derived_id =>
    match mapFind m derived_id with
    | none => some derived_id
    | some d => if derived_id = d then some derived_id else resolveChain fuel m d

/-- The member constructors of a new object at `a`, in declaration order: a
handle member is `Ptr()`, that is `Init(nullptr)`. -/
def constructMembers (a : Nat) : World → List FieldDecl → World
  | w, [] => w
  | w, .scalar v :: ds =>
    constructMembers a (w.update a (fun o => { o with fields := o.fields ++ [.scalar v] })) ds
  | w, .handle T :: ds =>
    let (ph, w1) := Ptr.NewPlaceholder w
    constructMembers a
      (w1.update a (fun o => { o with fields := o.fields ++ [.handle T (some ph)] })) ds

/-- The factory `[]{ return new T(); }` of the class `c`. -/
def ClassDecl.create (c : ClassDecl) (w : World) : Nat × World :=
  let (a, w1) := w.construct c.class_id_ c.interfaces
  (a, constructMembers a w1 c.fields)

/-- `Registry::CreateClassById(base_id)`: follow the override chain, then call the
factory; a null result when the resolved id has no factory. -/
def Registry.CreateClassById (w : World) (base_id : Nat) : Except Fault (Option Nat × World) :=
  match w.registry_, w.base_to_derived_ with
  | some reg, some b2d =>
    match resolveChain (b2d.length + 1) b2d base_id with
    | none => .error .loop
    | some derived_id =>
      match mapFind reg derived_id with
      | none => .ok (none, w)
      | some c =>
        let (a, w1) := c.create w
        .ok (some a, w1)
  | _, _ => .error .null

/-- `Obj::CreateClassById(id, instance_id)`: the registry's object with
`o->id_ = instance_id`, the assignment going through the result unchecked. -/
def Obj.CreateClassById (w : World) (id : Nat) (instance_id : InstanceId) :
    Except Fault (Nat × World) :=
  match Registry.CreateClassById w id with
  | .error e => .error e
  | .ok (none, _) => .error .null
  | .ok (some a, w1) => .ok (a, w1.update a (fun o => { o with id_ := instance_id }))

/-- `Obj::AddObject` for the cell at `a`. -/
def Obj.AddObject (w : World) (a : Nat) : World :=
  match w.heap[a]? with
  | none => w
  | some o => { w with all_objects_ := mapSet w.all_objects_ o.id_.id_ a }

/-- `Obj::FindObject`. -/
def Obj.FindObject (w : World) (instance_id : InstanceId) : Option Nat :=
  mapFind w.all_objects_ instance_id.id_

/-! ## Deserialization -/

/-- `is >> word`. -/
def readWord : List Nat → Except Fault (Nat × List Nat)
  | [] => .error .underflow
  | v :: rest => .ok (v, rest)

/-- Where a handle lives: a member `(cell, index)`, or `none` for a handle of the
caller. -/
abbrev Place := Option (Nat × Nat)

/-- Store `ptr_ = v` in a handle member of declared class `T`. -/
def World.poke (w : World) (pl : Place) (T : Nat) (v : Option Nat) : World :=
  match pl with
  | none => w
  | some (a, i) => w.setField a i (.handle T v)

/-- The end of a temporary `Ptr<Obj>` that has been emptied: `p.Init(nullptr)`
and then its destructor. -/
def endTemp (rel : World → Option Nat → Except Fault World) (w : World) : Except Fault World :=
  match Ptr.Init w none with
  | .error e => .error e
  | .ok (t, w1) => rel w1 (some t)

/-- `o = DeserializeObj(s)`: move assignment of the temporary `Ptr<Obj>` bound to
`tmp` into a handle of declared class `T` with `ptr_ = cur`, then the destructor of
the temporary.  For `T = Obj` this is `operator=(Ptr&&)`, otherwise the template
`operator=(Ptr<T1>&&)`.  Returns the new `ptr_`. -/
def Ptr.assignTemp (rel : World → Option Nat → Except Fault World) (w : World) (pl : Place)
    (T : Nat) (cur : Option Nat) (tmp : Nat) : Except Fault (World × Option Nat) :=
  let same : Except Fault Bool :=
    if T = kObjClassId then .ok (cur = some tmp)
    else
      match cur with
      | none => .error .null
      | some c => .ok (c = tmp)
  match same with
  | .error e => .error e
  | .ok true =>
    match rel w (some tmp) with
    | .error e => .error e
    | .ok w1 =>
      match endTemp rel w1 with
      | .error e => .error e
      | .ok w2 => .ok (w2, cur)
  | .ok false =>
    match rel w cur with
    | .error e => .error e
    | .ok w1 =>
      let w2 := w1.poke pl T none
      if T = kObjClassId then
        match endTemp rel (w2.poke pl T (some tmp)) with
        | .error e => .error e
        | .ok w3 => .ok (w3, some tmp)
      else
        match w2.heap[tmp]? with
        | none => .error .wild
        | some o =>
          match Ptr.Init w2 (DynamicCast o tmp T) with
          | .error e => .error e
          | .ok (n, w3) =>
            match rel (w3.poke pl T (some n)) (some tmp) with
            | .error e => .error e
            | .ok w4 =>
              match endTemp rel w4 with
              | .error e => .error e
              | .ok w5 => .ok (w5, some n)

/-- `obj->Deserialize(is)` for the cell at `a`: `Serializator` reads the members
in order, starting with member `i`; `des` is `DeserializeObj`. -/
def deserializeFields (des : World → List Nat → Except Fault (World × List Nat × Nat))
    (rel : World → Option Nat → Except Fault World) (a : Nat) :
    Nat → World → List Nat → List Field → Except Fault (World × List Nat)
  | _, w, is, [] => .ok (w, is)
  | i, w, is, .scalar _ :: fs =>
    match readWord is with
    | .error e => .error e
    | .ok (v, is1) => deserializeFields des rel a (i + 1) (w.setField a i (.scalar v)) is1 fs
  | i, w, is, .handle T _ :: fs =>
    match des w is with
    | .error e => .error e
    | .ok (w1, is1, tmp) =>
      match w1.heap[a]? with
      | none => .error .wild
      | some o =>
        match o.fields[i]? with
        | some (.handle _ cur) =>
          match Ptr.assignTemp rel w1 (some (a, i)) T cur tmp with
          | .error e => .error e
          | .ok (w2, _) => deserializeFields des rel a (i + 1) w2 is1 fs
        | _ => .error .wild

/-- `DeserializeObj(s)`: returns the world, the rest of `s` and the cell the
returned temporary `Ptr<Obj>` is bound to. -/
def DeserializeObj : Nat → LoadFacility → World → List Nat →
    Except Fault (World × List Nat × Nat)
  | 0, _, _, _ => .error .fuel
  | fuel + 1, load, w, s =>
    match readWord s with
    | .error e => .error e
    | .ok (word, s1) =>
      let instance_id := InstanceId.decode word
      match Obj.FindObject w instance_id with
      | some obj =>
        match Ptr.Init w (some obj) with
        | .error e => .error e
        | .ok (_, w1) => .ok (w1, s1, obj)
      | none =>
        let w0 := { w with loads := w.loads ++ [instance_id.ToString] }
        match readWord (load instance_id.ToString) with
        | .error e => .error e
        | .ok (class_id, is) =>
          match Obj.CreateClassById w0 class_id instance_id with
          | .error e => .error e
          | .ok (obj, w1) =>
            let w2 := Obj.AddObject (w1.update obj (fun o => { o with id_ := instance_id })) obj
            match w2.heap[obj]? with
            | none => .error .wild
            | some o =>
              match deserializeFields (DeserializeObj fuel load) (release fuel) obj 0 w2 is
                  o.fields with
              | .error e => .error e
              | .ok (w3, _) =>
                match Ptr.Init w3 (some obj) with
                | .error e => .error e
                | .ok (_, w4) => .ok (w4, s1, obj)

/-- `Ptr<T>::Load(load_facility)` on a handle of the caller with `ptr_ = p`.
Returns the world and the new `ptr_`. -/
def Ptr.Load (fuel : Nat) (load : LoadFacility) (w : World) (T : Nat) (p : Option Nat) :
    Except Fault (World × Option Nat) :=
  match p with
  | none => .error .null
  | some a =>
    match w.heap[a]? with
    | none => .error .wild
    | some o =>
      if !o.IsPlaceholder then .ok (w, p)
      else
        let is := [InstanceId.encode ⟨o.id_.id_, kLoaded⟩]
        match DeserializeObj fuel load { w with first_release_ := false } is with
        | .error e => .error e
        | .ok (w1, _, tmp) =>
          match Ptr.assignTemp (release fuel) w1 none T p tmp with
          | .error e => .error e
          | .ok (w2, p1) => .ok ({ w2 with first_release_ := true }, p1)

/-- A load facility that reads what a run of `Ptr::Serialize` has stored: the
record stored last under the key, an empty stream when there is none. -/
def storeLoad (stored : List (String × List Nat)) : LoadFacility :=
  fun key =>
    match stored.reverse.find? (fun e => e.1 == key) with
    | some e => e.2
    | none => []

/-! ## Reachability -/

/-- The cell at `a` exists and is not of the placeholder class. -/
def Resident (heap : List Obj) (a : Nat) : Prop :=
  ∃ o, heap[a]? = some o ∧ o.IsPlaceholder = false

/-- The resident cell `x` has a handle member bound to the resident cell `y`. -/
def Step (heap : List Obj) (x y : Nat) : Prop :=
  ∃ o T, heap[x]? = some o ∧ o.IsPlaceholder = false ∧
    Field.handle T (some y) ∈ o.fields ∧ Resident heap y

/-- The resident cell `b` is reachable from the resident cell `a` through handle
members of resident cells. -/
def Reaches (heap : List Obj) (a b : Nat) : Prop :=
  Resident heap a ∧ Relation.ReflTransGen (Step heap) a b

/-- The key under which the cell at `a` is stored. -/
def keyOf (heap : List Obj) (a : Nat) : String :=
  match heap[a]? with
  | some o => o.id_.ToString
  | none => ""

/-- What one traversal step from the domain `d` to the domain `d1` guarantees, the
cells in `srcs` being the ones the step starts from. -/
def Visits (heap : List Obj) (srcs : Nat → Prop) (d d1 : Domain) : Prop :=
  ∃ new : List Nat, d1.objects_ = new ++ d.objects_ ∧ (∀ x ∈ new, x ∉ d.objects_) ∧ new.Nodup ∧
    (d1.stored.map Prod.fst).Perm (d.stored.map Prod.fst ++ new.map (keyOf heap)) ∧
    (∀ b ∈ new, ∃ a, srcs a ∧ Reaches heap a b) ∧
    (∀ a, srcs a → Resident heap a → a ∈ d1.objects_) ∧
    (∀ x ∈ new, ∀ y, Step heap x y → y ∈ d1.objects_)

/-- The number of heap cells that are not in the visited set of `d`. -/
def unvisited (heap : List Obj) (d : Domain) : Nat :=
  ((List.range heap.length).filter (fun a => decide (a ∉ d.objects_))).length

/-- Every handle member of a resident cell is bound to a cell of the heap. -/
def Closed (heap : List Obj) : Prop :=
  ∀ (x : Nat) (o : Obj) (T : Nat) (q : Option Nat), heap[x]? = some o →
    o.IsPlaceholder = false → Field.handle T q ∈ o.fields →
    ∃ y, q = some y ∧ y < heap.length

/-! ## The scenario of the specification -/

/-- Modelled from the spec: the class id of the class `Node` of the concrete
scenario, `crc32::from_literal("Node")`. -/
def kNodeClassId : Nat := 625821563

/-- Modelled from the spec: the user class `Node` of the concrete scenario, with one
handle member `Node::ptr`. -/
def Node : ClassDecl :=
  { class_id_ := kNodeClassId, interfaces := [kNodeClassId], fields := [.handle kNodeClassId] }

/-- A live `Node` cell with the given id, reference count and member binding. -/
def mkNode (id : Nat) (rc : Int) (next : Option Nat) : Obj :=
  { class_id := kNodeClassId, interfaces := [kNodeClassId], id_ := ⟨id, kLoaded⟩,
    reference_count_ := rc, fields := [.handle kNodeClassId next], alive := true }

/-- The 2-cycle of the scenario: object 1 at address 0 and object 2 at address 1,
each bound by the other's member; object 1 is also bound by the caller's handle. -/
def cycleHeap : List Obj := [mkNode 1 2 (some 1), mkNode 2 1 (some 0)]

/-- A decision procedure for `Closed`. -/
def closedB (heap : List Obj) : Bool :=
  heap.all (fun o => o.IsPlaceholder || o.fields.all (fun f =>
    match f with
    | .scalar _ => true
    | .handle _ none => false
    | .handle _ (some y) => decide (y < heap.length)))

/-- The process before any static initialiser has run. -/
def emptyWorld : World :=
  { heap := [], counter := 0, root_ := none, all_objects_ := [], first_release_ := true,
    registry_ := none, base_to_derived_ := none, deleted := [], loads := [] }

/-- `AETHER_IMPLEMENTATION(CLS)`: the static `Registrar<CLS>(CLS::class_id_, 0)`; a
throwing registration ends the process, which the model leaves as it is. -/
def implement (w : World) (c : ClassDecl) : World :=
  match Registry.RegisterClass w c.class_id_ 0 c with
  | .ok w1 => w1
  | .error _ => w

/-- A process in which the class `Node` is registered and no object exists. -/
def nodeWorld : World := implement emptyWorld Node

/-- The records stored by serializing `cycleHeap` from the handle to object 1. -/
def cycleRecords : List (String × List Nat) :=
  [("2", [kNodeClassId, 1 ||| kLoaded]), ("1", [kNodeClassId, 2 ||| kLoaded])]

/-- Modelled from the spec: `crc32::from_literal("Leaf")`. -/
def kLeafClassId : Nat := 1722658777

/-- Modelled from the spec: `crc32::from_literal("Pair")`. -/
def kPairClassId : Nat := 2842210647

/-- Modelled from the spec: a user class without members. -/
def Leaf : ClassDecl := { class_id_ := kLeafClassId, interfaces := [kLeafClassId], fields := [] }

/-- Modelled from the spec: a user class with two handle members `Leaf::ptr`
("an object whose two handle fields both carry id k"). -/
def Pair : ClassDecl :=
  { class_id_ := kPairClassId, interfaces := [kPairClassId],
    fields := [.handle kLeafClassId, .handle kLeafClassId] }

/-- A process in which `Pair` and `Leaf` are registered and no object exists. -/
def pairWorld : World := implement (implement emptyWorld Pair) Leaf

/-- User code `Ptr<T> h(p)` for a non-null `p`: the world after `Init(p)`. -/
def bindHandle (w : World) (a : Nat) : World :=
  match Ptr.Init w (some a) with
  | .ok (_, w1) => w1
  | .error _ => w

/-- User code `h.SetId(i)`: the world after it. -/
def setId (w : World) (a i : Nat) : World :=
  match Ptr.SetId w (some a) i with
  | .ok w1 => w1
  | .error _ => w

/-- The records of a `Pair` with id 10 whose two members are bound to one `Leaf`
with id 3. -/
def pairRecords : List (String × List Nat) :=
  [("10", [kPairClassId, 3 ||| kLoaded, 3 ||| kLoaded]), ("3", [kLeafClassId])]

/-- What is observed of a cell in the scenarios: class, id, count, members, alive. -/
def Obj.view (o : Obj) : Nat × Nat × Int × List Field × Bool :=
  (o.class_id, o.id_.id_, o.reference_count_, o.fields, o.alive)

/-- What the traversal reads of a cell: class id, identity and members. -/
def Obj.ser (o : Obj) : Nat × InstanceId × List Field := (o.class_id, o.id_, o.fields)

/-- User code releasing `n` handles bound to the cell `a`, one after the other. -/
def releaseTimes (fuel : Nat) : Nat → World → Nat → Except Fault World
  | 0, w, _ => .ok w
  | n + 1, w, a =>
    match release fuel w (some a) with
    | .error e => .error e
    | .ok w1 => releaseTimes fuel n w1 a

/-- A process whose root is a `Node` (address 0, held by one handle of the caller)
with its member bound to a `Leaf` (address 1) that is also bound by two handles of
the caller: three handles are bound to the `Leaf`. -/
def rootedWorld : World :=
  { nodeWorld with
    heap := [mkNode 1 1 (some 1),
             { class_id := kLeafClassId, interfaces := [kLeafClassId], id_ := ⟨2, kLoaded⟩,
               reference_count_ := 3, fields := [], alive := true }],
    counter := 2, root_ := some 0 }

/-- A process that holds the 2-cycle of `cycleHeap` and has no root. -/
def cycleWorld : World := { nodeWorld with heap := cycleHeap, counter := 2 }

/-- A process whose root `Node` (address 0, held by one handle) has its member bound
to object `A` (address 1) of a 2-cycle `A`, `B` (address 2); a handle of the caller
is bound to `A` as well. -/
def rootedCycleWorld : World :=
  { nodeWorld with
    heap := [mkNode 1 1 (some 1), mkNode 2 3 (some 2), mkNode 3 1 (some 1)],
    counter := 3, root_ := some 0 }

/-! ## Reference accounting -/

/-- 1 when the member is a handle bound to the cell `a`, else 0. -/
def fieldRef (f : Field) (a : Nat) : Int :=
  match f with
  | .handle _ (some b) => if b = a then 1 else 0
  | _ => 0

/-- The number of handle members in `fs` bound to the cell `a`. -/
def countRef (fs : List Field) (a : Nat) : Int := (fs.map (fun f => fieldRef f a)).sum

/-- The number of handle members in the heap bound to the cell `a`. -/
def refs (heap : List Obj) (a : Nat) : Int := (heap.map (fun o => countRef o.fields a)).sum

/-- The reference count of the cell `a` (0 when there is no such cell). -/
def countOf (heap : List Obj) (a : Nat) : Int :=
  match heap[a]? with
  | some o => o.reference_count_
  | none => 0

/-- The reference count of `a` less the handle members bound to `a`: the handles
outside the heap that the count of `a` accounts for. -/
def gap (heap : List Obj) (a : Nat) : Int := countOf heap a - refs heap a

/-- The member `f1` is `f`, or `f` with its handle emptied. -/
def Field.shrunk (f f1 : Field) : Prop :=
  f1 = f ∨ ∃ T p, f = .handle T p ∧ f1 = .handle T none

/-- Every cell of `w` is still there in `w1` with its class, interfaces and id, and,
apart from the exempted member slots `ex`, with each member unchanged or emptied. -/
def KeepsBut (ex : Nat → Nat → Prop) (w w1 : World) : Prop :=
  w1.first_release_ = w.first_release_ ∧ w1.registry_ = w.registry_ ∧
  w1.base_to_derived_ = w.base_to_derived_ ∧ w.heap.length ≤ w1.heap.length ∧
  ∀ (a : Nat) (o : Obj), w.heap[a]? = some o → ∃ o1, w1.heap[a]? = some o1 ∧
    o1.class_id = o.class_id ∧ o1.interfaces = o.interfaces ∧ o1.id_ = o.id_ ∧
    o1.fields.length = o.fields.length ∧
    ∀ (j : Nat) (f : Field), ¬ ex a j → o.fields[j]? = some f →
      ∃ f1, o1.fields[j]? = some f1 ∧ f.shrunk f1

/-- `KeepsBut` without exemptions. -/
def Keeps (w w1 : World) : Prop := KeepsBut (fun _ _ => False) w w1

/-- Cells other than `a` whose reference count is not positive keep their members and
a non-positive count. -/
def NonPosBut (a : Nat) (w w1 : World) : Prop :=
  ∀ (b : Nat) (o : Obj), b ≠ a → w.heap[b]? = some o → o.reference_count_ ≤ 0 →
    ∃ o1, w1.heap[b]? = some o1 ∧ o1.fields = o.fields ∧ o1.reference_count_ ≤ 0

/-- What a plain release of a handle bound to `y` does, as seen from the cell `X`. -/
def Plain (X y : Nat) (w w1 : World) : Prop :=
  Keeps w w1 ∧ w1.heap.length = w.heap.length ∧
  gap w1.heap X = gap w.heap X - (if y = X then 1 else 0) ∧
  ∀ (b : Nat) (o : Obj), w.heap[b]? = some o → o.reference_count_ ≤ 0 →
    ∃ o1, w1.heap[b]? = some o1 ∧ o1.fields = o.fields ∧ o1.reference_count_ ≤ 0

/-- The cell `a` has `n` members and none of the members `i, i+1, …` is a handle
bound to `X`. -/
def SlotsFree (X : Nat) (w : World) (a i n : Nat) : Prop :=
  ∃ o, w.heap[a]? = some o ∧ o.fields.length = n ∧
    ∀ (j : Nat) (f : Field), i ≤ j → o.fields[j]? = some f → fieldRef f X = 0

/-- The scenario of the specification: the result of loading a default-constructed
`Node::ptr` against the records of the 2-cycle. -/
def loadedCycle : World × Option Nat :=
  match Ptr.Load 4 (storeLoad cycleRecords) (Ptr.NewPlaceholder nodeWorld).2 kNodeClassId
      (some 0) with
  | .ok r => r
  | .error _ => (emptyWorld, none)

/-! ## The round trip -/

/-- The number a list of decimal digit characters stands for, after the digits `acc`. -/
def digitsValue (cs : List Char) : Nat := cs.foldl (fun a c => a * 10 + (c.toNat - 48)) 0

/-- The word `SerializeObj` appends to the stream for a member: the scalar itself, or the
encoded id of the cell a handle member is bound to. -/
def wordOf (heap : List Obj) : Field → Nat
  | .scalar v => v
  | .handle _ none => 0
  | .handle _ (some y) =>
    match heap[y]? with
    | some o => o.id_.encode
    | none => 0

/-- The record the store facility receives for the cell `o`: its key, and the class id followed
by one word for each member. -/
def recordOf (heap : List Obj) (o : Obj) : String × List Nat :=
  (o.id_.ToString, o.class_id :: o.fields.map (wordOf heap))

/-- Every record of the store is the record of a visited cell. -/
def Recorded (heap : List Obj) (d : Domain) : Prop :=
  ∀ e ∈ d.stored, ∃ b o, b ∈ d.objects_ ∧ heap[b]? = some o ∧ e = recordOf heap o

/-- The id of the cell at `a` (0 when there is no such cell). -/
def idOf (heap : List Obj) (a : Nat) : Nat :=
  match heap[a]? with
  | some o => o.id_.id_
  | none => 0

/-- The members `fs` of an object are the members the class declares with `ds`: the same
kinds in the same order, a handle with the declared class. -/
def fitsAll : List FieldDecl → List Field → Bool
  | [], [] => true
  | .scalar _ :: ds, .scalar _ :: fs => fitsAll ds fs
  | .handle T :: ds, .handle T1 _ :: fs => T == T1 && fitsAll ds fs
  | _, _ => false

/-- A member of a loaded cell against the member `f` of the original: the same scalar, or a
handle of the same declared class bound to the cell that the index has for the id of the
cell the original is bound to. -/
def Wired (g : List Obj) (idx : List (Nat × Nat)) : Field → Field → Prop
  | .scalar v, f1 => f1 = .scalar v
  | .handle T (some z), f1 => ∃ b, mapFind idx (idOf g z) = some b ∧ f1 = .handle T (some b)
  | .handle _ none, _ => False

/-- A member of a new cell before it is read from the stream, against the member `f` of the
original: a scalar, or a handle of the same declared class bound to a cell of the placeholder
class, at an address from `n` on, that has no members and an id above `c0`. -/
def Pending (c0 n : Nat) (heap : List Obj) : Field → Field → Prop
  | .scalar _, cf => ∃ v, cf = .scalar v
  | .handle T _, cf => ∃ ph o, cf = .handle T (some ph) ∧ heap[ph]? = some o ∧
      o.class_id = kObjClassId ∧ o.fields = [] ∧ c0 < o.id_.id_ ∧ n ≤ ph

/-- The world `v1` has the statics of `v` other than the index, and the cells of `v`
outside `P` as they are in `v`. -/
def Agree (P : Nat → Prop) (v v1 : World) : Prop :=
  v1.first_release_ = v.first_release_ ∧ v1.registry_ = v.registry_ ∧
  v1.base_to_derived_ = v.base_to_derived_ ∧ v.counter ≤ v1.counter ∧
  v.heap.length ≤ v1.heap.length ∧
  ∀ b : Nat, b < v.heap.length → ¬ P b → v1.heap[b]? = v.heap[b]?

/-- What the round trip asks of the object graph under the cell `top` of the heap `g`, for
the cells reachable from `top`: distinct ids; ids below `2^31`, carrying the flag `kLoaded`
and not above `c0`; a class that resolves in the registry `reg`, `b2d` to a class with the
interfaces and the member declarations of the cell; and every handle member bound to a
resident cell that has the declared class among its interfaces and a lower `rank` (so that
the graph is acyclic). -/
def Loadable (g : List Obj) (top : Nat) (rank : Nat → Nat) (c0 : Nat)
    (reg : List (Nat × ClassDecl)) (b2d : List (Nat × Nat)) : Prop :=
  Resident g top ∧
  (∀ (x y : Nat) (ox oy : Obj), Reaches g top x → Reaches g top y → g[x]? = some ox →
    g[y]? = some oy → ox.id_.id_ = oy.id_.id_ → x = y) ∧
  ∀ (x : Nat) (o : Obj), Reaches g top x → g[x]? = some o →
    o.id_.id_ < 2147483648 ∧ o.id_.flags_ = kLoaded ∧ o.id_.id_ ≤ c0 ∧
    (∃ d c, resolveChain (b2d.length + 1) b2d o.class_id = some d ∧ mapFind reg d = some c ∧
      c.class_id_ = o.class_id ∧ c.interfaces = o.interfaces ∧ fitsAll c.fields o.fields = true) ∧
    ∀ (T : Nat) (q : Option Nat), Field.handle T q ∈ o.fields →
      ∃ y oy, q = some y ∧ g[y]? = some oy ∧ oy.IsPlaceholder = false ∧
        (T = kObjClassId ∨ T ∈ oy.interfaces) ∧ rank y < rank x

/-- The index of `v` during a load of the graph under `top`: every entry is, under the id of
a cell `x` of the graph, a live cell of `v` with that id and the class and interfaces of `x`;
and unless `x` is in `G` (the cells whose members are being read), the members of the cell
are those of `x`, wired through the index, and its count is at least 1. -/
def Loaded (g : List Obj) (top : Nat) (G : Nat → Prop) (v : World) : Prop :=
  ∀ (k b : Nat), mapFind v.all_objects_ k = some b →
    ∃ x ox o, Reaches g top x ∧ g[x]? = some ox ∧ ox.id_.id_ = k ∧ v.heap[b]? = some o ∧
      o.id_.id_ = k ∧ o.class_id = ox.class_id ∧ o.interfaces = ox.interfaces ∧
      o.alive = true ∧
      (¬ G x → List.Forall₂ (Wired g v.all_objects_) ox.fields o.fields ∧
        1 ≤ o.reference_count_)

/-- From `v` to `v1` the index only gains entries, and every cell of `v` is in `v1` as it
was, but for its count, which may have grown when the cell is the index entry of a graph
cell of rank below `r`. -/
def Grows (g : List Obj) (top : Nat) (rank : Nat → Nat) (r : Nat) (v v1 : World) : Prop :=
  v1.first_release_ = v.first_release_ ∧ v1.registry_ = v.registry_ ∧
  v1.base_to_derived_ = v.base_to_derived_ ∧ v.counter ≤ v1.counter ∧
  v.heap.length ≤ v1.heap.length ∧
  (∀ (k b : Nat), mapFind v.all_objects_ k = some b → mapFind v1.all_objects_ k = some b) ∧
  ∀ (b : Nat) (o : Obj), v.heap[b]? = some o →
    ∃ n : Int, v1.heap[b]? = some { o with reference_count_ := n } ∧
      (n = o.reference_count_ ∨ (o.reference_count_ ≤ n ∧ ∃ z oz, Reaches g top z ∧
        g[z]? = some oz ∧ rank z < r ∧ mapFind v1.all_objects_ oz.id_.id_ = some b))

/-- The member `f` with its handle target renamed by `φ`. -/
def Field.rename (φ : Nat → Nat) : Field → Field
  | .scalar v => .scalar v
  | .handle T q => .handle T (q.map φ)

/-- A `Pair` (id 10, address 0) whose two members are bound to one `Leaf` (id 3, address 1);
a handle of the caller is bound to the `Pair`. -/
def sharedLeafHeap : List Obj :=
  [{ class_id := kPairClassId, interfaces := [kPairClassId], id_ := ⟨10, kLoaded⟩,
     reference_count_ := 1,
     fields := [.handle kLeafClassId (some 1), .handle kLeafClassId (some 1)], alive := true },
   { class_id := kLeafClassId, interfaces := [kLeafClassId], id_ := ⟨3, kLoaded⟩,
     reference_count_ := 2, fields := [], alive := true }]

/-- A process in which `Pair` and `Leaf` are registered and ten ids have been generated, after
user code `Pair::ptr h; h.SetId(10);`. -/
def laterWorld : World := setId (Ptr.NewPlaceholder { pairWorld with counter := 10 }).2 0 10

/-- A process in which `Leaf` has been registered with base `Pair` and then `Pair` with base
`Leaf`: two successful calls of `RegisterClass`. -/
def crossWorld : World :=
  match Registry.RegisterClass emptyWorld kLeafClassId kPairClassId Leaf with
  | .error _ => emptyWorld
  | .ok w1 =>
    match Registry.RegisterClass w1 kPairClassId kLeafClassId Pair with
    | .error _ => w1
    | .ok w2 => w2

/-- User code `Leaf::ptr h1; h1.Load(load)` in a fresh process with `Pair` and `Leaf`
registered, the load facility reading a store with the record of a `Leaf` under "1": the
placeholder of `h1` is the first object and has the id 1. -/
def firstLoad : Except Fault (World × Option Nat) :=
  Ptr.Load 2 (storeLoad [("1", [kLeafClassId])]) (Ptr.NewPlaceholder pairWorld).2 kLeafClassId
    (some 0)

/-- User code `Leaf::ptr h2; h2.SetId(1); h2.Load(load)` after `firstLoad`, while `h1` is
still there. -/
def secondLoad : Except Fault (World × Option Nat) :=
  match firstLoad with
  | .error e => .error e
  | .ok (w1, _) =>
    Ptr.Load 2 (storeLoad [("1", [kLeafClassId])])
      (setId (Ptr.NewPlaceholder w1).2 (Ptr.NewPlaceholder w1).1 1) kLeafClassId
      (some (Ptr.NewPlaceholder w1).1)

/-! ## Reachable states -/

/-- A predicate on process states kept by the elementary steps of object and handle
code: a change of a cell that leaves its identity and liveness alone, the allocation
of a cell by `Obj::Obj()`, the end of `Obj::~Obj()`, and a change of the reentrancy
flag, of the registry or of the ghost logs. -/
def Stable (I : World → Prop) : Prop :=
  (∀ (w : World) (a : Nat) (f : Obj → Obj),
      (∀ o, (f o).id_ = o.id_ ∧ (f o).alive = o.alive) → I w → I (w.update a f)) ∧
  (∀ (w : World) (cls : Nat) (ifs : List Nat), I w → I (w.construct cls ifs).2) ∧
  (∀ (w : World) (a : Nat) (o : Obj), w.heap[a]? = some o → I w →
      I { w with root_ := if w.root_ = some a then none else w.root_,
                 all_objects_ := mapErase w.all_objects_ o.id_.id_,
                 heap := w.heap.set a { o with alive := false } }) ∧
  (∀ (w : World) (b : Bool) (d : List Nat) (l : List String)
      (r : Option (List (Nat × ClassDecl))) (m : Option (List (Nat × Nat))), I w →
      I { w with first_release_ := b, deleted := d, loads := l, registry_ := r,
                 base_to_derived_ := m })

/-- One operation of user code that constructs, binds, releases or destroys objects,
or changes the class registry. -/
inductive BuildStep : World → World → Prop
  | register (w : World) (id base_id : Nat) (c : ClassDecl) (w1 : World) :
      Registry.RegisterClass w id base_id c = .ok w1 → BuildStep w w1
  | unregister (w : World) (id : Nat) (w1 : World) :
      Registry.UnregisterClass w id = .ok w1 → BuildStep w w1
  | create (w : World) (c : ClassDecl) : BuildStep w (c.create w).2
  | init (w : World) (p : Option Nat) (a : Nat) (w1 : World) :
      Ptr.Init w p = .ok (a, w1) → BuildStep w w1
  | release (fuel : Nat) (w : World) (p : Option Nat) (w1 : World) :
      release fuel w p = .ok w1 → BuildStep w w1
  | unload (w : World) (p : Option Nat) (a : Nat) (w1 : World) :
      Ptr.Unload w p = .ok (a, w1) → BuildStep w w1
  | delete (fuel : Nat) (w : World) (a : Nat) (w1 : World) :
      deleteObj (release fuel) w a = .ok w1 → BuildStep w w1

/-- One operation of user code that reads objects back, or gives a new id to an
object that the live-object index does not hold. -/
inductive LoadStep : World → World → Prop
  | load (fuel : Nat) (load : LoadFacility) (w : World) (T : Nat) (p : Option Nat)
      (w1 : World) (p1 : Option Nat) :
      Ptr.Load fuel load w T p = .ok (w1, p1) → LoadStep w w1
  | deserialize (fuel : Nat) (load : LoadFacility) (w : World) (s : List Nat)
      (w1 : World) (s1 : List Nat) (tmp : Nat) :
      DeserializeObj fuel load w s = .ok (w1, s1, tmp) → LoadStep w w1
  | setId (w : World) (a i : Nat) (w1 : World) :
      (∀ k, mapFind w.all_objects_ k ≠ some a) → Ptr.SetId w (some a) i = .ok w1 →
      LoadStep w w1

/-- The states a process reaches from its start by the operations `step`. -/
inductive Reachable (step : World → World → Prop) : World → Prop
  | start : Reachable step emptyWorld
  | next (w w1 : World) : Reachable step w → step w w1 → Reachable step w1

/-- Every entry `k -> o` of `all_objects_` refers to a live cell whose id is `k`. -/
def IndexSound (w : World) : Prop :=
  ∀ k a, mapFind w.all_objects_ k = some a →
    ∃ o, w.heap[a]? = some o ∧ o.alive = true ∧ o.id_.id_ = k

/-- No two cells have the same id, and every id is one of `1, …, counter`. -/
def IdsFresh (w : World) : Prop :=
  (∀ (a : Nat) (o : Obj), w.heap[a]? = some o → 0 < o.id_.id_ ∧ o.id_.id_ ≤ w.counter) ∧
  ∀ (a b : Nat) (oa ob : Obj), w.heap[a]? = some oa → w.heap[b]? = some ob → oa.id_.id_ = ob.id_.id_ → a = b

/-- One operation of user code: building or loading. -/
def ObjStep (w w1 : World) : Prop := BuildStep w w1 ∨ LoadStep w w1

/-- The result and the world of the `n`-th call of `GenerateUnique` in a process;
nothing but `GenerateUnique` touches its static counter. -/
def GenerateUniqueTimes : Nat → Nat × World
  | 0 => (0, emptyWorld)
  | n + 1 => GenerateUnique (GenerateUniqueTimes n).2

/-- User code `Pair::ptr h;` in a process with `Pair` and `Leaf` registered. -/
def indexedStart : World := (Ptr.NewPlaceholder pairWorld).2

/-- The records of a `Pair` with id 1 whose two members are bound to one `Leaf` with
id 2. -/
def indexedRecords : List (String × List Nat) :=
  [("1", [kPairClassId, 2 ||| kLoaded, 2 ||| kLoaded]), ("2", [kLeafClassId])]

/-- The world after `h.Load(load)` in `indexedStart`. -/
def indexedWorld : World :=
  match Ptr.Load 6 (storeLoad indexedRecords) indexedStart kPairClassId (some 0) with
  | .ok r => r.1
  | .error _ => indexedStart

/-- User code `Leaf::ptr x(new Leaf()); Pair::ptr h;` in a process with `Pair` and
`Leaf` registered: the leaf gets id 1, the placeholder of `h` id 2. -/
def twinStart : World := (Ptr.NewPlaceholder (bindHandle (Leaf.create pairWorld).2 0)).2

/-- The records of a `Pair` with id 2 whose two members are bound to one `Leaf` with
id 1, as an earlier run of the program has stored them. -/
def twinRecords : List (String × List Nat) :=
  [("2", [kPairClassId, 1 ||| kLoaded, 1 ||| kLoaded]), ("1", [kLeafClassId])]

/-- The world after `h.Load(load)` in `twinStart`. -/
def twinWorld : World :=
  match Ptr.Load 6 (storeLoad twinRecords) twinStart kPairClassId (some 1) with
  | .ok r => r.1
  | .error _ => twinStart

/-- The built world of the witness: `new Pair()` in a process with `Pair` and `Leaf`
registered. -/
def builtWorld : World := (Pair.create pairWorld).2

/-! ## The scan of `release` -/

/-- The cell `z` of `v0` is bound by a handle that is not a member of a cell of `S`: a
handle outside the heap, or a member of a resident cell outside `S`. -/
def Held (S : List Nat) (v0 : World) (z : Nat) : Prop :=
  1 ≤ gap v0.heap z ∨
  (0 ≤ gap v0.heap z ∧ ∃ p op T, p ∉ S ∧ v0.heap[p]? = some op ∧ op.IsPlaceholder = false ∧
    Field.handle T (some z) ∈ op.fields)

/-- The cells of `S` are resident, and each of their handle members is bound to a cell of
`S`, to a placeholder without members, or to a resident cell that is held from outside
`S`. -/
def Doomed (S : List Nat) (v0 : World) : Prop :=
  ∀ x ∈ S, ∃ ox, v0.heap[x]? = some ox ∧ ox.IsPlaceholder = false ∧
    ∀ (i T : Nat) (q : Option Nat), ox.fields[i]? = some (Field.handle T q) →
      ∃ z oz, q = some z ∧ v0.heap[z]? = some oz ∧
        (z ∈ S ∨ (oz.IsPlaceholder = true ∧ oz.fields = []) ∨
          (oz.IsPlaceholder = false ∧ Held S v0 z))

/-- The state `v` of the second loop over `del_list = S`, started in `v0`: the cells in
`gone` have been destroyed and `cur` is being destroyed. -/
def Scan (S : List Nat) (v0 : World) (gone : List Nat) (cur : Option Nat) (v : World) : Prop :=
  v.first_release_ = false ∧ v.heap.length = v0.heap.length ∧
  (∀ z, gap v.heap z = gap v0.heap z) ∧
  (∃ ext, v.deleted = v0.deleted ++ ext ∧
    ∀ (b : Nat) (o : Obj), v0.heap[b]? = some o → o.IsPlaceholder = false →
      ext.count b = (gone ++ cur.toList).count b) ∧
  ∀ (b : Nat) (o : Obj), v0.heap[b]? = some o → ∃ o1, v.heap[b]? = some o1 ∧
    o1.class_id = o.class_id ∧
    (o.fields = [] → o1.fields = []) ∧
    (b ∈ S → o1.reference_count_ ≤ 0) ∧
    (b ∉ gone → some b ≠ cur → o.IsPlaceholder = false →
      o1.fields = o.fields ∧ o1.alive = o.alive) ∧
    (b ∈ gone → o1.alive = false)

/-- The set a scan started by releasing a handle bound to `a` is to destroy: the cells
reachable from `a`, less the cells reachable from the root when `a` is not the root. -/
def ScanSet (w : World) (a x : Nat) : Prop :=
  Reaches w.heap a x ∧ ∀ r, w.root_ = some r → r ≠ a → ¬ Reaches w.heap r x

/-- A live placeholder cell with the given id and reference count. -/
def mkPlaceholder (id : Nat) (rc : Int) : Obj :=
  { class_id := kObjClassId, interfaces := [], id_ := ⟨id, kLoaded⟩, reference_count_ := rc,
    fields := [], alive := true }

/-- A process whose root `Node` (address 0) is bound by a handle of the caller and by
the member of the `Node` at address 2; the caller's handle `h` is bound to the `Node` at
address 1, whose member is bound to address 2.  The root's member is an empty handle
(the placeholder at address 3). -/
def scanWorld : World :=
  { nodeWorld with
    heap := [mkNode 1 2 (some 3), mkNode 2 1 (some 2), mkNode 3 1 (some 0), mkPlaceholder 4 1],
    counter := 4, root_ := some 0 }

/-- A process whose root `Node` (address 0) is bound by nothing but the member of the
`Node` at address 1, to which the caller's handle `h` is bound.  The root's member is an
empty handle (the placeholder at address 2). -/
def orphanRootWorld : World :=
  { nodeWorld with
    heap := [mkNode 1 1 (some 2), mkNode 2 1 (some 0), mkPlaceholder 3 1],
    counter := 3, root_ := some 0 }

/-- A process without a root that holds a chain of two `Node`s: the caller's handle `h`
is bound to the `Node` at address 1, whose member is bound to the `Node` at address 0; the
member of that one is an empty handle (the placeholder at address 2). -/
def chainWorld : World :=
  { nodeWorld with
    heap := [mkNode 1 1 (some 2), mkNode 2 1 (some 0), mkPlaceholder 3 1],
    counter := 3 }

/-! ## Theorems -/

/-! ### The traversal of `SerializeObj` -/

theorem Visits.same (heap : List Obj) (d : Domain) : Visits heap (fun _ => False) d d :=
  ⟨[], by simp, by simp, by simp, by simp, by simp, by simp, by simp⟩

theorem serializeFields_visits (heap : List Obj)
    (ser : Domain → List Nat → Option Nat → Except Fault (Domain × List Nat))
    (hser : ∀ d os p d1 os1, ser d os p = .ok (d1, os1) →
      Visits heap (fun a => p = some a) d d1) :
    ∀ (fs : List Field) (d : Domain) (os : List Nat) (d1 : Domain) (os1 : List Nat),
      serializeFields ser d os fs = .ok (d1, os1) →
      Visits heap (fun a => ∃ T, Field.handle T (some a) ∈ fs) d d1 := by
  intro fs
  induction fs with
  | nil =>
    intro d os d1 os1 h
    simp only [serializeFields, Except.ok.injEq, Prod.mk.injEq] at h
    obtain ⟨rfl, _⟩ := h
    exact ⟨[], by simp, by simp, by simp, by simp, by simp, by simp, by simp⟩
  | cons f fs ih =>
    intro d os d1 os1 h
    cases f with
    | scalar v =>
      simp only [serializeFields] at h
      obtain ⟨new, h1, h2, h3, h4, h5, h6, h7⟩ := ih _ _ _ _ h
      refine ⟨new, h1, h2, h3, h4, ?_, ?_, h7⟩
      · intro b hb
        obtain ⟨a, ⟨T, hT⟩, hr⟩ := h5 b hb
        exact ⟨a, ⟨T, List.mem_cons_of_mem _ hT⟩, hr⟩
      · intro a ⟨T, hT⟩ hres
        simp only [List.mem_cons, reduceCtorEq, false_or] at hT
        exact h6 a ⟨T, hT⟩ hres
    | handle T p =>
      simp only [serializeFields] at h
      cases hs : ser d os p with
      | error e => simp [hs] at h
      | ok r =>
        obtain ⟨dm, osm⟩ := r
        simp only [hs] at h
        obtain ⟨n1, a1, a2, a3, a4, a5, a6, a7⟩ := hser _ _ _ _ _ hs
        obtain ⟨n2, b1, b2, b3, b4, b5, b6, b7⟩ := ih _ _ _ _ h
        have sub : ∀ x, x ∈ dm.objects_ → x ∈ d1.objects_ := by
          intro x hx; rw [b1]; exact List.mem_append_right _ hx
        refine ⟨n2 ++ n1, ?_, ?_, ?_, ?_, ?_, ?_, ?_⟩
        · rw [b1, a1, List.append_assoc]
        · intro x hx
          rcases List.mem_append.1 hx with hx | hx
          · intro hd; exact b2 x hx (by rw [a1]; exact List.mem_append_right _ hd)
          · exact a2 x hx
        · refine List.nodup_append.2 ⟨b3, a3, ?_⟩
          intro x hx2 hx1
          exact b2 x hx2 (by rw [a1]; exact List.mem_append_left _ hx1)
        · refine b4.trans ?_
          refine (List.Perm.append_right _ a4).trans ?_
          simp only [List.map_append, List.append_assoc]
          exact List.Perm.append_left _ List.perm_append_comm
        · intro b hb
          rcases List.mem_append.1 hb with hb | hb
          · obtain ⟨a, ⟨T1, hT⟩, hr⟩ := b5 b hb
            exact ⟨a, ⟨T1, List.mem_cons_of_mem _ hT⟩, hr⟩
          · obtain ⟨a, ha, hr⟩ := a5 b hb
            exact ⟨a, ⟨T, by rw [ha]; exact List.mem_cons_self _ _⟩, hr⟩
        · intro a ⟨T1, hT⟩ hres
          rcases List.mem_cons.1 hT with hT | hT
          · injection hT with _ hp
            exact sub a (a6 a hp.symm hres)
          · exact b6 a ⟨T1, hT⟩ hres
        · intro x hx y hstep
          rcases List.mem_append.1 hx with hx | hx
          · exact b7 x hx y hstep
          · exact sub y (a7 x hx y hstep)

theorem SerializeObj_visits (heap : List Obj) :
    ∀ (fuel : Nat) (d : Domain) (s : List Nat) (p : Option Nat) (d1 : Domain) (s1 : List Nat),
      SerializeObj fuel heap d s p = .ok (d1, s1) →
      Visits heap (fun a => p = some a) d d1 := by
  intro fuel
  induction fuel with
  | zero => intro d s p d1 s1 h; simp [SerializeObj] at h
  | succ fuel ih =>
    intro d s p d1 s1 h
    cases p with
    | none => simp [SerializeObj] at h
    | some a =>
      simp only [SerializeObj] at h
      cases ho : heap[a]? with
      | none => simp [ho] at h
      | some o =>
        simp only [ho] at h
        by_cases hp : o.IsPlaceholder = true
        · simp only [hp, if_true, Except.ok.injEq, Prod.mk.injEq] at h
          obtain ⟨rfl, _⟩ := h
          refine ⟨[], by simp, by simp, by simp, by simp, by simp, ?_, by simp⟩
          intro a1 ha1 hres
          injection ha1 with ha1
          subst ha1
          obtain ⟨o1, ho1, hp1⟩ := hres
          rw [ho] at ho1; injection ho1 with ho1; subst ho1
          rw [hp] at hp1; cases hp1
        · have hpf : o.IsPlaceholder = false := by simpa using hp
          simp only [hpf, Bool.false_eq_true, if_false] at h
          by_cases hin : a ∈ d.objects_
          · simp only [hin, if_true, Except.ok.injEq, Prod.mk.injEq] at h
            obtain ⟨rfl, _⟩ := h
            refine ⟨[], by simp, by simp, by simp, by simp, by simp, ?_, by simp⟩
            intro a1 ha1 _
            injection ha1 with ha1
            subst ha1; exact hin
          · simp only [hin, if_false] at h
            cases hf : serializeFields (SerializeObj fuel heap)
                { d with objects_ := a :: d.objects_ } [o.class_id] o.fields with
            | error e => simp [hf] at h
            | ok r =>
              obtain ⟨dm, osm⟩ := r
              simp only [hf, Except.ok.injEq, Prod.mk.injEq] at h
              obtain ⟨rfl, _⟩ := h
              obtain ⟨nf, b1, b2, b3, b4, b5, b6, b7⟩ :=
                serializeFields_visits heap _ (fun d os p d1 os1 hh => ih d os p d1 os1 hh)
                  _ _ _ _ _ hf
              have hres : Resident heap a := ⟨o, ho, hpf⟩
              simp only at b1 b2 b4
              refine ⟨nf ++ [a], ?_, ?_, ?_, ?_, ?_, ?_, ?_⟩
              · simp [b1]
              · intro x hx
                rcases List.mem_append.1 hx with hx | hx
                · intro hd; exact b2 x hx (List.mem_cons_of_mem _ hd)
                · simp only [List.mem_singleton] at hx; subst hx; exact hin
              · refine List.nodup_append.2 ⟨b3, List.nodup_singleton _, ?_⟩
                intro x hx hx1
                simp only [List.mem_singleton] at hx1; subst hx1
                exact b2 x hx (List.mem_cons_self _ _)
              · simp only [List.map_append, List.map_cons, List.map_nil]
                have hk : keyOf heap a = o.id_.ToString := by simp [keyOf, ho]
                rw [hk, ← List.append_assoc]
                exact List.Perm.append_right _ b4
              · intro b hb
                refine ⟨a, rfl, ?_⟩
                rcases List.mem_append.1 hb with hb | hb
                · obtain ⟨y, ⟨T, hT⟩, hry, hr⟩ := b5 b hb
                  exact ⟨hres, Relation.ReflTransGen.head ⟨o, T, ho, hpf, hT, hry⟩ hr⟩
                · simp only [List.mem_singleton] at hb; subst hb
                  exact ⟨hres, Relation.ReflTransGen.refl⟩
              · intro a1 ha1 _
                injection ha1 with ha1
                subst ha1
                simp [b1]
              · intro x hx y hstep
                rcases List.mem_append.1 hx with hx | hx
                · exact b7 x hx y hstep
                · simp only [List.mem_singleton] at hx; subst hx
                  obtain ⟨o1, T, ho1, _, hT, hry⟩ := hstep
                  rw [ho] at ho1; injection ho1 with ho1; subst ho1
                  exact b6 y ⟨T, hT⟩ hry

theorem Visits.subset {heap : List Obj} {srcs : Nat → Prop} {d d1 : Domain}
    (h : Visits heap srcs d d1) : ∀ x, x ∈ d.objects_ → x ∈ d1.objects_ := by
  obtain ⟨new, h1, _⟩ := h
  intro x hx; rw [h1]; exact List.mem_append_right _ hx

theorem unvisited_mono (heap : List Obj) (d d1 : Domain)
    (h : ∀ x, x ∈ d.objects_ → x ∈ d1.objects_) : unvisited heap d1 ≤ unvisited heap d := by
  unfold unvisited
  apply List.Sublist.length_le
  apply List.monotone_filter_right
  intro a
  simp only [decide_not, Bool.not_eq_true', decide_eq_false_iff_not]
  intro h1 h2; exact h1 (h a h2)

theorem unvisited_cons (heap : List Obj) (d : Domain) (a : Nat) (ha : a < heap.length)
    (hin : a ∉ d.objects_) :
    unvisited heap { d with objects_ := a :: d.objects_ } < unvisited heap d := by
  unfold unvisited
  have hsub : ((List.range heap.length).filter
      (fun b => decide (b ∉ ({ d with objects_ := a :: d.objects_ } : Domain).objects_))) =
      ((List.range heap.length).filter (fun b => decide (b ∉ d.objects_))).filter
        (fun b => decide (b ≠ a)) := by
    rw [List.filter_filter]
    apply List.filter_congr
    intro b _
    simp only [List.mem_cons, not_or, decide_not, Bool.and_eq_true, Bool.not_eq_true',
      decide_eq_false_iff_not, ne_eq]
    by_cases h1 : b = a <;> by_cases h2 : b ∈ d.objects_ <;> simp [h1, h2]
  rw [hsub]
  apply List.length_filter_lt_length_iff_exists.2
  exact ⟨a, by simp [List.mem_filter, ha, hin], by simp⟩

theorem serializeFields_fuel (heap : List Obj) (n : Nat)
    (ser : Domain → List Nat → Option Nat → Except Fault (Domain × List Nat))
    (hv : ∀ d os p d1 os1, ser d os p = .ok (d1, os1) → Visits heap (fun a => p = some a) d d1)
    (hser : ∀ d os p, unvisited heap d < n → ser d os p ≠ .error .fuel) :
    ∀ (fs : List Field) (d : Domain) (os : List Nat), unvisited heap d < n →
      serializeFields ser d os fs ≠ .error .fuel := by
  intro fs
  induction fs with
  | nil => intro d os _; simp [serializeFields]
  | cons f fs ih =>
    intro d os hd
    cases f with
    | scalar v => simp only [serializeFields]; exact ih _ _ hd
    | handle T p =>
      simp only [serializeFields]
      cases hs : ser d os p with
      | error e =>
        simp only [ne_eq, Except.error.injEq]
        intro he; subst he; exact hser d os p hd hs
      | ok r =>
        obtain ⟨dm, osm⟩ := r
        simp only
        exact ih _ _ (lt_of_le_of_lt (unvisited_mono heap d dm (hv _ _ _ _ _ hs).subset) hd)

theorem SerializeObj_fuel (heap : List Obj) :
    ∀ (fuel : Nat) (d : Domain) (s : List Nat) (p : Option Nat), unvisited heap d < fuel →
      SerializeObj fuel heap d s p ≠ .error .fuel := by
  intro fuel
  induction fuel with
  | zero => intro d s p h; omega
  | succ fuel ih =>
    intro d s p hd
    cases p with
    | none => simp [SerializeObj]
    | some a =>
      simp only [SerializeObj]
      cases ho : heap[a]? with
      | none => simp
      | some o =>
        simp only
        by_cases hp : o.IsPlaceholder = true
        · simp [hp]
        · have hpf : o.IsPlaceholder = false := by simpa using hp
          simp only [hpf, Bool.false_eq_true, if_false]
          by_cases hin : a ∈ d.objects_
          · simp [hin]
          · simp only [hin, if_false]
            have ha : a < heap.length := by
              rcases Nat.lt_or_ge a heap.length with h | h
              · exact h
              · rw [List.getElem?_eq_none h] at ho; cases ho
            have hlt := unvisited_cons heap d a ha hin
            have := serializeFields_fuel heap fuel (SerializeObj fuel heap)
              (fun d os p d1 os1 hh => SerializeObj_visits heap fuel d os p d1 os1 hh)
              (fun d os p hh => ih d os p hh) o.fields
              { d with objects_ := a :: d.objects_ } [o.class_id] (by omega)
            cases hf : serializeFields (SerializeObj fuel heap)
                { d with objects_ := a :: d.objects_ } [o.class_id] o.fields with
            | error e =>
              simp only [ne_eq, Except.error.injEq]
              intro he; subst he; exact this hf
            | ok r => simp

theorem serializeFields_congr
    (ser1 ser2 : Domain → List Nat → Option Nat → Except Fault (Domain × List Nat))
    (h : ∀ d os p, ser1 d os p ≠ .error .fuel → ser2 d os p = ser1 d os p) :
    ∀ (fs : List Field) (d : Domain) (os : List Nat),
      serializeFields ser1 d os fs ≠ .error .fuel →
      serializeFields ser2 d os fs = serializeFields ser1 d os fs := by
  intro fs
  induction fs with
  | nil => intro d os _; simp [serializeFields]
  | cons f fs ih =>
    intro d os hne
    cases f with
    | scalar v => simp only [serializeFields] at hne ⊢; exact ih _ _ hne
    | handle T p =>
      simp only [serializeFields] at hne ⊢
      cases hs : ser1 d os p with
      | error e =>
        rw [hs] at hne
        simp only [ne_eq, Except.error.injEq] at hne
        rw [h d os p (by rw [hs]; simpa using hne), hs]
      | ok r =>
        obtain ⟨dm, osm⟩ := r
        rw [hs] at hne
        rw [h d os p (by rw [hs]; simp), hs]
        exact ih _ _ hne

theorem SerializeObj_unfold (fuel : Nat) (heap : List Obj) (d : Domain) (s : List Nat)
    (a : Nat) (o : Obj) (ho : heap[a]? = some o) :
    SerializeObj (fuel + 1) heap d s (some a) =
      if o.IsPlaceholder then .ok (d, s ++ [o.id_.encode])
      else if a ∈ d.objects_ then .ok (d, s ++ [o.id_.encode])
      else
        match serializeFields (SerializeObj fuel heap)
            { d with objects_ := a :: d.objects_ } [o.class_id] o.fields with
        | .error e => .error e
        | .ok (d1, os) =>
          .ok ({ d1 with stored := d1.stored ++ [(o.id_.ToString, os)] }, s ++ [o.id_.encode]) := by
  rw [SerializeObj]
  simp only [ho]
  try rfl

theorem SerializeObj_succ (heap : List Obj) :
    ∀ (fuel : Nat) (d : Domain) (s : List Nat) (p : Option Nat),
      SerializeObj fuel heap d s p ≠ .error .fuel →
      SerializeObj (fuel + 1) heap d s p = SerializeObj fuel heap d s p := by
  intro fuel
  induction fuel with
  | zero => intro d s p h; simp [SerializeObj] at h
  | succ fuel ih =>
    intro d s p hne
    cases p with
    | none => simp [SerializeObj]
    | some a =>
      cases ho : heap[a]? with
      | none => simp [SerializeObj, ho]
      | some o =>
        rw [SerializeObj_unfold _ _ _ _ _ _ ho] at hne
        rw [SerializeObj_unfold (fuel + 1) _ _ _ _ _ ho, SerializeObj_unfold fuel _ _ _ _ _ ho]
        by_cases hp : o.IsPlaceholder = true
        · simp [hp]
        · have hpf : o.IsPlaceholder = false := by simpa using hp
          simp only [hpf, Bool.false_eq_true, if_false] at hne ⊢
          by_cases hin : a ∈ d.objects_
          · simp [hin]
          · simp only [hin, if_false] at hne ⊢
            have hf : serializeFields (SerializeObj fuel heap)
                { d with objects_ := a :: d.objects_ } [o.class_id] o.fields ≠ .error .fuel := by
              intro hf; rw [hf] at hne; exact hne rfl
            rw [serializeFields_congr (SerializeObj fuel heap) (SerializeObj (fuel + 1) heap)
              (fun d os p hh => ih d os p hh) _ _ _ hf]

theorem SerializeObj_more (heap : List Obj) (fuel : Nat) (d : Domain) (s : List Nat)
    (p : Option Nat) (h : SerializeObj fuel heap d s p ≠ .error .fuel) :
    ∀ k, SerializeObj (fuel + k) heap d s p = SerializeObj fuel heap d s p := by
  intro k
  induction k with
  | zero => rfl
  | succ k ih =>
    rw [← Nat.add_assoc, SerializeObj_succ heap (fuel + k) d s p (by rw [ih]; exact h), ih]

theorem unvisited_empty (heap : List Obj) (st : List (String × List Nat)) :
    unvisited heap ⟨[], st⟩ = heap.length := by
  simp [unvisited]

theorem serializeFields_closed (heap : List Obj)
    (ser : Domain → List Nat → Option Nat → Except Fault (Domain × List Nat))
    (hser : ∀ d os y e, y < heap.length → ser d os (some y) = .error e → e = .fuel) :
    ∀ (fs : List Field), (∀ T q, Field.handle T q ∈ fs → ∃ y, q = some y ∧ y < heap.length) →
      ∀ (d : Domain) (os : List Nat) (e : Fault),
        serializeFields ser d os fs = .error e → e = .fuel := by
  intro fs
  induction fs with
  | nil => intro _ d os e h; simp [serializeFields] at h
  | cons f fs ih =>
    intro hfs d os e h
    have hfs1 : ∀ T q, Field.handle T q ∈ fs → ∃ y, q = some y ∧ y < heap.length :=
      fun T q hq => hfs T q (List.mem_cons_of_mem _ hq)
    cases f with
    | scalar v => simp only [serializeFields] at h; exact ih hfs1 _ _ _ h
    | handle T p =>
      obtain ⟨y, hy, hlt⟩ := hfs T p (List.mem_cons_self _ _)
      subst hy
      simp only [serializeFields] at h
      cases hs : ser d os (some y) with
      | error e1 =>
        rw [hs] at h
        simp only [Except.error.injEq] at h
        subst h
        exact hser _ _ _ _ hlt hs
      | ok r =>
        obtain ⟨dm, osm⟩ := r
        rw [hs] at h
        exact ih hfs1 _ _ _ h

theorem SerializeObj_closed (heap : List Obj) (hc : Closed heap) :
    ∀ (fuel : Nat) (d : Domain) (s : List Nat) (a : Nat) (e : Fault), a < heap.length →
      SerializeObj fuel heap d s (some a) = .error e → e = .fuel := by
  intro fuel
  induction fuel with
  | zero => intro d s a e _ h; simp only [SerializeObj, Except.error.injEq] at h; exact h.symm
  | succ fuel ih =>
    intro d s a e ha h
    have ho : heap[a]? = some heap[a] := List.getElem?_eq_getElem ha
    rw [SerializeObj_unfold _ _ _ _ _ _ ho] at h
    by_cases hp : (heap[a]).IsPlaceholder = true
    · simp [hp] at h
    · have hpf : (heap[a]).IsPlaceholder = false := by simpa using hp
      simp only [hpf, Bool.false_eq_true, if_false] at h
      by_cases hin : a ∈ d.objects_
      · simp [hin] at h
      · simp only [hin, if_false] at h
        cases hf : serializeFields (SerializeObj fuel heap)
            { d with objects_ := a :: d.objects_ } [(heap[a]).class_id] (heap[a]).fields with
        | error e1 =>
          rw [hf] at h
          simp only [Except.error.injEq] at h
          subst h
          exact serializeFields_closed heap _ (fun d os y e hy hh => ih d os y e hy hh) _
            (fun T q hq => hc a _ T q ho hpf hq) _ _ _ hf
        | ok r => rw [hf] at h; simp at h

theorem Serialize_ok (heap : List Obj) (a : Nat) (hc : Closed heap) (ha : a < heap.length) :
    ∃ d s, SerializeObj (heap.length + 1) heap ⟨[], []⟩ [] (some a) = .ok (d, s) := by
  cases h : SerializeObj (heap.length + 1) heap ⟨[], []⟩ [] (some a) with
  | ok r => exact ⟨r.1, r.2, rfl⟩
  | error e =>
    have := SerializeObj_closed heap hc _ _ _ _ _ ha h
    subst this
    exact absurd h (SerializeObj_fuel heap _ _ _ _ (by rw [unvisited_empty]; omega))

theorem Visits.reaches {heap : List Obj} {a : Nat} {d1 : Domain} {st : List (String × List Nat)}
    (h : Visits heap (fun x => some a = some x) ⟨[], st⟩ d1) :
    d1.objects_.Nodup ∧ (∀ b, b ∈ d1.objects_ ↔ Reaches heap a b) ∧
      (d1.stored.map Prod.fst).Perm (st.map Prod.fst ++ d1.objects_.map (keyOf heap)) := by
  obtain ⟨new, h1, _, h3, h4, h5, h6, h7⟩ := h
  simp only [List.append_nil] at h1
  subst h1
  refine ⟨h3, ?_, h4⟩
  intro b
  constructor
  · intro hb
    obtain ⟨x, hx, hr⟩ := h5 b hb
    injection hx with hx
    subst hx; exact hr
  · intro ⟨hres, hr⟩
    induction hr with
    | refl => exact h6 a rfl hres
    | tail _ hstep ih => exact h7 _ ih _ hstep

theorem closedB_sound (heap : List Obj) (h : closedB heap = true) : Closed heap := by
  intro x o T q hx hp hq
  have hmem : o ∈ heap := List.mem_iff_getElem?.2 ⟨x, hx⟩
  simp only [closedB, List.all_eq_true, Bool.or_eq_true] at h
  rcases h o hmem with h1 | h1
  · rw [hp] at h1; cases h1
  · have := h1 _ hq
    cases q with
    | none => simp at this
    | some y => exact ⟨y, rfl, by simpa using this⟩

/-- C2: for a heap whose handle members are all bound to cells, `Ptr::Serialize` from a handle
bound to the cell `a` returns; its visited set has no repetition and consists of exactly the
resident cells reachable from `a`; and the keys of the store calls are, call for call, the
decimal ids of those cells, each cell accounting for one call.  On the 2-cycle of two `Node`
objects with ids 1 and 2 exactly two records are stored, under the keys "2" and "1". -/
theorem Serialize_writes_each_once :
    (∀ (heap : List Obj) (a : Nat), Closed heap → a < heap.length →
      ∃ d, Ptr.Serialize heap (some a) = .ok d ∧ d.objects_.Nodup ∧
        (∀ b, b ∈ d.objects_ ↔ Reaches heap a b) ∧
        (d.stored.map Prod.fst).Perm (d.objects_.map (keyOf heap)) ∧
        (∀ b, keyOf heap b = Nat.repr ((heap[b]?.map (fun o => o.id_.id_)).getD 0) ∨
          heap.length ≤ b)) ∧
    Ptr.Serialize cycleHeap (some 0) =
      .ok ⟨[1, 0], [("2", [kNodeClassId, 1 ||| kLoaded]), ("1", [kNodeClassId, 2 ||| kLoaded])]⟩ := by
  refine ⟨?_, by decide⟩
  intro heap a hc ha
  obtain ⟨d, s, hd⟩ := Serialize_ok heap a hc ha
  have hv := (SerializeObj_visits heap _ _ _ _ _ _ hd).reaches
  refine ⟨d, by simp [Ptr.Serialize, hd], hv.1, hv.2.1, by simpa using hv.2.2, ?_⟩
  intro b
  rcases Nat.lt_or_ge b heap.length with hb | hb
  · left
    simp [keyOf, List.getElem?_eq_getElem hb, InstanceId.ToString]
  · exact Or.inr hb

theorem Serialize_writes_each_once_witness :
    ∃ d, Ptr.Serialize cycleHeap (some 0) = .ok d ∧ d.objects_.Nodup ∧
        (∀ b, b ∈ d.objects_ ↔ Reaches cycleHeap 0 b) ∧
        (d.stored.map Prod.fst).Perm (d.objects_.map (keyOf cycleHeap)) ∧
        (∀ b, keyOf cycleHeap b = Nat.repr ((cycleHeap[b]?.map (fun o => o.id_.id_)).getD 0) ∨
          cycleHeap.length ≤ b) :=
  Serialize_writes_each_once.1 cycleHeap 0 (closedB_sound _ (by decide)) (by decide)

/-- C3: the recursion of `SerializeObj` is well-founded on every heap, cyclic or not: a descent
into the members of a cell first adds the cell to the visited set, which lowers the number of
unvisited heap cells; a budget above that number is never exhausted; so `Ptr::Serialize` never
runs out of budget, a larger budget gives the same result, and on a heap whose handle members
are all bound to cells it returns a result. -/
theorem Serialize_terminates (heap : List Obj) (p : Option Nat) :
    Ptr.Serialize heap p ≠ .error .fuel ∧
    (∀ k, SerializeObj (heap.length + 1 + k) heap ⟨[], []⟩ [] p =
      SerializeObj (heap.length + 1) heap ⟨[], []⟩ [] p) ∧
    (∀ (fuel : Nat) (d : Domain) (s : List Nat),
      unvisited heap d < fuel → SerializeObj fuel heap d s p ≠ .error .fuel) ∧
    (∀ (d : Domain) (a : Nat), a < heap.length → a ∉ d.objects_ →
      unvisited heap { d with objects_ := a :: d.objects_ } < unvisited heap d) ∧
    (∀ a, p = some a → Closed heap → a < heap.length → ∃ d, Ptr.Serialize heap p = .ok d) := by
  have hne : SerializeObj (heap.length + 1) heap ⟨[], []⟩ [] p ≠ .error .fuel :=
    SerializeObj_fuel heap _ _ _ _ (by rw [unvisited_empty]; omega)
  refine ⟨?_, ?_, ?_, ?_, ?_⟩
  · intro h
    simp only [Ptr.Serialize] at h
    cases hs : SerializeObj (heap.length + 1) heap ⟨[], []⟩ [] p with
    | error e =>
      rw [hs] at h
      simp only [Except.error.injEq] at h
      subst h; exact hne hs
    | ok r => rw [hs] at h; cases h
  · exact SerializeObj_more heap _ _ _ _ hne
  · intro fuel d s h; exact SerializeObj_fuel heap fuel d s p h
  · intro d a ha hin; exact unvisited_cons heap d a ha hin
  · intro a hp hc ha
    subst hp
    obtain ⟨d, s, hd⟩ := Serialize_ok heap a hc ha
    exact ⟨d, by simp [Ptr.Serialize, hd]⟩

theorem Serialize_terminates_witness :
    Ptr.Serialize cycleHeap (some 0) ≠ .error .fuel ∧
      ∃ d, Ptr.Serialize cycleHeap (some 0) = .ok d :=
  ⟨(Serialize_terminates cycleHeap (some 0)).1,
    (Serialize_terminates cycleHeap (some 0)).2.2.2.2 0 rfl (closedB_sound _ (by decide))
      (by decide)⟩

/-! ### Heap cells and world updates -/


@[simp] theorem update_heap_get (w : World) (a b : Nat) (f : Obj → Obj) :
    (w.update a f).heap[b]? = if a = b then (w.heap[b]?).map f else w.heap[b]? := by
  unfold World.update
  cases h : w.heap[a]? with
  | none =>
    by_cases hab : a = b
    · subst hab; simp [h]
    · simp [hab]
  | some o =>
    simp only [List.getElem?_set]
    by_cases hab : a = b
    · subst hab
      simp only [if_true, h, Option.map_some']
      have : a < w.heap.length := by
        rcases Nat.lt_or_ge a w.heap.length with h1 | h1
        · exact h1
        · rw [List.getElem?_eq_none h1] at h; cases h
      simp [this]
    · simp [hab]

@[simp] theorem update_heap_length (w : World) (a : Nat) (f : Obj → Obj) :
    (w.update a f).heap.length = w.heap.length := by
  unfold World.update
  cases h : w.heap[a]? <;> simp

@[simp] theorem update_counter (w : World) (a : Nat) (f : Obj → Obj) :
    (w.update a f).counter = w.counter := by
  unfold World.update; cases h : w.heap[a]? <;> rfl
@[simp] theorem update_root (w : World) (a : Nat) (f : Obj → Obj) :
    (w.update a f).root_ = w.root_ := by
  unfold World.update; cases h : w.heap[a]? <;> rfl
@[simp] theorem update_all_objects (w : World) (a : Nat) (f : Obj → Obj) :
    (w.update a f).all_objects_ = w.all_objects_ := by
  unfold World.update; cases h : w.heap[a]? <;> rfl
@[simp] theorem update_first_release (w : World) (a : Nat) (f : Obj → Obj) :
    (w.update a f).first_release_ = w.first_release_ := by
  unfold World.update; cases h : w.heap[a]? <;> rfl
@[simp] theorem update_registry (w : World) (a : Nat) (f : Obj → Obj) :
    (w.update a f).registry_ = w.registry_ := by
  unfold World.update; cases h : w.heap[a]? <;> rfl
@[simp] theorem update_base_to_derived (w : World) (a : Nat) (f : Obj → Obj) :
    (w.update a f).base_to_derived_ = w.base_to_derived_ := by
  unfold World.update; cases h : w.heap[a]? <;> rfl
@[simp] theorem update_deleted (w : World) (a : Nat) (f : Obj → Obj) :
    (w.update a f).deleted = w.deleted := by
  unfold World.update; cases h : w.heap[a]? <;> rfl
@[simp] theorem update_loads (w : World) (a : Nat) (f : Obj → Obj) :
    (w.update a f).loads = w.loads := by
  unfold World.update; cases h : w.heap[a]? <;> rfl

theorem World.ext_heap (w1 w2 : World) (hh : ∀ b : Nat, w1.heap[b]? = w2.heap[b]?)
    (h1 : w1.counter = w2.counter) (h2 : w1.root_ = w2.root_)
    (h3 : w1.all_objects_ = w2.all_objects_) (h4 : w1.first_release_ = w2.first_release_)
    (h5 : w1.registry_ = w2.registry_) (h6 : w1.base_to_derived_ = w2.base_to_derived_)
    (h7 : w1.deleted = w2.deleted) (h8 : w1.loads = w2.loads) : w1 = w2 := by
  cases w1; cases w2
  simp only [World.mk.injEq]
  exact ⟨List.ext_getElem? hh, h1, h2, h3, h4, h5, h6, h7, h8⟩

theorem lt_of_get {heap : List Obj} {a : Nat} {o : Obj} (h : heap[a]? = some o) :
    a < heap.length := by
  rcases Nat.lt_or_ge a heap.length with h1 | h1
  · exact h1
  · rw [List.getElem?_eq_none h1] at h; cases h

theorem NewPlaceholder_fst (w : World) : (Ptr.NewPlaceholder w).1 = w.heap.length := rfl

theorem NewPlaceholder_get (w : World) (b : Nat) :
    (Ptr.NewPlaceholder w).2.heap[b]? =
      if b = w.heap.length then
        some { class_id := kObjClassId, interfaces := [],
               id_ := ⟨w.counter + 1, kLoaded⟩,
               reference_count_ := 1, fields := [], alive := true }
      else w.heap[b]? := by
  simp only [Ptr.NewPlaceholder, World.construct, GenerateUnique, update_heap_get]
  by_cases hb : b = w.heap.length
  · subst hb; simp
  · have : ¬ w.heap.length = b := fun h => hb h.symm
    simp only [this, hb, if_false]
    rcases Nat.lt_or_ge b w.heap.length with h1 | h1
    · rw [List.getElem?_append_left h1]
    · have h2 : w.heap.length < b := lt_of_le_of_ne h1 this
      rw [List.getElem?_eq_none (by simp; omega), List.getElem?_eq_none (by omega)]

/-! ### The scenarios, evaluated -/


/-- C4: in a process with `Node` registered, a default-constructed `Node::ptr` (a placeholder
with id 1) is loaded against the two records of the 2-cycle.  `Load` returns; the load facility
is called once for "1" and once for "2"; exactly two `Node` cells are constructed, at addresses
1 and 3, with ids 1 and 2; the handle is bound to cell 1; the member of cell 1 is bound to
cell 3 and the member of cell 3 to cell 1; every other cell is a destroyed placeholder. -/
theorem Load_cycle :
    Ptr.Serialize cycleHeap (some 0) = .ok ⟨[1, 0], cycleRecords⟩ ∧
    (Ptr.Load 4 (storeLoad cycleRecords) (Ptr.NewPlaceholder nodeWorld).2 kNodeClassId (some 0)).map
      (fun r => (r.2, r.1.loads, r.1.heap.map Obj.view, r.1.first_release_)) =
    .ok (some 1, ["1", "2"],
      [(kObjClassId, 1, 0, [], false),
       (kNodeClassId, 1, 2, [.handle kNodeClassId (some 3)], true),
       (kObjClassId, 3, 0, [], false),
       (kNodeClassId, 2, 1, [.handle kNodeClassId (some 1)], true),
       (kObjClassId, 5, 0, [], false),
       (kObjClassId, 6, 0, [], false),
       (kObjClassId, 7, 0, [], false),
       (kObjClassId, 8, 0, [], false)], true) :=
  ⟨by decide, by rfl⟩

/-- C5 (the code at the failing input): a `Pair::ptr` placeholder with id 10 is loaded in a
fresh process against records in which both members of the `Pair` carry id 3.  The load
facility is called twice for "3" and the two members end up bound to two different `Leaf`
cells (4 and 6), both with id 3. -/
theorem Load_dedup_broken :
    (Ptr.Load 4 (storeLoad pairRecords) (setId (Ptr.NewPlaceholder pairWorld).2 0 10)
        kPairClassId (some 0)).map
      (fun r => (r.2, r.1.loads, r.1.heap.map Obj.view)) =
    .ok (some 1, ["10", "3", "3"],
      [(kObjClassId, 10, 0, [], false),
       (kPairClassId, 10, 1, [.handle kLeafClassId (some 4), .handle kLeafClassId (some 6)], true),
       (kObjClassId, 3, 0, [], false),
       (kObjClassId, 4, 0, [], false),
       (kLeafClassId, 3, 1, [], true),
       (kObjClassId, 6, 0, [], false),
       (kLeafClassId, 3, 1, [], true),
       (kObjClassId, 8, 0, [], false),
       (kObjClassId, 9, 0, [], false)]) := by
  rfl


/-- C1: the round trip fails on two acyclic graphs of registered-class objects.  A single
`Node` with id 1 whose member is empty, that is bound to its placeholder (id 2).  Serializing stores one record, under "1", that carries the placeholder's id;
loading a placeholder handle with id 1 against that store, from an empty index, does not yield
a `Node` with an empty member: the member's id 2 is looked up, the store has no record for it,
and the read of the class id fails.  And a graph without empty members, a `Pair` (id 10) with
both members bound to one `Leaf` (id 3), loaded in a fresh process: the placeholder of the
first member is given the id 3, its destruction erases the index entry of the `Leaf`, and the
two members end up bound to two different `Leaf` cells (4 and 6). -/
theorem roundtrip_fails :
    ((Ptr.Serialize (bindHandle (Node.create nodeWorld).2 0).heap (some 0)).map
        (fun d => d.stored) = .ok [("1", [kNodeClassId, 2 ||| kLoaded])] ∧
      (Ptr.NewPlaceholder nodeWorld).2.all_objects_ = [] ∧
      Ptr.GetId (Ptr.NewPlaceholder nodeWorld).2 (some 0) = .ok 1 ∧
      Ptr.Load 4 (storeLoad [("1", [kNodeClassId, 2 ||| kLoaded])])
        (Ptr.NewPlaceholder nodeWorld).2 kNodeClassId (some 0) = .error .underflow) ∧
    ((Ptr.Serialize sharedLeafHeap (some 0)).map (fun d => d.stored) =
        .ok [("3", [kLeafClassId]), ("10", [kPairClassId, 3 ||| kLoaded, 3 ||| kLoaded])] ∧
      (setId (Ptr.NewPlaceholder pairWorld).2 0 10).all_objects_ = [] ∧
      (Ptr.Load 4
          (storeLoad [("3", [kLeafClassId]), ("10", [kPairClassId, 3 ||| kLoaded, 3 ||| kLoaded])])
          (setId (Ptr.NewPlaceholder pairWorld).2 0 10) kPairClassId (some 0)).map
        (fun r => (r.2, r.1.heap.map Obj.view)) =
      .ok (some 1,
        [(kObjClassId, 10, 0, [], false),
         (kPairClassId, 10, 1, [.handle kLeafClassId (some 4), .handle kLeafClassId (some 6)], true),
         (kObjClassId, 3, 0, [], false),
         (kObjClassId, 4, 0, [], false),
         (kLeafClassId, 3, 1, [], true),
         (kObjClassId, 6, 0, [], false),
         (kLeafClassId, 3, 1, [], true),
         (kObjClassId, 8, 0, [], false),
         (kObjClassId, 9, 0, [], false)])) :=
  ⟨⟨by rfl, by rfl, by rfl, by rfl⟩, by rfl, by rfl, by rfl⟩

/-- C6: user code `Node::ptr h1(new Node()); Node::ptr h2(h1);` binds N = 2
handles to the object at address 0 (reference count 2; it is the first object of the process
and so the root; it is in no cycle).  Releasing one of the two handles destroys the object:
it is given to `delete`, although the other handle is still bound to it.  The same happens
to a second `Node` that is neither the root nor reachable from it (address 2).  The release
of the other handle then runs on the destroyed object and ends in a null dereference. -/
theorem release_one_of_two_destroys :
    ((bindHandle (bindHandle (Node.create nodeWorld).2 0) 0).heap.map Obj.view =
        [(kNodeClassId, 1, 2, [.handle kNodeClassId (some 1)], true),
         (kObjClassId, 2, 1, [], true)] ∧
      (release 3 (bindHandle (bindHandle (Node.create nodeWorld).2 0) 0) (some 0)).map
        (fun w => (w.deleted, w.heap.map Obj.view)) =
      .ok ([0, 1],
        [(kNodeClassId, 1, 0, [.handle kNodeClassId none], false),
         (kObjClassId, 2, 0, [], false)])) ∧
    ((bindHandle (bindHandle (Node.create (bindHandle (Node.create nodeWorld).2 0)).2 2) 2).heap.map
        Obj.view =
        [(kNodeClassId, 1, 1, [.handle kNodeClassId (some 1)], true),
         (kObjClassId, 2, 1, [], true),
         (kNodeClassId, 3, 2, [.handle kNodeClassId (some 3)], true),
         (kObjClassId, 4, 1, [], true)] ∧
      (release 3 (bindHandle (bindHandle (Node.create (bindHandle (Node.create nodeWorld).2 0)).2 2) 2)
          (some 2)).map (fun w => (w.deleted, w.root_, w.heap.map Obj.view)) =
      .ok ([2, 3], some 0,
        [(kNodeClassId, 1, 1, [.handle kNodeClassId (some 1)], true),
         (kObjClassId, 2, 1, [], true),
         (kNodeClassId, 3, 0, [.handle kNodeClassId none], false),
         (kObjClassId, 4, 0, [], false)])) ∧
    (release 3 (bindHandle (bindHandle (Node.create nodeWorld).2 0) 0) (some 0)).bind
        (fun w => release 3 w (some 0)) = .error .null :=
  ⟨⟨by rfl, by rfl⟩, ⟨by rfl, by rfl⟩, by rfl⟩

/-! ### Handles: boolean conversion and `Unload` -/


theorem constructMembers_cell (a : Nat) :
    ∀ (ds : List FieldDecl) (w : World) (o : Obj), w.heap[a]? = some o →
      ∃ o1, (constructMembers a w ds).heap[a]? = some o1 ∧ o1.class_id = o.class_id ∧
        o1.interfaces = o.interfaces ∧ o1.id_ = o.id_ ∧
        o1.reference_count_ = o.reference_count_ ∧ o1.alive = o.alive := by
  intro ds
  induction ds with
  | nil => intro w o h; exact ⟨o, h, rfl, rfl, rfl, rfl, rfl⟩
  | cons d ds ih =>
    intro w o h
    cases d with
    | scalar v =>
      simp only [constructMembers]
      obtain ⟨o1, h1, h2⟩ := ih (w.update a (fun o => { o with fields := o.fields ++ [.scalar v] }))
        { o with fields := o.fields ++ [.scalar v] } (by simp [h])
      exact ⟨o1, h1, h2⟩
    | handle T =>
      simp only [constructMembers]
      have hlt := lt_of_get h
      have hne : a ≠ w.heap.length := by omega
      obtain ⟨o1, h1, h2⟩ := ih
        ((Ptr.NewPlaceholder w).2.update a
          (fun o => { o with fields := o.fields ++ [.handle T (some (Ptr.NewPlaceholder w).1)] }))
        { o with fields := o.fields ++ [.handle T (some (Ptr.NewPlaceholder w).1)] }
        (by simp [NewPlaceholder_get, hne, h])
      exact ⟨o1, h1, h2⟩

theorem create_cell (c : ClassDecl) (w : World) :
    (c.create w).1 = w.heap.length ∧
    ∃ o, (c.create w).2.heap[w.heap.length]? = some o ∧ o.class_id = c.class_id_ ∧
      o.interfaces = c.interfaces ∧ o.id_ = ⟨w.counter + 1, kLoaded⟩ ∧
      o.reference_count_ = 0 ∧ o.alive = true := by
  refine ⟨rfl, ?_⟩
  simp only [ClassDecl.create, World.construct, GenerateUnique]
  obtain ⟨o1, h1, h2, h3, h4, h5, h6⟩ := constructMembers_cell w.heap.length c.fields
    { w with
      counter := w.counter + 1
      heap := w.heap ++ [{ class_id := c.class_id_, interfaces := c.interfaces,
                           id_ := ⟨w.counter + 1, kLoaded⟩,
                           reference_count_ := 0, fields := [], alive := true }],
      root_ := if w.root_.isSome then w.root_ else some w.heap.length }
    { class_id := c.class_id_, interfaces := c.interfaces,
      id_ := ⟨w.counter + 1, kLoaded⟩,
      reference_count_ := 0, fields := [], alive := true } (by simp)
  exact ⟨o1, h1, h2, h3, h4, h5, h6⟩

/-- C8 (what the code does): `Unload` binds the handle to a fresh placeholder (falsy, `get()`
null) and leaves the cell it was bound to exactly as it was: the reference count is still `c`,
the object is not destroyed, nothing is given to `delete`. -/
theorem Unload_keeps_reference (w : World) (a : Nat) (o : Obj) (h : w.heap[a]? = some o) :
    ∃ t w1, Ptr.Unload w (some a) = .ok (t, w1) ∧ Ptr.toBool w1 (some t) = .ok false ∧
      Ptr.get w1 (some t) = .ok none ∧ w1.heap[a]? = some o ∧ w1.deleted = w.deleted := by
  have hlt := lt_of_get h
  have hne : a ≠ w.heap.length := by omega
  refine ⟨(Ptr.NewPlaceholder w).1, (Ptr.NewPlaceholder w).2, rfl, ?_, ?_, ?_, ?_⟩
  · simp [Ptr.toBool, NewPlaceholder_fst, NewPlaceholder_get, Obj.IsPlaceholder]
  · simp [Ptr.get, NewPlaceholder_fst, NewPlaceholder_get, Obj.IsPlaceholder]
  · simp [NewPlaceholder_get, hne, h]
  · simp [Ptr.NewPlaceholder, World.construct, GenerateUnique]

theorem Unload_keeps_reference_witness :
    ∃ t w1, Ptr.Unload (bindHandle (Node.create nodeWorld).2 0) (some 0) = .ok (t, w1) ∧
      Ptr.toBool w1 (some t) = .ok false ∧ Ptr.get w1 (some t) = .ok none ∧
      w1.heap[0]? = some (mkNode 1 1 (some 1)) ∧
      w1.deleted = (bindHandle (Node.create nodeWorld).2 0).deleted :=
  Unload_keeps_reference (bindHandle (Node.create nodeWorld).2 0) 0 (mkNode 1 1 (some 1)) (by rfl)

/-- C10 (counterexample): user code `Obj::ptr p(new Obj());` constructs an object of the root
class itself, not through `NewPlaceholder`, and binds a handle to it; the handle is falsy and
`get()` is null. -/
theorem user_Obj_handle_is_falsy :
    ((nodeWorld.construct kObjClassId []).2.heap.map Obj.view = [(kObjClassId, 1, 0, [], true)] ∧
      Ptr.Init (nodeWorld.construct kObjClassId []).2 (some 0) =
        .ok (0, bindHandle (nodeWorld.construct kObjClassId []).2 0)) ∧
    Ptr.toBool (bindHandle (nodeWorld.construct kObjClassId []).2 0) (some 0) = .ok false ∧
    Ptr.get (bindHandle (nodeWorld.construct kObjClassId []).2 0) (some 0) = .ok none :=
  ⟨⟨by rfl, by rfl⟩, by rfl, by rfl⟩

/-- C10 (amended): a handle bound to the cell `a` is truthy iff the class id of that cell is
not the id of the root class `Obj`, and `get()` is null exactly when it is falsy.  A handle
constructed from a null pointer is falsy with `get()` null, and a handle bound to a new
object of a class whose id is not that of `Obj` is truthy. -/
theorem bool_iff_class_not_Obj (w : World) (a : Nat) (o : Obj) (h : w.heap[a]? = some o) :
    Ptr.toBool w (some a) = .ok (decide (o.class_id ≠ kObjClassId)) ∧
    Ptr.get w (some a) = .ok (if o.class_id ≠ kObjClassId then some a else none) ∧
    (∃ t w1, Ptr.Init w none = .ok (t, w1) ∧ Ptr.toBool w1 (some t) = .ok false ∧
      Ptr.get w1 (some t) = .ok none) ∧
    (∀ c : ClassDecl, c.class_id_ ≠ kObjClassId →
      ∃ w1, Ptr.Init (c.create w).2 (some (c.create w).1) = .ok ((c.create w).1, w1) ∧
        Ptr.toBool w1 (some (c.create w).1) = .ok true ∧
        Ptr.get w1 (some (c.create w).1) = .ok (some (c.create w).1)) := by
  refine ⟨?_, ?_, ?_, ?_⟩
  · by_cases hc : o.class_id = kObjClassId <;> simp [Ptr.toBool, h, Obj.IsPlaceholder, hc]
  · by_cases hc : o.class_id = kObjClassId <;> simp [Ptr.get, h, Obj.IsPlaceholder, hc]
  · refine ⟨(Ptr.NewPlaceholder w).1, (Ptr.NewPlaceholder w).2, rfl, ?_, ?_⟩
    · simp [Ptr.toBool, NewPlaceholder_fst, NewPlaceholder_get, Obj.IsPlaceholder]
    · simp [Ptr.get, NewPlaceholder_fst, NewPlaceholder_get, Obj.IsPlaceholder]
  · intro c hc
    obtain ⟨h1, o1, h2, h3, _⟩ := create_cell c w
    rw [h1]
    refine ⟨(c.create w).2.update w.heap.length
      (fun o => { o with reference_count_ := o.reference_count_ + 1 }),
      by simp only [Ptr.Init, h2], ?_, ?_⟩
    · simp [Ptr.toBool, h2, Obj.IsPlaceholder, h3, hc]
    · simp [Ptr.get, h2, Obj.IsPlaceholder, h3, hc]

theorem bool_iff_class_not_Obj_witness :
    Ptr.toBool (bindHandle (Node.create nodeWorld).2 0) (some 0) = .ok true ∧
    Ptr.toBool (bindHandle (Node.create nodeWorld).2 0) (some 1) = .ok false :=
  ⟨(bool_iff_class_not_Obj (bindHandle (Node.create nodeWorld).2 0) 0 (mkNode 1 1 (some 1))
      (by rfl)).1,
    (bool_iff_class_not_Obj (bindHandle (Node.create nodeWorld).2 0) 1
      ⟨kObjClassId, [], ⟨2, kLoaded⟩, 1, [], true⟩ (by rfl)).1⟩

/-! ### `Ptr::release` -/


theorem Serialize_reach (heap : List Obj) (a : Nat) (hc : Closed heap) (ha : a < heap.length) :
    ∃ d, Ptr.Serialize heap (some a) = .ok d ∧ d.objects_.Nodup ∧
      ∀ b, b ∈ d.objects_ ↔ Reaches heap a b := by
  obtain ⟨d, s, hd⟩ := Serialize_ok heap a hc ha
  have hv := (SerializeObj_visits heap _ _ _ _ _ _ hd).reaches
  exact ⟨d, by simp [Ptr.Serialize, hd], hv.1, hv.2.1⟩

theorem SerializeObj_view (h1 h2 : List Obj)
    (hv : ∀ b : Nat, (h1[b]?).map Obj.ser = (h2[b]?).map Obj.ser) :
    ∀ fuel, SerializeObj fuel h1 = SerializeObj fuel h2 := by
  intro fuel
  induction fuel with
  | zero => funext d s p; simp [SerializeObj]
  | succ fuel ih =>
    funext d s p
    cases p with
    | none => simp [SerializeObj]
    | some a =>
      have hva := hv a
      cases ho1 : h1[a]? with
      | none =>
        cases ho2 : h2[a]? with
        | none => simp [SerializeObj, ho1, ho2]
        | some o2 => rw [ho1, ho2] at hva; cases hva
      | some o1 =>
        cases ho2 : h2[a]? with
        | none => rw [ho1, ho2] at hva; cases hva
        | some o2 =>
          rw [ho1, ho2] at hva
          simp only [Option.map_some', Option.some.injEq, Obj.ser, Prod.mk.injEq] at hva
          obtain ⟨e1, e2, e3⟩ := hva
          rw [SerializeObj_unfold _ _ _ _ _ _ ho1, SerializeObj_unfold _ _ _ _ _ _ ho2, ih]
          simp only [Obj.IsPlaceholder, e1, e2, e3]

theorem Serialize_view (h1 h2 : List Obj) (hl : h1.length = h2.length)
    (hv : ∀ b : Nat, (h1[b]?).map Obj.ser = (h2[b]?).map Obj.ser) (p : Option Nat) :
    Ptr.Serialize h1 p = Ptr.Serialize h2 p := by
  simp only [Ptr.Serialize, hl, SerializeObj_view h1 h2 hv]

theorem Reaches.comp {heap : List Obj} {a b c : Nat} (h1 : Reaches heap a b)
    (h2 : Reaches heap b c) : Reaches heap a c :=
  ⟨h1.1, Relation.ReflTransGen.trans h1.2 h2.2⟩

theorem release_flag_false (fuel : Nat) (w : World) (a : Nat) (h : w.first_release_ = false) :
    release (fuel + 1) w (some a) = releaseTail (release fuel) w a := by
  rw [release]
  simp [h]

theorem release_flag_true (fuel : Nat) (w : World) (a : Nat) (h : w.first_release_ = true) :
    release (fuel + 1) w (some a) =
      match Ptr.Serialize w.heap (some a) with
      | .error e => .error e
      | .ok domain =>
        match (if some a ≠ w.root_ then
            match Ptr.Init { w with first_release_ := false } w.root_ with
            | .error e => .error e
            | .ok (t, w1) =>
              match Ptr.Serialize w1.heap (some t) with
              | .error e => .error e
              | .ok root =>
                match release fuel w1 (some t) with
                | .error e => .error e
                | .ok w2 =>
                  .ok (w2, (delOrder domain.objects_).filter (fun o => o ∉ root.objects_))
          else .ok ({ w with first_release_ := false }, delOrder domain.objects_) :
            Except Fault (World × List Nat)) with
        | .error e => .error e
        | .ok (w2, del_list) =>
          match deleteAll (release fuel) (zeroCounts w2 del_list) del_list with
          | .error e => .error e
          | .ok w3 =>
            if a ∈ del_list then .ok { w3 with first_release_ := true }
            else releaseTail (release fuel) { w3 with first_release_ := true } a := by
  rw [release]
  simp only [h, if_true]
  try rfl

/-- The temporary `Ptr<Obj>(root_)` of the root scan leaves the world as it was when the
root's reference count is not 0. -/
theorem root_temp (fuel : Nat) (w : World) (r : Nat) (o : Obj) (hf : w.first_release_ = false)
    (hr : w.heap[r]? = some o) (hc : o.reference_count_ ≠ 0) :
    ∃ w1, Ptr.Init w (some r) = .ok (r, w1) ∧ w1.heap.length = w.heap.length ∧
      (∀ b : Nat, (w1.heap[b]?).map Obj.ser = (w.heap[b]?).map Obj.ser) ∧
      release (fuel + 1) w1 (some r) = .ok w := by
  refine ⟨w.update r (fun o => { o with reference_count_ := o.reference_count_ + 1 }),
    by simp [Ptr.Init, hr], by simp, ?_, ?_⟩
  · intro b
    by_cases hb : r = b
    · subst hb; simp [hr, Obj.ser]
    · simp [hb]
  · rw [release_flag_false _ _ _ (by simp [hf])]
    simp only [releaseTail, update_heap_get, if_true, hr, Option.map_some']
    have : ¬ (o.reference_count_ + 1 - 1 = 0) := by omega
    simp only [this, if_false, Except.ok.injEq]
    apply World.ext_heap <;> simp
    intro b
    by_cases hb : r = b
    · subst hb; simp [hr]
    · simp [hb]

theorem view_class {h1 h2 : List Obj}
    (hv : ∀ b : Nat, (h1[b]?).map Obj.ser = (h2[b]?).map Obj.ser) {a : Nat} {o : Obj}
    (ho : h1[a]? = some o) :
    ∃ o2, h2[a]? = some o2 ∧ o2.class_id = o.class_id ∧ o2.id_ = o.id_ ∧ o2.fields = o.fields := by
  have := hv a
  rw [ho] at this
  cases h : h2[a]? with
  | none => rw [h] at this; cases this
  | some o2 =>
    rw [h] at this
    simp only [Option.map_some', Option.some.injEq, Obj.ser, Prod.mk.injEq] at this
    exact ⟨o2, rfl, this.1.symm, this.2.1.symm, this.2.2.symm⟩

theorem Resident_view {h1 h2 : List Obj}
    (hv : ∀ b : Nat, (h1[b]?).map Obj.ser = (h2[b]?).map Obj.ser) {a : Nat}
    (h : Resident h1 a) : Resident h2 a := by
  obtain ⟨o, ho, hp⟩ := h
  obtain ⟨o2, h2o, hc, _, _⟩ := view_class hv ho
  exact ⟨o2, h2o, by simpa [Obj.IsPlaceholder, hc] using hp⟩

theorem Step_view {h1 h2 : List Obj}
    (hv : ∀ b : Nat, (h1[b]?).map Obj.ser = (h2[b]?).map Obj.ser) {a b : Nat}
    (h : Step h1 a b) : Step h2 a b := by
  obtain ⟨o, T, ho, hp, hf, hr⟩ := h
  obtain ⟨o2, h2o, hc, _, hfs⟩ := view_class hv ho
  exact ⟨o2, T, h2o, by simpa [Obj.IsPlaceholder, hc] using hp, by rw [hfs]; exact hf,
    Resident_view hv hr⟩

theorem Reaches_view {h1 h2 : List Obj}
    (hv : ∀ b : Nat, (h1[b]?).map Obj.ser = (h2[b]?).map Obj.ser) {a b : Nat}
    (h : Reaches h1 a b) : Reaches h2 a b :=
  ⟨Resident_view hv h.1, Relation.ReflTransGen.mono (fun _ _ hs => Step_view hv hs) h.2⟩

theorem Closed_view {h1 h2 : List Obj} (hl : h1.length = h2.length)
    (hv : ∀ b : Nat, (h1[b]?).map Obj.ser = (h2[b]?).map Obj.ser)
    (h : Closed h1) : Closed h2 := by
  intro x o T q hx hp hq
  obtain ⟨o1, h1o, hc, _, hfs⟩ := view_class (fun b => (hv b).symm) hx
  rw [← hl]
  exact h x o1 T q h1o (by simpa [Obj.IsPlaceholder, hc] using hp) (by rw [hfs]; exact hq)

theorem mem_delOrder (l : List Nat) (x : Nat) : x ∈ delOrder l ↔ x ∈ l :=
  (List.perm_insertionSort _ l).mem_iff

/-- An outermost release of a handle bound to a cell that is reachable from the root, and is
not the root, deletes nothing in the scan: it is the plain decrement. -/
theorem release_reachable (fuel : Nat) (w : World) (X r : Nat) (o orr : Obj)
    (hflag : w.first_release_ = true) (hc : Closed w.heap) (hX : w.heap[X]? = some o)
    (hroot : w.root_ = some r) (hne : X ≠ r) (hr : w.heap[r]? = some orr)
    (hrc : orr.reference_count_ ≠ 0) (hreach : Reaches w.heap r X) :
    release (fuel + 2) w (some X) = releaseTail (release (fuel + 1)) w X := by
  obtain ⟨heap, counter, root, ao, fr, reg, b2d, del, loads⟩ := w
  simp only at hflag hroot hX hr hc hreach
  subst hflag hroot
  rw [release_flag_true _ _ _ rfl]
  obtain ⟨D, hD, -, hDm⟩ := Serialize_reach heap X hc (lt_of_get hX)
  obtain ⟨R, hR, -, hRm⟩ := Serialize_reach heap r hc (lt_of_get hr)
  obtain ⟨w1, hi, hl, hv, hrel⟩ :=
    root_temp fuel ⟨heap, counter, some r, ao, false, reg, b2d, del, loads⟩ r orr rfl hr hrc
  have hne2 : some X ≠ some r := by simpa using hne
  have hR1 : Ptr.Serialize w1.heap (some r) = .ok R := by
    rw [Serialize_view w1.heap heap hl hv]; exact hR
  have hfil : (delOrder D.objects_).filter (fun o => decide (o ∉ R.objects_)) = [] := by
    rw [List.filter_eq_nil_iff]
    intro b hb
    have h1 := (hDm b).1 ((mem_delOrder _ _).1 hb)
    have h2 := (hRm b).2 (hreach.comp h1)
    simpa using h2
  simp only [hD, hne2, ne_eq, not_false_eq_true, if_true, hi, hR1, hrel, hfil, zeroCounts,
    List.foldl_nil, deleteAll, List.not_mem_nil, if_false]

theorem releaseTail_keep (rel : World → Option Nat → Except Fault World) (w : World) (X : Nat)
    (o : Obj) (hX : w.heap[X]? = some o) (h1 : o.reference_count_ ≠ 1) :
    releaseTail rel w X =
      .ok (w.update X (fun c => { c with reference_count_ := c.reference_count_ - 1 })) := by
  have : ¬ (o.reference_count_ - 1 = 0) := by omega
  simp [releaseTail, hX, this]

theorem destroyMembers_scalars (rel : World → Option Nat → Except Fault World) (a : Nat)
    (w : World) (o : Obj) (ho : w.heap[a]? = some o)
    (hs : ∀ f ∈ o.fields, ∃ v, f = Field.scalar v) :
    ∀ i, destroyMembers rel a i w = .ok w := by
  intro i
  induction i with
  | zero => rfl
  | succ i ih =>
    simp only [destroyMembers, ho]
    cases hf : o.fields[i]? with
    | none => simpa using ih
    | some f =>
      obtain ⟨v, hv⟩ := hs f (List.mem_iff_getElem?.2 ⟨i, hf⟩)
      subst hv
      simpa using ih

theorem update_id (w : World) (X : Nat) (f : Obj → Obj) (hf : ∀ o, w.heap[X]? = some o → f o = o) :
    w.update X f = w := by
  refine World.ext_heap _ _ (fun b => ?_) (by simp) (by simp) (by simp) (by simp) (by simp)
    (by simp) (by simp) (by simp)
  rw [update_heap_get]
  by_cases hb : X = b
  · subst hb
    cases h : w.heap[X]? with
    | none => simp
    | some o => simp [hf o h]
  · simp [hb]

theorem update_update (w : World) (X : Nat) (f g : Obj → Obj) :
    (w.update X f).update X g = w.update X (fun o => g (f o)) := by
  refine World.ext_heap _ _ (fun b => ?_) (by simp) (by simp) (by simp) (by simp) (by simp)
    (by simp) (by simp) (by simp)
  rw [update_heap_get]
  by_cases hb : X = b
  · subst hb
    cases h : w.heap[X]? <;> simp [h]
  · simp [hb]

theorem releaseTimes_rooted (fuel : Nat) (X r : Nat) (orr : Obj) (hne : X ≠ r) 
    (hrc : orr.reference_count_ ≠ 0) :
    ∀ (k : Nat) (w : World) (o : Obj), w.first_release_ = true → Closed w.heap →
      w.heap[X]? = some o → w.root_ = some r → w.heap[r]? = some orr → Reaches w.heap r X →
      (k : Int) < o.reference_count_ →
      releaseTimes (fuel + 2) k w X =
        .ok (w.update X (fun c => { c with reference_count_ := c.reference_count_ - k })) := by
  intro k
  induction k with
  | zero =>
    intro w o _ _ hX _ _ _ _
    simp only [releaseTimes, Except.ok.injEq]
    exact (update_id w X _ (fun o _ => by simp)).symm
  | succ k ih =>
    intro w o hflag hc hX hroot hr hreach hk
    simp only [releaseTimes]
    rw [release_reachable fuel w X r o orr hflag hc hX hroot hne hr hrc hreach,
      releaseTail_keep _ w X o hX (by omega)]
    simp only
    have hv : ∀ b : Nat,
        ((w.update X (fun c => { c with reference_count_ := c.reference_count_ - 1 })).heap[b]?).map
          Obj.ser = (w.heap[b]?).map Obj.ser := by
      intro b
      by_cases hb : X = b
      · subst hb; simp [hX, Obj.ser]
      · simp [hb]
    rw [ih _ { o with reference_count_ := o.reference_count_ - 1 } (by simpa using hflag)
      (Closed_view (by simp) (fun b => (hv b).symm) hc) (by simp [hX]) (by simpa using hroot)
      (by simp [hne, hr]) (Reaches_view (fun b => (hv b).symm) hreach) (by simp; omega),
      update_update]
    congr 2
    funext c
    simp only [Obj.mk.injEq, true_and, and_true]
    push_cast
    omega

theorem releaseTail_last (rel : World → Option Nat → Except Fault World) (w : World) (X : Nat)
    (o : Obj) (hX : w.heap[X]? = some o) (h1 : o.reference_count_ = 1)
    (hs : ∀ f ∈ o.fields, ∃ v, f = Field.scalar v) :
    releaseTail rel w X =
      .ok { w with
            deleted := w.deleted ++ [X]
            root_ := if w.root_ = some X then none else w.root_
            all_objects_ := mapErase w.all_objects_ o.id_.id_
            heap := w.heap.set X { o with reference_count_ := 0, alive := false } } := by
  have hlt := lt_of_get hX
  simp only [releaseTail, hX, h1, sub_self, if_true, deleteObj, update_heap_get, Option.map_some']
  rw [destroyMembers_scalars rel X _ { o with reference_count_ := 1 - 1 }
    (by simp [hX, h1]) (by simpa using hs)]
  simp only [update_heap_get, if_true, hX, Option.map_some', h1, sub_self, update_root,
    update_all_objects, Except.ok.injEq]
  refine World.ext_heap _ _ (fun b => ?_) (by simp) (by simp) (by simp) (by simp) (by simp)
    (by simp) (by simp) (by simp)
  simp only [List.getElem?_set, update_heap_length, update_heap_get]
  by_cases hb : X = b
  · subst hb; simp [hlt]
  · simp [hb]

/-- Reference counting for an object that the root keeps: let `X` be reachable from the process root `r` through handle members, not
be the root, and let the root's reference count be non-zero.  Then for every `k` below the
reference count of `X`, `k` outermost releases of handles bound to `X` all return, destroy
nothing and leave `X` as it was with its count lowered by `k` (with `N` handles bound,
`k = N - 1` releases leave the count at 1); and when the count is 1 and `X` has no handle
members, the release of the last handle destroys `X`: it is given to `delete` once and no other
cell changes. -/
theorem release_refcount_rooted (fuel : Nat) (w : World) (X r : Nat) (o orr : Obj)
    (hflag : w.first_release_ = true) (hc : Closed w.heap) (hX : w.heap[X]? = some o)
    (hroot : w.root_ = some r) (hne : X ≠ r) (hr : w.heap[r]? = some orr)
    (hrc : orr.reference_count_ ≠ 0) (hreach : Reaches w.heap r X) :
    (∀ k : Nat, (k : Int) < o.reference_count_ →
      releaseTimes (fuel + 2) k w X =
        .ok (w.update X (fun c => { c with reference_count_ := c.reference_count_ - k }))) ∧
    (o.reference_count_ = 1 → (∀ f ∈ o.fields, ∃ v, f = Field.scalar v) →
      ∃ w1, release (fuel + 2) w (some X) = .ok w1 ∧ w1.deleted = w.deleted ++ [X] ∧
        w1.heap[X]? = some { o with reference_count_ := 0, alive := false } ∧
        ∀ b : Nat, b ≠ X → w1.heap[b]? = w.heap[b]?) := by
  refine ⟨fun k hk => releaseTimes_rooted fuel X r orr hne hrc k w o hflag hc hX hroot hr hreach hk,
    ?_⟩
  intro h1 hs
  rw [release_reachable fuel w X r o orr hflag hc hX hroot hne hr hrc hreach,
    releaseTail_last _ w X o hX h1 hs]
  have hlt := lt_of_get hX
  refine ⟨_, rfl, rfl, by simp [hlt], ?_⟩
  intro b hb
  simp [List.getElem?_set, Ne.symm hb]

theorem release_refcount_rooted_witness :
    releaseTimes 2 2 rootedWorld 1 =
      .ok (rootedWorld.update 1 (fun c => { c with reference_count_ := c.reference_count_ - 2 })) :=
  (release_refcount_rooted 0 rootedWorld 1 0
    { class_id := kLeafClassId, interfaces := [kLeafClassId], id_ := ⟨2, kLoaded⟩,
      reference_count_ := 3, fields := [], alive := true }
    (mkNode 1 1 (some 1)) rfl (closedB_sound _ (by decide)) rfl rfl (by decide) rfl (by decide)
    ⟨⟨_, rfl, by decide⟩, Relation.ReflTransGen.single
      ⟨mkNode 1 1 (some 1), kNodeClassId, rfl, by decide, by decide, ⟨_, rfl, by decide⟩⟩⟩).1 2
    (by decide)

/-- `delete` of a cell whose only member is a handle bound to a cell whose count does not
drop to 0, run inside a scan (`first_release_` cleared). -/
theorem deleteObj_one (fuel : Nat) (w : World) (x y : Nat) (ox oy : Obj) (T : Nat)
    (hf : w.first_release_ = false) (hx : w.heap[x]? = some ox) (hy : w.heap[y]? = some oy)
    (hxy : x ≠ y) (hfx : ox.fields = [.handle T (some y)]) (hcy : oy.reference_count_ ≠ 1) :
    ∃ w1, deleteObj (release (fuel + 1)) w x = .ok w1 ∧ w1.first_release_ = false ∧
      w1.deleted = w.deleted ++ [x] ∧
      w1.heap[x]? = some { ox with fields := [.handle T none], alive := false } ∧
      w1.heap[y]? = some { oy with reference_count_ := oy.reference_count_ - 1 } ∧
      (∀ b : Nat, b ≠ x → b ≠ y → w1.heap[b]? = w.heap[b]?) ∧
      w1.heap.length = w.heap.length := by
  have hlx := lt_of_get hx
  have hc : ¬ (oy.reference_count_ - 1 = 0) := by omega
  have hrel : release (fuel + 1) { w with deleted := w.deleted ++ [x] } (some y) =
      .ok (({ w with deleted := w.deleted ++ [x] } : World).update y
        (fun c => { c with reference_count_ := c.reference_count_ - 1 })) := by
    rw [release_flag_false _ _ _ (by simpa using hf)]
    simp [releaseTail, hy, hc]
  simp only [deleteObj, hx, hfx, List.length_singleton, destroyMembers, List.getElem?_cons_zero,
    hrel, World.setField, update_heap_get, hxy, Ne.symm hxy, if_false, if_true, Option.map_some',
    List.set_cons_zero]
  refine ⟨_, rfl, by simpa using hf, by simp, ?_, ?_, ?_, by simp⟩
  · simp [List.getElem?_set, hlx]
  · simp [List.getElem?_set, hxy, Ne.symm hxy, hy]
  · intro b hb1 hb2
    simp [List.getElem?_set, Ne.symm hb1, Ne.symm hb2]

theorem zeroCounts_pair (w : World) (x y : Nat) :
    zeroCounts w [x, y] =
      (w.update x (fun c => { c with reference_count_ := 0 })).update y
        (fun c => { c with reference_count_ := 0 }) := rfl

/-- The two loops over a `del_list` that holds the two cells of a 2-cycle. -/
theorem delete_pair (fuel : Nat) (w : World) (x y : Nat) (ox oy : Obj) (Tx Ty : Nat)
    (hf : w.first_release_ = false) (hx : w.heap[x]? = some ox) (hy : w.heap[y]? = some oy)
    (hxy : x ≠ y) (hfx : ox.fields = [.handle Tx (some y)])
    (hfy : oy.fields = [.handle Ty (some x)]) :
    ∃ w1, deleteAll (release (fuel + 1)) (zeroCounts w [x, y]) [x, y] = .ok w1 ∧
      w1.deleted = w.deleted ++ [x, y] ∧
      (w1.heap[x]?).map (fun o => o.alive) = some false ∧
      (w1.heap[y]?).map (fun o => o.alive) = some false ∧
      (∀ b : Nat, b ≠ x → b ≠ y → w1.heap[b]? = w.heap[b]?) := by
  rw [zeroCounts_pair]
  obtain ⟨w1, h1, f1, d1, x1, y1, o1, l1⟩ := deleteObj_one fuel
    ((w.update x (fun c => { c with reference_count_ := 0 })).update y
      (fun c => { c with reference_count_ := 0 })) x y
    { ox with reference_count_ := 0 } { oy with reference_count_ := 0 } Tx
    (by simpa using hf) (by simp [hxy, Ne.symm hxy, hx]) (by simp [hy, hxy]) hxy hfx (by simp)
  obtain ⟨w2, h2, f2, d2, y2, x2, o2, l2⟩ := deleteObj_one fuel w1 y x _ _ Ty f1 y1 x1
    (Ne.symm hxy) hfy (by simp)
  refine ⟨w2, by simp only [deleteAll, h1, h2], ?_, by simp [x2], by simp [y2], ?_⟩
  · rw [d2, d1]; simp
  · intro b hb1 hb2
    rw [o2 b hb2 hb1, o1 b hb1 hb2]
    simp [Ne.symm hb1, Ne.symm hb2]

theorem Serialize_two_cycle (heap : List Obj) (A B : Nat) (oa ob : Obj) (TA TB : Nat)
    (hA : heap[A]? = some oa) (hB : heap[B]? = some ob) (hAB : A ≠ B)
    (hra : oa.IsPlaceholder = false) (hrb : ob.IsPlaceholder = false)
    (hfa : oa.fields = [.handle TA (some B)]) (hfb : ob.fields = [.handle TB (some A)]) :
    ∃ st, Ptr.Serialize heap (some A) = .ok ⟨[B, A], st⟩ := by
  have h1 := lt_of_get hA
  have h2 := lt_of_get hB
  obtain ⟨n, hn⟩ : ∃ n, heap.length = n + 2 := ⟨heap.length - 2, by omega⟩
  simp only [Ptr.Serialize, hn]
  rw [SerializeObj_unfold _ _ _ _ _ _ hA]
  simp only [hra, Bool.false_eq_true, if_false, List.not_mem_nil, hfa, serializeFields]
  rw [SerializeObj_unfold _ _ _ _ _ _ hB]
  simp only [hrb, Bool.false_eq_true, if_false, List.mem_singleton, Ne.symm hAB, hfb,
    serializeFields]
  rw [SerializeObj_unfold _ _ _ _ _ _ hA]
  simp [hra]

@[simp] theorem NewPlaceholder_first_release (w : World) :
    (Ptr.NewPlaceholder w).2.first_release_ = w.first_release_ := by
  simp [Ptr.NewPlaceholder, World.construct, GenerateUnique]
@[simp] theorem NewPlaceholder_deleted (w : World) :
    (Ptr.NewPlaceholder w).2.deleted = w.deleted := by
  simp [Ptr.NewPlaceholder, World.construct, GenerateUnique]
@[simp] theorem NewPlaceholder_loads (w : World) :
    (Ptr.NewPlaceholder w).2.loads = w.loads := by
  simp [Ptr.NewPlaceholder, World.construct, GenerateUnique]
@[simp] theorem NewPlaceholder_all_objects (w : World) :
    (Ptr.NewPlaceholder w).2.all_objects_ = w.all_objects_ := by
  simp [Ptr.NewPlaceholder, World.construct, GenerateUnique]
@[simp] theorem NewPlaceholder_counter (w : World) :
    (Ptr.NewPlaceholder w).2.counter = w.counter + 1 := by
  simp [Ptr.NewPlaceholder, World.construct, GenerateUnique]
@[simp] theorem NewPlaceholder_registry (w : World) :
    (Ptr.NewPlaceholder w).2.registry_ = w.registry_ := by
  simp [Ptr.NewPlaceholder, World.construct, GenerateUnique]
@[simp] theorem NewPlaceholder_base_to_derived (w : World) :
    (Ptr.NewPlaceholder w).2.base_to_derived_ = w.base_to_derived_ := by
  simp [Ptr.NewPlaceholder, World.construct, GenerateUnique]
@[simp] theorem NewPlaceholder_root (w : World) :
    (Ptr.NewPlaceholder w).2.root_ = if w.root_.isSome then w.root_ else some w.heap.length := by
  simp [Ptr.NewPlaceholder, World.construct, GenerateUnique]
@[simp] theorem NewPlaceholder_length (w : World) :
    (Ptr.NewPlaceholder w).2.heap.length = w.heap.length + 1 := by
  simp [Ptr.NewPlaceholder, World.construct, GenerateUnique]

/-- The root scan of `release`: the temporary handle, the traversal and the end of the
temporary.  The visited set is the set of cells reachable from the root; the world is
changed at most by a new, destroyed placeholder. -/
theorem root_scan (fuel : Nat) (w0 : World) (hf : w0.first_release_ = false)
    (hc : Closed w0.heap)
    (hroot : ∀ r, w0.root_ = some r → ∃ orr, w0.heap[r]? = some orr ∧ orr.reference_count_ ≠ 0) :
    ∃ t w1 R w2, Ptr.Init w0 w0.root_ = .ok (t, w1) ∧ Ptr.Serialize w1.heap (some t) = .ok R ∧
      release (fuel + 1) w1 (some t) = .ok w2 ∧
      (∀ b, b ∈ R.objects_ ↔ ∃ r, w0.root_ = some r ∧ Reaches w0.heap r b) ∧
      w2.first_release_ = false ∧ (∀ b : Nat, b < w0.heap.length → w2.heap[b]? = w0.heap[b]?) ∧
      ∃ extra, w2.deleted = w0.deleted ++ extra ∧ ∀ e ∈ extra, w0.heap.length ≤ e := by
  cases hr : w0.root_ with
  | none =>
    have hph := NewPlaceholder_get w0 w0.heap.length
    simp only [if_true] at hph
    have hser : Ptr.Serialize (Ptr.NewPlaceholder w0).2.heap (some w0.heap.length) = .ok ⟨[], []⟩ := by
      simp only [Ptr.Serialize, NewPlaceholder_length]
      rw [SerializeObj_unfold _ _ _ _ _ _ hph]
      simp [Obj.IsPlaceholder]
    have hrel := releaseTail_last (release fuel) (Ptr.NewPlaceholder w0).2 w0.heap.length _ hph rfl
      (by simp)
    rw [← release_flag_false fuel _ _ (by simpa using hf)] at hrel
    refine ⟨w0.heap.length, (Ptr.NewPlaceholder w0).2, ⟨[], []⟩, _, rfl, hser, hrel, by simp,
      by simpa using hf, ?_, ⟨[w0.heap.length], by simp, by simp⟩⟩
    intro b hb
    have hne : b ≠ w0.heap.length := by omega
    simp [List.getElem?_set, Ne.symm hne, NewPlaceholder_get, hne]
  | some r =>
    obtain ⟨orr, hor, hrc⟩ := hroot r hr
    obtain ⟨w1, hi, hl, hv, hrel⟩ := root_temp fuel w0 r orr hf hor hrc
    obtain ⟨R, hR, -, hRm⟩ := Serialize_reach w0.heap r hc (lt_of_get hor)
    refine ⟨r, w1, R, w0, hi, by rw [Serialize_view w1.heap w0.heap hl hv]; exact hR, hrel, ?_, hf,
      fun _ _ => rfl, ⟨[], by simp, by simp⟩⟩
    intro b
    rw [hRm b]
    constructor
    · intro h; exact ⟨r, rfl, h⟩
    · rintro ⟨r1, h1, h2⟩
      injection h1 with h1
      subst h1; exact h2

theorem delOrder_pair (a b : Nat) :
    delOrder [b, a] = if b ≤ a then [b, a] else [a, b] := by
  simp [delOrder, List.insertionSort, List.orderedInsert]

theorem count_extra (l extra : List Nat) (x y a n : Nat) (ha : a < n)
    (he : ∀ e ∈ extra, n ≤ e) (hxy : x ≠ y) (hm : a = x ∨ a = y) :
    ((l ++ extra) ++ [x, y]).count a = l.count a + 1 := by
  have h0 : extra.count a = 0 := by
    rw [List.count_eq_zero]
    intro hmem
    have := he a hmem
    omega
  rw [List.count_append, List.count_append, h0]
  rcases hm with h | h
  · subst h; simp [List.count_cons, Ne.symm hxy]
  · subst h; simp [List.count_cons, hxy]

/-- The scan on a 2-cycle, as the model runs it (the decrement of the count of a cell
that has been destroyed is a plain decrement here, and a write to freed memory in the
source): two resident cells `A` and `B`, each with a single handle member bound to the other, in
any heap whose handle members are bound to cells and whose root (if there is one) has a
non-zero reference count; `release` is the outermost release of a handle bound to `A`.
(1) If neither cell is reachable from the root, the release returns and both cells are
destroyed, each given to `delete` exactly once.  (2) If `A` is reachable from the root and is
not the root (its count, which includes the released handle and `B`'s member, being at
least 2), the release destroys nothing: the world is unchanged except that the reference
count of `A` is one lower, so both members stay bound as before. -/
theorem release_two_cycle (fuel : Nat) (w : World) (A B : Nat) (oa ob : Obj) (TA TB : Nat)
    (hflag : w.first_release_ = true) (hc : Closed w.heap)
    (hA : w.heap[A]? = some oa) (hB : w.heap[B]? = some ob) (hAB : A ≠ B)
    (hra : oa.IsPlaceholder = false) (hrb : ob.IsPlaceholder = false)
    (hfa : oa.fields = [.handle TA (some B)]) (hfb : ob.fields = [.handle TB (some A)])
    (hroot : ∀ r, w.root_ = some r → ∃ orr, w.heap[r]? = some orr ∧ orr.reference_count_ ≠ 0) :
    ((∀ r, w.root_ = some r → ¬ Reaches w.heap r A ∧ ¬ Reaches w.heap r B) →
      ∃ w1, release (fuel + 2) w (some A) = .ok w1 ∧
        w1.deleted.count A = w.deleted.count A + 1 ∧
        w1.deleted.count B = w.deleted.count B + 1 ∧
        (w1.heap[A]?).map (fun o => o.alive) = some false ∧
        (w1.heap[B]?).map (fun o => o.alive) = some false) ∧
    (∀ r, w.root_ = some r → A ≠ r → Reaches w.heap r A → 2 ≤ oa.reference_count_ →
      release (fuel + 2) w (some A) =
        .ok (w.update A (fun c => { c with reference_count_ := c.reference_count_ - 1 }))) := by
  constructor
  · intro hun
    have hlA := lt_of_get hA
    have hlB := lt_of_get hB
    obtain ⟨heap, counter, root, ao, fr, reg, b2d, del, loads⟩ := w
    simp only at hflag hc hA hB hroot hun hlA hlB
    subst hflag
    rw [release_flag_true _ _ _ rfl]
    obtain ⟨st, hD⟩ := Serialize_two_cycle heap A B oa ob TA TB hA hB hAB hra hrb hfa hfb
    have hne2 : some A ≠ root := by
      intro h
      exact (hun A h.symm).1 ⟨⟨oa, hA, hra⟩, Relation.ReflTransGen.refl⟩
    obtain ⟨t, w1, R, w2, hi, hR, hrel, hRm, hf2, hfr, extra, hex, hge⟩ :=
      root_scan fuel ⟨heap, counter, root, ao, false, reg, b2d, del, loads⟩ rfl hc hroot
    simp only at hi hRm hfr hex hge
    have hnotR : ∀ b, b = A ∨ b = B → b ∉ R.objects_ := by
      intro b hb hmem
      obtain ⟨r, hr, hreach⟩ := (hRm b).1 hmem
      rcases hb with hb | hb
      · subst hb; exact (hun r hr).1 hreach
      · subst hb; exact (hun r hr).2 hreach
    have hfil : (delOrder [B, A]).filter (fun o => decide (o ∉ R.objects_)) = delOrder [B, A] := by
      rw [List.filter_eq_self]
      intro b hb
      have : b = A ∨ b = B := by
        have := (mem_delOrder _ _).1 hb
        simp only [List.mem_cons, List.mem_singleton, List.not_mem_nil, or_false] at this
        exact this.symm
      simpa using hnotR b this
    simp only [hD, hne2, ne_eq, not_false_eq_true, if_true, hi, hR, hrel, hfil]
    rw [delOrder_pair]
    have hA2 : w2.heap[A]? = some oa := by rw [hfr A hlA]; exact hA
    have hB2 : w2.heap[B]? = some ob := by rw [hfr B hlB]; exact hB
    by_cases hle : B ≤ A
    · obtain ⟨w3, h3, d3, a3, b3, _⟩ := delete_pair fuel w2 B A ob oa TB TA hf2 hB2 hA2
        (Ne.symm hAB) hfb hfa
      simp only [hle, if_true, h3, List.mem_cons, List.mem_singleton, or_true, true_or]
      refine ⟨_, rfl, ?_, ?_, b3, a3⟩
      · simp only [d3, hex]
        exact count_extra del extra B A A heap.length hlA hge (Ne.symm hAB) (Or.inr rfl)
      · simp only [d3, hex]
        exact count_extra del extra B A B heap.length hlB hge (Ne.symm hAB) (Or.inl rfl)
    · obtain ⟨w3, h3, d3, a3, b3, _⟩ := delete_pair fuel w2 A B oa ob TA TB hf2 hA2 hB2
        hAB hfa hfb
      simp only [hle, if_false, h3, List.mem_cons, List.mem_singleton, or_true, true_or]
      refine ⟨_, rfl, ?_, ?_, a3, b3⟩
      · simp only [d3, hex]
        exact count_extra del extra A B A heap.length hlA hge hAB (Or.inl rfl)
      · simp only [d3, hex]
        exact count_extra del extra A B B heap.length hlB hge hAB (Or.inr rfl)
  · intro r hr hne hreach h2
    obtain ⟨orr, hor, hrc⟩ := hroot r hr
    rw [release_reachable fuel w A r oa orr hflag hc hA hr hne hor hrc hreach,
      releaseTail_keep _ w A oa hA (by omega)]

theorem release_two_cycle_witness :
    (∃ w1, release 2 cycleWorld (some 0) = .ok w1 ∧
        w1.deleted.count 0 = cycleWorld.deleted.count 0 + 1 ∧
        w1.deleted.count 1 = cycleWorld.deleted.count 1 + 1 ∧
        (w1.heap[0]?).map (fun o => o.alive) = some false ∧
        (w1.heap[1]?).map (fun o => o.alive) = some false) ∧
    release 2 rootedCycleWorld (some 1) =
      .ok (rootedCycleWorld.update 1
        (fun c => { c with reference_count_ := c.reference_count_ - 1 })) :=
  ⟨(release_two_cycle 0 cycleWorld 0 1 (mkNode 1 2 (some 1)) (mkNode 2 1 (some 0))
      kNodeClassId kNodeClassId rfl (closedB_sound _ (by decide)) rfl rfl (by decide) (by decide)
      (by decide) rfl rfl (fun r h => by cases h)).1 (fun r h => by cases h),
   (release_two_cycle 0 rootedCycleWorld 1 2 (mkNode 2 3 (some 2)) (mkNode 3 1 (some 1))
      kNodeClassId kNodeClassId rfl (closedB_sound _ (by decide)) rfl rfl (by decide) (by decide)
      (by decide) rfl rfl
      (fun r h => ⟨mkNode 1 1 (some 1), by cases h; rfl, by decide⟩)).2 0 rfl (by decide)
      ⟨⟨_, rfl, by decide⟩, Relation.ReflTransGen.single
        ⟨mkNode 1 1 (some 1), kNodeClassId, rfl, by decide, by decide, ⟨_, rfl, by decide⟩⟩⟩
      (by decide)⟩

/-! ### Reference accounting -/


theorem sum_map_set {α : Type} (g : α → Int) :
    ∀ (l : List α) (i : Nat) (x y : α), l[i]? = some y →
      ((l.set i x).map g).sum = (l.map g).sum - g y + g x := by
  intro l
  induction l with
  | nil => intro i x y h; simp at h
  | cons a l ih =>
    intro i x y h
    cases i with
    | zero =>
      simp only [List.getElem?_cons_zero, Option.some.injEq] at h
      subst h
      simp only [List.set_cons_zero, List.map_cons, List.sum_cons]
      omega
    | succ i =>
      simp only [List.getElem?_cons_succ] at h
      simp only [List.set_cons_succ, List.map_cons, List.sum_cons, ih i x y h]
      omega

theorem refs_set (heap : List Obj) (a : Nat) (o x : Obj) (X : Nat) (h : heap[a]? = some o) :
    refs (heap.set a x) X = refs heap X - countRef o.fields X + countRef x.fields X :=
  sum_map_set (fun c : Obj => countRef c.fields X) heap a x o h

theorem countRef_set (fs : List Field) (i : Nat) (f x : Field) (X : Nat) (h : fs[i]? = some f) :
    countRef (fs.set i x) X = countRef fs X - fieldRef f X + fieldRef x X :=
  sum_map_set (fun c : Field => fieldRef c X) fs i x f h

theorem refs_append (heap : List Obj) (x : Obj) (X : Nat) :
    refs (heap ++ [x]) X = refs heap X + countRef x.fields X := by
  simp [refs]

theorem countRef_append (fs : List Field) (f : Field) (X : Nat) :
    countRef (fs ++ [f]) X = countRef fs X + fieldRef f X := by
  simp [countRef]

theorem countOf_set (heap : List Obj) (a : Nat) (o x : Obj) (X : Nat) (h : heap[a]? = some o) :
    countOf (heap.set a x) X = if a = X then x.reference_count_ else countOf heap X := by
  have hlt := lt_of_get h
  unfold countOf
  by_cases hx : a = X
  · subst hx; simp [List.getElem?_set, hlt]
  · simp [List.getElem?_set, hx]

theorem update_heap_eq (w : World) (a : Nat) (f : Obj → Obj) (o : Obj) (h : w.heap[a]? = some o) :
    (w.update a f).heap = w.heap.set a (f o) := by
  simp [World.update, h]

/-- The gap of `X` after the cell `a` has been replaced. -/
theorem gap_update (w : World) (a : Nat) (f : Obj → Obj) (o : Obj) (X : Nat)
    (h : w.heap[a]? = some o) :
    gap (w.update a f).heap X =
      gap w.heap X + (if a = X then (f o).reference_count_ - o.reference_count_ else 0)
        + countRef o.fields X - countRef (f o).fields X := by
  rw [update_heap_eq w a f o h]
  unfold gap
  rw [refs_set w.heap a o (f o) X h, countOf_set _ _ _ _ _ h]
  by_cases hx : a = X
  · subst hx
    simp only [if_true, countOf, h]
    omega
  · simp only [hx, if_false]
    omega

theorem Field.shrunk_refl (f : Field) : f.shrunk f := Or.inl rfl

theorem Field.shrunk_trans {f f1 f2 : Field} (h1 : f.shrunk f1) (h2 : f1.shrunk f2) :
    f.shrunk f2 := by
  rcases h1 with h1 | ⟨T, p, h1, h1'⟩
  · subst h1; exact h2
  · rcases h2 with h2 | ⟨T2, p2, h2, h2'⟩
    · subst h2; exact Or.inr ⟨T, p, h1, h1'⟩
    · subst h1'
      injection h2 with hT _
      subst hT
      exact Or.inr ⟨T, p, h1, h2'⟩

theorem KeepsBut.refl (ex : Nat → Nat → Prop) (w : World) : KeepsBut ex w w :=
  ⟨rfl, rfl, rfl, le_refl _, fun _ o h =>
    ⟨o, h, rfl, rfl, rfl, rfl, fun _ f _ hf => ⟨f, hf, Field.shrunk_refl f⟩⟩⟩

theorem KeepsBut.trans {ex : Nat → Nat → Prop} {w w1 w2 : World} (h1 : KeepsBut ex w w1)
    (h2 : KeepsBut ex w1 w2) : KeepsBut ex w w2 := by
  obtain ⟨a1, a2, a3, a4, a5⟩ := h1
  obtain ⟨b1, b2, b3, b4, b5⟩ := h2
  refine ⟨b1.trans a1, b2.trans a2, b3.trans a3, le_trans a4 b4, ?_⟩
  intro a o ho
  obtain ⟨o1, ho1, c1, c2, c3, c4, c5⟩ := a5 a o ho
  obtain ⟨o2, ho2, d1, d2, d3, d4, d5⟩ := b5 a o1 ho1
  refine ⟨o2, ho2, d1.trans c1, d2.trans c2, d3.trans c3, d4.trans c4, ?_⟩
  intro j f hex hf
  obtain ⟨f1, hf1, s1⟩ := c5 j f hex hf
  obtain ⟨f2, hf2, s2⟩ := d5 j f1 hex hf1
  exact ⟨f2, hf2, Field.shrunk_trans s1 s2⟩

theorem KeepsBut.mono {ex ex1 : Nat → Nat → Prop} {w w1 : World} (h : KeepsBut ex w w1)
    (hex : ∀ a j, ex a j → ex1 a j) : KeepsBut ex1 w w1 := by
  obtain ⟨a1, a2, a3, a4, a5⟩ := h
  refine ⟨a1, a2, a3, a4, ?_⟩
  intro a o ho
  obtain ⟨o1, ho1, c1, c2, c3, c4, c5⟩ := a5 a o ho
  exact ⟨o1, ho1, c1, c2, c3, c4, fun j f hn hf => c5 j f (fun h => hn (hex a j h)) hf⟩

/-- Replacing a cell by one that agrees on class, interfaces and id and whose members are
unchanged or emptied (outside the exempted slots). -/
theorem KeepsBut_update (ex : Nat → Nat → Prop) (w : World) (a : Nat) (g : Obj → Obj)
    (hg : ∀ o, w.heap[a]? = some o → (g o).class_id = o.class_id ∧
      (g o).interfaces = o.interfaces ∧ (g o).id_ = o.id_ ∧
      (g o).fields.length = o.fields.length ∧
      ∀ (j : Nat) (f : Field), ¬ ex a j → o.fields[j]? = some f →
        ∃ f1, (g o).fields[j]? = some f1 ∧ f.shrunk f1) :
    KeepsBut ex w (w.update a g) := by
  refine ⟨by simp, by simp, by simp, by simp, ?_⟩
  intro b o ho
  by_cases hb : a = b
  · subst hb
    obtain ⟨c1, c2, c3, c4, c5⟩ := hg o ho
    exact ⟨g o, by simp [ho], c1, c2, c3, c4, c5⟩
  · exact ⟨o, by simp [hb, ho], rfl, rfl, rfl, rfl, fun _ f _ hf => ⟨f, hf, Field.shrunk_refl f⟩⟩

theorem release_none (fuel : Nat) (w w1 : World) : release fuel w none ≠ .ok w1 := by
  cases fuel <;> simp [release]

theorem getElem?_set_self_shrunk (fs : List Field) (i : Nat) (T : Nat) (p : Option Nat)
    (h : fs[i]? = some (.handle T p)) :
    ∀ (j : Nat) (f : Field), fs[j]? = some f →
      ∃ f1, (fs.set i (.handle T none))[j]? = some f1 ∧ f.shrunk f1 := by
  intro j f hf
  have hlt : i < fs.length := by
    rcases Nat.lt_or_ge i fs.length with h1 | h1
    · exact h1
    · rw [List.getElem?_eq_none h1] at h; cases h
  by_cases hj : i = j
  · subst hj
    rw [h] at hf
    injection hf with hf
    subst hf
    exact ⟨.handle T none, by simp [List.getElem?_set, hlt], Or.inr ⟨T, p, rfl, rfl⟩⟩
  · exact ⟨f, by simp [List.getElem?_set, hj, hf], Field.shrunk_refl f⟩

theorem fieldRef_none (T X : Nat) : fieldRef (.handle T none) X = 0 := rfl

theorem fieldRef_some (T y X : Nat) : fieldRef (.handle T (some y)) X = if y = X then 1 else 0 :=
  rfl

theorem destroyMembers_spec (X : Nat) (rel : World → Option Nat → Except Fault World)
    (hrel : ∀ w p w1, w.first_release_ = false → rel w p = .ok w1 →
      ∃ y, p = some y ∧ Plain X y w w1) (a : Nat) :
    ∀ (i : Nat) (w w1 : World), w.first_release_ = false →
      (∃ o, w.heap[a]? = some o ∧ o.reference_count_ ≤ 0) →
      destroyMembers rel a i w = .ok w1 →
      Keeps w w1 ∧ w1.heap.length = w.heap.length ∧ gap w1.heap X = gap w.heap X ∧
        NonPosBut a w w1 ∧ ∃ o1, w1.heap[a]? = some o1 ∧ o1.reference_count_ ≤ 0 := by
  intro i
  induction i with
  | zero =>
    intro w w1 _ ho h
    simp only [destroyMembers, Except.ok.injEq] at h
    subst h
    exact ⟨KeepsBut.refl _ _, rfl, rfl, fun b o _ hb hc => ⟨o, hb, rfl, hc⟩, ho⟩
  | succ i ih =>
    intro w w1 hf ⟨o, ho, hoc⟩ h
    simp only [destroyMembers, ho] at h
    cases hfi : o.fields[i]? with
    | none =>
      rw [hfi] at h
      exact ih w w1 hf ⟨o, ho, hoc⟩ h
    | some f =>
      rw [hfi] at h
      cases f with
      | scalar v => exact ih w w1 hf ⟨o, ho, hoc⟩ h
      | handle T p =>
        simp only at h
        cases hr : rel w p with
        | error e => rw [hr] at h; cases h
        | ok wm =>
          rw [hr] at h
          simp only at h
          obtain ⟨y, hy, hk, hl, hg, hnp⟩ := hrel w p wm hf hr
          subst hy
          obtain ⟨om, hom, hfm, hcm⟩ := hnp a o ho hoc
          have hfim : om.fields[i]? = some (.handle T (some y)) := by rw [hfm]; exact hfi
          have hkm : Keeps wm (wm.setField a i (.handle T none)) := by
            apply KeepsBut_update
            intro o' ho'
            rw [hom] at ho'; injection ho' with ho'; subst ho'
            exact ⟨rfl, rfl, rfl, by simp, fun j f _ hjf =>
              getElem?_set_self_shrunk om.fields i T (some y) hfim j f hjf⟩
          have hgm : gap (wm.setField a i (.handle T none)).heap X = gap w.heap X := by
            rw [World.setField, gap_update wm a _ om X hom, hg]
            simp only [sub_self, ite_self, add_zero]
            rw [countRef_set om.fields i _ _ X hfim, fieldRef_none, fieldRef_some]
            omega
          obtain ⟨k2, l2, g2, n2, o2⟩ := ih (wm.setField a i (.handle T none)) w1
            (by rw [World.setField, update_first_release, hk.1]; exact hf)
            ⟨{ om with fields := om.fields.set i (.handle T none) },
              by simp [World.setField, hom], hcm⟩ h
          refine ⟨(hk.trans hkm).trans k2, ?_, g2.trans hgm, ?_, o2⟩
          · rw [l2, World.setField, update_heap_length, hl]
          · intro b ob hb hbo hbc
            obtain ⟨o1, h1, f1, c1⟩ := hnp b ob hbo hbc
            obtain ⟨o3, h3, f3, c3⟩ := n2 b o1 hb
              (by simp [World.setField, Ne.symm hb, h1]) c1
            exact ⟨o3, h3, f3.trans f1, c3⟩

theorem deleteObj_spec (X : Nat) (rel : World → Option Nat → Except Fault World)
    (hrel : ∀ w p w1, w.first_release_ = false → rel w p = .ok w1 →
      ∃ y, p = some y ∧ Plain X y w w1) (a : Nat) (w w1 : World)
    (hf : w.first_release_ = false)
    (ho : ∃ o, w.heap[a]? = some o ∧ o.reference_count_ ≤ 0)
    (h : deleteObj rel w a = .ok w1) :
    Keeps w w1 ∧ w1.heap.length = w.heap.length ∧ gap w1.heap X = gap w.heap X ∧
      NonPosBut a w w1 := by
  obtain ⟨o, ho, hoc⟩ := ho
  simp only [deleteObj, ho] at h
  cases hd : destroyMembers rel a o.fields.length { w with deleted := w.deleted ++ [a] } with
  | error e => rw [hd] at h; cases h
  | ok wm =>
    rw [hd] at h
    simp only at h
    obtain ⟨k, l, g, n, om, hom, hcm⟩ := destroyMembers_spec X rel hrel a o.fields.length
      { w with deleted := w.deleted ++ [a] } wm hf ⟨o, ho, hoc⟩ hd
    rw [hom] at h
    simp only [Except.ok.injEq] at h
    subst h
    refine ⟨?_, by simpa using l, ?_, ?_⟩
    · obtain ⟨k1, k2, k3, k4, k5⟩ := k
      refine ⟨k1, k2, k3, by simpa using k4, ?_⟩
      intro b ob hb
      obtain ⟨o1, h1, c1, c2, c3, c4, c5⟩ := k5 b ob hb
      by_cases hab : a = b
      · subst hab
        rw [hom] at h1; injection h1 with h1; subst h1
        exact ⟨{ om with alive := false }, by simp [List.getElem?_set, lt_of_get hom],
          c1, c2, c3, c4, c5⟩
      · exact ⟨o1, by simp [List.getElem?_set, hab, h1], c1, c2, c3, c4, c5⟩
    · simp only
      rw [← g]
      unfold gap
      rw [refs_set wm.heap a om _ X hom, countOf_set _ _ _ _ _ hom]
      by_cases hx : a = X
      · subst hx; simp [countOf, hom]
      · simp [hx]
    · intro b ob hb hbo hbc
      obtain ⟨o1, h1, f1, c1⟩ := n b ob hb hbo hbc
      exact ⟨o1, by simp [List.getElem?_set, Ne.symm hb, h1], f1, c1⟩

theorem release_spec (X : Nat) :
    ∀ (fuel : Nat) (w : World) (p : Option Nat) (w1 : World), w.first_release_ = false →
      release fuel w p = .ok w1 → ∃ y, p = some y ∧ Plain X y w w1 := by
  intro fuel
  induction fuel with
  | zero => intro w p w1 _ h; simp [release] at h
  | succ fuel ih =>
    intro w p w1 hf h
    cases p with
    | none => exact absurd h (release_none _ _ _)
    | some y =>
      refine ⟨y, rfl, ?_⟩
      rw [release_flag_false _ _ _ hf] at h
      simp only [releaseTail] at h
      cases ho : w.heap[y]? with
      | none => rw [ho] at h; cases h
      | some o =>
        rw [ho] at h
        simp only at h
        have hk : Keeps w (w.update y (fun o => { o with reference_count_ := o.reference_count_ - 1 })) :=
          KeepsBut_update _ w y _ (fun o' _ => ⟨rfl, rfl, rfl, rfl, fun j f _ hjf =>
            ⟨f, hjf, Field.shrunk_refl f⟩⟩)
        have hg : gap (w.update y
            (fun o => { o with reference_count_ := o.reference_count_ - 1 })).heap X =
            gap w.heap X - (if y = X then 1 else 0) := by
          rw [gap_update w y _ o X ho]
          by_cases hx : y = X
          · subst hx; simp only [if_true]; omega
          · simp only [hx, if_false]; omega
        by_cases hz : o.reference_count_ - 1 = 0
        · simp only [hz, if_true] at h
          obtain ⟨k, l, g, n⟩ := deleteObj_spec X (release fuel) ih y _ w1 (by simpa using hf)
            ⟨{ o with reference_count_ := o.reference_count_ - 1 }, by simp [ho], le_of_eq hz⟩ h
          refine ⟨hk.trans k, by rw [l]; simp, g.trans hg, ?_⟩
          intro b ob hbo hbc
          have hby : b ≠ y := by
            intro hby; subst hby
            rw [ho] at hbo; injection hbo with hbo; subst hbo
            omega
          exact n b ob hby (by simp [Ne.symm hby, hbo]) hbc
        · simp only [hz, if_false, Except.ok.injEq] at h
          subst h
          refine ⟨hk, by simp, hg, ?_⟩
          intro b ob hbo hbc
          by_cases hby : y = b
          · subst hby
            rw [ho] at hbo; injection hbo with hbo; subst hbo
            exact ⟨{ o with reference_count_ := o.reference_count_ - 1 }, by simp [ho], rfl,
              by simp only; omega⟩
          · exact ⟨ob, by simp [hby, hbo], rfl, hbc⟩

theorem NewPlaceholder_heap (w : World) :
    (Ptr.NewPlaceholder w).2.heap =
      w.heap ++ [{ class_id := kObjClassId, interfaces := [], id_ := ⟨w.counter + 1, kLoaded⟩,
                   reference_count_ := 1, fields := [], alive := true }] := by
  apply List.ext_getElem?
  intro b
  rw [NewPlaceholder_get]
  by_cases hb : b = w.heap.length
  · subst hb; simp
  · simp only [hb, if_false]
    rcases Nat.lt_or_ge b w.heap.length with h1 | h1
    · rw [List.getElem?_append_left h1]
    · rw [List.getElem?_eq_none h1, List.getElem?_eq_none (by simp; omega)]

theorem countOf_append (heap : List Obj) (x : Obj) (X : Nat) (hX : X < heap.length) :
    countOf (heap ++ [x]) X = countOf heap X := by
  simp [countOf, List.getElem?_append_left hX]

theorem gap_append (heap : List Obj) (x : Obj) (X : Nat) (hX : X < heap.length)
    (hx : x.fields = []) : gap (heap ++ [x]) X = gap heap X := by
  simp [gap, countOf_append heap x X hX, refs_append, hx, countRef]

theorem Keeps_NewPlaceholder (w : World) : Keeps w (Ptr.NewPlaceholder w).2 := by
  refine ⟨by simp, by simp, by simp, by simp, ?_⟩
  intro a o ho
  have hne : a ≠ w.heap.length := by have := lt_of_get ho; omega
  exact ⟨o, by simp [NewPlaceholder_get, hne, ho], rfl, rfl, rfl, rfl,
    fun _ f _ hf => ⟨f, hf, Field.shrunk_refl f⟩⟩

theorem Init_some_spec (X : Nat) (w : World) (a t : Nat) (w1 : World)
    (h : Ptr.Init w (some a) = .ok (t, w1)) :
    t = a ∧ a < w.heap.length ∧ Keeps w w1 ∧ w1.heap.length = w.heap.length ∧
      gap w1.heap X = gap w.heap X + (if a = X then 1 else 0) := by
  simp only [Ptr.Init] at h
  cases ho : w.heap[a]? with
  | none => rw [ho] at h; cases h
  | some o =>
    rw [ho] at h
    simp only [Except.ok.injEq, Prod.mk.injEq] at h
    obtain ⟨rfl, rfl⟩ := h
    refine ⟨rfl, lt_of_get ho, ?_, by simp, ?_⟩
    · exact KeepsBut_update _ w _ _ (fun o' _ => ⟨rfl, rfl, rfl, rfl, fun j f _ hjf =>
        ⟨f, hjf, Field.shrunk_refl f⟩⟩)
    · rw [gap_update w _ _ o X ho]
      by_cases hx : a = X
      · subst hx; simp only [if_true]; omega
      · simp only [hx, if_false]; omega

theorem Init_none_spec (X : Nat) (w : World) (t : Nat) (w1 : World)
    (h : Ptr.Init w none = .ok (t, w1)) (hX : X < w.heap.length) :
    t = w.heap.length ∧ Keeps w w1 ∧ w1.heap.length = w.heap.length + 1 ∧
      gap w1.heap X = gap w.heap X := by
  simp only [Ptr.Init, Except.ok.injEq] at h
  have h1 : t = (Ptr.NewPlaceholder w).1 := by rw [h]
  have h2 : w1 = (Ptr.NewPlaceholder w).2 := by rw [h]
  subst h2
  refine ⟨h1, Keeps_NewPlaceholder w, by simp, ?_⟩
  rw [NewPlaceholder_heap]
  exact gap_append _ _ _ hX rfl

theorem endTemp_spec (X : Nat) (fuel : Nat) (w w1 : World) (hf : w.first_release_ = false)
    (hX : X < w.heap.length) (h : endTemp (release fuel) w = .ok w1) :
    Keeps w w1 ∧ w1.heap.length = w.heap.length + 1 ∧ gap w1.heap X = gap w.heap X := by
  simp only [endTemp] at h
  cases hi : Ptr.Init w none with
  | error e => rw [hi] at h; cases h
  | ok r =>
    obtain ⟨t, wa⟩ := r
    rw [hi] at h
    simp only at h
    obtain ⟨ht, hk, hl, hg⟩ := Init_none_spec X w t wa hi hX
    obtain ⟨y, hy, hk2, hl2, hg2, _⟩ := release_spec X fuel wa (some t) w1
      (by rw [hk.1]; exact hf) h
    injection hy with hy
    subst hy
    have hne : ¬ t = X := by omega
    refine ⟨hk.trans hk2, by rw [hl2, hl], ?_⟩
    rw [hg2, hg]
    simp [hne]

theorem gap_setField (w : World) (a i : Nat) (f f0 : Field) (oa : Obj) (X : Nat)
    (ha : w.heap[a]? = some oa) (hf : oa.fields[i]? = some f0) :
    gap (w.setField a i f).heap X = gap w.heap X + fieldRef f0 X - fieldRef f X := by
  rw [World.setField, gap_update w a _ oa X ha]
  simp only [sub_self, ite_self, add_zero]
  rw [countRef_set oa.fields i f0 f X hf]
  omega

theorem KeepsBut_setField (w : World) (a i : Nat) (f : Field) :
    KeepsBut (fun a1 j => a1 = a ∧ j = i) w (w.setField a i f) := by
  apply KeepsBut_update
  intro o _
  refine ⟨rfl, rfl, rfl, by simp, ?_⟩
  intro j f1 hex hj
  have hji : i ≠ j := fun h => hex ⟨rfl, h.symm⟩
  exact ⟨f1, by simp [List.getElem?_set, hji, hj], Field.shrunk_refl f1⟩

theorem setField_slot (w : World) (a i : Nat) (f f0 : Field) (oa : Obj)
    (ha : w.heap[a]? = some oa) (hf : oa.fields[i]? = some f0) :
    ∃ o1, (w.setField a i f).heap[a]? = some o1 ∧ o1.fields[i]? = some f := by
  have hlt : i < oa.fields.length := by
    rcases Nat.lt_or_ge i oa.fields.length with h1 | h1
    · exact h1
    · rw [List.getElem?_eq_none h1] at hf; cases hf
  exact ⟨{ oa with fields := oa.fields.set i f }, by simp [World.setField, ha],
    by simp [List.getElem?_set, hlt]⟩

theorem shrunk_fieldRef {f f1 : Field} (X : Nat) (h : f.shrunk f1) (h0 : fieldRef f X = 0) :
    fieldRef f1 X = 0 := by
  rcases h with h | ⟨T, p, _, h⟩
  · subst h; exact h0
  · subst h; rfl

theorem KeepsBut.slot {ex : Nat → Nat → Prop} {w w1 : World} (h : KeepsBut ex w w1) {a i : Nat}
    {oa : Obj} {f : Field} (hex : ¬ ex a i) (ha : w.heap[a]? = some oa)
    (hf : oa.fields[i]? = some f) :
    ∃ o1 f1, w1.heap[a]? = some o1 ∧ o1.fields[i]? = some f1 ∧ f.shrunk f1 := by
  obtain ⟨o1, h1, _, _, _, _, h5⟩ := h.2.2.2.2 a oa ha
  obtain ⟨f1, hf1, hs⟩ := h5 i f hex hf
  exact ⟨o1, f1, h1, hf1, hs⟩

/-- `poke` as seen from the cell `X`, when the slot does not hold a handle bound to `X`. -/
theorem poke_spec (X : Nat) (w : World) (pl : Place) (T : Nat) (v : Option Nat)
    (hslot : ∀ a i, pl = some (a, i) →
      ∃ oa f0, w.heap[a]? = some oa ∧ oa.fields[i]? = some f0 ∧ fieldRef f0 X = 0) :
    KeepsBut (fun a j => pl = some (a, j)) w (w.poke pl T v) ∧
      (w.poke pl T v).heap.length = w.heap.length ∧
      gap (w.poke pl T v).heap X =
        gap w.heap X - (if pl = none then 0 else if v = some X then 1 else 0) ∧
      (∀ a i, pl = some (a, i) → ∃ oa, (w.poke pl T v).heap[a]? = some oa ∧
        oa.fields[i]? = some (.handle T v)) := by
  cases pl with
  | none =>
    exact ⟨KeepsBut.refl _ _, rfl, by simp [World.poke], fun a i h => by cases h⟩
  | some ai =>
    obtain ⟨a, i⟩ := ai
    obtain ⟨oa, f0, ha, hf0, h0⟩ := hslot a i rfl
    refine ⟨?_, by simp [World.poke, World.setField], ?_, ?_⟩
    · exact (KeepsBut_setField w a i (.handle T v)).mono (fun a1 j ⟨h1, h2⟩ => by rw [h1, h2])
    · simp only [World.poke, reduceCtorEq, if_false]
      rw [gap_setField w a i _ f0 oa X ha hf0, h0]
      cases v with
      | none => simp [fieldRef]
      | some y =>
        by_cases hy : y = X
        · subst hy; simp [fieldRef]
        · simp [fieldRef, hy]
    · intro a1 i1 h1
      injection h1 with h1
      injection h1 with h1 h2
      subst h1 h2
      exact setField_slot w a i _ f0 oa ha hf0

theorem sameTail_spec (X : Nat) (fuel : Nat) (w wa w1 : World) (tmp : Nat)
    (hf : w.first_release_ = false) (hX : X < w.heap.length)
    (h1 : release fuel w (some tmp) = .ok wa) (h2 : endTemp (release fuel) wa = .ok w1) :
    Keeps w w1 ∧ gap w1.heap X = gap w.heap X - (if tmp = X then 1 else 0) := by
  obtain ⟨y, hy, hk, hl, hg, _⟩ := release_spec X fuel w (some tmp) wa hf h1
  injection hy with hy
  subst hy
  obtain ⟨hk2, _, hg2⟩ := endTemp_spec X fuel wa w1 (by rw [hk.1]; exact hf) (by omega) h2
  exact ⟨hk.trans hk2, by rw [hg2, hg]⟩

theorem DynamicCast_cases (o : Obj) (tmp T : Nat) :
    (DynamicCast o tmp T = some tmp ∧ (T ∈ o.interfaces ∨ T = kObjClassId)) ∨
    (DynamicCast o tmp T = none ∧ ¬ (T ∈ o.interfaces ∨ T = kObjClassId)) := by
  unfold DynamicCast
  by_cases h : T ∈ o.interfaces ∨ T = kObjClassId
  · left; simp [h]
  · right; simp [h]

/-- The path of `assignTemp` on which the handle is bound to another object than the
temporary: `release()`, rebinding, the end of the temporary. -/
theorem notSame_spec (X : Nat) (fuel : Nat) (w w1 : World) (pl : Place) (T : Nat) (c tmp : Nat)
    (new : Option Nat) (hf : w.first_release_ = false) (hX : X < w.heap.length)
    (htmp : tmp < w.heap.length)
    (hpl : ∀ a i, pl = some (a, i) →
      ∃ oa T0, w.heap[a]? = some oa ∧ oa.fields[i]? = some (.handle T0 (some c)) ∧ c ≠ X)
    (h : (match release fuel w (some c) with
      | .error e => .error e
      | .ok w1 =>
        let w2 := w1.poke pl T none
        if T = kObjClassId then
          match endTemp (release fuel) (w2.poke pl T (some tmp)) with
          | .error e => .error e
          | .ok w3 => .ok (w3, some tmp)
        else
          match w2.heap[tmp]? with
          | none => .error .wild
          | some o =>
            match Ptr.Init w2 (DynamicCast o tmp T) with
            | .error e => .error e
            | .ok (n, w3) =>
              match release fuel (w3.poke pl T (some n)) (some tmp) with
              | .error e => .error e
              | .ok w4 =>
                match endTemp (release fuel) w4 with
                | .error e => .error e
                | .ok w5 => .ok (w5, some n) : Except Fault (World × Option Nat)) = .ok (w1, new)) :
    KeepsBut (fun a j => pl = some (a, j)) w w1 ∧
      gap w1.heap X = gap w.heap X - (if tmp = X then 1 else 0) +
        (if pl = none then (if new = some X then 1 else 0) - (if c = X then 1 else 0) else 0) ∧
      ((T = kObjClassId ∨ ∃ o, w.heap[tmp]? = some o ∧ T ∈ o.interfaces) → new = some tmp) := by
  cases hr : release fuel w (some c) with
  | error e => rw [hr] at h; cases h
  | ok wk =>
    rw [hr] at h
    simp only at h
    obtain ⟨y, hy, hk, hl, hg, _⟩ := release_spec X fuel w (some c) wk hf hr
    injection hy with hy
    subst hy
    have hfk : wk.first_release_ = false := by rw [hk.1]; exact hf
    -- the slot after the release
    have hslotk : ∀ a i, pl = some (a, i) →
        ∃ oa f0, wk.heap[a]? = some oa ∧ oa.fields[i]? = some f0 ∧ fieldRef f0 X = 0 := by
      intro a i hp
      obtain ⟨oa, T0, ha, hfa, hc⟩ := hpl a i hp
      obtain ⟨o1, f1, h1, h2, hs⟩ := hk.slot (fun hF => hF) ha hfa
      exact ⟨o1, f1, h1, h2, shrunk_fieldRef X hs (by simp [fieldRef, hc])⟩
    obtain ⟨pk, pl2, pg, ps⟩ := poke_spec X wk pl T none hslotk
    have hf2 : (wk.poke pl T none).first_release_ = false := by rw [pk.1]; exact hfk
    have hslot2 : ∀ a i, pl = some (a, i) →
        ∃ oa f0, (wk.poke pl T none).heap[a]? = some oa ∧ oa.fields[i]? = some f0 ∧
          fieldRef f0 X = 0 := by
      intro a i hp
      obtain ⟨oa, h1, h2⟩ := ps a i hp
      exact ⟨oa, _, h1, h2, rfl⟩
    have hg2 : gap (wk.poke pl T none).heap X = gap w.heap X - (if c = X then 1 else 0) := by
      rw [pg, hg]; by_cases hp : pl = none <;> simp [hp]
    have hk2 : KeepsBut (fun a j => pl = some (a, j)) w (wk.poke pl T none) :=
      (hk.mono (fun _ _ hF => hF.elim)).trans pk
    by_cases hT : T = kObjClassId
    · simp only [hT, if_true] at h
      rw [← hT] at h
      obtain ⟨qk, ql, qg, qs⟩ := poke_spec X (wk.poke pl T none) pl T (some tmp) hslot2
      cases he : endTemp (release fuel) ((wk.poke pl T none).poke pl T (some tmp)) with
      | error e => rw [he] at h; cases h
      | ok w3 =>
        rw [he] at h
        simp only [Except.ok.injEq, Prod.mk.injEq] at h
        obtain ⟨rfl, rfl⟩ := h
        obtain ⟨ek, _, eg⟩ := endTemp_spec X fuel _ w3 (by rw [qk.1]; exact hf2)
          (by rw [ql, pl2, hl]; exact hX) he
        refine ⟨(hk2.trans qk).trans (ek.mono (fun _ _ hF => hF.elim)), ?_, fun _ => rfl⟩
        rw [eg, qg, hg2]
        by_cases hp : pl = none
        · simp only [hp, if_true, Option.some.injEq]; omega
        · obtain ⟨ai, hai⟩ := Option.ne_none_iff_exists'.1 hp
          obtain ⟨_, _, _, _, hc⟩ := hpl ai.1 ai.2 hai
          simp only [hp, if_false, Option.some.injEq, hc]; omega
    · simp only [hT, if_false] at h
      obtain ⟨otmp, hotmp⟩ : ∃ o, w.heap[tmp]? = some o := ⟨_, List.getElem?_eq_getElem htmp⟩
      obtain ⟨o2, ho2, _, hint, _⟩ := hk2.2.2.2.2 tmp otmp hotmp
      rw [ho2] at h
      simp only at h
      cases hi : Ptr.Init (wk.poke pl T none) (DynamicCast o2 tmp T) with
      | error e => rw [hi] at h; cases h
      | ok r =>
        obtain ⟨n, w3⟩ := r
        rw [hi] at h
        simp only at h
        have hX2 : X < (wk.poke pl T none).heap.length := by rw [pl2, hl]; exact hX
        have hinit : Keeps (wk.poke pl T none) w3 ∧ w3.heap.length ≥ w.heap.length ∧
            gap w3.heap X = gap (wk.poke pl T none).heap X + (if n = X then 1 else 0) ∧
            ((T ∈ o2.interfaces ∨ T = kObjClassId) → n = tmp) := by
          rcases DynamicCast_cases o2 tmp T with ⟨hd, hyes⟩ | ⟨hd, hno⟩
          · rw [hd] at hi
            obtain ⟨e1, _, e3, e4, e5⟩ := Init_some_spec X _ tmp n w3 hi
            subst e1
            exact ⟨e3, by rw [e4, pl2, hl], e5, fun _ => rfl⟩
          · rw [hd] at hi
            obtain ⟨e1, e3, e4, e5⟩ := Init_none_spec X _ n w3 hi hX2
            have hne : ¬ n = X := by omega
            exact ⟨e3, by rw [e4, pl2, hl]; omega, by rw [e5]; simp [hne],
              fun hyes => absurd hyes hno⟩
        obtain ⟨ik, il, ig, icast⟩ := hinit
        have hf3 : w3.first_release_ = false := by rw [ik.1]; exact hf2
        have hslot3 : ∀ a i, pl = some (a, i) →
            ∃ oa f0, w3.heap[a]? = some oa ∧ oa.fields[i]? = some f0 ∧ fieldRef f0 X = 0 := by
          intro a i hp
          obtain ⟨oa, f0, h1, h2, h3⟩ := hslot2 a i hp
          obtain ⟨o1, f1, g1, g2, hs⟩ := ik.slot (fun hF => hF) h1 h2
          exact ⟨o1, f1, g1, g2, shrunk_fieldRef X hs h3⟩
        obtain ⟨qk, ql, qg, qs⟩ := poke_spec X w3 pl T (some n) hslot3
        cases hr4 : release fuel (w3.poke pl T (some n)) (some tmp) with
        | error e => rw [hr4] at h; cases h
        | ok w4 =>
          rw [hr4] at h
          simp only at h
          cases he : endTemp (release fuel) w4 with
          | error e => rw [he] at h; cases h
          | ok w5 =>
            rw [he] at h
            simp only [Except.ok.injEq, Prod.mk.injEq] at h
            obtain ⟨rfl, rfl⟩ := h
            obtain ⟨sk, sg⟩ := sameTail_spec X fuel _ w4 w5 tmp (by rw [qk.1]; exact hf3)
              (by rw [ql]; omega) hr4 he
            refine ⟨((hk2.trans (ik.mono (fun _ _ hF => hF.elim))).trans qk).trans
              (sk.mono (fun _ _ hF => hF.elim)), ?_, ?_⟩
            · rw [sg, qg, ig, hg2]
              by_cases hp : pl = none
              · simp only [hp, if_true, Option.some.injEq]; omega
              · obtain ⟨ai, hai⟩ := Option.ne_none_iff_exists'.1 hp
                obtain ⟨_, _, _, _, hc⟩ := hpl ai.1 ai.2 hai
                simp only [hp, if_false, Option.some.injEq, hc]; omega
            · intro hcast
              congr 1
              apply icast
              rcases hcast with hcast | ⟨o, ho, hTo⟩
              · exact Or.inr hcast
              · rw [hotmp] at ho; injection ho with ho; subst ho
                left; rw [hint]; exact hTo

/-- `o = DeserializeObj(s)` as seen from the cell `X`. -/
theorem assignTemp_spec (X : Nat) (fuel : Nat) (w w1 : World) (pl : Place) (T : Nat)
    (cur : Option Nat) (tmp : Nat) (new : Option Nat) (hf : w.first_release_ = false)
    (hX : X < w.heap.length) (htmp : tmp < w.heap.length)
    (hpl : ∀ a i, pl = some (a, i) →
      ∃ oa T0, w.heap[a]? = some oa ∧ oa.fields[i]? = some (.handle T0 cur) ∧ cur ≠ some X)
    (h : Ptr.assignTemp (release fuel) w pl T cur tmp = .ok (w1, new)) :
    KeepsBut (fun a j => pl = some (a, j)) w w1 ∧
      gap w1.heap X = gap w.heap X - (if tmp = X then 1 else 0) +
        (if pl = none then
          (if new = some X then 1 else 0) - (if cur = some X then 1 else 0) else 0) ∧
      (cur ≠ some tmp → (T = kObjClassId ∨ ∃ o, w.heap[tmp]? = some o ∧ T ∈ o.interfaces) →
        new = some tmp) := by
  have hsame : ∀ wa, release fuel w (some tmp) = .ok wa → endTemp (release fuel) wa = .ok w1 →
      new = cur → cur = some tmp →
      KeepsBut (fun a j => pl = some (a, j)) w w1 ∧
      gap w1.heap X = gap w.heap X - (if tmp = X then 1 else 0) +
        (if pl = none then
          (if new = some X then 1 else 0) - (if cur = some X then 1 else 0) else 0) ∧
      (cur ≠ some tmp → (T = kObjClassId ∨ ∃ o, w.heap[tmp]? = some o ∧ T ∈ o.interfaces) →
        new = some tmp) := by
    intro wa h1 h2 hn hc
    obtain ⟨sk, sg⟩ := sameTail_spec X fuel w wa w1 tmp hf hX h1 h2
    refine ⟨sk.mono (fun _ _ hF => hF.elim), ?_, fun hne => absurd hc hne⟩
    rw [sg, hn]
    by_cases hp : pl = none <;> simp [hp]
  have hnot : ∀ c, cur = some c → c ≠ tmp →
      Ptr.assignTemp (release fuel) w pl T (some c) tmp = .ok (w1, new) →
      KeepsBut (fun a j => pl = some (a, j)) w w1 ∧
      gap w1.heap X = gap w.heap X - (if tmp = X then 1 else 0) +
        (if pl = none then
          (if new = some X then 1 else 0) - (if cur = some X then 1 else 0) else 0) ∧
      (cur ≠ some tmp → (T = kObjClassId ∨ ∃ o, w.heap[tmp]? = some o ∧ T ∈ o.interfaces) →
        new = some tmp) := by
    intro c hc hne h'
    subst hc
    have hpl' : ∀ a i, pl = some (a, i) →
        ∃ oa T0, w.heap[a]? = some oa ∧ oa.fields[i]? = some (.handle T0 (some c)) ∧ c ≠ X := by
      intro a i hp
      obtain ⟨oa, T0, h1, h2, h3⟩ := hpl a i hp
      exact ⟨oa, T0, h1, h2, fun h => h3 (by rw [h])⟩
    have := notSame_spec X fuel w w1 pl T c tmp new hf hX htmp hpl'
      (by
        simp only [Ptr.assignTemp, Option.some.injEq, hne] at h'
        by_cases hT : T = kObjClassId
        · simpa [hT] using h'
        · simpa [hT] using h')
    refine ⟨this.1, ?_, fun _ => this.2.2⟩
    rw [this.2.1]
    simp only [Option.some.injEq]
  cases cur with
  | none =>
    exfalso
    simp only [Ptr.assignTemp] at h
    by_cases hT : T = kObjClassId
    · simp only [hT, if_true, reduceCtorEq, decide_False] at h
      cases hr : release fuel w none with
      | error e => rw [hr] at h; cases h
      | ok wk => exact release_none _ _ _ hr
    · simp [hT] at h
  | some c =>
    by_cases hc : c = tmp
    · subst hc
      simp only [Ptr.assignTemp, if_true, decide_True, ite_self] at h
      cases h1 : release fuel w (some c) with
      | error e => rw [h1] at h; cases h
      | ok wa =>
        rw [h1] at h
        simp only at h
        cases h2 : endTemp (release fuel) wa with
        | error e => rw [h2] at h; cases h
        | ok w2 =>
          rw [h2] at h
          simp only [Except.ok.injEq, Prod.mk.injEq] at h
          obtain ⟨rfl, rfl⟩ := h
          exact hsame wa h1 h2 rfl rfl
    · exact hnot c rfl hc h

theorem countRef_zero_of_forall (fs : List Field) (X : Nat) (h : ∀ f ∈ fs, fieldRef f X = 0) :
    countRef fs X = 0 := by
  induction fs with
  | nil => rfl
  | cons f fs ih =>
    simp only [countRef, List.map_cons, List.sum_cons]
    have h1 := h f (List.mem_cons_self _ _)
    have h2 := ih (fun g hg => h g (List.mem_cons_of_mem _ hg))
    simp only [countRef] at h2
    omega

/-- The member constructors of the new cell `a`, as seen from a cell `X` of the heap. -/
theorem constructMembers_spec (X a : Nat) :
    ∀ (ds : List FieldDecl) (w : World) (o : Obj), w.heap[a]? = some o → X < w.heap.length →
      (∀ f ∈ o.fields, fieldRef f X = 0) →
      (constructMembers a w ds).first_release_ = w.first_release_ ∧
      (constructMembers a w ds).registry_ = w.registry_ ∧
      (constructMembers a w ds).base_to_derived_ = w.base_to_derived_ ∧
      (constructMembers a w ds).all_objects_ = w.all_objects_ ∧
      (constructMembers a w ds).loads = w.loads ∧
      w.heap.length ≤ (constructMembers a w ds).heap.length ∧
      (∀ b : Nat, b < w.heap.length → b ≠ a → (constructMembers a w ds).heap[b]? = w.heap[b]?) ∧
      gap (constructMembers a w ds).heap X = gap w.heap X ∧
      ∃ o1, (constructMembers a w ds).heap[a]? = some o1 ∧ o1.class_id = o.class_id ∧
        o1.interfaces = o.interfaces ∧ o1.id_ = o.id_ ∧
        o1.reference_count_ = o.reference_count_ ∧ ∀ f ∈ o1.fields, fieldRef f X = 0 := by
  intro ds
  induction ds with
  | nil =>
    intro w o ho _ hfs
    exact ⟨rfl, rfl, rfl, rfl, rfl, le_refl _, fun _ _ _ => rfl, rfl, o, ho, rfl, rfl, rfl, rfl, hfs⟩
  | cons d ds ih =>
    intro w o ho hX hfs
    have hla := lt_of_get ho
    cases d with
    | scalar v =>
      simp only [constructMembers]
      obtain ⟨c1, c2, c3, c4, c5, c6, c7, c8, o1, d1, d2, d3, d4, d5, d6⟩ :=
        ih (w.update a (fun o => { o with fields := o.fields ++ [.scalar v] }))
          { o with fields := o.fields ++ [.scalar v] } (by simp [ho]) (by simpa using hX)
          (by
            intro f hf
            simp only [List.mem_append, List.mem_singleton] at hf
            rcases hf with hf | hf
            · exact hfs f hf
            · subst hf; rfl)
      refine ⟨by simpa using c1, by simpa using c2, by simpa using c3, by simpa using c4,
        by simpa using c5, by simpa using c6, ?_, ?_, o1, d1, d2, d3, d4, d5, d6⟩
      · intro b hb hba
        rw [c7 b (by simpa using hb) hba]
        simp [Ne.symm hba]
      · rw [c8, gap_update w a _ o X ho]
        simp only [sub_self, ite_self, add_zero, countRef_append, fieldRef]
        omega
    | handle T =>
      simp only [constructMembers]
      have hne : a ≠ w.heap.length := by omega
      have hph : (Ptr.NewPlaceholder w).2.heap[a]? = some o := by
        simp [NewPlaceholder_get, hne, ho]
      have hXne : ¬ w.heap.length = X := by omega
      obtain ⟨c1, c2, c3, c4, c5, c6, c7, c8, o1, d1, d2, d3, d4, d5, d6⟩ :=
        ih ((Ptr.NewPlaceholder w).2.update a
            (fun o => { o with fields := o.fields ++ [.handle T (some (Ptr.NewPlaceholder w).1)] }))
          { o with fields := o.fields ++ [.handle T (some (Ptr.NewPlaceholder w).1)] }
          (by simp [hph]) (by simp; omega)
          (by
            intro f hf
            simp only [List.mem_append, List.mem_singleton] at hf
            rcases hf with hf | hf
            · exact hfs f hf
            · subst hf; simp [fieldRef, NewPlaceholder_fst, hXne])
      refine ⟨by simpa using c1, by simpa using c2, by simpa using c3, by simpa using c4,
        by simpa using c5, ?_, ?_, ?_, o1, d1, d2, d3, d4, d5, d6⟩
      · have := c6; simp at this; omega
      · intro b hb hba
        rw [c7 b (by simp; omega) hba]
        have hbl : b ≠ w.heap.length := by omega
        simp [Ne.symm hba, NewPlaceholder_get, hbl]
      · rw [c8, gap_update _ a _ o X hph, NewPlaceholder_heap, gap_append _ _ _ hX rfl]
        simp only [sub_self, ite_self, add_zero, countRef_append, fieldRef, NewPlaceholder_fst,
          hXne, if_false]
        omega

@[simp] theorem AddObject_heap (w : World) (a : Nat) : (Obj.AddObject w a).heap = w.heap := by
  unfold Obj.AddObject; cases w.heap[a]? <;> rfl
@[simp] theorem AddObject_first_release (w : World) (a : Nat) :
    (Obj.AddObject w a).first_release_ = w.first_release_ := by
  unfold Obj.AddObject; cases w.heap[a]? <;> rfl
@[simp] theorem AddObject_registry (w : World) (a : Nat) :
    (Obj.AddObject w a).registry_ = w.registry_ := by
  unfold Obj.AddObject; cases w.heap[a]? <;> rfl
@[simp] theorem AddObject_base_to_derived (w : World) (a : Nat) :
    (Obj.AddObject w a).base_to_derived_ = w.base_to_derived_ := by
  unfold Obj.AddObject; cases w.heap[a]? <;> rfl
@[simp] theorem AddObject_loads (w : World) (a : Nat) :
    (Obj.AddObject w a).loads = w.loads := by
  unfold Obj.AddObject; cases w.heap[a]? <;> rfl

/-- The blank cell that `new T()` starts from. -/
theorem create_spec (X : Nat) (c : ClassDecl) (w : World) (hX : X ≤ w.heap.length) :
    (c.create w).1 = w.heap.length ∧
    (c.create w).2.first_release_ = w.first_release_ ∧
    (c.create w).2.registry_ = w.registry_ ∧
    (c.create w).2.base_to_derived_ = w.base_to_derived_ ∧
    (c.create w).2.loads = w.loads ∧
    w.heap.length < (c.create w).2.heap.length ∧
    (∀ b : Nat, b < w.heap.length → (c.create w).2.heap[b]? = w.heap[b]?) ∧
    (X < w.heap.length → gap (c.create w).2.heap X = gap w.heap X) ∧
    (X = w.heap.length → gap (c.create w).2.heap X = - refs w.heap X) ∧
    ∃ o1, (c.create w).2.heap[w.heap.length]? = some o1 ∧ o1.class_id = c.class_id_ ∧
      o1.interfaces = c.interfaces ∧ o1.reference_count_ = 0 ∧
      ∀ f ∈ o1.fields, fieldRef f X = 0 := by
  have hcell : (w.construct c.class_id_ c.interfaces).2.heap[w.heap.length]? =
      some { class_id := c.class_id_, interfaces := c.interfaces, id_ := ⟨w.counter + 1, kLoaded⟩,
             reference_count_ := 0, fields := [], alive := true } := by
    simp [World.construct, GenerateUnique]
  have hheap : (w.construct c.class_id_ c.interfaces).2.heap =
      w.heap ++ [{ class_id := c.class_id_, interfaces := c.interfaces,
                   id_ := ⟨w.counter + 1, kLoaded⟩,
                   reference_count_ := 0, fields := [], alive := true }] := by
    simp [World.construct, GenerateUnique]
  obtain ⟨c1, c2, c3, c4, c5, c6, c7, c8, o1, d1, d2, d3, d4, d5, d6⟩ :=
    constructMembers_spec X w.heap.length c.fields (w.construct c.class_id_ c.interfaces).2 _ hcell
      (by rw [hheap]; simp; omega) (by simp)
  have hlen : (w.construct c.class_id_ c.interfaces).2.heap.length = w.heap.length + 1 := by
    rw [hheap]; simp
  refine ⟨rfl, ?_, ?_, ?_, ?_, ?_, ?_, ?_, ?_, o1, d1, d2, d3, d5, d6⟩
  · simpa [ClassDecl.create, World.construct, GenerateUnique] using c1
  · simpa [ClassDecl.create, World.construct, GenerateUnique] using c2
  · simpa [ClassDecl.create, World.construct, GenerateUnique] using c3
  · simpa [ClassDecl.create, World.construct, GenerateUnique] using c5
  · have : (c.create w).2.heap.length = (constructMembers w.heap.length
        (w.construct c.class_id_ c.interfaces).2 c.fields).heap.length := rfl
    rw [this]; omega
  · intro b hb
    have : (c.create w).2.heap[b]? = (constructMembers w.heap.length
        (w.construct c.class_id_ c.interfaces).2 c.fields).heap[b]? := rfl
    rw [this, c7 b (by omega) (by omega), hheap, List.getElem?_append_left hb]
  · intro hlt
    have : gap (c.create w).2.heap X = gap (constructMembers w.heap.length
        (w.construct c.class_id_ c.interfaces).2 c.fields).heap X := rfl
    rw [this, c8, hheap, gap_append _ _ _ hlt rfl]
  · intro heq
    have : gap (c.create w).2.heap X = gap (constructMembers w.heap.length
        (w.construct c.class_id_ c.interfaces).2 c.fields).heap X := rfl
    rw [this, c8, hheap]
    subst heq
    simp [gap, countOf, refs_append, countRef]

/-- `Obj::CreateClassById`, the second `obj->id_ = instance_id` and `AddObject`: the world in
which the members of the new object are read. -/
theorem created_spec (X : Nat) (w : World) (class_id : Nat) (iid : InstanceId) (obj : Nat)
    (w1 : World) (h : Obj.CreateClassById w class_id iid = .ok (obj, w1))
    (hX : X ≤ w.heap.length) :
    obj = w.heap.length ∧
    (Obj.AddObject (w1.update obj (fun o => { o with id_ := iid })) obj).first_release_ =
      w.first_release_ ∧
    (Obj.AddObject (w1.update obj (fun o => { o with id_ := iid })) obj).registry_ =
      w.registry_ ∧
    (Obj.AddObject (w1.update obj (fun o => { o with id_ := iid })) obj).base_to_derived_ =
      w.base_to_derived_ ∧
    w.heap.length <
      (Obj.AddObject (w1.update obj (fun o => { o with id_ := iid })) obj).heap.length ∧
    (∀ b : Nat, b < w.heap.length →
      (Obj.AddObject (w1.update obj (fun o => { o with id_ := iid })) obj).heap[b]? = w.heap[b]?) ∧
    (X < w.heap.length →
      gap (Obj.AddObject (w1.update obj (fun o => { o with id_ := iid })) obj).heap X =
        gap w.heap X) ∧
    (X = w.heap.length →
      gap (Obj.AddObject (w1.update obj (fun o => { o with id_ := iid })) obj).heap X =
        - refs w.heap X) ∧
    ∃ reg b2d d c o, w.registry_ = some reg ∧ w.base_to_derived_ = some b2d ∧
      resolveChain (b2d.length + 1) b2d class_id = some d ∧ mapFind reg d = some c ∧
      (Obj.AddObject (w1.update obj (fun o => { o with id_ := iid })) obj).heap[obj]? = some o ∧
      o.class_id = c.class_id_ ∧ o.interfaces = c.interfaces ∧ o.id_ = iid ∧
      o.reference_count_ = 0 ∧ ∀ f ∈ o.fields, fieldRef f X = 0 := by
  simp only [Obj.CreateClassById, Registry.CreateClassById] at h
  cases hreg : w.registry_ with
  | none => rw [hreg] at h; simp at h
  | some reg =>
    cases hb : w.base_to_derived_ with
    | none => rw [hreg, hb] at h; simp at h
    | some b2d =>
      rw [hreg, hb] at h
      simp only at h
      cases hres : resolveChain (b2d.length + 1) b2d class_id with
      | none => rw [hres] at h; simp at h
      | some d =>
        rw [hres] at h
        simp only at h
        cases hc : mapFind reg d with
        | none => rw [hc] at h; simp at h
        | some c =>
          rw [hc] at h
          simp only [Except.ok.injEq, Prod.mk.injEq] at h
          obtain ⟨rfl, rfl⟩ := h
          obtain ⟨e1, e2, e3, e4, e5, e6, e7, e8, e9, o1, f1, f2, f3, f4, f5⟩ :=
            create_spec X c w hX
          have hcell : (((c.create w).2.update (c.create w).1
              (fun o => { o with id_ := iid })).update (c.create w).1
              (fun o => { o with id_ := iid })).heap[w.heap.length]? =
              some { o1 with id_ := iid } := by
            rw [e1]; simp [f1]
          have hgap : gap (((c.create w).2.update (c.create w).1
              (fun o => { o with id_ := iid })).update (c.create w).1
              (fun o => { o with id_ := iid })).heap X = gap (c.create w).2.heap X := by
            rw [update_update, e1, gap_update _ _ _ o1 X f1]
            simp
          refine ⟨e1, by simpa using e2, by simp [e3, hreg], by simp [e4, hb],
            by simpa using e6, ?_, ?_, ?_, reg, b2d, d, c, { o1 with id_ := iid }, rfl, rfl,
            hres, hc, ?_, f2, f3, rfl, f4, f5⟩
          · intro b hbl
            have hne : ¬ w.heap.length = b := by omega
            simp only [AddObject_heap, update_heap_get, e1, hne, if_false]
            exact e7 b hbl
          · intro hlt
            rw [AddObject_heap, hgap]; exact e8 hlt
          · intro heq
            rw [AddObject_heap, hgap]; exact e9 heq
          · rw [AddObject_heap, e1]; rw [e1] at hcell; exact hcell

theorem SlotsFree_keeps {ex : Nat → Nat → Prop} {w w1 : World} {X a i n : Nat}
    (hk : KeepsBut ex w w1) (hex : ∀ j, i ≤ j → ¬ ex a j) (h : SlotsFree X w a i n) :
    SlotsFree X w1 a i n := by
  obtain ⟨o, ho, hn, hfree⟩ := h
  obtain ⟨o1, h1, _, _, _, hl, h5⟩ := hk.2.2.2.2 a o ho
  refine ⟨o1, h1, by rw [hl, hn], ?_⟩
  intro j f1 hij hf1
  have hj : j < o.fields.length := by
    rcases Nat.lt_or_ge j o1.fields.length with h2 | h2
    · omega
    · rw [List.getElem?_eq_none h2] at hf1; cases hf1
  obtain ⟨f2, hf2, hs⟩ := h5 j _ (hex j hij) (List.getElem?_eq_getElem hj)
  rw [hf1] at hf2
  injection hf2 with hf2
  subst hf2
  exact shrunk_fieldRef X hs (hfree j _ hij (List.getElem?_eq_getElem hj))

theorem Keeps_of_agree (w w1 : World) (h1 : w1.first_release_ = w.first_release_)
    (h2 : w1.registry_ = w.registry_) (h3 : w1.base_to_derived_ = w.base_to_derived_)
    (h4 : w.heap.length ≤ w1.heap.length)
    (h5 : ∀ b : Nat, b < w.heap.length → w1.heap[b]? = w.heap[b]?) : Keeps w w1 := by
  refine ⟨h1, h2, h3, h4, ?_⟩
  intro a o ho
  exact ⟨o, by rw [h5 a (lt_of_get ho)]; exact ho, rfl, rfl, rfl, rfl,
    fun _ f _ hf => ⟨f, hf, Field.shrunk_refl f⟩⟩

theorem Keeps_extend {w w2 w3 : World} {a : Nat} (h1 : Keeps w w2)
    (h2 : KeepsBut (fun b _ => b = a) w2 w3) (ha : w.heap.length ≤ a) : Keeps w w3 := by
  obtain ⟨a1, a2, a3, a4, a5⟩ := h1
  obtain ⟨b1, b2, b3, b4, b5⟩ := h2
  refine ⟨b1.trans a1, b2.trans a2, b3.trans a3, le_trans a4 b4, ?_⟩
  intro b o ho
  have hb : ¬ b = a := by have := lt_of_get ho; omega
  obtain ⟨o1, ho1, c1, c2, c3, c4, c5⟩ := a5 b o ho
  obtain ⟨o2, ho2, d1, d2, d3, d4, d5⟩ := b5 b o1 ho1
  refine ⟨o2, ho2, d1.trans c1, d2.trans c2, d3.trans c3, d4.trans c4, ?_⟩
  intro j f hex hf
  obtain ⟨f1, hf1, s1⟩ := c5 j f hex hf
  obtain ⟨f2, hf2, s2⟩ := d5 j f1 hb hf1
  exact ⟨f2, hf2, Field.shrunk_trans s1 s2⟩

/-- `obj->Deserialize(is)` as seen from the cell `X`. -/
theorem deserializeFields_spec (X a fuel : Nat)
    (des : World → List Nat → Except Fault (World × List Nat × Nat))
    (hdes : ∀ w is w1 is1 tmp, w.first_release_ = false → X < w.heap.length →
      des w is = .ok (w1, is1, tmp) →
      Keeps w w1 ∧ gap w1.heap X = gap w.heap X + (if tmp = X then 1 else 0) ∧
        tmp < w1.heap.length) :
    ∀ (fs : List Field) (i : Nat) (w : World) (is : List Nat) (w3 : World) (is3 : List Nat),
      w.first_release_ = false → X < w.heap.length → SlotsFree X w a i (i + fs.length) →
      deserializeFields des (release fuel) a i w is fs = .ok (w3, is3) →
      KeepsBut (fun b _ => b = a) w w3 ∧ gap w3.heap X = gap w.heap X := by
  intro fs
  induction fs with
  | nil =>
    intro i w is w3 is3 _ _ _ h
    simp only [deserializeFields, Except.ok.injEq, Prod.mk.injEq] at h
    obtain ⟨rfl, _⟩ := h
    exact ⟨KeepsBut.refl _ _, rfl⟩
  | cons f fs ih =>
    intro i w is w3 is3 hf hX hfree h
    obtain ⟨o, ho, hn, hfr⟩ := hfree
    simp only [List.length_cons] at hn
    have hi : i < o.fields.length := by omega
    cases f with
    | scalar v0 =>
      simp only [deserializeFields] at h
      cases hr : readWord is with
      | error e => rw [hr] at h; cases h
      | ok r =>
        obtain ⟨v, is1⟩ := r
        rw [hr] at h
        simp only at h
        have hk := KeepsBut_setField w a i (.scalar v)
        have hg : gap (w.setField a i (.scalar v)).heap X = gap w.heap X := by
          rw [gap_setField w a i _ _ o X ho (List.getElem?_eq_getElem hi),
            hfr i _ (le_refl _) (List.getElem?_eq_getElem hi)]
          simp [fieldRef]
        obtain ⟨k2, g2⟩ := ih (i + 1) (w.setField a i (.scalar v)) is1 w3 is3
          (by rw [hk.1]; exact hf) (by rw [World.setField, update_heap_length]; exact hX)
          (SlotsFree_keeps hk (fun j hj ⟨_, h2⟩ => by omega)
            ⟨o, ho, by omega, fun j f hj hjf => hfr j f (by omega) hjf⟩) h
        exact ⟨(hk.mono (fun _ _ h => h.1)).trans k2, g2.trans hg⟩
    | handle T p0 =>
      simp only [deserializeFields] at h
      cases hd : des w is with
      | error e => rw [hd] at h; cases h
      | ok r =>
        obtain ⟨w1, is1, tmp⟩ := r
        rw [hd] at h
        simp only at h
        obtain ⟨dk, dg, dl⟩ := hdes w is w1 is1 tmp hf hX hd
        have hf1 : w1.first_release_ = false := by rw [dk.1]; exact hf
        have hX1 : X < w1.heap.length := lt_of_lt_of_le hX dk.2.2.2.1
        obtain ⟨o1, ho1, hn1, hfr1⟩ : SlotsFree X w1 a i (i + (fs.length + 1)) :=
          SlotsFree_keeps dk (fun _ _ hF => hF) ⟨o, ho, hn, hfr⟩
        rw [ho1] at h
        simp only at h
        have hi1 : i < o1.fields.length := by omega
        cases hfi : o1.fields[i]? with
        | none => rw [List.getElem?_eq_getElem hi1] at hfi; cases hfi
        | some fi =>
          rw [hfi] at h
          cases fi with
          | scalar v => simp at h
          | handle T0 cur =>
            simp only at h
            cases ha : Ptr.assignTemp (release fuel) w1 (some (a, i)) T cur tmp with
            | error e => rw [ha] at h; cases h
            | ok r2 =>
              obtain ⟨w2, new⟩ := r2
              rw [ha] at h
              simp only at h
              have hcur : cur ≠ some X := by
                intro hc
                have := hfr1 i _ (le_refl _) hfi
                rw [hc] at this
                simp [fieldRef] at this
              obtain ⟨ak, ag, _⟩ := assignTemp_spec X fuel w1 w2 (some (a, i)) T cur tmp new hf1 hX1
                dl (fun a' i' hp => by
                  injection hp with hp
                  injection hp with h1 h2
                  subst h1 h2
                  exact ⟨o1, T0, ho1, hfi, hcur⟩) ha
              have hfree2 : SlotsFree X w2 a (i + 1) (i + 1 + fs.length) :=
                SlotsFree_keeps ak (fun j hj hp => by
                  injection hp with hp
                  injection hp with _ h2
                  omega)
                  ⟨o1, ho1, by omega, fun j f hj hjf => hfr1 j f (by omega) hjf⟩
              obtain ⟨k2, g2⟩ := ih (i + 1) w2 is1 w3 is3 (by rw [ak.1]; exact hf1)
                (lt_of_lt_of_le hX1 ak.2.2.2.1) hfree2 h
              refine ⟨((dk.mono (fun _ _ hF => hF.elim)).trans
                (ak.mono (fun a' j hp => by
                  injection hp with hp
                  injection hp with h1 _
                  exact h1.symm))).trans k2, ?_⟩
              rw [g2, ag, dg]
              simp

/-- `DeserializeObj` as seen from a cell `X` of the heap: the cells are kept and the only
new handle outside the heap is the returned temporary. -/
theorem DeserializeObj_spec (X : Nat) (load : LoadFacility) :
    ∀ (fuel : Nat) (w : World) (s : List Nat) (w1 : World) (s1 : List Nat) (tmp : Nat),
      w.first_release_ = false → X < w.heap.length →
      DeserializeObj fuel load w s = .ok (w1, s1, tmp) →
      Keeps w w1 ∧ gap w1.heap X = gap w.heap X + (if tmp = X then 1 else 0) ∧
        tmp < w1.heap.length := by
  intro fuel
  induction fuel with
  | zero => intro w s w1 s1 tmp _ _ h; simp [DeserializeObj] at h
  | succ fuel ih =>
    intro w s w1 s1 tmp hf hX h
    rw [DeserializeObj] at h
    cases hr : readWord s with
    | error e => rw [hr] at h; cases h
    | ok r =>
      obtain ⟨word, s0⟩ := r
      rw [hr] at h
      simp only at h
      cases hfind : Obj.FindObject w (InstanceId.decode word) with
      | some obj =>
        rw [hfind] at h
        simp only at h
        cases hi : Ptr.Init w (some obj) with
        | error e => rw [hi] at h; cases h
        | ok r2 =>
          obtain ⟨t, w2⟩ := r2
          rw [hi] at h
          simp only [Except.ok.injEq, Prod.mk.injEq] at h
          obtain ⟨rfl, _, rfl⟩ := h
          obtain ⟨_, e2, e3, e4, e5⟩ := Init_some_spec X w obj t w2 hi
          exact ⟨e3, e5, by rw [e4]; exact e2⟩
      | none =>
        rw [hfind] at h
        simp only at h
        cases hw : readWord (load (InstanceId.decode word).ToString) with
        | error e => rw [hw] at h; cases h
        | ok r2 =>
          obtain ⟨class_id, is⟩ := r2
          rw [hw] at h
          simp only at h
          cases hc : Obj.CreateClassById
              { w with loads := w.loads ++ [(InstanceId.decode word).ToString] } class_id
              (InstanceId.decode word) with
          | error e => rw [hc] at h; cases h
          | ok r3 =>
            obtain ⟨obj, wc⟩ := r3
            rw [hc] at h
            simp only at h
            obtain ⟨c1, c2, c3, c4, c5, c6, c7, _, reg, b2d, d, c, o, _, _, _, _, ho, _, _, _, _,
              hfree⟩ := created_spec X _ class_id (InstanceId.decode word) obj wc hc (le_of_lt hX)
            simp only at c1 c2 c3 c4 c5 c6 c7
            rw [ho] at h
            simp only at h
            cases hd : deserializeFields (DeserializeObj fuel load) (release fuel) obj 0
                (Obj.AddObject (wc.update obj (fun o => { o with id_ := InstanceId.decode word }))
                  obj) is o.fields with
            | error e => rw [hd] at h; cases h
            | ok r4 =>
              obtain ⟨w3, is3⟩ := r4
              rw [hd] at h
              simp only at h
              cases hi : Ptr.Init w3 (some obj) with
              | error e => rw [hi] at h; cases h
              | ok r5 =>
                obtain ⟨t, w4⟩ := r5
                rw [hi] at h
                simp only [Except.ok.injEq, Prod.mk.injEq] at h
                obtain ⟨rfl, _, rfl⟩ := h
                have hk2 : Keeps w (Obj.AddObject
                    (wc.update obj (fun o => { o with id_ := InstanceId.decode word })) obj) :=
                  Keeps_of_agree _ _ c2 c3 c4 (le_of_lt c5) c6
                obtain ⟨fk, fg⟩ := deserializeFields_spec X obj fuel (DeserializeObj fuel load)
                  (fun w is w1 is1 tmp h1 h2 h3 => ih w is w1 is1 tmp h1 h2 h3) o.fields 0 _ is w3
                  is3 (by rw [c2]; exact hf) (lt_trans hX c5)
                  ⟨o, ho, by simp, fun j f _ hjf => hfree f (List.mem_iff_getElem?.2 ⟨j, hjf⟩)⟩ hd
                obtain ⟨_, e2, e3, e4, e5⟩ := Init_some_spec X w3 obj t w4 hi
                have hne : ¬ obj = X := by omega
                refine ⟨(Keeps_extend hk2 fk (by omega)).trans e3, ?_, by rw [e4]; exact e2⟩
                rw [e5, fg, c7 hX]

theorem decode_encode (i : Nat) (hi : i < 2147483648) :
    (InstanceId.decode (InstanceId.encode ⟨i, kLoaded⟩)).id_ = i := by
  have h1 : kLoaded = 2 ^ 31 := by decide
  have h2 : kIdBitMask = 2 ^ 31 - 1 := by decide
  simp only [InstanceId.decode, InstanceId.encode, h1, h2]
  rw [Nat.and_pow_two_sub_one_eq_mod]
  have hp : (2 : Nat) ^ 31 = 2147483648 := by norm_num
  have hlt : i < 2 ^ 31 := by omega
  have : i ||| 2 ^ 31 = 2 ^ 31 * 1 + i := by
    rw [Nat.lor_comm]
    have := Nat.mul_add_lt_is_or hlt 1
    simpa using this.symm
  rw [this]
  omega

/-! ### `Ptr::Load` -/


/-- What a load that returns has done: a placeholder handle of declared class `T`, bound to the
cell `p` with id `i` below `2^31`, is loaded in a world whose index has no entry for `i` and in
which no handle member is bound to the next free address, against a load facility whose record
for the key of `i` starts with a class id that resolves to the registered class `c`, not the
root class and with capability `T`.  If the load returns, the handle is bound to the new cell
(the next free address), it is truthy, `GetId()` is `i`, the cell has the class of `c`, and its
reference count is the number of handle members bound to it plus one. -/
theorem Load_resident_of_ok (fuel : Nat) (load : LoadFacility) (w : World) (T p i : Nat)
    (ph : Obj) (class_id : Nat) (payload : List Nat) (reg : List (Nat × ClassDecl))
    (b2d : List (Nat × Nat)) (d : Nat) (c : ClassDecl) (w1 : World) (p1 : Option Nat)
    (hp : w.heap[p]? = some ph) (hph : ph.IsPlaceholder = true) (hid : ph.id_.id_ = i)
    (_hi0 : 0 < i) (hi1 : i < 2147483648)
    (hidx : Obj.FindObject w ⟨i, kLoaded⟩ = none)
    (hrec : load (Nat.repr i) = class_id :: payload)
    (hreg : w.registry_ = some reg) (hb2d : w.base_to_derived_ = some b2d)
    (hres : resolveChain (b2d.length + 1) b2d class_id = some d) (hc : mapFind reg d = some c)
    (hcls : c.class_id_ ≠ kObjClassId) (hcap : T = kObjClassId ∨ T ∈ c.interfaces)
    (hwild : refs w.heap w.heap.length = 0)
    (hload : Ptr.Load fuel load w T (some p) = .ok (w1, p1)) :
    (p1 = some w.heap.length ∧ Ptr.toBool w1 p1 = .ok true ∧ Ptr.GetId w1 p1 = .ok i ∧
      ∃ o, w1.heap[w.heap.length]? = some o ∧ o.class_id = c.class_id_ ∧
        o.reference_count_ = refs w1.heap w.heap.length + 1) ∧
    (∀ (a : Nat) (o : Obj), w.heap[a]? = some o → o.IsPlaceholder = false →
      Ptr.Load fuel load w T (some a) = .ok (w, some a)) := by
  refine ⟨?_, fun a o ho hres => by simp [Ptr.Load, ho, hres]⟩
  have hplt := lt_of_get hp
  simp only [Ptr.Load, hp, hph, Bool.not_true, Bool.false_eq_true, if_false, hid] at hload
  cases hdes : DeserializeObj fuel load { w with first_release_ := false }
      [InstanceId.encode ⟨i, kLoaded⟩] with
  | error e => rw [hdes] at hload; cases hload
  | ok r =>
    obtain ⟨wa, sa, tmp⟩ := r
    rw [hdes] at hload
    simp only at hload
    cases hasg : Ptr.assignTemp (release fuel) wa none T (some p) tmp with
    | error e => rw [hasg] at hload; cases hload
    | ok r2 =>
      obtain ⟨wb, pb⟩ := r2
      rw [hasg] at hload
      simp only [Except.ok.injEq, Prod.mk.injEq] at hload
      obtain ⟨rfl, rfl⟩ := hload
      -- the run of `DeserializeObj`
      cases fuel with
      | zero => simp [DeserializeObj] at hdes
      | succ fuel =>
        rw [DeserializeObj] at hdes
        have hdec : (InstanceId.decode (InstanceId.encode ⟨i, kLoaded⟩)).id_ = i :=
          decode_encode i hi1
        have hfind : Obj.FindObject { w with first_release_ := false }
            (InstanceId.decode (InstanceId.encode ⟨i, kLoaded⟩)) = none := by
          simp only [Obj.FindObject, hdec] at hidx ⊢
          exact hidx
        simp only [readWord, hfind, InstanceId.ToString, hdec, hrec] at hdes
        cases hcr : Obj.CreateClassById
            { w with first_release_ := false, loads := w.loads ++ [Nat.repr i] } class_id
            (InstanceId.decode (InstanceId.encode ⟨i, kLoaded⟩)) with
        | error e => rw [hcr] at hdes; cases hdes
        | ok r3 =>
          obtain ⟨obj, wc⟩ := r3
          rw [hcr] at hdes
          simp only at hdes
          obtain ⟨c1, c2, c3, c4, c5, c6, _, c8, reg', b2d', d', c', o, g1, g2, g3, g4, ho, g5, g6,
            g7, _, hfree⟩ := created_spec w.heap.length _ class_id _ obj wc hcr (le_refl _)
          simp only at c1 c2 c3 c4 c5 c6 g1 g2
          rw [hreg] at g1; injection g1 with g1; subst g1
          rw [hb2d] at g2; injection g2 with g2; subst g2
          rw [hres] at g3; injection g3 with g3; subst g3
          rw [hc] at g4; injection g4 with g4; subst g4
          subst c1
          rw [ho] at hdes
          simp only at hdes
          cases hd : deserializeFields (DeserializeObj fuel load) (release fuel) w.heap.length 0
              (Obj.AddObject (wc.update w.heap.length
                (fun o => { o with id_ := InstanceId.decode (InstanceId.encode ⟨i, kLoaded⟩) }))
                w.heap.length) payload o.fields with
          | error e => rw [hd] at hdes; cases hdes
          | ok r4 =>
            obtain ⟨w3, is3⟩ := r4
            rw [hd] at hdes
            simp only at hdes
            cases hi : Ptr.Init w3 (some w.heap.length) with
            | error e => rw [hi] at hdes; cases hdes
            | ok r5 =>
              obtain ⟨t, w4⟩ := r5
              rw [hi] at hdes
              simp only [Except.ok.injEq, Prod.mk.injEq] at hdes
              obtain ⟨rfl, _, rfl⟩ := hdes
              obtain ⟨fk, fg⟩ := deserializeFields_spec w.heap.length w.heap.length fuel
                (DeserializeObj fuel load)
                (fun v is v1 is1 tmp h1 h2 h3 =>
                  DeserializeObj_spec w.heap.length load fuel v is v1 is1 tmp h1 h2 h3)
                o.fields 0 _ payload w3 is3 (by rw [c2]) c5
                ⟨o, ho, by simp, fun j f _ hjf => hfree f (List.mem_iff_getElem?.2 ⟨j, hjf⟩)⟩ hd
              obtain ⟨_, e2, e3, e4, e5⟩ := Init_some_spec w.heap.length w3 w.heap.length t w4 hi
              -- the cell of the new object after its members have been read
              obtain ⟨o3, ho3, k1, k2, k3, _⟩ := fk.2.2.2.2 w.heap.length o ho
              obtain ⟨o4, ho4, l1, l2, l3, _⟩ := e3.2.2.2.2 w.heap.length o3 ho3
              have hf4 : w4.first_release_ = false := by rw [e3.1, fk.1, c2]
              have hne : p ≠ w.heap.length := by omega
              obtain ⟨ak, ag, acast⟩ := assignTemp_spec w.heap.length fuel.succ w4 wb none T
                (some p) w.heap.length pb hf4 (by rw [e4]; exact e2) (by rw [e4]; exact e2)
                (fun a i h => by cases h) hasg
              have hnew : pb = some w.heap.length := by
                apply acast
                · intro h; injection h with h; exact hne h
                · rcases hcap with h | h
                  · exact Or.inl h
                  · exact Or.inr ⟨o4, ho4, by rw [l2, k2, g6]; exact h⟩
              obtain ⟨o5, ho5, m1, _, m3, _⟩ := ak.2.2.2.2 w.heap.length o4 ho4
              have hcls5 : o5.class_id = c.class_id_ := by rw [m1, l1, k1, g5]
              have hid5 : o5.id_.id_ = i := by rw [m3, l3, k3, g7, hdec]
              have hgap : gap wb.heap w.heap.length = 1 := by
                rw [ag, e5, fg, c8 rfl, hwild, hnew]
                simp [hne]
              refine ⟨hnew, ?_, ?_, o5, ho5, hcls5, ?_⟩
              · rw [hnew]
                simp [Ptr.toBool, ho5, Obj.IsPlaceholder, hcls5, hcls]
              · rw [hnew]
                simp [Ptr.GetId, ho5, hid5]
              · simp only [gap, countOf, ho5] at hgap
                simp only
                omega

/-! ### The round trip -/

theorem digitChar_toNat (k : Nat) (hk : k < 10) : (Nat.digitChar k).toNat - 48 = k := by
  interval_cases k <;> rfl

theorem toDigitsCore_append (fuel : Nat) :
    ∀ (n : Nat) (ds : List Char),
      Nat.toDigitsCore 10 fuel n ds = Nat.toDigitsCore 10 fuel n [] ++ ds := by
  induction fuel with
  | zero => intro n ds; simp [Nat.toDigitsCore]
  | succ fuel ih =>
    intro n ds
    simp only [Nat.toDigitsCore]
    by_cases h : n / 10 = 0
    · simp [h]
    · simp only [h, if_false]
      rw [ih (n / 10) (Nat.digitChar (n % 10) :: ds), ih (n / 10) [Nat.digitChar (n % 10)]]
      simp

theorem digitsValue_toDigitsCore (fuel : Nat) :
    ∀ n : Nat, n < fuel → digitsValue (Nat.toDigitsCore 10 fuel n []) = n := by
  induction fuel with
  | zero => intro n h; omega
  | succ fuel ih =>
    intro n hn
    simp only [Nat.toDigitsCore]
    by_cases h : n / 10 = 0
    · simp only [h, if_true, digitsValue, List.foldl]
      rw [digitChar_toNat _ (Nat.mod_lt _ (by decide))]
      omega
    · simp only [h, if_false]
      rw [toDigitsCore_append]
      have := ih (n / 10) (by omega)
      simp only [digitsValue, List.foldl_append, List.foldl] at this ⊢
      rw [this, digitChar_toNat _ (Nat.mod_lt _ (by decide))]
      omega

theorem repr_injective (m n : Nat) (h : Nat.repr m = Nat.repr n) : m = n := by
  have h1 : Nat.toDigits 10 m = Nat.toDigits 10 n := by
    have := congrArg String.data h
    simpa [Nat.repr, List.asString] using this
  have h2 := congrArg digitsValue h1
  simp only [Nat.toDigits] at h2
  rw [digitsValue_toDigitsCore _ _ (by omega), digitsValue_toDigitsCore _ _ (by omega)] at h2
  exact h2

theorem serializeFields_stream (heap : List Obj)
    (ser : Domain → List Nat → Option Nat → Except Fault (Domain × List Nat))
    (hser : ∀ d os p d1 os1, ser d os p = .ok (d1, os1) →
      (∀ b ∈ d.objects_, b ∈ d1.objects_) ∧ (Recorded heap d → Recorded heap d1) ∧
        ∃ y o, p = some y ∧ heap[y]? = some o ∧ os1 = os ++ [o.id_.encode]) :
    ∀ (fs : List Field) (d : Domain) (os : List Nat) (d1 : Domain) (os1 : List Nat),
      serializeFields ser d os fs = .ok (d1, os1) →
      (∀ b ∈ d.objects_, b ∈ d1.objects_) ∧ (Recorded heap d → Recorded heap d1) ∧
        os1 = os ++ fs.map (wordOf heap) := by
  intro fs
  induction fs with
  | nil =>
    intro d os d1 os1 h
    simp only [serializeFields, Except.ok.injEq, Prod.mk.injEq] at h
    obtain ⟨rfl, rfl⟩ := h
    exact ⟨fun b hb => hb, fun h => h, by simp⟩
  | cons f fs ih =>
    intro d os d1 os1 h
    cases f with
    | scalar v =>
      simp only [serializeFields] at h
      obtain ⟨h1, h2, h3⟩ := ih _ _ _ _ h
      exact ⟨h1, h2, by rw [h3]; simp [wordOf]⟩
    | handle T p =>
      simp only [serializeFields] at h
      cases hs : ser d os p with
      | error e => rw [hs] at h; cases h
      | ok r =>
        obtain ⟨dm, osm⟩ := r
        rw [hs] at h
        simp only at h
        obtain ⟨k1, k2, y, o, rfl, ho, rfl⟩ := hser _ _ _ _ _ hs
        obtain ⟨h1, h2, h3⟩ := ih _ _ _ _ h
        exact ⟨fun b hb => h1 b (k1 b hb), fun hr => h2 (k2 hr), by rw [h3]; simp [wordOf, ho]⟩

theorem SerializeObj_stream (heap : List Obj) :
    ∀ (fuel : Nat) (d : Domain) (s : List Nat) (p : Option Nat) (d1 : Domain) (s1 : List Nat),
      SerializeObj fuel heap d s p = .ok (d1, s1) →
      (∀ b ∈ d.objects_, b ∈ d1.objects_) ∧ (Recorded heap d → Recorded heap d1) ∧
        ∃ y o, p = some y ∧ heap[y]? = some o ∧ s1 = s ++ [o.id_.encode] := by
  intro fuel
  induction fuel with
  | zero => intro d s p d1 s1 h; simp [SerializeObj] at h
  | succ fuel ih =>
    intro d s p d1 s1 h
    cases p with
    | none => simp [SerializeObj] at h
    | some a =>
      cases ho : heap[a]? with
      | none => simp [SerializeObj, ho] at h
      | some o =>
        rw [SerializeObj_unfold _ _ _ _ _ _ ho] at h
        by_cases hp : o.IsPlaceholder = true
        · simp only [hp, if_true, Except.ok.injEq, Prod.mk.injEq] at h
          obtain ⟨rfl, rfl⟩ := h
          exact ⟨fun b hb => hb, fun h => h, a, o, rfl, ho, rfl⟩
        · simp only [hp, if_false] at h
          by_cases hin : a ∈ d.objects_
          · simp only [hin, if_true, Except.ok.injEq, Prod.mk.injEq] at h
            obtain ⟨rfl, rfl⟩ := h
            exact ⟨fun b hb => hb, fun h => h, a, o, rfl, ho, rfl⟩
          · simp only [hin, if_false] at h
            cases hf : serializeFields (SerializeObj fuel heap)
                { d with objects_ := a :: d.objects_ } [o.class_id] o.fields with
            | error e => rw [hf] at h; cases h
            | ok r =>
              obtain ⟨dm, osm⟩ := r
              rw [hf] at h
              simp only [Except.ok.injEq, Prod.mk.injEq] at h
              obtain ⟨rfl, rfl⟩ := h
              obtain ⟨h1, h2, h3⟩ := serializeFields_stream heap _ (ih) _ _ _ _ _ hf
              refine ⟨fun b hb => h1 b (List.mem_cons_of_mem _ hb), ?_, a, o, rfl, ho, rfl⟩
              intro hr
              have hr1 : Recorded heap { d with objects_ := a :: d.objects_ } := by
                intro e he
                obtain ⟨b, ob, hb, hob, hrec⟩ := hr e he
                exact ⟨b, ob, List.mem_cons_of_mem _ hb, hob, hrec⟩
              have hr2 := h2 hr1
              intro e he
              simp only [List.mem_append, List.mem_singleton] at he
              rcases he with he | he
              · exact hr2 e he
              · refine ⟨a, o, h1 a (List.mem_cons_self _ _), ho, ?_⟩
                rw [he, h3]
                rfl

theorem serializeFields_closedOn (heap : List Obj) (P : Nat → Prop)
    (ser : Domain → List Nat → Option Nat → Except Fault (Domain × List Nat))
    (hser : ∀ d os y e, P y → y < heap.length → ser d os (some y) = .error e → e = .fuel) :
    ∀ (fs : List Field),
      (∀ T q, Field.handle T q ∈ fs → ∃ y, q = some y ∧ y < heap.length ∧ P y) →
      ∀ (d : Domain) (os : List Nat) (e : Fault),
        serializeFields ser d os fs = .error e → e = .fuel := by
  intro fs
  induction fs with
  | nil => intro _ d os e h; simp [serializeFields] at h
  | cons f fs ih =>
    intro hfs d os e h
    have hfs1 : ∀ T q, Field.handle T q ∈ fs → ∃ y, q = some y ∧ y < heap.length ∧ P y :=
      fun T q hq => hfs T q (List.mem_cons_of_mem _ hq)
    cases f with
    | scalar v => simp only [serializeFields] at h; exact ih hfs1 _ _ _ h
    | handle T p =>
      obtain ⟨y, hy, hlt, hpy⟩ := hfs T p (List.mem_cons_self _ _)
      subst hy
      simp only [serializeFields] at h
      cases hs : ser d os (some y) with
      | error e1 =>
        rw [hs] at h
        simp only [Except.error.injEq] at h
        subst h
        exact hser _ _ _ _ hpy hlt hs
      | ok r =>
        obtain ⟨dm, osm⟩ := r
        rw [hs] at h
        exact ih hfs1 _ _ _ h

theorem SerializeObj_closedOn (heap : List Obj) (P : Nat → Prop)
    (hc : ∀ (x : Nat) (o : Obj) (T : Nat) (q : Option Nat), P x → heap[x]? = some o →
      o.IsPlaceholder = false → Field.handle T q ∈ o.fields →
      ∃ y, q = some y ∧ y < heap.length ∧ P y) :
    ∀ (fuel : Nat) (d : Domain) (s : List Nat) (a : Nat) (e : Fault), P a → a < heap.length →
      SerializeObj fuel heap d s (some a) = .error e → e = .fuel := by
  intro fuel
  induction fuel with
  | zero => intro d s a e _ _ h; simp only [SerializeObj, Except.error.injEq] at h; exact h.symm
  | succ fuel ih =>
    intro d s a e hpa ha h
    have ho : heap[a]? = some heap[a] := List.getElem?_eq_getElem ha
    rw [SerializeObj_unfold _ _ _ _ _ _ ho] at h
    by_cases hp : (heap[a]).IsPlaceholder = true
    · simp [hp] at h
    · have hpf : (heap[a]).IsPlaceholder = false := by simpa using hp
      simp only [hpf, Bool.false_eq_true, if_false] at h
      by_cases hin : a ∈ d.objects_
      · simp [hin] at h
      · simp only [hin, if_false] at h
        cases hf : serializeFields (SerializeObj fuel heap)
            { d with objects_ := a :: d.objects_ } [(heap[a]).class_id] (heap[a]).fields with
        | error e1 =>
          rw [hf] at h
          simp only [Except.error.injEq] at h
          subst h
          exact serializeFields_closedOn heap P _ (fun d os y e hpy hy hh => ih d os y e hpy hy hh) _
            (fun T q hq => hc a _ T q hpa ho hpf hq) _ _ _ hf
        | ok r => rw [hf] at h; simp at h

/-- The call of `Ptr::Serialize` returns when every handle member of a cell reachable from the handle is
bound to a cell of the heap. -/
theorem Serialize_ok_on (heap : List Obj) (a : Nat) (ha : Resident heap a)
    (hc : ∀ (x : Nat) (o : Obj) (T : Nat) (q : Option Nat), Reaches heap a x →
      heap[x]? = some o → Field.handle T q ∈ o.fields → ∃ y, q = some y ∧ Resident heap y) :
    ∃ d, Ptr.Serialize heap (some a) = .ok d := by
  have hlt : a < heap.length := by
    obtain ⟨oa, hoa, _⟩ := ha
    exact lt_of_get hoa
  cases h : SerializeObj (heap.length + 1) heap ⟨[], []⟩ [] (some a) with
  | ok r => exact ⟨r.1, by simp [Ptr.Serialize, h]⟩
  | error e =>
    have := SerializeObj_closedOn heap (Reaches heap a) (by
      intro x o T q hx ho hpl hq
      obtain ⟨y, rfl, hy⟩ := hc x o T q hx ho hq
      obtain ⟨oy, hoy, hply⟩ := hy
      exact ⟨y, rfl, lt_of_get hoy, hx.comp ⟨⟨o, ho, hpl⟩,
        Relation.ReflTransGen.single ⟨o, T, ho, hpl, hq, ⟨oy, hoy, hply⟩⟩⟩⟩)
      _ _ _ _ _ ⟨ha, Relation.ReflTransGen.refl⟩ hlt h
    subst this
    exact absurd h (SerializeObj_fuel heap _ _ _ _ (by rw [unvisited_empty]; omega))

/-- What the load facility returns for the key of a serialized cell: the record of that cell,
when the cells reachable from the handle have distinct ids. -/
theorem storeLoad_record (heap : List Obj) (a : Nat) (d : Domain)
    (hd : Ptr.Serialize heap (some a) = .ok d)
    (huniq : ∀ (x y : Nat) (ox oy : Obj), Reaches heap a x → Reaches heap a y →
      heap[x]? = some ox → heap[y]? = some oy → ox.id_.id_ = oy.id_.id_ → x = y)
    (x : Nat) (o : Obj) (hx : Reaches heap a x) (ho : heap[x]? = some o) :
    storeLoad d.stored (Nat.repr o.id_.id_) = o.class_id :: o.fields.map (wordOf heap) := by
  simp only [Ptr.Serialize] at hd
  cases hs : SerializeObj (heap.length + 1) heap ⟨[], []⟩ [] (some a) with
  | error e => rw [hs] at hd; cases hd
  | ok r =>
    obtain ⟨d1, s1⟩ := r
    rw [hs] at hd
    simp only [Except.ok.injEq] at hd
    subst hd
    have hv := (SerializeObj_visits heap _ _ _ _ _ _ hs).reaches
    have hrec := (SerializeObj_stream heap _ _ _ _ _ _ hs).2.1 (by intro e he; cases he)
    have hmem : x ∈ d1.objects_ := (hv.2.1 x).2 hx
    have hkey : keyOf heap x ∈ d1.stored.map Prod.fst := by
      apply hv.2.2.symm.subset
      simp only [List.map_nil, List.nil_append, List.mem_map]
      exact ⟨x, hmem, rfl⟩
    have hk : keyOf heap x = Nat.repr o.id_.id_ := by simp [keyOf, ho, InstanceId.ToString]
    rw [hk] at hkey
    simp only [List.mem_map] at hkey
    obtain ⟨e, he, hek⟩ := hkey
    simp only [storeLoad]
    cases hf : d1.stored.reverse.find? (fun e => e.1 == Nat.repr o.id_.id_) with
    | none =>
      rw [List.find?_eq_none] at hf
      have := hf e (by simpa using he)
      simp [hek] at this
    | some e1 =>
      have h1 := List.find?_some hf
      have h2 : e1 ∈ d1.stored := by simpa using List.mem_of_find?_eq_some hf
      obtain ⟨b, ob, hb, hob, hre⟩ := hrec e1 h2
      have hbr : Reaches heap a b := (hv.2.1 b).1 hb
      have hid : ob.id_.id_ = o.id_.id_ := by
        apply repr_injective
        have : e1.1 = Nat.repr o.id_.id_ := by simpa using h1
        rw [hre] at this
        simpa [recordOf, InstanceId.ToString] using this
      have hbx := huniq b x ob o hbr hx hob ho hid
      subst hbx
      rw [ho] at hob
      injection hob with hob
      subst hob
      simp only [hre, recordOf]

theorem mapFind_mapErase {α : Type} (m : List (Nat × α)) (k k1 : Nat) :
    mapFind (mapErase m k) k1 = if k1 = k then none else mapFind m k1 := by
  induction m with
  | nil => simp [mapErase, mapFind]
  | cons e m ih =>
    obtain ⟨k2, x⟩ := e
    simp only [mapErase] at ih ⊢
    by_cases h2 : k2 = k
    · subst h2
      simp only [List.filter, bne_self_eq_false, ih, mapFind]
      by_cases h1 : k1 = k2
      · simp [h1]
      · have : ¬ k2 = k1 := fun h => h1 h.symm
        simp [h1, this]
    · have hb : (k2 != k) = true := by simpa using h2
      simp only [List.filter, hb, mapFind, ih]
      by_cases h1 : k2 = k1
      · subst h1; simp [h2]
      · simp [h1]

theorem mapFind_mapSet {α : Type} (m : List (Nat × α)) (k k1 : Nat) (x : α) :
    mapFind (mapSet m k x) k1 = if k = k1 then some x else mapFind m k1 := by
  simp only [mapSet, mapFind, mapFind_mapErase]
  by_cases h : k = k1
  · simp [h]
  · have : ¬ k1 = k := fun h1 => h h1.symm
    simp [h, this]

theorem mapErase_of_none {α : Type} (m : List (Nat × α)) (k : Nat) (h : mapFind m k = none) :
    mapErase m k = m := by
  induction m with
  | nil => rfl
  | cons e m ih =>
    obtain ⟨k2, x⟩ := e
    simp only [mapFind] at h
    by_cases h2 : k2 = k
    · simp [h2] at h
    · simp only [h2, if_false] at h
      have hb : (k2 != k) = true := by simpa using h2
      simp only [mapErase, List.filter, hb] at ih ⊢
      rw [ih h]

theorem Agree.andThen {P : Nat → Prop} {v v1 v2 : World} (h1 : Agree P v v1) (h2 : Agree P v1 v2) :
    Agree P v v2 := by
  obtain ⟨a1, a2, a3, a4, a5, a6⟩ := h1
  obtain ⟨b1, b2, b3, b4, b5, b6⟩ := h2
  refine ⟨by rw [b1, a1], by rw [b2, a2], by rw [b3, a3], by omega, by omega, ?_⟩
  intro b hb hP
  rw [b6 b (by omega) hP, a6 b hb hP]

theorem Agree.widen {P Q : Nat → Prop} {v v1 : World} (h : Agree P v v1)
    (hPQ : ∀ b, b < v.heap.length → P b → Q b) : Agree Q v v1 := by
  obtain ⟨a1, a2, a3, a4, a5, a6⟩ := h
  exact ⟨a1, a2, a3, a4, a5, fun b hb hQ => a6 b hb (fun hP => hQ (hPQ b hb hP))⟩

theorem Agree_update (v : World) (a : Nat) (f : Obj → Obj) : Agree (fun b => b = a) v (v.update a f) := by
  refine ⟨by simp, by simp, by simp, by simp, by simp, ?_⟩
  intro b hb hne
  have : ¬ a = b := fun h => hne h.symm
  simp [this]

theorem Agree_NewPlaceholder (v : World) : Agree (fun _ => False) v (Ptr.NewPlaceholder v).2 := by
  refine ⟨by simp, by simp, by simp, by simp, by simp, ?_⟩
  intro b hb _
  rw [NewPlaceholder_get]
  have : b ≠ v.heap.length := by omega
  simp [this]

/-- The release of a handle bound to a cell without members, between two outermost releases:
the count is lowered and the cell destroyed when the count has become 0; nothing else
changes, the index apart, which loses the entry under the id of the cell when the cell is
destroyed. -/
theorem release_leaf (fuel : Nat) (v : World) (c : Nat) (o : Obj)
    (hf : v.first_release_ = false) (hc : v.heap[c]? = some o) (hfs : o.fields = []) :
    ∃ v1, release (fuel + 1) v (some c) = .ok v1 ∧ Agree (fun b => b = c) v v1 ∧
      v1.counter = v.counter ∧ v1.heap.length = v.heap.length ∧
      (v1.all_objects_ = v.all_objects_ ∨
        v1.all_objects_ = mapErase v.all_objects_ o.id_.id_) ∧
      ∃ (n : Int) (al : Bool),
        v1.heap[c]? = some { o with reference_count_ := n, alive := al } := by
  rw [release_flag_false _ _ _ hf]
  have hlt := lt_of_get hc
  by_cases h1 : o.reference_count_ = 1
  · rw [releaseTail_last _ _ _ _ hc h1 (by rw [hfs]; intro f hf; cases hf)]
    refine ⟨_, rfl, ⟨rfl, rfl, rfl, le_refl _, by simp, ?_⟩, rfl, by simp, Or.inr rfl,
      0, false, by simp [hlt]⟩
    intro b hb hne
    have : ¬ c = b := fun h => hne h.symm
    simp [List.getElem?_set, this]
  · rw [releaseTail_keep _ _ _ _ hc h1]
    refine ⟨_, rfl, Agree_update _ _ _, by simp, by simp, Or.inl (by simp),
      o.reference_count_ - 1, o.alive, by simp [hc]⟩

/-- The release of a handle bound to a cell whose count is not 1, between two outermost
releases: the count is lowered. -/
theorem release_keep (fuel : Nat) (v : World) (t : Nat) (o : Obj)
    (hf : v.first_release_ = false) (ht : v.heap[t]? = some o) (h1 : o.reference_count_ ≠ 1) :
    release (fuel + 1) v (some t) =
      .ok (v.update t (fun c => { c with reference_count_ := c.reference_count_ - 1 })) := by
  rw [release_flag_false _ _ _ hf, releaseTail_keep _ _ _ _ ht h1]

/-- The end of an emptied temporary: a placeholder is made and destroyed. -/
theorem endTemp_ok (fuel : Nat) (v : World) (hf : v.first_release_ = false)
    (hfree : ∀ k, v.counter < k → mapFind v.all_objects_ k = none) :
    ∃ v1, endTemp (release (fuel + 1)) v = .ok v1 ∧ Agree (fun _ => False) v v1 ∧
      v1.all_objects_ = v.all_objects_ ∧ v1.counter = v.counter + 1 := by
  simp only [endTemp, Ptr.Init]
  have hph := NewPlaceholder_get v v.heap.length
  simp only [if_true] at hph
  obtain ⟨v1, h1, h2, h3, h4, h5, _⟩ := release_leaf fuel (Ptr.NewPlaceholder v).2
    (Ptr.NewPlaceholder v).1 _ (by simp [hf]) (by rw [NewPlaceholder_fst]; exact hph) rfl
  refine ⟨v1, h1, ?_, ?_, by rw [h3]; simp⟩
  · have h0 : Agree (fun b => b = (Ptr.NewPlaceholder v).1) v (Ptr.NewPlaceholder v).2 :=
      (Agree_NewPlaceholder v).widen (fun _ _ h => h.elim)
    refine (h0.andThen h2).widen ?_
    intro b hb hbe
    rw [NewPlaceholder_fst] at hbe
    omega
  · rcases h5 with h5 | h5
    · rw [h5]; simp
    · rw [h5]
      simp only [NewPlaceholder_all_objects]
      exact mapErase_of_none _ _ (hfree _ (by omega))

@[simp] theorem poke_first_release (w : World) (pl : Place) (T : Nat) (x : Option Nat) :
    (w.poke pl T x).first_release_ = w.first_release_ := by
  cases pl with
  | none => rfl
  | some p => simp [World.poke, World.setField]

@[simp] theorem poke_registry (w : World) (pl : Place) (T : Nat) (x : Option Nat) :
    (w.poke pl T x).registry_ = w.registry_ := by
  cases pl with
  | none => rfl
  | some p => simp [World.poke, World.setField]

@[simp] theorem poke_base_to_derived (w : World) (pl : Place) (T : Nat) (x : Option Nat) :
    (w.poke pl T x).base_to_derived_ = w.base_to_derived_ := by
  cases pl with
  | none => rfl
  | some p => simp [World.poke, World.setField]

@[simp] theorem poke_all_objects (w : World) (pl : Place) (T : Nat) (x : Option Nat) :
    (w.poke pl T x).all_objects_ = w.all_objects_ := by
  cases pl with
  | none => rfl
  | some p => simp [World.poke, World.setField]

@[simp] theorem poke_counter (w : World) (pl : Place) (T : Nat) (x : Option Nat) :
    (w.poke pl T x).counter = w.counter := by
  cases pl with
  | none => rfl
  | some p => simp [World.poke, World.setField]

@[simp] theorem poke_length (w : World) (pl : Place) (T : Nat) (x : Option Nat) :
    (w.poke pl T x).heap.length = w.heap.length := by
  cases pl with
  | none => rfl
  | some p => simp [World.poke, World.setField]

theorem poke_get_other (w : World) (pl : Place) (T : Nat) (x : Option Nat) (b : Nat)
    (h : ∀ i, pl ≠ some (b, i)) : (w.poke pl T x).heap[b]? = w.heap[b]? := by
  cases pl with
  | none => rfl
  | some p =>
    obtain ⟨a, i⟩ := p
    have : ¬ a = b := fun hab => h i (by rw [hab])
    simp [World.poke, World.setField, this]

theorem poke_get_self (w : World) (T : Nat) (x : Option Nat) (a i : Nat) :
    (w.poke (some (a, i)) T x).heap[a]? =
      (w.heap[a]?).map (fun o => { o with fields := o.fields.set i (.handle T x) }) := by
  simp [World.poke, World.setField]

/-- The move assignment of the temporary bound to the resident cell `tmp` into a handle
that is bound to a cell `ph` of the placeholder class without members: the handle is bound
to `tmp`, the placeholder is released, the count of `tmp` is as before. -/
theorem assignTemp_ok (fuel : Nat) (v : World) (pl : Place) (T ph tmp : Nat) (oph ot : Obj)
    (hf : v.first_release_ = false)
    (hfree : ∀ k, v.counter < k → mapFind v.all_objects_ k = none)
    (hph : v.heap[ph]? = some oph) (hphc : oph.class_id = kObjClassId) (hphf : oph.fields = [])
    (ht : v.heap[tmp]? = some ot) (htc : ot.class_id ≠ kObjClassId)
    (htr : 1 ≤ ot.reference_count_) (hcap : T = kObjClassId ∨ T ∈ ot.interfaces)
    (hpl : ∀ a i, pl = some (a, i) → a ≠ ph ∧ a ≠ tmp) :
    ∃ v2, Ptr.assignTemp (release (fuel + 1)) v pl T (some ph) tmp = .ok (v2, some tmp) ∧
      Agree (fun b => b = ph ∨ ∃ i, pl = some (b, i)) v v2 ∧
      (v2.all_objects_ = v.all_objects_ ∨
        v2.all_objects_ = mapErase v.all_objects_ oph.id_.id_) ∧
      (∃ (n : Int) (al : Bool),
        v2.heap[ph]? = some { oph with reference_count_ := n, alive := al }) ∧
      (∀ a i oa, pl = some (a, i) → v.heap[a]? = some oa →
        v2.heap[a]? = some { oa with fields := oa.fields.set i (.handle T (some tmp)) }) := by
  have hne : ph ≠ tmp := by
    intro h
    subst h
    rw [hph] at ht
    injection ht with ht
    subst ht
    exact htc hphc
  have hne1 : ¬ tmp = ph := fun h => hne h.symm
  obtain ⟨v1, r1, ag1, cn1, ln1, ix1, n1, al1, c1⟩ := release_leaf fuel v ph oph hf hph hphf
  obtain ⟨f1, _, _, _, _, g1⟩ := ag1
  have hfree1 : ∀ k, v1.counter < k → mapFind v1.all_objects_ k = none := by
    intro k hk
    rw [cn1] at hk
    rcases ix1 with h | h
    · rw [h]; exact hfree k hk
    · rw [h, mapFind_mapErase]
      split
      · rfl
      · exact hfree k hk
  have hsame : (if T = kObjClassId then (Except.ok (some ph = some tmp) : Except Fault Bool)
      else .ok (ph = tmp)) = .ok false := by
    split <;> simp [hne]
  unfold Ptr.assignTemp
  simp only [hne, Option.some.injEq, decide_False, r1]
  have hlt := lt_of_get ht
  have hplt := lt_of_get hph
  have ht1 : v1.heap[tmp]? = some ot := by rw [g1 tmp hlt hne1, ht]
  by_cases hT : T = kObjClassId
  · simp only [hT, if_true]
    obtain ⟨v3, r3, ag3, ix3, cn3⟩ := endTemp_ok fuel
      ((v1.poke pl kObjClassId none).poke pl kObjClassId (some tmp))
      (by simp [f1, hf]) (by simpa using hfree1)
    rw [r3]
    obtain ⟨f3, k3, l3, m3, n3, g3⟩ := ag3
    simp only [poke_first_release, poke_registry, poke_base_to_derived, poke_counter,
      poke_length] at f3 k3 l3 m3 n3 g3
    refine ⟨v3, rfl, ⟨by rw [f3, f1], by rw [k3]; assumption, by rw [l3]; assumption,
      by omega, by omega, ?_⟩, ?_, ?_, ?_⟩
    · intro b hb hP
      have hb1 : b ≠ ph := fun h => hP (Or.inl h)
      have hb2 : ∀ i, pl ≠ some (b, i) := fun i h => hP (Or.inr ⟨i, h⟩)
      rw [g3 b (by omega) (fun h => h), poke_get_other _ _ _ _ _ hb2,
        poke_get_other _ _ _ _ _ hb2, g1 b hb hb1]
    · rw [ix3]
      simpa using ix1
    · refine ⟨n1, al1, ?_⟩
      have hb2 : ∀ i, pl ≠ some (ph, i) := fun i h => (hpl ph i h).1 rfl
      rw [g3 ph (by omega) (fun h => h), poke_get_other _ _ _ _ _ hb2,
        poke_get_other _ _ _ _ _ hb2, c1]
    · intro a i oa hpa hoa
      subst hpa
      have ha1 : a ≠ ph := (hpl a i rfl).1
      have hal := lt_of_get hoa
      rw [g3 a (by omega) (fun h => h), poke_get_self, poke_get_self, g1 a hal ha1, hoa]
      simp [hT]
  · simp only [hT, if_false]
    have hmem : T ∈ ot.interfaces := by
      rcases hcap with h | h
      · exact absurd h hT
      · exact h
    have ht2 : (v1.poke pl T none).heap[tmp]? = some ot := by
      rw [poke_get_other _ _ _ _ _ (fun i h => (hpl tmp i h).2 rfl), ht1]
    simp only [ht2, DynamicCast, hmem, true_or, if_true, Ptr.Init]
    have ht3 : (((v1.poke pl T none).update tmp
        (fun o => { o with reference_count_ := o.reference_count_ + 1 })).poke pl T
          (some tmp)).heap[tmp]? = some { ot with reference_count_ := ot.reference_count_ + 1 } := by
      rw [poke_get_other _ _ _ _ _ (fun i h => (hpl tmp i h).2 rfl)]
      simp [ht2]
    rw [release_keep fuel _ tmp _ (by simp [f1, hf]) ht3 (by simp; omega)]
    obtain ⟨v3, r3, ag3, ix3, cn3⟩ := endTemp_ok fuel
      ((((v1.poke pl T none).update tmp
        (fun o => { o with reference_count_ := o.reference_count_ + 1 })).poke pl T
          (some tmp)).update tmp
            (fun c => { c with reference_count_ := c.reference_count_ - 1 }))
      (by simp [f1, hf]) (by simpa using hfree1)
    simp only [r3]
    obtain ⟨f3, k3, l3, m3, n3, g3⟩ := ag3
    simp only [poke_first_release, poke_registry, poke_base_to_derived, poke_counter,
      poke_length, update_first_release, update_registry, update_base_to_derived,
      update_counter, update_heap_length] at f3 k3 l3 m3 n3 g3
    refine ⟨v3, rfl, ⟨by rw [f3, f1], by rw [k3]; assumption, by rw [l3]; assumption,
      by omega, by omega, ?_⟩, ?_, ?_, ?_⟩
    · intro b hb hP
      have hb1 : b ≠ ph := fun h => hP (Or.inl h)
      have hb2 : ∀ i, pl ≠ some (b, i) := fun i h => hP (Or.inr ⟨i, h⟩)
      rw [g3 b (by omega) (fun h => h)]
      by_cases hbt : tmp = b
      · subst hbt
        rw [update_heap_get, if_pos rfl, ht3, ← g1 tmp hb hb1, ht1]
        simp
      · rw [update_heap_get, if_neg hbt, poke_get_other _ _ _ _ _ hb2, update_heap_get,
          if_neg hbt, poke_get_other _ _ _ _ _ hb2, g1 b hb hb1]
    · rw [ix3]
      simpa using ix1
    · refine ⟨n1, al1, ?_⟩
      have hb2 : ∀ i, pl ≠ some (ph, i) := fun i h => (hpl ph i h).1 rfl
      rw [g3 ph (by omega) (fun h => h), update_heap_get, if_neg hne1,
        poke_get_other _ _ _ _ _ hb2, update_heap_get, if_neg hne1,
        poke_get_other _ _ _ _ _ hb2, c1]
    · intro a i oa hpa hoa
      subst hpa
      have ha1 : a ≠ ph := (hpl a i rfl).1
      have ha2 : ¬ tmp = a := fun h => (hpl a i rfl).2 h.symm
      have hal := lt_of_get hoa
      rw [g3 a (by omega) (fun h => h), update_heap_get, if_neg ha2, poke_get_self,
        update_heap_get, if_neg ha2, poke_get_self, g1 a hal ha1, hoa]
      simp

theorem Pending.transfer {c0 c1 n n1 : Nat} {h h1 : List Obj} {f cf : Field}
    (hp : Pending c0 n h f cf) (hc : c1 ≤ c0) (hn : n1 ≤ n)
    (hh : ∀ (ph : Nat) (o : Obj), h[ph]? = some o → o.class_id = kObjClassId →
      ∃ o1, h1[ph]? = some o1 ∧ o1.class_id = kObjClassId ∧ o1.fields = o.fields ∧
        o1.id_ = o.id_) :
    Pending c1 n1 h1 f cf := by
  cases f with
  | scalar v => exact hp
  | handle T p =>
    obtain ⟨ph, o, e1, e2, e3, e4, e5, e6⟩ := hp
    obtain ⟨o1, k1, k2, k3, k4⟩ := hh ph o e2 e3
    exact ⟨ph, o1, e1, k1, k2, by rw [k3, e4], by rw [k4]; omega, by omega⟩

theorem constructMembers_pending (a : Nat) :
    ∀ (ds : List FieldDecl) (fs : List Field) (w : World) (o : Obj),
      w.heap[a]? = some o → fitsAll ds fs = true →
      (constructMembers a w ds).first_release_ = w.first_release_ ∧
      (constructMembers a w ds).registry_ = w.registry_ ∧
      (constructMembers a w ds).base_to_derived_ = w.base_to_derived_ ∧
      (constructMembers a w ds).all_objects_ = w.all_objects_ ∧
      w.counter ≤ (constructMembers a w ds).counter ∧
      w.heap.length ≤ (constructMembers a w ds).heap.length ∧
      (∀ b : Nat, b < w.heap.length → b ≠ a → (constructMembers a w ds).heap[b]? = w.heap[b]?) ∧
      ∃ cfs, (constructMembers a w ds).heap[a]? = some { o with fields := o.fields ++ cfs } ∧
        List.Forall₂ (Pending w.counter w.heap.length (constructMembers a w ds).heap) fs cfs := by
  intro ds
  induction ds with
  | nil =>
    intro fs w o h hfit
    cases fs with
    | nil =>
      exact ⟨rfl, rfl, rfl, rfl, le_refl _, le_refl _, fun _ _ _ => rfl, [],
        by simpa [constructMembers] using h, List.Forall₂.nil⟩
    | cons f fs => simp [fitsAll] at hfit
  | cons d ds ih =>
    intro fs w o h hfit
    have hlt := lt_of_get h
    cases d with
    | scalar v =>
      cases fs with
      | nil => simp [fitsAll] at hfit
      | cons f fs =>
        cases f with
        | handle T p => simp [fitsAll] at hfit
        | scalar v0 =>
          simp only [fitsAll] at hfit
          simp only [constructMembers]
          obtain ⟨e1, e2, e3, e4, e5, e6, e7, cfs, e8, e9⟩ := ih fs
            (w.update a (fun o => { o with fields := o.fields ++ [.scalar v] }))
            { o with fields := o.fields ++ [.scalar v] } (by simp [h]) hfit
          simp only [update_first_release, update_registry, update_base_to_derived,
            update_all_objects, update_counter, update_heap_length] at e1 e2 e3 e4 e5 e6 e7 e9
          refine ⟨e1, e2, e3, e4, e5, e6, ?_, .scalar v :: cfs, ?_, ?_⟩
          · intro b hb hba
            rw [e7 b hb hba]
            have : ¬ a = b := fun h => hba h.symm
            simp [this]
          · rw [e8]; simp
          · exact List.Forall₂.cons ⟨v, rfl⟩ e9
    | handle T =>
      cases fs with
      | nil => simp [fitsAll] at hfit
      | cons f fs =>
        cases f with
        | scalar v0 => simp [fitsAll] at hfit
        | handle T1 p =>
          simp only [fitsAll, Bool.and_eq_true, beq_iff_eq] at hfit
          obtain ⟨hT, hfit⟩ := hfit
          subst hT
          simp only [constructMembers]
          have hne : a ≠ w.heap.length := by omega
          obtain ⟨e1, e2, e3, e4, e5, e6, e7, cfs, e8, e9⟩ := ih fs
            ((Ptr.NewPlaceholder w).2.update a
              (fun o => { o with fields := o.fields ++ [.handle T (some (Ptr.NewPlaceholder w).1)] }))
            { o with fields := o.fields ++ [.handle T (some (Ptr.NewPlaceholder w).1)] }
            (by simp [NewPlaceholder_get, hne, h]) hfit
          simp only [update_first_release, update_registry, update_base_to_derived,
            update_all_objects, update_counter, update_heap_length, NewPlaceholder_first_release,
            NewPlaceholder_registry, NewPlaceholder_base_to_derived, NewPlaceholder_all_objects,
            NewPlaceholder_counter, NewPlaceholder_length] at e1 e2 e3 e4 e5 e6 e7 e9
          refine ⟨e1, e2, e3, e4, by omega, by omega, ?_, .handle T (some w.heap.length) :: cfs,
            ?_, ?_⟩
          · intro b hb hba
            rw [e7 b (by omega) hba]
            have h1 : ¬ a = b := fun h => hba h.symm
            have h2 : b ≠ w.heap.length := by omega
            simp [h1, NewPlaceholder_get, h2]
          · rw [e8]; simp [NewPlaceholder_fst]
          · refine List.Forall₂.cons ?_ (e9.imp (fun f cf hp => hp.transfer (by omega) (by simp)
              (fun ph o h1 h2 => ⟨o, h1, h2, rfl, rfl⟩)))
            refine ⟨w.heap.length, ⟨kObjClassId, [], ⟨w.counter + 1, kLoaded⟩, 1, [], true⟩, rfl, ?_,
              rfl, rfl, ?_, le_refl _⟩
            · rw [e7 w.heap.length (by omega) (fun h => hne h.symm)]
              have h1 : ¬ a = w.heap.length := hne
              simp only [update_heap_get, h1, if_false, NewPlaceholder_get, if_true]
            · simp

@[simp] theorem AddObject_counter (w : World) (a : Nat) :
    (Obj.AddObject w a).counter = w.counter := by
  unfold Obj.AddObject; cases w.heap[a]? <;> rfl

/-- The creation of an object of a registered class by `DeserializeObj`: the new cell is the
next free address, it has the class, the interfaces and the id asked for, count 0, and every
handle member is bound to a new placeholder; the index has the new cell under its id. -/
theorem create_ok (v : World) (cls : Nat) (iid : InstanceId) (reg : List (Nat × ClassDecl))
    (b2d : List (Nat × Nat)) (d : Nat) (c : ClassDecl) (fs : List Field)
    (hreg : v.registry_ = some reg) (hb : v.base_to_derived_ = some b2d)
    (hres : resolveChain (b2d.length + 1) b2d cls = some d) (hc : mapFind reg d = some c)
    (hfit : fitsAll c.fields fs = true) (hcls : c.class_id_ ≠ kObjClassId) :
    ∃ w1 w2, Obj.CreateClassById v cls iid = .ok (v.heap.length, w1) ∧
      w2 = Obj.AddObject (w1.update v.heap.length (fun o => { o with id_ := iid })) v.heap.length ∧
      w2.first_release_ = v.first_release_ ∧ w2.registry_ = v.registry_ ∧
      w2.base_to_derived_ = v.base_to_derived_ ∧
      w2.all_objects_ = mapSet v.all_objects_ iid.id_ v.heap.length ∧
      v.counter < w2.counter ∧ v.heap.length < w2.heap.length ∧
      (∀ b : Nat, b < v.heap.length → w2.heap[b]? = v.heap[b]?) ∧
      ∃ cfs, w2.heap[v.heap.length]? = some ⟨c.class_id_, c.interfaces, iid, 0, cfs, true⟩ ∧
        List.Forall₂ (Pending v.counter v.heap.length w2.heap) fs cfs := by
  obtain ⟨W, hW⟩ : ∃ W, W = (v.construct c.class_id_ c.interfaces).2 := ⟨_, rfl⟩
  have hW0 : W.heap[v.heap.length]? = some ⟨c.class_id_, c.interfaces, ⟨v.counter + 1, kLoaded⟩,
      0, [], true⟩ := by
    subst hW; simp [World.construct, GenerateUnique]
  have hW1 : ∀ b : Nat, b < v.heap.length → W.heap[b]? = v.heap[b]? := by
    intro b hb
    subst hW
    simp only [World.construct, GenerateUnique]
    exact List.getElem?_append_left hb
  have hW2 : W.counter = v.counter + 1 := by subst hW; rfl
  have hW3 : W.first_release_ = v.first_release_ := by subst hW; rfl
  have hW4 : W.registry_ = v.registry_ := by subst hW; rfl
  have hW5 : W.base_to_derived_ = v.base_to_derived_ := by subst hW; rfl
  have hW6 : W.all_objects_ = v.all_objects_ := by subst hW; rfl
  have hW7 : W.heap.length = v.heap.length + 1 := by
    subst hW; simp [World.construct, GenerateUnique]
  have hcr : c.create v = (v.heap.length, constructMembers v.heap.length W c.fields) := by
    subst hW; rfl
  obtain ⟨e1, e2, e3, e4, e5, e6, e7, cfs, e8, e9⟩ := constructMembers_pending v.heap.length
    c.fields fs W _ hW0 hfit
  obtain ⟨cm, hcm⟩ : ∃ cm, cm = constructMembers v.heap.length W c.fields := ⟨_, rfl⟩
  rw [← hcm] at e1 e2 e3 e4 e5 e6 e7 e8 e9 hcr
  simp only [List.nil_append] at e8
  refine ⟨cm.update v.heap.length (fun o => { o with id_ := iid }), _, ?_, rfl, ?_⟩
  · simp only [Obj.CreateClassById, Registry.CreateClassById, hreg, hb, hres, hc, hcr]
  · have hget : ∀ b : Nat, (Obj.AddObject ((cm.update v.heap.length
        (fun o => { o with id_ := iid })).update v.heap.length
          (fun o => { o with id_ := iid })) v.heap.length).heap[b]? =
        if v.heap.length = b then some ⟨c.class_id_, c.interfaces, iid, 0, cfs, true⟩
        else cm.heap[b]? := by
      intro b
      by_cases hb : v.heap.length = b
      · subst hb
        simp [e8]
      · simp [hb]
    refine ⟨by simp [e1, hW3], by simp [e2, hW4], by simp [e3, hW5], ?_, by simp; omega,
      by simp; omega, ?_, cfs, ?_, ?_⟩
    · simp [Obj.AddObject, e8, e4, hW6]
    · intro b hb
      have hne : ¬ v.heap.length = b := by omega
      rw [hget, if_neg hne, e7 b (by omega) (by omega), hW1 b hb]
    · rw [hget, if_pos rfl]
    · refine e9.imp (fun f cf hp => hp.transfer (by omega) (by omega) ?_)
      intro ph o h1 h2
      rw [hget]
      by_cases hb : v.heap.length = ph
      · subst hb
        rw [e8] at h1
        injection h1 with h1
        subst h1
        exact absurd h2 hcls
      · exact ⟨o, by simp [hb, h1], h2, rfl, rfl⟩

theorem Grows.step {g : List Obj} {top : Nat} {rank : Nat → Nat} {r r1 : Nat} {v v1 v2 : World}
    (h1 : Grows g top rank r v v1) (h2 : Grows g top rank r1 v1 v2) (hr : r1 ≤ r) :
    Grows g top rank r v v2 := by
  obtain ⟨a1, a2, a3, a4, a5, a6, a7⟩ := h1
  obtain ⟨b1, b2, b3, b4, b5, b6, b7⟩ := h2
  refine ⟨by rw [b1, a1], by rw [b2, a2], by rw [b3, a3], by omega, by omega,
    fun k b h => b6 k b (a6 k b h), ?_⟩
  intro b o ho
  obtain ⟨n, hn, hc⟩ := a7 b o ho
  obtain ⟨m, hm, hd⟩ := b7 b _ hn
  refine ⟨m, hm, ?_⟩
  simp only at hd
  rcases hd with hd | ⟨hd, z, oz, z1, z2, z3, z4⟩
  · subst hd
    rcases hc with hc | ⟨hc, z, oz, z1, z2, z3, z4⟩
    · exact Or.inl hc
    · exact Or.inr ⟨hc, z, oz, z1, z2, z3, b6 _ _ z4⟩
  · refine Or.inr ⟨?_, z, oz, z1, z2, by omega, z4⟩
    rcases hc with hc | ⟨hc, _⟩
    · omega
    · omega

theorem Grows.agree {g : List Obj} {top : Nat} {rank : Nat → Nat} {r : Nat} {v v1 v2 : World}
    {P : Nat → Prop} (h1 : Grows g top rank r v v1) (h2 : Agree P v1 v2)
    (hidx : ∀ (k b : Nat), mapFind v1.all_objects_ k = some b →
      mapFind v2.all_objects_ k = some b)
    (hP : ∀ b, P b → v.heap.length ≤ b) : Grows g top rank r v v2 := by
  obtain ⟨a1, a2, a3, a4, a5, a6, a7⟩ := h1
  obtain ⟨b1, b2, b3, b4, b5, b6⟩ := h2
  refine ⟨by rw [b1, a1], by rw [b2, a2], by rw [b3, a3], by omega, by omega,
    fun k b h => hidx k b (a6 k b h), ?_⟩
  intro b o ho
  have hb := lt_of_get ho
  obtain ⟨n, hn, hc⟩ := a7 b o ho
  refine ⟨n, ?_, ?_⟩
  · rw [b6 b (by omega) (fun h => by have := hP b h; omega), hn]
  · rcases hc with hc | ⟨hc, z, oz, z1, z2, z3, z4⟩
    · exact Or.inl hc
    · exact Or.inr ⟨hc, z, oz, z1, z2, z3, hidx _ _ z4⟩

theorem Grows.raise {g : List Obj} {top : Nat} {rank : Nat → Nat} {r r1 : Nat} {v v1 : World}
    (h : Grows g top rank r v v1) (hr : r ≤ r1) : Grows g top rank r1 v v1 := by
  obtain ⟨a1, a2, a3, a4, a5, a6, a7⟩ := h
  refine ⟨a1, a2, a3, a4, a5, a6, ?_⟩
  intro b o ho
  obtain ⟨n, hn, hc⟩ := a7 b o ho
  refine ⟨n, hn, ?_⟩
  rcases hc with hc | ⟨hc, z, oz, z1, z2, z3, z4⟩
  · exact Or.inl hc
  · exact Or.inr ⟨hc, z, oz, z1, z2, by omega, z4⟩

theorem Loaded.free {g : List Obj} {top : Nat} {rank : Nat → Nat} {c0 : Nat}
    {reg : List (Nat × ClassDecl)} {b2d : List (Nat × Nat)} {G : Nat → Prop} {v : World}
    (hL : Loadable g top rank c0 reg b2d) (h : Loaded g top G v) :
    ∀ k, c0 < k → mapFind v.all_objects_ k = none := by
  intro k hk
  cases hf : mapFind v.all_objects_ k with
  | none => rfl
  | some b =>
    obtain ⟨x, ox, o, h1, h2, h3, _⟩ := h k b hf
    have := (hL.2.2 x ox h1 h2).2.2.1
    omega

theorem Reaches.class_ne {g : List Obj} {top x : Nat} {ox : Obj} (h : Reaches g top x)
    (hx : g[x]? = some ox) : ox.class_id ≠ kObjClassId := by
  have hres : Resident g x := by
    obtain ⟨h1, h2⟩ := h
    cases h2 with
    | refl => exact h1
    | tail _ hs =>
      obtain ⟨_, _, _, _, _, hr⟩ := hs
      exact hr
  obtain ⟨o, ho, hp⟩ := hres
  rw [hx] at ho
  injection ho with ho
  subst ho
  simpa [Obj.IsPlaceholder] using hp

/-- The invariant of the index is kept by a step that leaves the index as it is and every
cell not of the placeholder class in place with its id, class, interfaces and liveness,
and that changes the members only of cells of graph cells in `G` and lowers no count of
another cell. -/
theorem Loaded.keep {g : List Obj} {top : Nat} {rank : Nat → Nat} {c0 : Nat}
    {reg : List (Nat × ClassDecl)} {b2d : List (Nat × Nat)} {G : Nat → Prop} {v v1 : World}
    (hL : Loadable g top rank c0 reg b2d) (h : Loaded g top G v)
    (hidx : v1.all_objects_ = v.all_objects_)
    (hcells : ∀ (b : Nat) (o : Obj), v.heap[b]? = some o → o.class_id ≠ kObjClassId →
      ∃ o1, v1.heap[b]? = some o1 ∧ o1.id_ = o.id_ ∧ o1.class_id = o.class_id ∧
        o1.interfaces = o.interfaces ∧ o1.alive = o.alive ∧
        ((o1.fields = o.fields ∧ o.reference_count_ ≤ o1.reference_count_) ∨
          ∃ x ox, G x ∧ Reaches g top x ∧ g[x]? = some ox ∧ ox.id_.id_ = o.id_.id_)) :
    Loaded g top G v1 := by
  intro k b hk
  rw [hidx] at hk
  obtain ⟨x, ox, o, h1, h2, h3, h4, h5, h6, h7, h8, h9⟩ := h k b hk
  obtain ⟨o1, k1, k2, k3, k4, k5, k6⟩ := hcells b o h4 (by rw [h6]; exact h1.class_ne h2)
  refine ⟨x, ox, o1, h1, h2, h3, k1, by rw [k2, h5], by rw [k3, h6], by rw [k4, h7],
    by rw [k5, h8], ?_⟩
  intro hG
  rcases k6 with ⟨k6, k7⟩ | ⟨x1, ox1, g1, g2, g3, g4⟩
  · obtain ⟨h10, h11⟩ := h9 hG
    rw [hidx, k6]
    exact ⟨h10, by omega⟩
  · have : x1 = x := hL.2.1 x1 x ox1 ox g2 h1 g3 h2 (by rw [g4, h5, h3])
    subst this
    exact absurd g1 hG

theorem set_length_append {α : Type} (l : List α) (x y : α) (r : List α) :
    (l ++ x :: r).set l.length y = l ++ y :: r := by
  induction l with
  | nil => rfl
  | cons a l ih => simp [ih]

theorem get_length_append {α : Type} (l : List α) (x : α) (r : List α) :
    (l ++ x :: r)[l.length]? = some x := by
  induction l with
  | nil => simp
  | cons a l ih => simpa using ih

theorem Wired.extend {g : List Obj} {idx idx1 : List (Nat × Nat)} {f f1 : Field}
    (h : Wired g idx f f1)
    (hm : ∀ (k b : Nat), mapFind idx k = some b → mapFind idx1 k = some b) :
    Wired g idx1 f f1 := by
  cases f with
  | scalar v => exact h
  | handle T q =>
    cases q with
    | none => exact h
    | some z =>
      obtain ⟨b, h1, h2⟩ := h
      exact ⟨b, hm _ _ h1, h2⟩

theorem Loaded.cell {g : List Obj} {top : Nat} {rank : Nat → Nat} {c0 : Nat}
    {reg : List (Nat × ClassDecl)} {b2d : List (Nat × Nat)} {G : Nat → Prop} {v : World}
    (hL : Loadable g top rank c0 reg b2d) (h : Loaded g top G v) {z b : Nat} {oz : Obj}
    (hz : Reaches g top z) (hoz : g[z]? = some oz)
    (hb : mapFind v.all_objects_ oz.id_.id_ = some b) :
    ∃ o, v.heap[b]? = some o ∧ o.id_.id_ = oz.id_.id_ ∧ o.class_id = oz.class_id ∧
      o.interfaces = oz.interfaces ∧ o.alive = true ∧
      (¬ G z → List.Forall₂ (Wired g v.all_objects_) oz.fields o.fields ∧
        1 ≤ o.reference_count_) := by
  obtain ⟨x, ox, o, h1, h2, h3, h4, h5, h6, h7, h8, h9⟩ := h _ b hb
  have : x = z := hL.2.1 x z ox oz h1 hz h2 hoz h3
  subst this
  rw [hoz] at h2
  injection h2 with h2
  subst h2
  exact ⟨o, h4, h5, h6, h7, h8, h9⟩

/-- The members of a new cell are read from the record of the graph cell `y`: every member
ends up wired through the index, given that `des` loads the cells below `y`. -/
theorem deserializeFields_ok {g : List Obj} {top : Nat} {rank : Nat → Nat} {c0 : Nat}
    {reg : List (Nat × ClassDecl)} {b2d : List (Nat × Nat)}
    (hL : Loadable g top rank c0 reg b2d) (fuel : Nat)
    (des : World → List Nat → Except Fault (World × List Nat × Nat))
    (ih : ∀ (z : Nat) (oz : Obj) (G : Nat → Prop) (v : World) (s : List Nat),
      Reaches g top z → g[z]? = some oz → rank z < fuel → (∀ x, G x → rank z < rank x) →
      v.first_release_ = false → v.registry_ = some reg → v.base_to_derived_ = some b2d →
      c0 ≤ v.counter → Loaded g top G v →
      ∃ v1 tmp, des v (oz.id_.encode :: s) = .ok (v1, s, tmp) ∧
        mapFind v1.all_objects_ oz.id_.id_ = some tmp ∧ Loaded g top G v1 ∧
        Grows g top rank (rank z + 1) v v1)
    (y : Nat) (oy : Obj) (a : Nat) (G : Nat → Prop) (v0 : World)
    (hy : Reaches g top y) (hoy : g[y]? = some oy) (hfuel : rank y ≤ fuel)
    (hG : ∀ x, G x → rank y < rank x) (ha : v0.heap.length ≤ a) :
    ∀ (fs cfs pre done_ : List Field) (v : World) (oa : Obj),
      oy.fields = pre ++ fs →
      v.first_release_ = false → v.registry_ = some reg → v.base_to_derived_ = some b2d →
      c0 ≤ v.counter → Loaded g top (fun x => G x ∨ x = y) v →
      mapFind v.all_objects_ oy.id_.id_ = some a →
      v.heap[a]? = some oa → oa.fields = done_ ++ cfs → oa.id_.id_ = oy.id_.id_ →
      oa.class_id ≠ kObjClassId →
      List.Forall₂ (Wired g v.all_objects_) pre done_ →
      List.Forall₂ (Pending c0 v0.heap.length v.heap) fs cfs →
      Grows g top rank (rank y) v0 v →
      ∃ v1 oa1, deserializeFields des (release fuel) a done_.length v (fs.map (wordOf g)) cfs =
          .ok (v1, []) ∧
        v1.first_release_ = false ∧
        Loaded g top (fun x => G x ∨ x = y) v1 ∧
        mapFind v1.all_objects_ oy.id_.id_ = some a ∧
        v1.heap[a]? = some oa1 ∧ oa1.id_ = oa.id_ ∧ oa1.class_id = oa.class_id ∧
        oa1.interfaces = oa.interfaces ∧ oa1.alive = oa.alive ∧
        oa.reference_count_ ≤ oa1.reference_count_ ∧
        List.Forall₂ (Wired g v1.all_objects_) oy.fields oa1.fields ∧
        Grows g top rank (rank y) v0 v1 := by
  intro fs
  induction fs with
  | nil =>
    intro cfs pre done_ v oa hpre hf hreg hb hc hld hidx hoa hfs hid hcl hw hp hgr
    cases hp
    simp only [List.append_nil] at hpre hfs
    refine ⟨v, oa, by simp [deserializeFields], hf, hld, hidx, hoa, rfl, rfl, rfl, rfl,
      le_refl _, ?_, hgr⟩
    rw [hpre, hfs]
    exact hw
  | cons f fs ihl =>
    intro cfs pre done_ v oa hpre hf hreg hb hc hld hidx hoa hfs hid hcl hw hp hgr
    cases hp with
    | cons hp1 hp =>
    rename_i cf cfs
    have halt := lt_of_get hoa
    cases f with
    | scalar val =>
      obtain ⟨v', rfl⟩ := hp1
      simp only [List.map_cons, wordOf, deserializeFields, readWord]
      have hoa' : (v.setField a done_.length (.scalar val)).heap[a]? =
          some { oa with fields := (done_ ++ [.scalar val]) ++ cfs } := by
        simp [World.setField, hoa, hfs, set_length_append]
      have hag : Agree (fun b => b = a) v (v.setField a done_.length (.scalar val)) :=
        Agree_update v a _
      obtain ⟨v1, oa1, r1, r2, r3, r4, r5, r6, r7, r8, r9, r10, r11, r12⟩ := ihl cfs
        (pre ++ [.scalar val]) (done_ ++ [.scalar val]) (v.setField a done_.length (.scalar val))
        { oa with fields := (done_ ++ [.scalar val]) ++ cfs }
        (by rw [hpre]; simp) (by simp [World.setField, hf]) (by simp [World.setField, hreg])
        (by simp [World.setField, hb]) (by simp [World.setField, hc])
        (by
          refine hld.keep hL (by simp [World.setField]) ?_
          intro b o hbo hbc
          by_cases hba : a = b
          · subst hba
            rw [hoa] at hbo
            injection hbo with hbo
            subst hbo
            exact ⟨_, hoa', rfl, rfl, rfl, rfl, Or.inr ⟨y, oy, Or.inr rfl, hy, hoy, hid.symm⟩⟩
          · exact ⟨o, by simp [World.setField, hba, hbo], rfl, rfl, rfl, rfl,
              Or.inl ⟨rfl, le_refl _⟩⟩)
        (by simpa [World.setField] using hidx) hoa' rfl hid hcl
        (by
          simp only [World.setField, update_all_objects]
          exact List.rel_append hw (List.Forall₂.cons rfl List.Forall₂.nil))
        (hp.imp (fun f cf h => h.transfer (le_refl _) (le_refl _) (by
          intro ph o h1 h2
          have hne : ¬ a = ph := by
            intro h
            subst h
            rw [hoa] at h1
            injection h1 with h1
            subst h1
            exact hcl h2
          exact ⟨o, by simp [World.setField, hne, h1], h2, rfl, rfl⟩)))
        (hgr.agree hag (by intro k b h; simpa [World.setField] using h)
          (by intro b hb; omega))
      simp only [List.length_append, List.length_singleton] at r1
      exact ⟨v1, oa1, r1, r2, r3, r4, r5, r6, r7, r8, r9, r10, r11, r12⟩
    | handle T q =>
      obtain ⟨ph, oph, rfl, hph, hphc, hphf, hphid, hphn⟩ := hp1
      have hmem : Field.handle T q ∈ oy.fields := by rw [hpre]; simp
      obtain ⟨z, oz, rfl, hoz, hzp, hcap, hrk⟩ := (hL.2.2 y oy hy hoy).2.2.2.2 T q hmem
      have hycl := hy.class_ne hoy
      have hyp : oy.IsPlaceholder = false := by simpa [Obj.IsPlaceholder] using hycl
      have hz : Reaches g top z := hy.comp ⟨⟨oy, hoy, hyp⟩,
        Relation.ReflTransGen.single ⟨oy, T, hoy, hyp, hmem, ⟨oz, hoz, hzp⟩⟩⟩
      obtain ⟨fuel1, rfl⟩ : ∃ f, fuel = f + 1 := ⟨fuel - 1, by omega⟩
      have hnG : ¬ (G z ∨ z = y) := by
        intro h
        rcases h with h | h
        · have := hG z h; omega
        · subst h; omega
      obtain ⟨v1, tmp, d1, d2, d3, d4⟩ := ih z oz (fun x => G x ∨ x = y) v
        (fs.map (wordOf g)) hz hoz (by omega)
        (by
          intro x hx
          rcases hx with hx | hx
          · have := hG x hx; omega
          · subst hx; exact hrk)
        hf hreg hb hc hld
      obtain ⟨g1, g2, g3, g4, g5, g6, g7⟩ := d4
      obtain ⟨na, hoa1, hna⟩ := g7 a oa hoa
      obtain ⟨nph, hph1, _⟩ := g7 ph oph hph
      obtain ⟨ot, hot, t1, t2, t3, t4, t5⟩ := d3.cell hL hz hoz d2
      obtain ⟨_, t6⟩ := t5 hnG
      have hna1 : oa.reference_count_ ≤ na := by
        rcases hna with h | ⟨h, _⟩
        · omega
        · exact h
      have hfree1 : ∀ k, v1.counter < k → mapFind v1.all_objects_ k = none :=
        fun k hk => d3.free hL k (by omega)
      have hne1 : a ≠ ph := by
        intro h
        subst h
        rw [hoa] at hph
        injection hph with hph
        subst hph
        exact hcl hphc
      have hne2 : a ≠ tmp := by
        intro h
        subst h
        rw [hoa1] at hot
        injection hot with hot
        subst hot
        simp only at t1
        have := hL.2.1 y z oy oz hy hz hoy hoz (by rw [← hid, t1])
        subst this
        omega
      obtain ⟨v2, s1, s2, s3, s4, s5⟩ := assignTemp_ok fuel1 v1 (some (a, done_.length)) T ph tmp
        _ ot (by rw [g1, hf]) hfree1 hph1 hphc hphf hot (by rw [t2]; exact hz.class_ne hoz) t6
        (by rw [t3]; exact hcap)
        (by
          intro a1 i1 h
          injection h with h
          injection h with h1 h2
          subst h1
          exact ⟨hne1, hne2⟩)
      have hidx2 : v2.all_objects_ = v1.all_objects_ := by
        rcases s3 with h | h
        · exact h
        · rw [h]
          exact mapErase_of_none _ _ (d3.free hL _ hphid)
      have hoa2 := s5 a done_.length _ rfl hoa1
      obtain ⟨f2, k2, l2, m2, n2, g8⟩ := s2
      simp only [List.map_cons, wordOf, hoz, deserializeFields, d1, hoa1, hfs, get_length_append,
        s1]
      obtain ⟨v3, oa3, r1, r2, r3, r4, r5, r6, r7, r8, r9, r10, r11, r12⟩ := ihl cfs
        (pre ++ [.handle T (some z)]) (done_ ++ [.handle T (some tmp)]) v2 _
        (by rw [hpre]; simp) (by rw [f2, g1, hf]) (by rw [k2, g2, hreg]) (by rw [l2, g3, hb])
        (by omega)
        (by
          refine d3.keep hL hidx2 ?_
          intro b o hbo hbc
          by_cases hba : b = a
          · subst hba
            rw [hoa1] at hbo
            injection hbo with hbo
            subst hbo
            exact ⟨_, hoa2, rfl, rfl, rfl, rfl, Or.inr ⟨y, oy, Or.inr rfl, hy, hoy, hid.symm⟩⟩
          · have hbp : b ≠ ph := by
              intro h
              subst h
              rw [hph1] at hbo
              injection hbo with hbo
              subst hbo
              exact hbc hphc
            refine ⟨o, ?_, rfl, rfl, rfl, rfl, Or.inl ⟨rfl, le_refl _⟩⟩
            rw [g8 b (lt_of_get hbo) ?_, hbo]
            intro h
            rcases h with h | ⟨i, h⟩
            · exact hbp h
            · injection h with h
              injection h with h1 h2
              exact hba h1.symm)
        (by rw [hidx2]; exact g6 _ _ hidx) hoa2
        (by simp [hfs, set_length_append]) hid hcl
        (by
          rw [hidx2]
          refine List.rel_append (hw.imp (fun _ _ h => h.extend g6)) (List.Forall₂.cons ?_
            List.Forall₂.nil)
          exact ⟨tmp, by simpa [idOf, hoz] using d2, rfl⟩)
        (hp.imp (fun f cf h => h.transfer (le_refl _) (le_refl _) (by
          intro b o h1 h2
          obtain ⟨n, hn, _⟩ := g7 b o h1
          have hba : b ≠ a := by
            intro h
            subst h
            rw [hoa] at h1
            injection h1 with h1
            subst h1
            exact hcl h2
          by_cases hbp : b = ph
          · subst hbp
            rw [hph] at h1
            injection h1 with h1
            subst h1
            obtain ⟨n1, al1, h3⟩ := s4
            exact ⟨_, h3, h2, rfl, rfl⟩
          · refine ⟨{ o with reference_count_ := n }, ?_, h2, rfl, rfl⟩
            rw [g8 b (lt_of_get hn) ?_, hn]
            intro h
            rcases h with h | ⟨i, h⟩
            · exact hbp h
            · injection h with h
              injection h with h3 h4
              exact hba h3.symm)))
        ((hgr.step ⟨g1, g2, g3, g4, g5, g6, g7⟩ (by omega)).agree
          ⟨f2, k2, l2, m2, n2, g8⟩ (by intro k b h; rw [hidx2]; exact h)
          (by
            intro b hb
            rcases hb with hb | ⟨i, hb⟩
            · omega
            · injection hb with hb
              injection hb with h1 h2
              omega))
      simp only [List.length_append, List.length_singleton] at r1
      exact ⟨v3, oa3, r1, r2, r3, r4, r5, r6, r7, r8, r9, by simp only at r10; omega, r11, r12⟩

theorem encode_id (i : InstanceId) (h1 : i.id_ < 2147483648) (h2 : i.flags_ = kLoaded) :
    (InstanceId.decode i.encode).id_ = i.id_ := by
  obtain ⟨n, f⟩ := i
  simp only at h1 h2
  subst h2
  exact decode_encode n h1

/-- The call of `DeserializeObj` returns on the encoded id of a cell `z` of a loadable graph, when the
load facility reads the store of a serialization of the graph: the result is the index
entry of `z`, either found or made with all the cells under it. -/
theorem DeserializeObj_ok {g : List Obj} {top : Nat} {rank : Nat → Nat} {c0 : Nat}
    {reg : List (Nat × ClassDecl)} {b2d : List (Nat × Nat)}
    (hL : Loadable g top rank c0 reg b2d) (dom : Domain)
    (hdom : Ptr.Serialize g (some top) = .ok dom) :
    ∀ (fuel : Nat) (z : Nat) (oz : Obj) (G : Nat → Prop) (v : World) (s : List Nat),
      Reaches g top z → g[z]? = some oz → rank z < fuel → (∀ x, G x → rank z < rank x) →
      v.first_release_ = false → v.registry_ = some reg → v.base_to_derived_ = some b2d →
      c0 ≤ v.counter → Loaded g top G v →
      ∃ v1 tmp, DeserializeObj fuel (storeLoad dom.stored) v (oz.id_.encode :: s) =
          .ok (v1, s, tmp) ∧
        mapFind v1.all_objects_ oz.id_.id_ = some tmp ∧ Loaded g top G v1 ∧
        Grows g top rank (rank z + 1) v v1 := by
  intro fuel
  induction fuel with
  | zero => intro z oz G v s _ _ h; omega
  | succ fuel ih =>
    intro z oz G v s hz hoz hfuel hG hf hreg hb hc hld
    obtain ⟨q1, q2, q3, ⟨d, c, q4, q5, q6, q7, q8⟩, _⟩ := hL.2.2 z oz hz hoz
    have hdec := encode_id oz.id_ q1 q2
    have hnG : ¬ G z := fun h => by have := hG z h; omega
    have hzc := hz.class_ne hoz
    rw [DeserializeObj]
    simp only [readWord, Obj.FindObject, hdec, InstanceId.ToString]
    cases hfind : mapFind v.all_objects_ oz.id_.id_ with
    | some b =>
      obtain ⟨o, ho, o1, o2, o3, o4, o5⟩ := hld.cell hL hz hoz hfind
      obtain ⟨o6, o7⟩ := o5 hnG
      simp only [Ptr.Init, ho]
      refine ⟨_, b, rfl, by simpa using hfind, ?_, ?_⟩
      · refine hld.keep hL (by simp) ?_
        intro b1 ob hb1 _
        by_cases hbb : b = b1
        · subst hbb
          rw [ho] at hb1
          injection hb1 with hb1
          subst hb1
          exact ⟨{ o with reference_count_ := o.reference_count_ + 1 }, by simp [ho], rfl, rfl,
            rfl, rfl, Or.inl ⟨rfl, by simp⟩⟩
        · exact ⟨ob, by simp [hbb, hb1], rfl, rfl, rfl, rfl, Or.inl ⟨rfl, le_refl _⟩⟩
      · refine ⟨by simp, by simp, by simp, by simp, by simp, fun k b1 h => by simpa using h, ?_⟩
        intro b1 ob hb1
        by_cases hbb : b = b1
        · subst hbb
          rw [ho] at hb1
          injection hb1 with hb1
          subst hb1
          exact ⟨o.reference_count_ + 1, by simp [ho], Or.inr ⟨by omega, z, oz, hz, hoz,
            by omega, by simpa using hfind⟩⟩
        · exact ⟨ob.reference_count_, by simp [hbb, hb1], Or.inl rfl⟩
    | none =>
      simp only
      have hrec := storeLoad_record g top dom hdom hL.2.1 z oz hz hoz
      rw [hrec]
      simp only [readWord]
      obtain ⟨w1, w2, hcr, hw2, e1, e2, e3, e4, e5, e6, e7, cfs, e8, e9⟩ := create_ok
        { v with loads := v.loads ++ [Nat.repr oz.id_.id_] } oz.class_id
        (InstanceId.decode oz.id_.encode) reg b2d d c oz.fields hreg hb q4 q5 q8
        (by rw [q6]; exact hzc)
      simp only [hdec] at hcr hw2 e1 e2 e3 e4 e5 e6 e7 e8 e9
      rw [hcr]
      simp only
      rw [← hw2, e8]
      simp only
      have hmono : ∀ (k b : Nat), mapFind v.all_objects_ k = some b →
          mapFind w2.all_objects_ k = some b := by
        intro k b h
        rw [e4, mapFind_mapSet]
        by_cases hk : oz.id_.id_ = k
        · subst hk
          rw [hfind] at h
          cases h
        · simp [hk, h]
      obtain ⟨v3, oa3, r1, r2, r3, r4, r5, r6, r7, r8, r9, r10, r11, r12⟩ :=
        deserializeFields_ok hL fuel (DeserializeObj fuel (storeLoad dom.stored)) ih z oz
          v.heap.length G v hz hoz (by omega) hG (le_refl _) oz.fields cfs [] [] w2 _
          rfl (by rw [e1, hf]) (by rw [e2, hreg]) (by rw [e3, hb]) (by omega)
          (by
            intro k b hk
            rw [e4, mapFind_mapSet] at hk
            by_cases hkz : oz.id_.id_ = k
            · subst hkz
              simp only [if_true, Option.some.injEq] at hk
              subst hk
              exact ⟨z, oz, _, hz, hoz, rfl, e8, hdec, q6, q7, rfl,
                fun h => absurd (Or.inr rfl) h⟩
            · simp only [hkz, if_false] at hk
              obtain ⟨x, ox, o, h1, h2, h3, h4, h5, h6, h7, h8, h9⟩ := hld k b hk
              refine ⟨x, ox, o, h1, h2, h3, by rw [e7 b (lt_of_get h4), h4], h5, h6, h7, h8, ?_⟩
              intro hx
              obtain ⟨h10, h11⟩ := h9 (fun h => hx (Or.inl h))
              exact ⟨h10.imp (fun _ _ h => h.extend hmono), h11⟩)
          (by rw [e4, mapFind_mapSet]; simp) e8 rfl hdec (by rw [q6]; exact hzc)
          List.Forall₂.nil
          (e9.imp (fun _ _ h => h.transfer hc (le_refl _)
            (fun ph o h1 h2 => ⟨o, h1, h2, rfl, rfl⟩)))
          ⟨by rw [e1], by rw [e2], by rw [e3], by omega, by omega, hmono,
            fun b o h => ⟨o.reference_count_, by rw [e7 b (lt_of_get h), h], Or.inl rfl⟩⟩
      simp only [List.length_nil] at r1
      rw [r1]
      simp only [Ptr.Init, r5]
      refine ⟨_, v.heap.length, rfl, by simpa using r4, ?_, ?_⟩
      · intro k b hk
        simp only [update_all_objects] at hk
        obtain ⟨x, ox, o, h1, h2, h3, h4, h5, h6, h7, h8, h9⟩ := r3 k b hk
        by_cases hxz : x = z
        · subst hxz
          rw [hoz] at h2
          injection h2 with h2
          subst h2
          rw [← h3, r4] at hk
          injection hk with hk
          subst hk
          refine ⟨x, oz, { oa3 with reference_count_ := oa3.reference_count_ + 1 }, h1, hoz, h3,
            by simp [r5], ?_, ?_, ?_, ?_, ?_⟩
          · simp only [r6, hdec, h3]
          · simp only [r7, q6]
          · simp only [r8, q7]
          · simp only [r9]
          · intro _
            simp only [update_all_objects] at r10 ⊢
            exact ⟨r11, by omega⟩
        · have hba : ¬ v.heap.length = b := by
            intro h
            subst h
            rw [r5] at h4
            injection h4 with h4
            subst h4
            rw [r6] at h5
            simp only [hdec] at h5
            exact hxz (hL.2.1 x z ox oz h1 hz h2 hoz (by rw [h3, h5]))
          refine ⟨x, ox, o, h1, h2, h3, by simp [hba, h4], h5, h6, h7, h8, ?_⟩
          intro hx
          simp only [update_all_objects]
          exact h9 (fun h => h.elim hx hxz)
      · refine (r12.raise (Nat.le_succ _)).agree (Agree_update v3 v.heap.length _)
          (by intro k b h; simpa using h) (by intro b hb; omega)

theorem Forall₂_of_mem {α β : Type} {R : α → β → Prop} {l1 : List α} {l2 : List β}
    (h : List.Forall₂ R l1 l2) {a : α} (ha : a ∈ l1) : ∃ b, b ∈ l2 ∧ R a b := by
  induction h with
  | nil => cases ha
  | cons hr _ ih =>
    rcases List.mem_cons.1 ha with h1 | h1
    · subst h1
      exact ⟨_, List.mem_cons_self _ _, hr⟩
    · obtain ⟨b, hb, hrb⟩ := ih h1
      exact ⟨b, List.mem_cons_of_mem _ hb, hrb⟩

theorem Wired_rename {g : List Obj} {idx : List (Nat × Nat)} {fs fs1 : List Field}
    (h : List.Forall₂ (Wired g idx) fs fs1) :
    fs1 = fs.map (Field.rename (fun x => (mapFind idx (idOf g x)).getD 0)) := by
  induction h with
  | nil => rfl
  | @cons f f1 l l1 hr _ ih =>
    rw [List.map_cons, ← ih]
    congr 1
    cases f with
    | scalar v => exact hr
    | handle T q =>
      cases q with
      | none => exact False.elim hr
      | some z =>
        obtain ⟨b, h1, h2⟩ := hr
        simp [Field.rename, h1, h2]

/-- After the load of a loadable graph every cell of the graph has an entry in the index. -/
theorem Loaded.total {g : List Obj} {top : Nat} {rank : Nat → Nat} {c0 : Nat}
    {reg : List (Nat × ClassDecl)} {b2d : List (Nat × Nat)} {v : World}
    (hL : Loadable g top rank c0 reg b2d) (h : Loaded g top (fun _ => False) v)
    {otop : Obj} {tmp : Nat} (htop : g[top]? = some otop)
    (hidx : mapFind v.all_objects_ otop.id_.id_ = some tmp) :
    ∀ x, Reaches g top x → ∃ ox b, g[x]? = some ox ∧
      mapFind v.all_objects_ ox.id_.id_ = some b := by
  intro x hx
  obtain ⟨hres, hpath⟩ := hx
  induction hpath with
  | refl => exact ⟨otop, tmp, htop, hidx⟩
  | tail hab hbc ih =>
    rename_i y z
    obtain ⟨oy, b, hoy, hb⟩ := ih
    have hy : Reaches g top y := ⟨hres, hab⟩
    obtain ⟨o, _, _, _, _, _, ho⟩ := h.cell hL hy hoy hb
    obtain ⟨hw, _⟩ := ho (fun h => h)
    obtain ⟨oy1, T, hoy1, _, hmem, oz, hoz, _⟩ := hbc
    rw [hoy] at hoy1
    injection hoy1 with hoy1
    subst hoy1
    obtain ⟨f1, _, hf1⟩ := Forall₂_of_mem hw hmem
    obtain ⟨b1, hb1, _⟩ := hf1
    exact ⟨oz, b1, hoz, by simpa [idOf, hoz] using hb1⟩

/-- The round trip of a loadable graph: let the cells reachable from `top` in the heap `g` form a loadable graph
(`Loadable`: acyclic by a rank, every handle member bound to a resident cell that has the
declared class among its interfaces, distinct ids below `2^31` and not above the id counter
of the loading process `w`, classes registered in `w` with their members).  Then
`Ptr::Serialize` from a handle bound to `top` returns a store, and `Ptr::Load` of a handle of
`w` that is bound to a placeholder carrying the id of `top`, against the load facility that
reads that store and from an empty index, returns with the handle bound to the image of `top`
under a renaming `φ` of the cells of the graph that is injective and under which every cell
of the graph has a live copy with the same class id, the same id and the same members: equal
scalars, and each handle member bound to the copy of the cell the original is bound to. -/
theorem roundtrip_bound_graph (g : List Obj) (top : Nat) (rank : Nat → Nat) (w : World)
    (reg : List (Nat × ClassDecl)) (b2d : List (Nat × Nat)) (T p : Nat) (ph otop : Obj)
    (fuel : Nat)
    (hL : Loadable g top rank w.counter reg b2d)
    (hreg : w.registry_ = some reg) (hb : w.base_to_derived_ = some b2d)
    (hidx : w.all_objects_ = [])
    (htop : g[top]? = some otop) (hT : T = kObjClassId ∨ T ∈ otop.interfaces)
    (hp : w.heap[p]? = some ph) (hphc : ph.class_id = kObjClassId) (hphf : ph.fields = [])
    (hphid : ph.id_.id_ = otop.id_.id_) (hfuel : rank top < fuel) :
    ∃ dom w1 φ, Ptr.Serialize g (some top) = .ok dom ∧
      Ptr.Load fuel (storeLoad dom.stored) w T (some p) = .ok (w1, some (φ top)) ∧
      (∀ x y, Reaches g top x → Reaches g top y → φ x = φ y → x = y) ∧
      ∀ x o, Reaches g top x → g[x]? = some o →
        ∃ o1, w1.heap[φ x]? = some o1 ∧ o1.alive = true ∧ o1.class_id = o.class_id ∧
          o1.id_.id_ = o.id_.id_ ∧ o1.fields = o.fields.map (Field.rename φ) := by
  have hrtop : Reaches g top top := ⟨hL.1, Relation.ReflTransGen.refl⟩
  obtain ⟨dom, hdom⟩ := Serialize_ok_on g top hL.1 (by
    intro x o T1 q hx ho hq
    obtain ⟨y, oy, h1, h2, h3, _⟩ := (hL.2.2 x o hx ho).2.2.2.2 T1 q hq
    exact ⟨y, h1, oy, h2, h3⟩)
  obtain ⟨q1, q2, _⟩ := hL.2.2 top otop hrtop htop
  obtain ⟨fuel1, rfl⟩ : ∃ f, fuel = f + 1 := ⟨fuel - 1, by omega⟩
  obtain ⟨v1, tmp, d1, d2, d3, d4⟩ := DeserializeObj_ok hL dom hdom (fuel1 + 1) top otop
    (fun _ => False) { w with first_release_ := false } [] hrtop htop hfuel
    (fun _ h => h.elim) rfl hreg hb (le_refl _) (by
      intro k b hk
      simp only [hidx, mapFind] at hk
      cases hk)
  have henc : InstanceId.encode ⟨ph.id_.id_, kLoaded⟩ = otop.id_.encode := by
    rw [hphid, ← q2]
  obtain ⟨g1, g2, g3, g4, g5, g6, g7⟩ := d4
  simp only at g1 g2 g3 g4 g5 g6 g7
  obtain ⟨np, hp1, _⟩ := g7 p ph hp
  obtain ⟨ot, hot, t1, t2, t3, t4, t5⟩ := d3.cell hL hrtop htop d2
  obtain ⟨_, t6⟩ := t5 (fun h => h)
  obtain ⟨v2, s1, s2, s3, s4, s5⟩ := assignTemp_ok fuel1 v1 none T p tmp _ ot g1
    (fun k hk => d3.free hL k (by omega)) hp1 hphc hphf hot
    (by rw [t2]; exact hrtop.class_ne htop) t6 (by rw [t3]; exact hT)
    (by intro a i h; cases h)
  obtain ⟨_, _, _, _, _, g8⟩ := s2
  have hcell : ∀ x ox b, Reaches g top x → g[x]? = some ox →
      mapFind v1.all_objects_ ox.id_.id_ = some b →
      ∃ o1, v2.heap[b]? = some o1 ∧ o1.alive = true ∧ o1.class_id = ox.class_id ∧
        o1.id_.id_ = ox.id_.id_ ∧
        o1.fields = ox.fields.map
          (Field.rename (fun x => (mapFind v1.all_objects_ (idOf g x)).getD 0)) := by
    intro x ox b hx hox hbx
    obtain ⟨o, ho, o1, o2, o3, o4, o5⟩ := d3.cell hL hx hox hbx
    obtain ⟨o6, _⟩ := o5 (fun h => h)
    refine ⟨o, ?_, o4, o2, o1, Wired_rename o6⟩
    rw [g8 b (lt_of_get ho) ?_, ho]
    intro h
    rcases h with h | ⟨i, h⟩
    · subst h
      rw [hp1] at ho
      injection ho with ho
      subst ho
      exact hx.class_ne hox (by rw [← o2]; exact hphc)
    · cases h
  refine ⟨dom, { v2 with first_release_ := true },
    fun x => (mapFind v1.all_objects_ (idOf g x)).getD 0, hdom, ?_, ?_, ?_⟩
  · have hpl : ph.IsPlaceholder = true := by simp [Obj.IsPlaceholder, hphc]
    simp only [Ptr.Load, hp, hpl, Bool.not_true, Bool.false_eq_true, if_false, henc, d1, s1]
    simp [idOf, htop, d2]
  · intro x y hx hy hxy
    obtain ⟨ox, bx, hox, hbx⟩ := d3.total hL htop d2 x hx
    obtain ⟨oy, by1, hoy, hby⟩ := d3.total hL htop d2 y hy
    simp only [idOf, hox, hoy, hbx, hby, Option.getD_some] at hxy
    subst hxy
    obtain ⟨o, ho, o1, _⟩ := d3.cell hL hx hox hbx
    obtain ⟨o', ho', o1', _⟩ := d3.cell hL hy hoy hby
    rw [ho] at ho'
    injection ho' with ho'
    subst ho'
    exact hL.2.1 x y ox oy hx hy hox hoy (by rw [← o1, o1'])
  · intro x ox hx hox
    obtain ⟨ox1, bx, hox1, hbx⟩ := d3.total hL htop d2 x hx
    rw [hox] at hox1
    injection hox1 with hox1
    subst hox1
    simp only [idOf, hox, hbx, Option.getD_some]
    exact hcell x ox bx hx hox hbx

theorem roundtrip_bound_graph_witness :
    ∃ dom w1 φ, Ptr.Serialize sharedLeafHeap (some 0) = .ok dom ∧
      Ptr.Load 2 (storeLoad dom.stored) laterWorld kPairClassId (some 0) =
        .ok (w1, some (φ 0)) ∧
      (∀ x y, Reaches sharedLeafHeap 0 x → Reaches sharedLeafHeap 0 y → φ x = φ y → x = y) ∧
      ∀ x o, Reaches sharedLeafHeap 0 x → sharedLeafHeap[x]? = some o →
        ∃ o1, w1.heap[φ x]? = some o1 ∧ o1.alive = true ∧ o1.class_id = o.class_id ∧
          o1.id_.id_ = o.id_.id_ ∧ o1.fields = o.fields.map (Field.rename φ) :=
  roundtrip_bound_graph sharedLeafHeap 0 (fun x => 1 - x) laterWorld
    [(kLeafClassId, Leaf), (kPairClassId, Pair)] [(0, kLeafClassId)] kPairClassId 0
    ⟨kObjClassId, [], ⟨10, kLoaded⟩, 1, [], true⟩
    ⟨kPairClassId, [kPairClassId], ⟨10, kLoaded⟩, 1,
      [.handle kLeafClassId (some 1), .handle kLeafClassId (some 1)], true⟩ 2
    (by
      refine ⟨⟨_, rfl, rfl⟩, ?_, ?_⟩
      · intro x y ox oy _ _ hx hy hid
        have h1 := lt_of_get hx
        have h2 := lt_of_get hy
        simp only [sharedLeafHeap, List.length_cons, List.length_nil] at h1 h2
        interval_cases x <;> interval_cases y <;>
          simp [sharedLeafHeap] at hx hy <;> subst hx <;> subst hy <;> simp at hid ⊢
      · intro x o _ ho
        have h1 := lt_of_get ho
        simp only [sharedLeafHeap, List.length_cons, List.length_nil] at h1
        interval_cases x
        · simp [sharedLeafHeap] at ho
          subst ho
          refine ⟨by decide, rfl, by decide, ⟨kPairClassId, Pair, by rfl, by rfl, rfl, rfl, rfl⟩, ?_⟩
          intro T q hq
          simp at hq
          obtain ⟨rfl, rfl⟩ := hq
          exact ⟨1, ⟨kLeafClassId, [kLeafClassId], ⟨3, kLoaded⟩, 2, [], true⟩, rfl, rfl, rfl,
            Or.inr (by simp), by decide⟩
        · simp [sharedLeafHeap] at ho
          subst ho
          refine ⟨by decide, rfl, by decide, ⟨kLeafClassId, Leaf, by rfl, by rfl, rfl, rfl, rfl⟩, ?_⟩
          intro T q hq
          simp at hq)
    (by rfl) (by rfl) (by rfl) (by rfl) (Or.inr (by simp)) (by rfl) rfl rfl rfl (by decide)

/-! ### `Ptr::Load`, with the result -/

/-- The graph of `sharedLeafHeap` is loadable in the process `laterWorld`. -/
theorem sharedLeaf_loadable :
    Loadable sharedLeafHeap 0 (fun x => 1 - x) laterWorld.counter
      [(kLeafClassId, Leaf), (kPairClassId, Pair)] [(0, kLeafClassId)] := by
  refine ⟨⟨_, rfl, rfl⟩, ?_, ?_⟩
  · intro x y ox oy _ _ hx hy hid
    have h1 := lt_of_get hx
    have h2 := lt_of_get hy
    simp only [sharedLeafHeap, List.length_cons, List.length_nil] at h1 h2
    interval_cases x <;> interval_cases y <;>
      simp [sharedLeafHeap] at hx hy <;> subst hx <;> subst hy <;> simp at hid ⊢
  · intro x o _ ho
    have h1 := lt_of_get ho
    simp only [sharedLeafHeap, List.length_cons, List.length_nil] at h1
    interval_cases x
    · simp [sharedLeafHeap] at ho
      subst ho
      refine ⟨by decide, rfl, by decide, ⟨kPairClassId, Pair, by rfl, by rfl, rfl, rfl, rfl⟩, ?_⟩
      intro T q hq
      simp at hq
      obtain ⟨rfl, rfl⟩ := hq
      exact ⟨1, ⟨kLeafClassId, [kLeafClassId], ⟨3, kLoaded⟩, 2, [], true⟩, rfl, rfl, rfl,
        Or.inr (by simp), by decide⟩
    · simp [sharedLeafHeap] at ho
      subst ho
      refine ⟨by decide, rfl, by decide, ⟨kLeafClassId, Leaf, by rfl, by rfl, rfl, rfl, rfl⟩, ?_⟩
      intro T q hq
      simp at hq

/-- The call of `Ptr::Load` returns on a placeholder handle carrying the id of the top of a
loadable graph, against the store of a serialization of the graph and from an empty index. -/
theorem Load_ok {g : List Obj} {top : Nat} {rank : Nat → Nat}
    {reg : List (Nat × ClassDecl)} {b2d : List (Nat × Nat)} (w : World) (T p : Nat)
    (ph otop : Obj) (fuel : Nat)
    (hL : Loadable g top rank w.counter reg b2d)
    (hreg : w.registry_ = some reg) (hb : w.base_to_derived_ = some b2d)
    (hidx : w.all_objects_ = [])
    (htop : g[top]? = some otop) (hT : T = kObjClassId ∨ T ∈ otop.interfaces)
    (hp : w.heap[p]? = some ph) (hphc : ph.class_id = kObjClassId) (hphf : ph.fields = [])
    (hphid : ph.id_.id_ = otop.id_.id_) (hfuel : rank top < fuel) :
    ∃ dom w1 p1, Ptr.Serialize g (some top) = .ok dom ∧
      Ptr.Load fuel (storeLoad dom.stored) w T (some p) = .ok (w1, p1) := by
  have hrtop : Reaches g top top := ⟨hL.1, Relation.ReflTransGen.refl⟩
  obtain ⟨dom, hdom⟩ := Serialize_ok_on g top hL.1 (by
    intro x o T1 q hx ho hq
    obtain ⟨y, oy, h1, h2, h3, _⟩ := (hL.2.2 x o hx ho).2.2.2.2 T1 q hq
    exact ⟨y, h1, oy, h2, h3⟩)
  obtain ⟨q1, q2, _⟩ := hL.2.2 top otop hrtop htop
  obtain ⟨fuel1, rfl⟩ : ∃ f, fuel = f + 1 := ⟨fuel - 1, by omega⟩
  obtain ⟨v1, tmp, d1, d2, d3, d4⟩ := DeserializeObj_ok hL dom hdom (fuel1 + 1) top otop
    (fun _ => False) { w with first_release_ := false } [] hrtop htop hfuel
    (fun _ h => h.elim) rfl hreg hb (le_refl _) (by
      intro k b hk
      simp only [hidx, mapFind] at hk
      cases hk)
  have henc : InstanceId.encode ⟨ph.id_.id_, kLoaded⟩ = otop.id_.encode := by
    rw [hphid, ← q2]
  obtain ⟨g1, g2, g3, g4, g5, g6, g7⟩ := d4
  simp only at g1 g2 g3 g4 g5 g6 g7
  obtain ⟨np, hp1, _⟩ := g7 p ph hp
  obtain ⟨ot, hot, t1, t2, t3, t4, t5⟩ := d3.cell hL hrtop htop d2
  obtain ⟨_, t6⟩ := t5 (fun h => h)
  obtain ⟨v2, s1, _⟩ := assignTemp_ok fuel1 v1 none T p tmp _ ot g1
    (fun k hk => d3.free hL k (by omega)) hp1 hphc hphf hot
    (by rw [t2]; exact hrtop.class_ne htop) t6 (by rw [t3]; exact hT)
    (by intro a i h; cases h)
  have hpl : ph.IsPlaceholder = true := by simp [Obj.IsPlaceholder, hphc]
  exact ⟨dom, { v2 with first_release_ := true }, some tmp, hdom, by
    simp only [Ptr.Load, hp, hpl, Bool.not_true, Bool.false_eq_true, if_false, henc, d1, s1]⟩

/-- What `Ptr::Load` does when it returns, and where it does return: a placeholder handle
of declared class `T`, bound to the cell `p` with id `i`
(`0 < i < 2^31`), is loaded in a world whose index has no entry for `i` and in which no handle
member is bound to the next free address.  (1) Against a load facility whose record for the
key of `i` starts with a class id that resolves to the registered class `c`, not the root
class and with capability `T`: whenever the load returns, the handle is bound to the new cell
(the next free address), it is truthy, `GetId()` is `i`, the cell has the class of `c`, and its
reference count is the number of handle members bound to it plus one, the loaded handle.
(2) Against the store of a serialization of a loadable graph whose top has the id `i` (the
payloads are then well formed), from an empty index and with a budget above the rank of the
top, the load does return, with all of that.  (3) `Load` on a handle that is bound to a cell
not of the placeholder class returns the world and the binding unchanged, whatever the load
facility. -/
theorem Load_makes_resident (fuel : Nat) (w : World) (T p i : Nat) (ph : Obj)
    (hp : w.heap[p]? = some ph) (hph : ph.IsPlaceholder = true) (hid : ph.id_.id_ = i)
    (hi0 : 0 < i) (hi1 : i < 2147483648)
    (hidx : Obj.FindObject w ⟨i, kLoaded⟩ = none)
    (hwild : refs w.heap w.heap.length = 0) :
    (∀ (load : LoadFacility) (class_id : Nat) (payload : List Nat)
        (reg : List (Nat × ClassDecl)) (b2d : List (Nat × Nat)) (d : Nat) (c : ClassDecl)
        (w1 : World) (p1 : Option Nat),
      load (Nat.repr i) = class_id :: payload →
      w.registry_ = some reg → w.base_to_derived_ = some b2d →
      resolveChain (b2d.length + 1) b2d class_id = some d → mapFind reg d = some c →
      c.class_id_ ≠ kObjClassId → (T = kObjClassId ∨ T ∈ c.interfaces) →
      Ptr.Load fuel load w T (some p) = .ok (w1, p1) →
      p1 = some w.heap.length ∧ Ptr.toBool w1 p1 = .ok true ∧ Ptr.GetId w1 p1 = .ok i ∧
        ∃ o, w1.heap[w.heap.length]? = some o ∧ o.class_id = c.class_id_ ∧
          o.reference_count_ = refs w1.heap w.heap.length + 1) ∧
    (∀ (g : List Obj) (top : Nat) (rank : Nat → Nat) (reg : List (Nat × ClassDecl))
        (b2d : List (Nat × Nat)) (otop : Obj),
      Loadable g top rank w.counter reg b2d → w.registry_ = some reg →
      w.base_to_derived_ = some b2d → w.all_objects_ = [] → g[top]? = some otop →
      otop.id_.id_ = i → (T = kObjClassId ∨ T ∈ otop.interfaces) → ph.fields = [] →
      rank top < fuel →
      ∃ dom w1, Ptr.Serialize g (some top) = .ok dom ∧
        Ptr.Load fuel (storeLoad dom.stored) w T (some p) = .ok (w1, some w.heap.length) ∧
        Ptr.toBool w1 (some w.heap.length) = .ok true ∧
        Ptr.GetId w1 (some w.heap.length) = .ok i ∧
        ∃ o, w1.heap[w.heap.length]? = some o ∧ o.class_id = otop.class_id ∧
          o.reference_count_ = refs w1.heap w.heap.length + 1) ∧
    (∀ (load : LoadFacility) (a : Nat) (o : Obj), w.heap[a]? = some o →
      o.IsPlaceholder = false → Ptr.Load fuel load w T (some a) = .ok (w, some a)) := by
  refine ⟨?_, ?_, fun load a o ho hres => by simp [Ptr.Load, ho, hres]⟩
  · intro load class_id payload reg b2d d c w1 p1 hrec hreg hb2d hres hc hcls hcap hload
    exact (Load_resident_of_ok fuel load w T p i ph class_id payload reg b2d d c w1 p1 hp hph
      hid hi0 hi1 hidx hrec hreg hb2d hres hc hcls hcap hwild hload).1
  · intro g top rank reg b2d otop hL hreg hb2d hempty htop hti hT hphf hfuel
    have hphc : ph.class_id = kObjClassId := by simpa [Obj.IsPlaceholder] using hph
    have hrtop : Reaches g top top := ⟨hL.1, Relation.ReflTransGen.refl⟩
    obtain ⟨dom, w1, p1, hdom, hload⟩ := Load_ok w T p ph otop fuel hL hreg hb2d hempty htop hT
      hp hphc hphf (by rw [hid, hti]) hfuel
    obtain ⟨_, _, _, ⟨d, c, q4, q5, q6, q7, _⟩, _⟩ := hL.2.2 top otop hrtop htop
    have hrec := storeLoad_record g top dom hdom hL.2.1 top otop hrtop htop
    rw [hti] at hrec
    obtain ⟨h1, h2, h3, o, h4, h5, h6⟩ := (Load_resident_of_ok fuel (storeLoad dom.stored) w T p
      i ph otop.class_id _ reg b2d d c w1 p1 hp hph hid hi0 hi1 hidx hrec hreg hb2d q4 q5
      (by rw [q6]; exact hrtop.class_ne htop) (by rw [q7]; exact hT) hwild hload).1
    subst h1
    exact ⟨dom, w1, hdom, hload, h2, h3, o, h4, by rw [h5, q6], h6⟩

theorem Load_makes_resident_witness :
    (loadedCycle.2 = some 1 ∧ Ptr.toBool loadedCycle.1 loadedCycle.2 = .ok true ∧
      Ptr.GetId loadedCycle.1 loadedCycle.2 = .ok 1 ∧
      ∃ o, loadedCycle.1.heap[1]? = some o ∧ o.class_id = kNodeClassId ∧
        o.reference_count_ = refs loadedCycle.1.heap 1 + 1) ∧
    (∃ dom w1, Ptr.Serialize sharedLeafHeap (some 0) = .ok dom ∧
      Ptr.Load 2 (storeLoad dom.stored) laterWorld kPairClassId (some 0) = .ok (w1, some 1) ∧
      Ptr.toBool w1 (some 1) = .ok true ∧ Ptr.GetId w1 (some 1) = .ok 10 ∧
      ∃ o, w1.heap[1]? = some o ∧ o.class_id = kPairClassId ∧
        o.reference_count_ = refs w1.heap 1 + 1) :=
  ⟨(Load_makes_resident 4 (Ptr.NewPlaceholder nodeWorld).2 kNodeClassId 0 1
      ⟨kObjClassId, [], ⟨1, kLoaded⟩, 1, [], true⟩ (by rfl) (by rfl) (by rfl) (by decide)
      (by decide) (by rfl) (by rfl)).1 (storeLoad cycleRecords) kNodeClassId [2 ||| kLoaded]
      [(kNodeClassId, Node)] [(0, kNodeClassId)] kNodeClassId Node loadedCycle.1 loadedCycle.2
      (by rfl) (by rfl) (by rfl) (by rfl) (by rfl) (by decide) (Or.inr (by decide)) (by rfl),
    (Load_makes_resident 2 laterWorld kPairClassId 0 10
      ⟨kObjClassId, [], ⟨10, kLoaded⟩, 1, [], true⟩ (by rfl) (by rfl) (by rfl) (by decide)
      (by decide) (by rfl) (by rfl)).2.1 sharedLeafHeap 0 (fun x => 1 - x)
      [(kLeafClassId, Leaf), (kPairClassId, Pair)] [(0, kLeafClassId)]
      ⟨kPairClassId, [kPairClassId], ⟨10, kLoaded⟩, 1,
        [.handle kLeafClassId (some 1), .handle kLeafClassId (some 1)], true⟩
      sharedLeaf_loadable (by rfl) (by rfl) (by rfl) (by rfl) (by rfl) (Or.inr (by simp))
      (by rfl) (by decide)⟩

/-! ### The wire form of `InstanceId` -/

theorem and_flag_of_lt (x : Nat) (h : x < 2 ^ 31) : x &&& 2 ^ 31 = 0 := by
  apply Nat.eq_of_testBit_eq
  intro j
  rw [Nat.testBit_and, Nat.testBit_two_pow, Nat.zero_testBit]
  by_cases hj : 31 = j
  · subst hj
    rw [Nat.testBit_lt_two_pow h]
    rfl
  · simp [hj]

theorem and_flag_of_or (x : Nat) : (x ||| 2 ^ 31) &&& 2 ^ 31 = 2 ^ 31 := by
  apply Nat.eq_of_testBit_eq
  intro j
  rw [Nat.testBit_and, Nat.testBit_or, Nat.testBit_two_pow]
  by_cases hj : 31 = j
  · subst hj; simp
  · simp [hj]

theorem or_flag_eq_add (x : Nat) (h : x < 2 ^ 31) : x ||| 2 ^ 31 = x + 2 ^ 31 := by
  have := Nat.mul_add_lt_is_or h 1
  rw [Nat.lor_comm]
  simp only [Nat.mul_one] at this
  omega

/-- C11: the flag `kLoaded` is `0x80000000` and the mask `kIdBitMask` is `0x7FFFFFFF`; for
every `InstanceId` with an id below `2^31` and flags 0 or `kLoaded`, `operator<<` writes the
single word `id | flags`, which is the id plus the flag bit shifted to position 31 and fits
32 bits, and `operator>>` on that word gives back the same id and the same flags. -/
theorem InstanceId_wire_roundtrip :
    kLoaded = 2147483648 ∧ kIdBitMask = 2147483647 ∧
    ∀ i : InstanceId, i.id_ < 2147483648 → (i.flags_ = 0 ∨ i.flags_ = kLoaded) →
      i.encode = i.id_ ||| i.flags_ ∧
      i.encode = i.id_ + (if i.flags_ = kLoaded then 1 else 0) * 2 ^ 31 ∧
      i.encode < 4294967296 ∧ InstanceId.decode i.encode = i := by
  refine ⟨by decide, by decide, ?_⟩
  intro i hid hfl
  obtain ⟨n, f⟩ := i
  simp only at hid hfl
  have h1 : kLoaded = 2 ^ 31 := by decide
  have h2 : kIdBitMask = 2 ^ 31 - 1 := by decide
  have h3 : (4294967295 ^^^ (2 ^ 31 - 1) : Nat) = 2 ^ 31 := by decide
  have hlt : n < 2 ^ 31 := by omega
  rcases hfl with hf | hf
  · subst hf
    have hne : ¬ (0 = kLoaded) := by decide
    simp only [InstanceId.encode, InstanceId.decode, Nat.or_zero, hne, if_false, h2, h3,
      Nat.and_pow_two_sub_one_of_lt_two_pow hlt, and_flag_of_lt n hlt]
    refine ⟨trivial, by omega, by omega, trivial⟩
  · subst hf
    simp only [InstanceId.encode, InstanceId.decode, if_true, h2, h3]
    rw [h1, or_flag_eq_add n hlt]
    refine ⟨trivial, by omega, by omega, ?_⟩
    have e1 : (n + 2 ^ 31) &&& (2 ^ 31 - 1) = n := by
      rw [Nat.and_pow_two_sub_one_eq_mod]
      omega
    have e2 : (n + 2 ^ 31) &&& 2 ^ 31 = 2 ^ 31 := by
      rw [← or_flag_eq_add n hlt]
      exact and_flag_of_or n
    rw [e1, e2]

theorem InstanceId_wire_roundtrip_witness :
    InstanceId.encode ⟨5, kLoaded⟩ = 5 ||| kLoaded ∧
      InstanceId.encode ⟨5, kLoaded⟩ = 5 + (if kLoaded = kLoaded then 1 else 0) * 2 ^ 31 ∧
      InstanceId.encode ⟨5, kLoaded⟩ < 4294967296 ∧
      InstanceId.decode (InstanceId.encode ⟨5, kLoaded⟩) = ⟨5, kLoaded⟩ :=
  InstanceId_wire_roundtrip.2.2 ⟨5, kLoaded⟩ (by decide) (Or.inr rfl)

/-! ### The class registry -/

theorem keys_mapErase {α : Type} (m : List (Nat × α)) (k : Nat) :
    (mapErase m k).map Prod.fst = (m.map Prod.fst).filter (fun x => x != k) := by
  induction m with
  | nil => rfl
  | cons e m ih =>
    obtain ⟨k2, x⟩ := e
    simp only [mapErase] at ih ⊢
    by_cases h : (k2 != k) = true
    · simp only [List.filter, h, List.map_cons, ih]
    · have h1 : (k2 != k) = false := by simpa using h
      simp only [List.filter, h1, List.map_cons, ih]

theorem keys_mapSet_nodup {α : Type} (m : List (Nat × α)) (k : Nat) (x : α)
    (h : (m.map Prod.fst).Nodup) : ((mapSet m k x).map Prod.fst).Nodup := by
  simp only [mapSet, List.map_cons, List.nodup_cons, keys_mapErase]
  refine ⟨?_, h.filter _⟩
  simp [List.mem_filter]

theorem keys_mapErase_nodup {α : Type} (m : List (Nat × α)) (k : Nat)
    (h : (m.map Prod.fst).Nodup) : ((mapErase m k).map Prod.fst).Nodup := by
  rw [keys_mapErase]
  exact h.filter _

/-- C13: `RegisterClass(id, base_id, factory)` throws exactly when `id` already has a factory,
and the only thing it throws is the duplicate error; a throw happens before any write, so the
process state stays the one given (the model returns no new state for it).  When it
succeeds, only the two tables change: `id` maps to the factory; every other factory entry is
as before; the edge `base_id -> id` is there and every other override edge is as before when
`base_id` is not the class id of `Obj`, and the override table is as before when it is; and a
factory table with one entry for each class id has one entry for each class id afterwards. -/
theorem RegisterClass_atomic (w : World) (id base_id : Nat) (c : ClassDecl) :
    ((∃ e, Registry.RegisterClass w id base_id c = .error e) ↔
      ∃ c0, mapFind (w.registry_.getD []) id = some c0) ∧
    (∀ e, Registry.RegisterClass w id base_id c = .error e → e = .duplicate) ∧
    (∀ w1, Registry.RegisterClass w id base_id c = .ok w1 →
      w1 = { w with registry_ := w1.registry_, base_to_derived_ := w1.base_to_derived_ } ∧
      ∃ reg1 b2d1, w1.registry_ = some reg1 ∧ w1.base_to_derived_ = some b2d1 ∧
        mapFind reg1 id = some c ∧
        (∀ k, k ≠ id → mapFind reg1 k = mapFind (w.registry_.getD []) k) ∧
        (base_id ≠ kObjClassId → mapFind b2d1 base_id = some id ∧
          ∀ k, k ≠ base_id → mapFind b2d1 k = mapFind (w.base_to_derived_.getD []) k) ∧
        (base_id = kObjClassId → b2d1 = w.base_to_derived_.getD []) ∧
        (((w.registry_.getD []).map Prod.fst).Nodup → (reg1.map Prod.fst).Nodup)) := by
  cases hfind : mapFind (w.registry_.getD []) id with
  | some c0 =>
    simp only [Registry.RegisterClass, hfind]
    refine ⟨⟨fun _ => ⟨c0, rfl⟩, fun _ => ⟨.duplicate, rfl⟩⟩, ?_, ?_⟩
    · intro e h
      injection h with h
      exact h.symm
    · intro w1 h
      cases h
  | none =>
    simp only [Registry.RegisterClass, hfind]
    refine ⟨⟨fun h => ?_, fun h => ?_⟩, ?_, ?_⟩
    · obtain ⟨e, he⟩ := h
      cases he
    · obtain ⟨c0, hc0⟩ := h
      cases hc0
    · intro e h
      cases h
    · intro w1 h
      injection h with h
      subst h
      refine ⟨rfl, _, _, rfl, rfl, by simp [mapFind_mapSet], ?_, ?_, ?_, ?_⟩
      · intro k hk
        have : ¬ id = k := fun h => hk h.symm
        simp [mapFind_mapSet, this]
      · intro hb
        simp only [hb, ne_eq, not_false_eq_true, if_true, mapFind_mapSet]
        refine ⟨trivial, fun k hk => ?_⟩
        have : ¬ base_id = k := fun h => hk h.symm
        simp [this]
      · intro hb
        simp [hb]
      · exact keys_mapSet_nodup _ _ _

theorem RegisterClass_atomic_witness :
    nodeWorld = { emptyWorld with registry_ := nodeWorld.registry_,
                                  base_to_derived_ := nodeWorld.base_to_derived_ } ∧
      ∃ reg1 b2d1, nodeWorld.registry_ = some reg1 ∧ nodeWorld.base_to_derived_ = some b2d1 ∧
        mapFind reg1 kNodeClassId = some Node ∧
        (∀ k, k ≠ kNodeClassId → mapFind reg1 k = mapFind (emptyWorld.registry_.getD []) k) ∧
        ((0 : Nat) ≠ kObjClassId → mapFind b2d1 0 = some kNodeClassId ∧
          ∀ k, k ≠ 0 → mapFind b2d1 k = mapFind (emptyWorld.base_to_derived_.getD []) k) ∧
        ((0 : Nat) = kObjClassId → b2d1 = emptyWorld.base_to_derived_.getD []) ∧
        (((emptyWorld.registry_.getD []).map Prod.fst).Nodup → (reg1.map Prod.fst).Nodup) :=
  (RegisterClass_atomic emptyWorld kNodeClassId 0 Node).2.2 nodeWorld (by rfl)

/-! ### The override chain -/

theorem resolveChain_more (m : List (Nat × Nat)) (d : Nat) :
    ∀ (n k x : Nat), resolveChain n m x = some d → resolveChain (n + k) m x = some d := by
  intro n
  induction n with
  | zero => intro k x h; simp [resolveChain] at h
  | succ n ih =>
    intro k x h
    rw [Nat.add_right_comm]
    simp only [resolveChain] at h ⊢
    cases hf : mapFind m x with
    | none => rw [hf] at h; exact h
    | some y =>
      rw [hf] at h
      simp only at h ⊢
      by_cases hxy : x = y
      · simpa [hxy] using h
      · simp only [hxy, if_false] at h ⊢
        exact ih k y h

/-- Where the loop of `CreateClassById` stops: at an id without an override edge, or with an
edge to itself. -/
theorem resolveChain_fixed (m : List (Nat × Nat)) (d : Nat) :
    ∀ (n x : Nat), resolveChain n m x = some d → mapFind m d = none ∨ mapFind m d = some d := by
  intro n
  induction n with
  | zero => intro x h; simp [resolveChain] at h
  | succ n ih =>
    intro x h
    simp only [resolveChain] at h
    cases hf : mapFind m x with
    | none =>
      rw [hf] at h
      simp only [Option.some.injEq] at h
      subst h
      exact Or.inl hf
    | some y =>
      rw [hf] at h
      simp only at h
      by_cases hxy : x = y
      · simp only [hxy, if_true, Option.some.injEq] at h
        subst h
        subst hxy
        exact Or.inr hf
      · simp only [hxy, if_false] at h
        exact ih y h

theorem resolveChain_erase (m : List (Nat × Nat)) (x d : Nat) :
    ∀ (n y : Nat), resolveChain n m y = some d →
      resolveChain n (mapErase m x) y = some d ∨ ∃ n1, n1 ≤ n ∧ resolveChain n1 m x = some d := by
  intro n
  induction n with
  | zero => intro y h; simp [resolveChain] at h
  | succ n ih =>
    intro y h
    by_cases hyx : y = x
    · subst hyx
      exact Or.inr ⟨n + 1, le_refl _, h⟩
    · simp only [resolveChain, mapFind_mapErase, hyx, if_false] at h ⊢
      cases hf : mapFind m y with
      | none => rw [hf] at h; exact Or.inl h
      | some z =>
        rw [hf] at h
        simp only at h ⊢
        by_cases hyz : y = z
        · simp only [hyz, if_true] at h ⊢
          exact Or.inl h
        · simp only [hyz, if_false] at h ⊢
          rcases ih z h with h1 | ⟨n1, h1, h2⟩
          · exact Or.inl h1
          · exact Or.inr ⟨n1, by omega, h2⟩

theorem resolveChain_unerase (m : List (Nat × Nat)) (x d : Nat) :
    ∀ (n y : Nat), resolveChain n (mapErase m x) y = some d →
      resolveChain n m y = some d ∨ d = x := by
  intro n
  induction n with
  | zero => intro y h; simp [resolveChain] at h
  | succ n ih =>
    intro y h
    by_cases hyx : y = x
    · subst hyx
      simp only [resolveChain, mapFind_mapErase, if_true, Option.some.injEq] at h
      exact Or.inr h.symm
    · simp only [resolveChain, mapFind_mapErase, hyx, if_false] at h ⊢
      cases hf : mapFind m y with
      | none => rw [hf] at h; exact Or.inl h
      | some z =>
        rw [hf] at h
        simp only at h ⊢
        by_cases hyz : y = z
        · simp only [hyz, if_true] at h ⊢
          exact Or.inl h
        · simp only [hyz, if_false] at h ⊢
          exact ih z h

theorem length_mapErase_lt {α : Type} (m : List (Nat × α)) (k : Nat) (v : α)
    (h : mapFind m k = some v) : (mapErase m k).length < m.length := by
  induction m with
  | nil => simp [mapFind] at h
  | cons e m ih =>
    obtain ⟨k2, x⟩ := e
    simp only [mapFind] at h
    by_cases h2 : k2 = k
    · subst h2
      simp only [mapErase, List.filter, bne_self_eq_false, List.length_cons]
      have := List.length_filter_le (fun e : Nat × α => e.1 != k2) m
      omega
    · simp only [h2, if_false] at h
      have hb : (k2 != k) = true := by simpa using h2
      simp only [mapErase, List.filter, hb, List.length_cons] at ih ⊢
      have := ih h
      omega

/-- The budget of the model is enough: a run of the loop of `CreateClassById` that stops at
all stops within `m.length + 1` rounds. -/
theorem resolveChain_budget :
    ∀ (l : Nat) (m : List (Nat × Nat)), m.length = l → ∀ (n x d : Nat),
      resolveChain n m x = some d → resolveChain (m.length + 1) m x = some d := by
  intro l
  induction l using Nat.strong_induction_on with
  | _ l ihl =>
    intro m hl n
    induction n using Nat.strong_induction_on with
    | _ n ihn =>
      intro x d h
      cases n with
      | zero => simp [resolveChain] at h
      | succ n =>
        have hfix := resolveChain_fixed m d _ _ h
        simp only [resolveChain] at h ⊢
        cases hf : mapFind m x with
        | none => rw [hf] at h; exact h
        | some y =>
          rw [hf] at h
          simp only at h ⊢
          by_cases hxy : x = y
          · simpa [hxy] using h
          · simp only [hxy, if_false] at h ⊢
            have hlen := length_mapErase_lt m x y hf
            rcases resolveChain_erase m x d n y h with h1 | ⟨n1, h1, h2⟩
            · have h3 := ihl (mapErase m x).length (by omega) (mapErase m x) rfl n y d h1
              rcases resolveChain_unerase m x d _ y h3 with h4 | h4
              · have := resolveChain_more m d _ (m.length - ((mapErase m x).length + 1)) y h4
                have e : (mapErase m x).length + 1 + (m.length - ((mapErase m x).length + 1)) =
                    m.length := by omega
                rw [e] at this
                exact this
              · subst h4
                rcases hfix with h5 | h5
                · rw [hf] at h5; cases h5
                · rw [hf] at h5
                  injection h5 with h5
                  exact absurd h5.symm hxy
            · have h3 := ihn n1 (by omega) x d h2
              simp only [resolveChain, hf, hxy, if_false] at h3
              exact h3

/-- The fault `Fault.loop` of the model stands for a loop that never stops: when the budget
`m.length + 1` is exhausted, every budget is. -/
theorem resolveChain_none_forever (m : List (Nat × Nat)) (x : Nat)
    (h : resolveChain (m.length + 1) m x = none) : ∀ n, resolveChain n m x = none := by
  intro n
  cases hn : resolveChain n m x with
  | none => rfl
  | some d =>
    rw [resolveChain_budget m.length m rfl n x d hn] at h
    cases h

/-- C15 (the code at the failing input): from the empty registry the two calls
`RegisterClass(Leaf, Pair, ..)` and `RegisterClass(Pair, Leaf, ..)` succeed and leave the
override edges `Pair -> Leaf` and `Leaf -> Pair`.  For the request `Leaf` the loop of
`CreateClassById` then stops after no number of rounds: it alternates between the two ids,
neither of which is without an edge or has an edge to itself. -/
theorem CreateClassById_cycle_diverges :
    (∃ w1, Registry.RegisterClass emptyWorld kLeafClassId kPairClassId Leaf = .ok w1 ∧
      Registry.RegisterClass w1 kPairClassId kLeafClassId Pair = .ok crossWorld) ∧
    crossWorld.base_to_derived_ = some [(kLeafClassId, kPairClassId), (kPairClassId, kLeafClassId)] ∧
    (∀ fuel, resolveChain fuel [(kLeafClassId, kPairClassId), (kPairClassId, kLeafClassId)]
      kLeafClassId = none) ∧
    Registry.CreateClassById crossWorld kLeafClassId = .error .loop :=
  ⟨⟨_, rfl, by rfl⟩, by rfl, resolveChain_none_forever _ _ (by rfl), by rfl⟩

/-! ### Failing loads -/

/-- C17 (the code at the failing input): `DeserializeObj` reads the identity word with id 0
(flag set or not) in a process with an empty index.  It calls the load facility with the key
"0"; when the store has a `Leaf` record under "0" it constructs a `Leaf` with id 0, enters it
in the index and returns a handle to it, which is truthy; when the store has no such record
the read of the class id fails.  In no case does it return a placeholder without a call. -/
theorem DeserializeObj_loads_id_zero :
    (InstanceId.decode (0 ||| kLoaded)).id_ = 0 ∧ (InstanceId.decode 0).id_ = 0 ∧
    pairWorld.all_objects_ = [] ∧
    (DeserializeObj 2 (storeLoad [("0", [kLeafClassId])]) pairWorld [0 ||| kLoaded]).map
        (fun r => (r.1.loads, r.2.2, r.1.heap.map Obj.view, r.1.all_objects_,
          Ptr.toBool r.1 (some r.2.2))) =
      .ok (["0"], 0, [(kLeafClassId, 0, 1, [], true)], [(0, 0)], .ok true) ∧
    (DeserializeObj 2 (storeLoad [("0", [kLeafClassId])]) pairWorld [0]).map
        (fun r => (r.1.loads, r.2.2, r.1.heap.map Obj.view, r.1.all_objects_,
          Ptr.toBool r.1 (some r.2.2))) =
      .ok (["0"], 0, [(kLeafClassId, 0, 1, [], true)], [(0, 0)], .ok true) ∧
    (DeserializeObj 2 (storeLoad []) pairWorld [0 ||| kLoaded]).map (fun r => r.2.2) =
      .error .underflow :=
  ⟨by decide, by decide, by rfl, by rfl, by rfl, by rfl⟩

/-- C18 (the code at the failing input): after `h1.Load(load)` the handle `h1` is bound to
the new `Leaf` at address 1, with id 1 and alive, but the index has no entry for the id 1:
the destructor of the placeholder of `h1`, which had the same id, has erased it.  So
`FindObject` for the id 1 returns null, and the load of a second placeholder handle with the
id 1 calls the load facility again and binds the handle to another new `Leaf`, at address
4. -/
theorem Load_reconstructs_resident :
    firstLoad.map (fun r => (r.2, r.1.loads, r.1.heap.map Obj.view, r.1.all_objects_,
        Obj.FindObject r.1 ⟨1, kLoaded⟩)) =
      .ok (some 1, ["1"],
        [(kObjClassId, 1, 0, [], false), (kLeafClassId, 1, 1, [], true),
         (kObjClassId, 3, 0, [], false)], [], none) ∧
    secondLoad.map (fun r => (r.2, r.1.loads, r.1.heap.map Obj.view)) =
      .ok (some 4, ["1", "1"],
        [(kObjClassId, 1, 0, [], false), (kLeafClassId, 1, 1, [], true),
         (kObjClassId, 3, 0, [], false), (kObjClassId, 1, 0, [], false),
         (kLeafClassId, 1, 1, [], true), (kObjClassId, 6, 0, [], false)]) :=
  ⟨by rfl, by rfl⟩

/-! ### Stable predicates and reachable states -/

theorem NewPlaceholder_stable {I : World → Prop} (hI : Stable I) (w : World) (h : I w) :
    I (Ptr.NewPlaceholder w).2 :=
  hI.1 _ _ _ (fun _ => ⟨rfl, rfl⟩) (hI.2.1 w kObjClassId [] h)

theorem Init_stable {I : World → Prop} (hI : Stable I) (w : World) (p : Option Nat) (a : Nat)
    (w1 : World) (hp : Ptr.Init w p = .ok (a, w1)) (h : I w) : I w1 := by
  cases p with
  | none =>
    simp only [Ptr.Init, Except.ok.injEq] at hp
    have h1 : w1 = (Ptr.NewPlaceholder w).2 := by rw [hp]
    rw [h1]
    exact NewPlaceholder_stable hI w h
  | some b =>
    simp only [Ptr.Init] at hp
    cases hb : w.heap[b]? with
    | none => rw [hb] at hp; cases hp
    | some o =>
      rw [hb] at hp
      simp only [Except.ok.injEq, Prod.mk.injEq] at hp
      rw [← hp.2]
      exact hI.1 _ _ _ (fun _ => ⟨rfl, rfl⟩) h

theorem flag_stable {I : World → Prop} (hI : Stable I) (w : World) (b : Bool) (h : I w) :
    I { w with first_release_ := b } :=
  hI.2.2.2 w b w.deleted w.loads w.registry_ w.base_to_derived_ h

theorem destroyMembers_stable {I : World → Prop} (hI : Stable I)
    (rel : World → Option Nat → Except Fault World)
    (hrel : ∀ w p w1, rel w p = .ok w1 → I w → I w1) (a : Nat) :
    ∀ (i : Nat) (w w1 : World), destroyMembers rel a i w = .ok w1 → I w → I w1 := by
  intro i
  induction i with
  | zero =>
    intro w w1 h hw
    simp only [destroyMembers, Except.ok.injEq] at h
    subst h
    exact hw
  | succ i ih =>
    intro w w1 h hw
    simp only [destroyMembers] at h
    cases ho : w.heap[a]? with
    | none => rw [ho] at h; cases h
    | some o =>
      rw [ho] at h
      simp only at h
      cases hfi : o.fields[i]? with
      | none =>
        rw [hfi] at h
        exact ih w w1 h hw
      | some f =>
        rw [hfi] at h
        cases f with
        | scalar v => exact ih w w1 h hw
        | handle T p =>
          simp only at h
          cases hr : rel w p with
          | error e => rw [hr] at h; cases h
          | ok wm =>
            rw [hr] at h
            simp only at h
            exact ih _ w1 h (hI.1 _ _ _ (fun _ => ⟨rfl, rfl⟩) (hrel w p wm hr hw))

theorem deleteObj_stable {I : World → Prop} (hI : Stable I)
    (rel : World → Option Nat → Except Fault World)
    (hrel : ∀ w p w1, rel w p = .ok w1 → I w → I w1) (w : World) (a : Nat) (w1 : World)
    (h : deleteObj rel w a = .ok w1) (hw : I w) : I w1 := by
  simp only [deleteObj] at h
  cases ho : w.heap[a]? with
  | none => rw [ho] at h; cases h
  | some o =>
    rw [ho] at h
    simp only at h
    cases hd : destroyMembers rel a o.fields.length { w with deleted := w.deleted ++ [a] } with
    | error e => rw [hd] at h; cases h
    | ok wm =>
      rw [hd] at h
      simp only at h
      have hm : I wm := destroyMembers_stable hI rel hrel a _ _ wm hd
        (hI.2.2.2 w w.first_release_ (w.deleted ++ [a]) w.loads w.registry_
          w.base_to_derived_ hw)
      cases ho1 : wm.heap[a]? with
      | none => rw [ho1] at h; cases h
      | some o1 =>
        rw [ho1] at h
        simp only [Except.ok.injEq] at h
        rw [← h]
        exact hI.2.2.1 wm a o1 ho1 hm

theorem deleteAll_stable {I : World → Prop} (hI : Stable I)
    (rel : World → Option Nat → Except Fault World)
    (hrel : ∀ w p w1, rel w p = .ok w1 → I w → I w1) :
    ∀ (l : List Nat) (w w1 : World), deleteAll rel w l = .ok w1 → I w → I w1 := by
  intro l
  induction l with
  | nil =>
    intro w w1 h hw
    simp only [deleteAll, Except.ok.injEq] at h
    subst h
    exact hw
  | cons x l ih =>
    intro w w1 h hw
    simp only [deleteAll] at h
    cases hd : deleteObj rel w x with
    | error e => rw [hd] at h; cases h
    | ok wm =>
      rw [hd] at h
      exact ih wm w1 h (deleteObj_stable hI rel hrel w x wm hd hw)

theorem zeroCounts_stable {I : World → Prop} (hI : Stable I) :
    ∀ (l : List Nat) (w : World), I w → I (zeroCounts w l) := by
  intro l
  induction l with
  | nil => intro w hw; exact hw
  | cons x l ih =>
    intro w hw
    exact ih _ (hI.1 _ _ _ (fun _ => ⟨rfl, rfl⟩) hw)

theorem releaseTail_stable {I : World → Prop} (hI : Stable I)
    (rel : World → Option Nat → Except Fault World)
    (hrel : ∀ w p w1, rel w p = .ok w1 → I w → I w1) (w : World) (a : Nat) (w1 : World)
    (h : releaseTail rel w a = .ok w1) (hw : I w) : I w1 := by
  simp only [releaseTail] at h
  cases ho : w.heap[a]? with
  | none => rw [ho] at h; cases h
  | some o =>
    rw [ho] at h
    simp only at h
    have hu : I (w.update a (fun o => { o with reference_count_ := o.reference_count_ - 1 })) :=
      hI.1 _ _ _ (fun _ => ⟨rfl, rfl⟩) hw
    by_cases hz : o.reference_count_ - 1 = 0
    · rw [if_pos hz] at h
      exact deleteObj_stable hI rel hrel _ a w1 h hu
    · rw [if_neg hz] at h
      simp only [Except.ok.injEq] at h
      rw [← h]
      exact hu

/-- Whatever `Ptr::release` does, it keeps a stable predicate. -/
theorem release_stable {I : World → Prop} (hI : Stable I) :
    ∀ (fuel : Nat) (w : World) (p : Option Nat) (w1 : World),
      release fuel w p = .ok w1 → I w → I w1 := by
  intro fuel
  induction fuel with
  | zero => intro w p w1 h; simp [release] at h
  | succ fuel ih =>
    intro w p w1 h hw
    cases p with
    | none => simp [release] at h
    | some a =>
      simp only [release] at h
      by_cases hf : w.first_release_ = true
      · rw [if_pos hf] at h
        cases hs : Ptr.Serialize w.heap (some a) with
        | error e => simp only [hs] at h; cases h
        | ok domain =>
          simp only [hs] at h
          have h0 : I { w with first_release_ := false } := flag_stable hI w false hw
          have key : ∀ (w2 : World) (del_list : List Nat), I w2 →
              (match deleteAll (release fuel) (zeroCounts w2 del_list) del_list with
                | Except.error e => Except.error e
                | Except.ok w3 =>
                  if a ∈ del_list then Except.ok { w3 with first_release_ := true }
                  else releaseTail (release fuel) { w3 with first_release_ := true } a) =
                Except.ok w1 → I w1 := by
            intro w2 del_list h2 hk
            cases hd : deleteAll (release fuel) (zeroCounts w2 del_list) del_list with
            | error e => rw [hd] at hk; cases hk
            | ok w3 =>
              rw [hd] at hk
              simp only at hk
              have h3 : I { w3 with first_release_ := true } :=
                flag_stable hI w3 true
                  (deleteAll_stable hI _ ih del_list _ w3 hd (zeroCounts_stable hI del_list w2 h2))
              by_cases hm : a ∈ del_list
              · rw [if_pos hm] at hk
                simp only [Except.ok.injEq] at hk
                rw [← hk]; exact h3
              · rw [if_neg hm] at hk
                exact releaseTail_stable hI _ ih _ a w1 hk h3
          by_cases hr : some a ≠ w.root_
          · rw [if_pos hr] at h
            cases hi : Ptr.Init { w with first_release_ := false } w.root_ with
            | error e => simp only [hi] at h; cases h
            | ok r =>
              obtain ⟨t, wi⟩ := r
              simp only [hi] at h
              cases hs1 : Ptr.Serialize wi.heap (some t) with
              | error e => simp only [hs1] at h; cases h
              | ok root =>
                simp only [hs1] at h
                cases hr1 : release fuel wi (some t) with
                | error e => simp only [hr1] at h; cases h
                | ok w2 =>
                  simp only [hr1] at h
                  exact key w2 _ (ih wi (some t) w2 hr1 (Init_stable hI _ _ t wi hi h0)) h
          · rw [if_neg hr] at h
            simp only at h
            exact key _ _ h0 h
      · rw [if_neg hf] at h
        exact releaseTail_stable hI _ ih w a w1 h hw

theorem constructMembers_stable {I : World → Prop} (hI : Stable I) (a : Nat) :
    ∀ (ds : List FieldDecl) (w : World), I w → I (constructMembers a w ds) := by
  intro ds
  induction ds with
  | nil => intro w hw; exact hw
  | cons d ds ih =>
    intro w hw
    cases d with
    | scalar v => exact ih _ (hI.1 _ _ _ (fun _ => ⟨rfl, rfl⟩) hw)
    | handle T =>
      exact ih _ (hI.1 _ _ _ (fun _ => ⟨rfl, rfl⟩) (NewPlaceholder_stable hI w hw))

theorem create_stable {I : World → Prop} (hI : Stable I) (c : ClassDecl) (w : World)
    (hw : I w) : I (c.create w).2 :=
  constructMembers_stable hI _ c.fields _ (hI.2.1 w c.class_id_ c.interfaces hw)

/-- Every building operation keeps a stable predicate. -/
theorem BuildStep_stable {I : World → Prop} (hI : Stable I) (w w1 : World)
    (hs : BuildStep w w1) (hw : I w) : I w1 := by
  cases hs with
  | register _ id base_id c _ h =>
    simp only [Registry.RegisterClass] at h
    cases hfind : mapFind (w.registry_.getD []) id with
    | some x => simp only [hfind] at h; cases h
    | none =>
      simp only [hfind, Except.ok.injEq] at h
      rw [← h]
      exact hI.2.2.2 w w.first_release_ w.deleted w.loads _ _ hw
  | unregister _ id _ h =>
    simp only [Registry.UnregisterClass] at h
    cases hr : w.registry_ with
    | none => simp only [hr] at h; cases h
    | some reg =>
      cases hb : w.base_to_derived_ with
      | none => simp only [hr, hb] at h; cases h
      | some b2d =>
        simp only [hr, hb, Except.ok.injEq] at h
        rw [← h]
        exact hI.2.2.2 w w.first_release_ w.deleted w.loads _ _ hw
  | create _ c => exact create_stable hI c w hw
  | init _ p a _ h => exact Init_stable hI w p a w1 h hw
  | release fuel _ p _ h => exact release_stable hI fuel w p w1 h hw
  | unload _ p a _ h => exact Init_stable hI w none a w1 h hw
  | delete fuel _ a _ h => exact deleteObj_stable hI _ (release_stable hI fuel) w a w1 h hw

/-- A stable predicate that holds at the start holds in every state the building
operations reach. -/
theorem Reachable_stable {I : World → Prop} (hI : Stable I) (h0 : I emptyWorld) (w : World)
    (h : Reachable BuildStep w) : I w := by
  induction h with
  | start => exact h0
  | next w w1 _ hs ih => exact BuildStep_stable hI w w1 hs ih

theorem IndexSound_stable : Stable IndexSound := by
  refine ⟨?_, ?_, ?_, ?_⟩
  · intro w a f hf hw k b hk
    rw [update_all_objects] at hk
    obtain ⟨o, ho, hal, hid⟩ := hw k b hk
    rw [update_heap_get]
    by_cases hab : a = b
    · subst hab
      refine ⟨f o, by simp [ho], ?_, ?_⟩
      · rw [(hf o).2]; exact hal
      · rw [(hf o).1]; exact hid
    · exact ⟨o, by simp [hab, ho], hal, hid⟩
  · intro w cls ifs hw k b hk
    simp only [World.construct, GenerateUnique] at hk ⊢
    obtain ⟨o, ho, hal, hid⟩ := hw k b hk
    exact ⟨o, by rw [List.getElem?_append_left (lt_of_get ho)]; exact ho, hal, hid⟩
  · intro w a o ho hw k b hk
    simp only at hk ⊢
    rw [mapFind_mapErase] at hk
    by_cases hke : k = o.id_.id_
    · rw [if_pos hke] at hk; cases hk
    · rw [if_neg hke] at hk
      obtain ⟨ob, hob, hal, hid⟩ := hw k b hk
      have hab : a ≠ b := by
        intro hab
        subst hab
        rw [ho] at hob
        injection hob with hob
        subst hob
        exact hke hid.symm
      exact ⟨ob, by rw [List.getElem?_set_ne hab]; exact hob, hal, hid⟩
  · intro w b d l r m hw k a hk
    exact hw k a hk

theorem IdsFresh_stable : Stable IdsFresh := by
  refine ⟨?_, ?_, ?_, ?_⟩
  · intro w a f hf hw
    have hget : ∀ (b : Nat) (ob : Obj), (w.update a f).heap[b]? = some ob →
        ∃ o, w.heap[b]? = some o ∧ ob.id_ = o.id_ := by
      intro b ob hb
      rw [update_heap_get] at hb
      by_cases hab : a = b
      · rw [if_pos hab] at hb
        cases h : w.heap[b]? with
        | none => rw [h] at hb; cases hb
        | some o =>
          rw [h] at hb
          simp only [Option.map_some', Option.some.injEq] at hb
          exact ⟨o, rfl, by rw [← hb]; exact (hf o).1⟩
      · rw [if_neg hab] at hb
        exact ⟨ob, hb, rfl⟩
    refine ⟨?_, ?_⟩
    · intro b ob hb
      obtain ⟨o, ho, hid⟩ := hget b ob hb
      rw [hid, update_counter]
      exact hw.1 b o ho
    · intro b c ob oc hb hc hbc
      obtain ⟨o, ho, hid⟩ := hget b ob hb
      obtain ⟨o1, ho1, hid1⟩ := hget c oc hc
      exact hw.2 b c o o1 ho ho1 (by rw [← hid, ← hid1]; exact hbc)
  · intro w cls ifs hw
    have hget : ∀ (b : Nat) (ob : Obj), (w.construct cls ifs).2.heap[b]? = some ob →
        (b < w.heap.length ∧ w.heap[b]? = some ob) ∨
          (b = w.heap.length ∧ ob.id_.id_ = w.counter + 1) := by
      intro b ob hb
      simp only [World.construct, GenerateUnique] at hb
      rcases Nat.lt_trichotomy b w.heap.length with h | h | h
      · rw [List.getElem?_append_left h] at hb
        exact Or.inl ⟨h, hb⟩
      · subst h
        simp only [List.getElem?_concat_length, Option.some.injEq] at hb
        exact Or.inr ⟨rfl, by rw [← hb]⟩
      · rw [List.getElem?_eq_none (by simp; omega)] at hb
        cases hb
    refine ⟨?_, ?_⟩
    · intro b ob hb
      have hc : (w.construct cls ifs).2.counter = w.counter + 1 := rfl
      rw [hc]
      rcases hget b ob hb with ⟨_, h⟩ | ⟨_, h⟩
      · have := hw.1 b ob h
        omega
      · omega
    · intro b c ob oc hb hc hbc
      rcases hget b ob hb with ⟨h1, h⟩ | ⟨h1, h⟩ <;> rcases hget c oc hc with ⟨h2, h3⟩ | ⟨h2, h3⟩
      · exact hw.2 b c ob oc h h3 hbc
      · have := hw.1 b ob h
        omega
      · have := hw.1 c oc h3
        omega
      · omega
  · intro w a o ho hw
    have hget : ∀ (b : Nat) (ob : Obj),
        (w.heap.set a { o with alive := false })[b]? = some ob →
        ∃ o1, w.heap[b]? = some o1 ∧ ob.id_ = o1.id_ := by
      intro b ob hb
      by_cases hab : a = b
      · subst hab
        rw [List.getElem?_set_self (lt_of_get ho)] at hb
        injection hb with hb
        exact ⟨o, ho, by rw [← hb]⟩
      · rw [List.getElem?_set_ne hab] at hb
        exact ⟨ob, hb, rfl⟩
    refine ⟨?_, ?_⟩
    · intro b ob hb
      obtain ⟨o1, ho1, hid⟩ := hget b ob hb
      rw [hid]
      exact hw.1 b o1 ho1
    · intro b c ob oc hb hc hbc
      obtain ⟨o1, ho1, hid⟩ := hget b ob hb
      obtain ⟨o2, ho2, hid2⟩ := hget c oc hc
      exact hw.2 b c o1 o2 ho1 ho2 (by rw [← hid, ← hid2]; exact hbc)
  · intro w b d l r m hw
    exact hw

/-- The entries of the index lie below `n`: stable as well. -/
theorem indexBelow_stable (n : Nat) :
    Stable (fun w => ∀ k b, mapFind w.all_objects_ k = some b → b < n) := by
  refine ⟨?_, ?_, ?_, ?_⟩
  · intro w a f _ hw k b hk
    rw [update_all_objects] at hk
    exact hw k b hk
  · intro w cls ifs hw k b hk
    exact hw k b hk
  · intro w a o _ hw k b hk
    simp only at hk
    rw [mapFind_mapErase] at hk
    by_cases hke : k = o.id_.id_
    · rw [if_pos hke] at hk; cases hk
    · rw [if_neg hke] at hk
      exact hw k b hk
  · intro w b d l r m hw k a hk
    exact hw k a hk

theorem endTemp_stable {I : World → Prop} (hI : Stable I)
    (rel : World → Option Nat → Except Fault World)
    (hrel : ∀ w p w1, rel w p = .ok w1 → I w → I w1) (w w1 : World)
    (h : endTemp rel w = .ok w1) (hw : I w) : I w1 := by
  simp only [endTemp] at h
  cases hi : Ptr.Init w none with
  | error e => rw [hi] at h; cases h
  | ok r =>
    obtain ⟨t, wa⟩ := r
    rw [hi] at h
    exact hrel wa (some t) w1 h (Init_stable hI w none t wa hi hw)

theorem poke_stable {I : World → Prop} (hI : Stable I) (w : World) (pl : Place) (T : Nat)
    (v : Option Nat) (hw : I w) : I (w.poke pl T v) := by
  cases pl with
  | none => exact hw
  | some ai => exact hI.1 _ _ _ (fun _ => ⟨rfl, rfl⟩) hw

theorem assignTemp_stable {I : World → Prop} (hI : Stable I)
    (rel : World → Option Nat → Except Fault World)
    (hrel : ∀ w p w1, rel w p = .ok w1 → I w → I w1) (w : World) (pl : Place) (T : Nat)
    (cur : Option Nat) (tmp : Nat) (w1 : World) (new : Option Nat)
    (h : Ptr.assignTemp rel w pl T cur tmp = .ok (w1, new)) (hw : I w) : I w1 := by
  have hsame : ∀ wa, rel w (some tmp) = .ok wa → ∀ wb, endTemp rel wa = .ok wb → I wb :=
    fun wa ha wb hb => endTemp_stable hI rel hrel wa wb hb (hrel w _ wa ha hw)
  have hdiff : ∀ q, (match rel w q with
      | Except.error e => Except.error e
      | Except.ok w1 =>
        if T = kObjClassId then
          match endTemp rel ((w1.poke pl T none).poke pl T (some tmp)) with
          | Except.error e => Except.error e
          | Except.ok w3 => Except.ok (w3, some tmp)
        else
          match (w1.poke pl T none).heap[tmp]? with
          | none => Except.error Fault.wild
          | some o =>
            match Ptr.Init (w1.poke pl T none) (DynamicCast o tmp T) with
            | Except.error e => Except.error e
            | Except.ok (n, w3) =>
              match rel (w3.poke pl T (some n)) (some tmp) with
              | Except.error e => Except.error e
              | Except.ok w4 =>
                match endTemp rel w4 with
                | Except.error e => Except.error e
                | Except.ok w5 => Except.ok (w5, some n)) = Except.ok (w1, new) → I w1 := by
    intro q hq
    cases hr : rel w q with
    | error e => rw [hr] at hq; cases hq
    | ok wa =>
      rw [hr] at hq
      simp only at hq
      have ha : I (wa.poke pl T none) := poke_stable hI _ _ _ _ (hrel w q wa hr hw)
      by_cases hT : T = kObjClassId
      · rw [if_pos hT] at hq
        cases he : endTemp rel ((wa.poke pl T none).poke pl T (some tmp)) with
        | error e => rw [he] at hq; cases hq
        | ok w3 =>
          rw [he] at hq
          simp only [Except.ok.injEq, Prod.mk.injEq] at hq
          rw [← hq.1]
          exact endTemp_stable hI rel hrel _ w3 he (poke_stable hI _ _ _ _ ha)
      · rw [if_neg hT] at hq
        cases ho : (wa.poke pl T none).heap[tmp]? with
        | none => rw [ho] at hq; cases hq
        | some o =>
          rw [ho] at hq
          simp only at hq
          cases hi : Ptr.Init (wa.poke pl T none) (DynamicCast o tmp T) with
          | error e => rw [hi] at hq; cases hq
          | ok r =>
            obtain ⟨n, w3⟩ := r
            rw [hi] at hq
            simp only at hq
            cases hr2 : rel (w3.poke pl T (some n)) (some tmp) with
            | error e => rw [hr2] at hq; cases hq
            | ok w4 =>
              rw [hr2] at hq
              simp only at hq
              cases he : endTemp rel w4 with
              | error e => rw [he] at hq; cases hq
              | ok w5 =>
                rw [he] at hq
                simp only [Except.ok.injEq, Prod.mk.injEq] at hq
                rw [← hq.1]
                exact endTemp_stable hI rel hrel w4 w5 he
                  (hrel _ _ w4 hr2 (poke_stable hI _ _ _ _ (Init_stable hI _ _ n w3 hi ha)))
  have hsame2 : (match rel w (some tmp) with
      | Except.error e => Except.error e
      | Except.ok w1 =>
        match endTemp rel w1 with
        | Except.error e => Except.error e
        | Except.ok w2 => Except.ok (w2, cur)) = Except.ok (w1, new) → I w1 := by
    intro hq
    cases hr : rel w (some tmp) with
    | error e => rw [hr] at hq; cases hq
    | ok wa =>
      rw [hr] at hq
      simp only at hq
      cases he : endTemp rel wa with
      | error e => rw [he] at hq; cases hq
      | ok wb =>
        rw [he] at hq
        simp only [Except.ok.injEq, Prod.mk.injEq] at hq
        rw [← hq.1]
        exact hsame wa hr wb he
  simp only [Ptr.assignTemp] at h
  by_cases hT : T = kObjClassId
  · simp only [hT, if_true] at h hdiff
    by_cases hc : cur = some tmp
    · simp only [hc, decide_True] at h hsame2
      exact hsame2 h
    · simp only [hc, decide_False] at h
      exact hdiff cur h
  · simp only [hT, if_false] at h hdiff
    cases cur with
    | none => simp at h
    | some c =>
      simp only at h
      by_cases hc : c = tmp
      · simp only [hc, decide_True] at h hsame2
        exact hsame2 h
      · simp only [hc, decide_False] at h
        exact hdiff (some c) h

theorem deserializeFields_stable {I : World → Prop} (hI : Stable I)
    (des : World → List Nat → Except Fault (World × List Nat × Nat))
    (rel : World → Option Nat → Except Fault World)
    (hdes : ∀ w is w1 is1 tmp, des w is = .ok (w1, is1, tmp) → I w → I w1)
    (hrel : ∀ w p w1, rel w p = .ok w1 → I w → I w1) (a : Nat) :
    ∀ (fs : List Field) (i : Nat) (w : World) (is : List Nat) (w3 : World) (is3 : List Nat),
      deserializeFields des rel a i w is fs = .ok (w3, is3) → I w → I w3 := by
  intro fs
  induction fs with
  | nil =>
    intro i w is w3 is3 h hw
    simp only [deserializeFields, Except.ok.injEq, Prod.mk.injEq] at h
    rw [← h.1]; exact hw
  | cons f fs ih =>
    intro i w is w3 is3 h hw
    cases f with
    | scalar v0 =>
      simp only [deserializeFields] at h
      cases hr : readWord is with
      | error e => rw [hr] at h; cases h
      | ok r =>
        obtain ⟨v, is1⟩ := r
        rw [hr] at h
        simp only at h
        exact ih _ _ _ _ _ h (hI.1 _ _ _ (fun _ => ⟨rfl, rfl⟩) hw)
    | handle T q =>
      simp only [deserializeFields] at h
      cases hd : des w is with
      | error e => rw [hd] at h; cases h
      | ok r =>
        obtain ⟨wa, is1, tmp⟩ := r
        rw [hd] at h
        simp only at h
        have ha : I wa := hdes w is wa is1 tmp hd hw
        cases ho : wa.heap[a]? with
        | none => rw [ho] at h; cases h
        | some o =>
          rw [ho] at h
          simp only at h
          cases hfi : o.fields[i]? with
          | none => rw [hfi] at h; cases h
          | some f =>
            rw [hfi] at h
            cases f with
            | scalar v => cases h
            | handle T0 cur =>
              simp only at h
              cases hat : Ptr.assignTemp rel wa (some (a, i)) T cur tmp with
              | error e => rw [hat] at h; cases h
              | ok r2 =>
                obtain ⟨wb, nw⟩ := r2
                rw [hat] at h
                simp only at h
                exact ih _ _ _ _ _ h (assignTemp_stable hI rel hrel wa _ T cur tmp wb nw hat ha)

theorem create_all_below (c : ClassDecl) (w : World) (n : Nat)
    (h : ∀ k b, mapFind w.all_objects_ k = some b → b < n) :
    ∀ k b, mapFind (c.create w).2.all_objects_ k = some b → b < n :=
  create_stable (indexBelow_stable n) c w h

/-- The new object of `DeserializeObj`: created, given the id of the stream and put
into the index. -/
theorem created_sound (w : World) (class_id : Nat) (iid : InstanceId) (obj : Nat) (w1 : World)
    (h : Obj.CreateClassById w class_id iid = .ok (obj, w1)) (hw : IndexSound w) :
    IndexSound (Obj.AddObject (w1.update obj (fun o => { o with id_ := iid })) obj) := by
  simp only [Obj.CreateClassById, Registry.CreateClassById] at h
  cases hreg : w.registry_ with
  | none => simp [hreg] at h
  | some reg =>
    cases hb : w.base_to_derived_ with
    | none => simp [hreg, hb] at h
    | some b2d =>
      simp only [hreg, hb] at h
      cases hres : resolveChain (b2d.length + 1) b2d class_id with
      | none => simp [hres] at h
      | some d =>
        simp only [hres] at h
        cases hc : mapFind reg d with
        | none => simp [hc] at h
        | some c =>
          simp only [hc, Except.ok.injEq, Prod.mk.injEq] at h
          obtain ⟨h1, h2⟩ := h
          have hs : IndexSound (c.create w).2 := create_stable IndexSound_stable c w hw
          have hbelow := create_all_below c w w.heap.length
            (fun k b hk => by obtain ⟨o, ho, _⟩ := hw k b hk; exact lt_of_get ho)
          obtain ⟨hfst, oc, hoc, _, _, _, _, hal⟩ := create_cell c w
          have hobj : obj = w.heap.length := by rw [← h1]; exact hfst
          subst hobj
          rw [← h2, hfst]
          have hcell : (((c.create w).2.update w.heap.length
              (fun o => { o with id_ := iid })).update w.heap.length
              (fun o => { o with id_ := iid })).heap[w.heap.length]? =
              some { oc with id_ := iid } := by
            simp [hoc]
          simp only [Obj.AddObject, hcell]
          intro k b hk
          simp only [update_all_objects] at hk
          rw [mapFind_mapSet] at hk
          simp only [update_heap_get]
          by_cases hke : iid.id_ = k
          · rw [if_pos hke] at hk
            injection hk with hk
            subst hk
            exact ⟨{ oc with id_ := iid }, by simp [hoc], hal, hke⟩
          · rw [if_neg hke] at hk
            have hlt := hbelow k b hk
            obtain ⟨o, ho, hoa, hoi⟩ := hs k b hk
            have hne : ¬ w.heap.length = b := by omega
            exact ⟨o, by simp [hne, ho], hoa, hoi⟩

/-- `DeserializeObj` keeps the index sound. -/
theorem DeserializeObj_sound (load : LoadFacility) :
    ∀ (fuel : Nat) (w : World) (s : List Nat) (w1 : World) (s1 : List Nat) (tmp : Nat),
      DeserializeObj fuel load w s = .ok (w1, s1, tmp) → IndexSound w → IndexSound w1 := by
  intro fuel
  induction fuel with
  | zero => intro w s w1 s1 tmp h; simp [DeserializeObj] at h
  | succ fuel ih =>
    intro w s w1 s1 tmp h hw
    rw [DeserializeObj] at h
    cases hr : readWord s with
    | error e => rw [hr] at h; cases h
    | ok r =>
      obtain ⟨word, sr⟩ := r
      rw [hr] at h
      simp only at h
      cases hfind : Obj.FindObject w (InstanceId.decode word) with
      | some obj =>
        rw [hfind] at h
        simp only at h
        cases hi : Ptr.Init w (some obj) with
        | error e => rw [hi] at h; cases h
        | ok r1 =>
          obtain ⟨t, wa⟩ := r1
          rw [hi] at h
          simp only [Except.ok.injEq, Prod.mk.injEq] at h
          rw [← h.1]
          exact Init_stable IndexSound_stable w _ t wa hi hw
      | none =>
        rw [hfind] at h
        simp only at h
        cases hrw : readWord (load (InstanceId.decode word).ToString) with
        | error e => rw [hrw] at h; cases h
        | ok r1 =>
          obtain ⟨class_id, is⟩ := r1
          rw [hrw] at h
          simp only at h
          cases hc : Obj.CreateClassById
              { w with loads := w.loads ++ [(InstanceId.decode word).ToString] } class_id
              (InstanceId.decode word) with
          | error e => rw [hc] at h; cases h
          | ok r2 =>
            obtain ⟨obj, wc⟩ := r2
            rw [hc] at h
            simp only at h
            have h2 := created_sound _ class_id (InstanceId.decode word) obj wc hc
              (IndexSound_stable.2.2.2 w w.first_release_ w.deleted
                (w.loads ++ [(InstanceId.decode word).ToString]) w.registry_
                w.base_to_derived_ hw)
            cases ho : (Obj.AddObject
                (wc.update obj (fun o => { o with id_ := InstanceId.decode word })) obj).heap[obj]? with
            | none => rw [ho] at h; cases h
            | some o =>
              rw [ho] at h
              simp only at h
              cases hd : deserializeFields (DeserializeObj fuel load) (release fuel) obj 0
                  (Obj.AddObject
                    (wc.update obj (fun o => { o with id_ := InstanceId.decode word })) obj)
                  is o.fields with
              | error e => rw [hd] at h; cases h
              | ok r3 =>
                obtain ⟨w3, is3⟩ := r3
                rw [hd] at h
                simp only at h
                have h3 : IndexSound w3 :=
                  deserializeFields_stable IndexSound_stable _ _
                    (fun w is w1 is1 tmp hx hy => ih w is w1 is1 tmp hx hy)
                    (release_stable IndexSound_stable fuel) obj o.fields 0 _ is w3 is3 hd h2
                cases hi : Ptr.Init w3 (some obj) with
                | error e => rw [hi] at h; cases h
                | ok r4 =>
                  obtain ⟨t, w4⟩ := r4
                  rw [hi] at h
                  simp only [Except.ok.injEq, Prod.mk.injEq] at h
                  rw [← h.1]
                  exact Init_stable IndexSound_stable w3 _ t w4 hi h3

/-- `Ptr::Load` keeps the index sound. -/
theorem Load_sound (fuel : Nat) (load : LoadFacility) (w : World) (T : Nat) (p : Option Nat)
    (w1 : World) (p1 : Option Nat) (h : Ptr.Load fuel load w T p = .ok (w1, p1))
    (hw : IndexSound w) : IndexSound w1 := by
  cases p with
  | none => simp [Ptr.Load] at h
  | some a =>
    simp only [Ptr.Load] at h
    cases ho : w.heap[a]? with
    | none => rw [ho] at h; cases h
    | some o =>
      rw [ho] at h
      simp only at h
      by_cases hp : (!o.IsPlaceholder) = true
      · rw [if_pos hp] at h
        simp only [Except.ok.injEq, Prod.mk.injEq] at h
        rw [← h.1]; exact hw
      · rw [if_neg hp] at h
        cases hd : DeserializeObj fuel load { w with first_release_ := false }
            [InstanceId.encode ⟨o.id_.id_, kLoaded⟩] with
        | error e => rw [hd] at h; cases h
        | ok r =>
          obtain ⟨wa, sa, tmp⟩ := r
          rw [hd] at h
          simp only at h
          cases hat : Ptr.assignTemp (release fuel) wa none T (some a) tmp with
          | error e => rw [hat] at h; cases h
          | ok r2 =>
            obtain ⟨wb, nw⟩ := r2
            rw [hat] at h
            simp only [Except.ok.injEq, Prod.mk.injEq] at h
            rw [← h.1]
            exact flag_stable IndexSound_stable wb true
              (assignTemp_stable IndexSound_stable _ (release_stable IndexSound_stable fuel)
                wa none T (some a) tmp wb nw hat
                (DeserializeObj_sound load fuel _ _ wa sa tmp hd
                  (flag_stable IndexSound_stable w false hw)))

/-- Every loading operation keeps the index sound. -/
theorem LoadStep_sound (w w1 : World) (hs : LoadStep w w1) (hw : IndexSound w) :
    IndexSound w1 := by
  cases hs with
  | load fuel load _ T p _ p1 h => exact Load_sound fuel load w T p w1 p1 h hw
  | deserialize fuel load _ s _ s1 tmp h => exact DeserializeObj_sound load fuel w s w1 s1 tmp h hw
  | setId _ a i _ hfree h =>
    simp only [Ptr.SetId] at h
    cases ho : w.heap[a]? with
    | none => rw [ho] at h; cases h
    | some o =>
      rw [ho] at h
      simp only [Except.ok.injEq] at h
      rw [← h]
      intro k b hk
      rw [update_all_objects] at hk
      obtain ⟨ob, hob, hal, hid⟩ := hw k b hk
      have hab : ¬ a = b := fun hab => hfree k (by rw [hab]; exact hk)
      exact ⟨ob, by simp [hab, hob], hal, hid⟩

/-! ### The live-object index and the ids -/

theorem GenerateUniqueTimes_counter (n : Nat) :
    (GenerateUniqueTimes n).1 = n ∧ (GenerateUniqueTimes n).2.counter = n := by
  induction n with
  | zero => exact ⟨rfl, rfl⟩
  | succ n ih =>
    simp only [GenerateUniqueTimes, GenerateUnique]
    rw [ih.2]
    exact ⟨rfl, rfl⟩

theorem IndexSound_empty : IndexSound emptyWorld := by
  intro k a h
  simp [emptyWorld, mapFind] at h

theorem IdsFresh_empty : IdsFresh emptyWorld := by
  refine ⟨?_, ?_⟩
  · intro a o h
    simp [emptyWorld] at h
  · intro a b oa ob h
    simp [emptyWorld] at h

theorem pairWorld_reachable (step : World → World → Prop)
    (hs : ∀ w w1, BuildStep w w1 → step w w1) : Reachable step pairWorld :=
  Reachable.next _ _
    (Reachable.next _ _ Reachable.start
      (hs _ _ (BuildStep.register emptyWorld Pair.class_id_ 0 Pair (implement emptyWorld Pair) rfl)))
    (hs _ _ (BuildStep.register _ Leaf.class_id_ 0 Leaf pairWorld rfl))

/-- C20: in every state reached from the start of the process by object construction,
handle construction, release, `Unload`, `delete`, registry changes, `Load`,
`DeserializeObj` and `SetId` on objects the index does not hold, every entry
`k -> o` of `all_objects_` refers to a live object whose id is `k`; so
`Obj::FindObject` never returns a destroyed object. -/
theorem index_sound (w : World) (h : Reachable ObjStep w) :
    (∀ k a, mapFind w.all_objects_ k = some a →
      ∃ o, w.heap[a]? = some o ∧ o.alive = true ∧ o.id_.id_ = k) ∧
    ∀ iid a, Obj.FindObject w iid = some a → ∃ o, w.heap[a]? = some o ∧ o.alive = true := by
  have hs : IndexSound w := by
    induction h with
    | start => exact IndexSound_empty
    | next w w1 _ hs ih =>
      rcases hs with hs | hs
      · exact BuildStep_stable IndexSound_stable w w1 hs ih
      · exact LoadStep_sound w w1 hs ih
  refine ⟨hs, ?_⟩
  intro iid a hf
  obtain ⟨o, ho, hal, _⟩ := hs iid.id_ a hf
  exact ⟨o, ho, hal⟩

theorem index_sound_witness :
    Reachable ObjStep indexedWorld ∧ indexedWorld.all_objects_ = [(2, 4)] ∧
    ((∀ k a, mapFind indexedWorld.all_objects_ k = some a →
      ∃ o, indexedWorld.heap[a]? = some o ∧ o.alive = true ∧ o.id_.id_ = k) ∧
    ∀ iid a, Obj.FindObject indexedWorld iid = some a →
      ∃ o, indexedWorld.heap[a]? = some o ∧ o.alive = true) :=
  have h : Reachable ObjStep indexedWorld :=
    Reachable.next _ _
      (Reachable.next _ _ (pairWorld_reachable ObjStep (fun _ _ hb => Or.inl hb))
        (Or.inl (BuildStep.init pairWorld none 0 indexedStart rfl)))
      (Or.inr (LoadStep.load 6 (storeLoad indexedRecords) indexedStart kPairClassId (some 0)
        indexedWorld (some 1) (by rfl)))
  ⟨h, by rfl, index_sound indexedWorld h⟩

/-- C12, as the code has it: in every state reached from the start of the process by
object construction, handle construction and copy, release, `Unload`, `delete` and
registry changes (no `Load`, no `DeserializeObj`), no two objects have the same id and
no object has id 0; and the `n`-th call of `GenerateUnique` returns `n` for
`1 ≤ n < 2^31`, so generated ids are nonzero, fit the `int` counter and increase
strictly. -/
theorem ids_unique_when_built (w : World) (h : Reachable BuildStep w) (n : Nat) (h1 : 1 ≤ n)
    (h2 : n < 2 ^ 31) :
    (∀ (a b : Nat) (oa ob : Obj), w.heap[a]? = some oa → w.heap[b]? = some ob →
      oa.id_.id_ = ob.id_.id_ → a = b) ∧
    (∀ (a : Nat) (o : Obj), w.heap[a]? = some o → o.id_.id_ ≠ 0) ∧
    (GenerateUniqueTimes n).1 = n ∧ (GenerateUniqueTimes n).1 ≠ 0 ∧
    (GenerateUniqueTimes n).1 < 2 ^ 31 ∧
    (GenerateUniqueTimes n).1 < (GenerateUniqueTimes (n + 1)).1 := by
  have hs : IdsFresh w := Reachable_stable IdsFresh_stable IdsFresh_empty w h
  refine ⟨hs.2, ?_, ?_, ?_, ?_, ?_⟩
  · intro a o ho
    have := (hs.1 a o ho).1
    omega
  · exact (GenerateUniqueTimes_counter n).1
  · rw [(GenerateUniqueTimes_counter n).1]; omega
  · rw [(GenerateUniqueTimes_counter n).1]; exact h2
  · rw [(GenerateUniqueTimes_counter n).1, (GenerateUniqueTimes_counter (n + 1)).1]; omega

theorem ids_unique_when_built_witness :
    Reachable BuildStep builtWorld ∧ builtWorld.heap.map (fun o => o.id_.id_) = [1, 2, 3] ∧
    ((∀ (a b : Nat) (oa ob : Obj), builtWorld.heap[a]? = some oa → builtWorld.heap[b]? = some ob →
      oa.id_.id_ = ob.id_.id_ → a = b) ∧
    (∀ (a : Nat) (o : Obj), builtWorld.heap[a]? = some o → o.id_.id_ ≠ 0) ∧
    (GenerateUniqueTimes 3).1 = 3 ∧ (GenerateUniqueTimes 3).1 ≠ 0 ∧
    (GenerateUniqueTimes 3).1 < 2 ^ 31 ∧
    (GenerateUniqueTimes 3).1 < (GenerateUniqueTimes (3 + 1)).1) :=
  have h : Reachable BuildStep builtWorld :=
    Reachable.next _ _ (pairWorld_reachable BuildStep (fun _ _ hb => hb))
      (BuildStep.create pairWorld Pair)
  ⟨h, by rfl, ids_unique_when_built builtWorld h 3 (by decide) (by decide)⟩

/-- C12, counterexample: user code `Leaf::ptr x(new Leaf()); Pair::ptr h;` and then
`h.Load(load)` on the records of an earlier run (a `Pair` with id 2 whose members are
bound to a `Leaf` with id 1) is a sequence of public operations, and it ends with two
live `Leaf` objects (cells 0 and 5) that both have id 1. -/
theorem Load_duplicates_id :
    Reachable ObjStep twinWorld ∧
    twinWorld.heap[0]?.map Obj.view = some (kLeafClassId, 1, 1, [], true) ∧
    twinWorld.heap[5]?.map Obj.view = some (kLeafClassId, 1, 2, [], true) :=
  ⟨Reachable.next _ _
    (Reachable.next _ _
      (Reachable.next _ _
        (Reachable.next _ _ (pairWorld_reachable ObjStep (fun _ _ hb => Or.inl hb))
          (Or.inl (BuildStep.create pairWorld Leaf)))
        (Or.inl (BuildStep.init (Leaf.create pairWorld).2 (some 0) 0
          (bindHandle (Leaf.create pairWorld).2 0) rfl)))
      (Or.inl (BuildStep.init _ none 1 twinStart rfl)))
    (Or.inr (LoadStep.load 6 (storeLoad twinRecords) twinStart kPairClassId (some 1)
      twinWorld (some 2) (by rfl))), by rfl, by rfl⟩

/-! ### The scan of `release`, in general -/

theorem fieldRef_nonneg (f : Field) (X : Nat) : 0 ≤ fieldRef f X := by
  cases f with
  | scalar v => simp [fieldRef]
  | handle T p =>
    cases p with
    | none => simp [fieldRef]
    | some b => by_cases h : b = X <;> simp [fieldRef, h]

theorem countRef_nonneg (fs : List Field) (X : Nat) : 0 ≤ countRef fs X := by
  induction fs with
  | nil => simp [countRef]
  | cons f fs ih =>
    have h := fieldRef_nonneg f X
    simp only [countRef, List.map_cons, List.sum_cons] at ih ⊢
    omega

theorem refs_nonneg (heap : List Obj) (X : Nat) : 0 ≤ refs heap X := by
  induction heap with
  | nil => simp [refs]
  | cons o heap ih =>
    have h := countRef_nonneg o.fields X
    simp only [refs, List.map_cons, List.sum_cons] at ih ⊢
    omega

theorem countRef_pos_of_mem (fs : List Field) (T X : Nat) (h : Field.handle T (some X) ∈ fs) :
    1 ≤ countRef fs X := by
  induction fs with
  | nil => cases h
  | cons f fs ih =>
    simp only [countRef, List.map_cons, List.sum_cons]
    rcases List.mem_cons.1 h with h1 | h1
    · subst h1
      have h0 := countRef_nonneg fs X
      have h1 : fieldRef (Field.handle T (some X)) X = 1 := by simp [fieldRef]
      simp only [countRef] at h0
      rw [h1]
      omega
    · have h2 := ih h1
      have h3 := fieldRef_nonneg f X
      simp only [countRef] at h2
      omega

theorem refs_ge_cell (heap : List Obj) (x : Nat) (ox : Obj) (X : Nat) (hx : heap[x]? = some ox) :
    countRef ox.fields X ≤ refs heap X := by
  have h := refs_set heap x ox { ox with fields := [] } X hx
  have h0 := refs_nonneg (heap.set x { ox with fields := [] }) X
  simp only [countRef, List.map_nil, List.sum_nil] at h
  simp only [countRef]
  omega

theorem refs_ge_two_cells (heap : List Obj) (x p : Nat) (ox op : Obj) (X : Nat)
    (hx : heap[x]? = some ox) (hp : heap[p]? = some op) (hne : x ≠ p) :
    countRef ox.fields X + countRef op.fields X ≤ refs heap X := by
  have h := refs_set heap x ox { ox with fields := [] } X hx
  have hp1 : (heap.set x { ox with fields := [] })[p]? = some op := by
    rw [List.getElem?_set_ne hne]; exact hp
  have h0 := refs_ge_cell (heap.set x { ox with fields := [] }) p op X hp1
  simp only [countRef, List.map_nil, List.sum_nil] at h
  simp only [countRef] at h0 ⊢
  omega

/-- A release nested in a destruction, for a cell whose count is not 1 or that has no
members: the count is lowered, and the cell is destroyed when the count was 1. -/
theorem nested_release (f : Nat) (v : World) (z : Nat) (oz : Obj)
    (hf : v.first_release_ = false) (hz : v.heap[z]? = some oz)
    (h : oz.reference_count_ ≠ 1 ∨ oz.fields = []) :
    ∃ v1 al, release (f + 1) v (some z) = .ok v1 ∧ v1.first_release_ = false ∧
      v1.heap = v.heap.set z
        { oz with reference_count_ := oz.reference_count_ - 1, alive := al } ∧
      ((al = oz.alive ∧ v1.deleted = v.deleted) ∨
       (oz.reference_count_ = 1 ∧ oz.fields = [] ∧ v1.deleted = v.deleted ++ [z])) := by
  rw [release_flag_false _ _ _ hf]
  by_cases h1 : oz.reference_count_ = 1
  · have hfs : oz.fields = [] := by
      rcases h with h | h
      · exact absurd h1 h
      · exact h
    rw [releaseTail_last _ _ _ _ hz h1 (by rw [hfs]; intro f hf; cases hf)]
    refine ⟨_, false, rfl, hf, ?_, Or.inr ⟨h1, hfs, rfl⟩⟩
    simp [h1]
  · rw [releaseTail_keep _ _ _ _ hz h1]
    refine ⟨_, oz.alive, rfl, by simp [hf], ?_, Or.inl ⟨rfl, by simp⟩⟩
    rw [update_heap_eq _ _ _ _ hz]

theorem gap_set_count (heap : List Obj) (z : Nat) (oz : Obj) (c : Int) (al : Bool) (X : Nat)
    (hz : heap[z]? = some oz) :
    gap (heap.set z { oz with reference_count_ := c, alive := al }) X =
      gap heap X + (if z = X then c - oz.reference_count_ else 0) := by
  unfold gap
  rw [refs_set heap z oz _ X hz, countOf_set _ _ _ _ _ hz]
  by_cases hx : z = X
  · subst hx
    simp only [if_true, countOf, hz]
    omega
  · simp only [hx, if_false]
    omega

theorem zeroCounts_get (L : List Nat) :
    ∀ (w : World) (b : Nat), (zeroCounts w L).heap[b]? =
      if b ∈ L then (w.heap[b]?).map (fun c => { c with reference_count_ := 0 })
      else w.heap[b]? := by
  induction L with
  | nil => intro w b; simp [zeroCounts]
  | cons x L ih =>
    intro w b
    have h := ih (w.update x (fun c => { c with reference_count_ := 0 })) b
    simp only [zeroCounts, List.foldl_cons] at h ⊢
    rw [h, update_heap_get]
    by_cases hb : b ∈ L
    · by_cases hx : x = b
      · subst hx
        cases hw : w.heap[x]? <;> simp [hb]
      · simp [hb, hx]
    · by_cases hx : x = b
      · subst hx; simp [hb]
      · have : ¬ b = x := fun h => hx h.symm
        simp [hb, hx, this]

theorem zeroCounts_fields (L : List Nat) :
    ∀ (w : World), (zeroCounts w L).first_release_ = w.first_release_ ∧
      (zeroCounts w L).deleted = w.deleted ∧ (zeroCounts w L).heap.length = w.heap.length := by
  induction L with
  | nil => intro w; simp [zeroCounts]
  | cons x L ih =>
    intro w
    have h := ih (w.update x (fun c => { c with reference_count_ := 0 }))
    simp only [zeroCounts, List.foldl_cons] at h ⊢
    simpa using h

theorem zeroCounts_gap (L : List Nat) (X : Nat) (hX : X ∉ L) :
    ∀ (w : World), gap (zeroCounts w L).heap X = gap w.heap X := by
  induction L with
  | nil => intro w; simp [zeroCounts]
  | cons x L ih =>
    intro w
    have hx : x ≠ X := fun h => hX (by simp [h])
    have hL : X ∉ L := fun h => hX (by simp [h])
    have h := ih hL (w.update x (fun c => { c with reference_count_ := 0 }))
    simp only [zeroCounts, List.foldl_cons] at h ⊢
    rw [h]
    cases hw : w.heap[x]? with
    | none => simp [World.update, hw]
    | some o =>
      rw [gap_update w x _ o X hw]
      simp [hx]

theorem gap_count (heap : List Obj) (z : Nat) (oz : Obj) (hz : heap[z]? = some oz) :
    oz.reference_count_ = gap heap z + refs heap z := by
  simp [gap, countOf, hz]

/-- In a state of the loop, a resident target outside `S` of a member that is still bound
has a count of 2 or more. -/
theorem Scan.held_count {S : List Nat} {v0 : World} {gone : List Nat} {x : Nat} {v : World}
    (hscan : Scan S v0 gone (some x) v) (hgs : ∀ b ∈ gone, b ∈ S) (hx : x ∈ S)
    (z : Nat) (oz o1 : Obj) (T : Nat) (hz : v.heap[z]? = some oz) (hx1 : v.heap[x]? = some o1)
    (hmem : Field.handle T (some z) ∈ o1.fields) (hheld : Held S v0 z) :
    2 ≤ oz.reference_count_ := by
  obtain ⟨_, _, hgap, _, hcells⟩ := hscan
  have hc := gap_count v.heap z oz hz
  rw [hgap z] at hc
  have h1 := countRef_pos_of_mem o1.fields T z hmem
  rcases hheld with hg | ⟨hg, p, op, Tp, hpS, hp, hpr, hpm⟩
  · have := refs_ge_cell v.heap x o1 z hx1
    omega
  · obtain ⟨op1, hp1, _, _, _, hkeep, _⟩ := hcells p op hp
    have hpx : x ≠ p := fun h => hpS (h ▸ hx)
    have hpg : p ∉ gone := fun h => hpS (hgs p h)
    have hpc : some p ≠ some x := by
      intro h; injection h with h; exact hpx h.symm
    have hf := (hkeep hpg hpc hpr).1
    have h2 := countRef_pos_of_mem op1.fields Tp z (by rw [hf]; exact hpm)
    have := refs_ge_two_cells v.heap x p o1 op1 z hx1 hp1 hpx
    omega

/-- The member destructors of a cell of `S`, in a state of the loop. -/
theorem destroyMembers_scan (f : Nat) (S : List Nat) (v0 : World) (gone : List Nat) (x : Nat)
    (ox : Obj) (hD : Doomed S v0) (hgs : ∀ b ∈ gone, b ∈ S) (hx : x ∈ S) (hxg : x ∉ gone)
    (hox : v0.heap[x]? = some ox) :
    ∀ (i : Nat) (v : World), i ≤ ox.fields.length → Scan S v0 gone (some x) v →
      (∃ o1, v.heap[x]? = some o1 ∧ o1.fields.length = ox.fields.length ∧
        o1.alive = ox.alive ∧ ∀ j, j < i → o1.fields[j]? = ox.fields[j]?) →
      ∃ v1, destroyMembers (release (f + 1)) x i v = .ok v1 ∧ Scan S v0 gone (some x) v1 ∧
        ∃ o1, v1.heap[x]? = some o1 ∧ o1.alive = ox.alive := by
  intro i
  induction i with
  | zero =>
    intro v _ hscan ⟨o1, h1, _, h3, _⟩
    exact ⟨v, rfl, hscan, o1, h1, h3⟩
  | succ i ih =>
    intro v hi hscan ⟨o1, hx1, hlen, hal, hslots⟩
    simp only [destroyMembers, hx1]
    have hrec : ∃ v1, destroyMembers (release (f + 1)) x i v = .ok v1 ∧
        Scan S v0 gone (some x) v1 ∧ ∃ o1, v1.heap[x]? = some o1 ∧ o1.alive = ox.alive :=
      ih v (by omega) hscan ⟨o1, hx1, hlen, hal, fun j hj => hslots j (by omega)⟩
    cases hfi : o1.fields[i]? with
    | none => exact hrec
    | some fld =>
      cases fld with
      | scalar s => exact hrec
      | handle T q =>
        simp only
        have hoxi : ox.fields[i]? = some (Field.handle T q) := by
          rw [← hslots i (by omega)]; exact hfi
        obtain ⟨ox', hox', _, htgt⟩ := hD x hx
        rw [hox] at hox'; injection hox' with hox'; subst hox'
        obtain ⟨z, oz0, hq, hz0, hcase⟩ := htgt i T q hoxi
        subst hq
        obtain ⟨hfl, hlength, hgap, ⟨ext, hext, hcnt⟩, hcells⟩ := hscan
        obtain ⟨oz, hz, hzc, hzf, hzS, hzk, hzg⟩ := hcells z oz0 hz0
        have hmem : Field.handle T (some z) ∈ o1.fields := List.mem_iff_getElem?.2 ⟨i, hfi⟩
        -- the count of the target is not 1, unless the target is a placeholder
        have hone : oz.reference_count_ = 1 → oz0.IsPlaceholder = true ∧ z ∉ S := by
          intro h1
          rcases hcase with h | h | h
          · have := hzS h; omega
          · refine ⟨h.1, fun hS => ?_⟩
            have := hzS hS; omega
          · have := Scan.held_count ⟨hfl, hlength, hgap, ⟨ext, hext, hcnt⟩, hcells⟩ hgs hx
              z oz o1 T hz hx1 hmem h.2
            omega
        have hcond : oz.reference_count_ ≠ 1 ∨ oz.fields = [] := by
          by_cases h1 : oz.reference_count_ = 1
          · right
            rcases hcase with h | h | h
            · exact absurd (hone h1).2 (fun hn => hn h)
            · exact hzf h.2
            · have := (hone h1).1
              rw [h.1] at this; cases this
          · exact Or.inl h1
        obtain ⟨v1, al, hrel, hfl1, hheap1, hdel1⟩ := nested_release f v z oz hfl hz hcond
        rw [hrel]
        simp only
        -- the liveness flag changes for a destroyed placeholder only
        have hal1 : oz.reference_count_ ≠ 1 → al = oz.alive := by
          intro h1
          rcases hdel1 with h | h
          · exact h.1
          · exact absurd h.1 h1
        -- the cells after the release
        have hget1 : ∀ b : Nat, v1.heap[b]? =
            if z = b then some { oz with reference_count_ := oz.reference_count_ - 1, alive := al }
            else v.heap[b]? := by
          intro b
          rw [hheap1]
          by_cases hzb : z = b
          · subst hzb
            simp [List.getElem?_set_self (lt_of_get hz)]
          · simp [List.getElem?_set_ne hzb, hzb]
        -- the cell of `x` after the release
        obtain ⟨ox1, hx2, hx2f, hx2a, hx2c⟩ : ∃ ox1, v1.heap[x]? = some ox1 ∧
            ox1.fields = o1.fields ∧ ox1.alive = ox.alive ∧
            ox1.reference_count_ ≤ o1.reference_count_ := by
          by_cases hzx : z = x
          · subst hzx
            rw [hx1] at hz; injection hz with hz; subst hz
            have hle : o1.reference_count_ ≤ 0 := hzS hx
            refine ⟨{ o1 with reference_count_ := o1.reference_count_ - 1, alive := al },
              by rw [hget1]; simp, rfl, ?_, by simp⟩
            show al = ox.alive
            rw [hal1 (by omega)]; exact hal
          · exact ⟨o1, by rw [hget1]; simp [hzx, hx1], rfl, hal, le_refl _⟩
        have hgap1 : ∀ X, gap v1.heap X = gap v.heap X + (if z = X then -1 else 0) := by
          intro X
          rw [hheap1, gap_set_count v.heap z oz _ al X hz]
          by_cases hzX : z = X
          · simp only [hzX, if_true]; omega
          · simp [hzX]
        have hscan2 : Scan S v0 gone (some x) (v1.setField x i (Field.handle T none)) := by
          refine ⟨by simpa [World.setField] using hfl1, ?_, ?_, ?_, ?_⟩
          · simp only [World.setField, update_heap_length]
            rw [hheap1, List.length_set]; exact hlength
          · intro X
            rw [gap_setField v1 x i _ (Field.handle T (some z)) ox1 X hx2
              (by rw [hx2f]; exact hfi), hgap1 X, fieldRef_none, fieldRef_some, ← hgap X]
            by_cases hzX : z = X
            · simp only [hzX, if_true]; omega
            · simp [hzX]
          · simp only [World.setField, update_deleted]
            rcases hdel1 with h | h
            · exact ⟨ext, by rw [h.2]; exact hext, hcnt⟩
            · refine ⟨ext ++ [z], by rw [h.2.2, hext, List.append_assoc], ?_⟩
              intro b o hb hres
              have hbz : b ≠ z := by
                intro hbz
                subst hbz
                rw [hz0] at hb; injection hb with hb; subst hb
                have := (hone h.1).1
                rw [hres] at this; cases this
              rw [List.count_append, hcnt b o hb hres]
              simp [List.count_cons, Ne.symm hbz]
          · intro b o hb
            obtain ⟨ob, hob, hbc, hbf, hbS, hbk, hbg⟩ := hcells b o hb
            -- the cell after the release
            obtain ⟨ob1, hob1, hb1c, hb1f, hb1n, hb1a⟩ : ∃ ob1, v1.heap[b]? = some ob1 ∧
                ob1.class_id = ob.class_id ∧ ob1.fields = ob.fields ∧
                ob1.reference_count_ ≤ ob.reference_count_ ∧
                ((b ∈ S ∨ o.IsPlaceholder = false) → ob1.alive = ob.alive) := by
              by_cases hzb : z = b
              · subst hzb
                rw [hz] at hob; injection hob with hob; subst hob
                rw [hz0] at hb; injection hb with hb; subst hb
                refine ⟨{ oz with reference_count_ := oz.reference_count_ - 1, alive := al },
                  by rw [hget1]; simp, rfl, rfl, by simp, ?_⟩
                intro hor
                show al = oz.alive
                apply hal1
                intro h1
                rcases hor with h | h
                · exact (hone h1).2 h
                · have := (hone h1).1
                  rw [h] at this; cases this
              · exact ⟨ob, by rw [hget1]; simp [hzb, hob], rfl, rfl, le_refl _, fun _ => rfl⟩
            by_cases hxb : x = b
            · subst hxb
              refine ⟨{ ob1 with fields := ob1.fields.set i (Field.handle T none) },
                by simp [World.setField, hob1], hb1c.trans hbc, ?_, ?_, ?_, ?_⟩
              · intro h0
                simp only
                rw [hb1f, hbf h0]; rfl
              · intro hS
                have := hbS hS
                simp only; omega
              · intro _ hne
                exact absurd rfl hne
              · intro hg
                exact absurd hg hxg
            · refine ⟨ob1, by simp [World.setField, hxb, hob1], hb1c.trans hbc, ?_, ?_, ?_, ?_⟩
              · intro h0; rw [hb1f]; exact hbf h0
              · intro hS
                have := hbS hS
                omega
              · intro hg hne hres
                obtain ⟨h1, h2⟩ := hbk hg hne hres
                exact ⟨hb1f.trans h1, (hb1a (Or.inr hres)).trans h2⟩
              · intro hg
                rw [hb1a (Or.inl (hgs b hg))]
                exact hbg hg
        exact ih _ (by omega) hscan2
          ⟨{ ox1 with fields := ox1.fields.set i (Field.handle T none) },
            by simp [World.setField, hx2], by simp [hx2f, hlen], hx2a,
            fun j hj => by
              simp only
              rw [hx2f, List.getElem?_set_ne (by omega)]
              exact hslots j (by omega)⟩

/-- `delete x` for a cell of `S`, in a state of the loop. -/
theorem deleteObj_scan (f : Nat) (S : List Nat) (v0 : World) (gone : List Nat) (x : Nat)
    (hD : Doomed S v0) (hgs : ∀ b ∈ gone, b ∈ S) (hx : x ∈ S) (hxg : x ∉ gone) (v : World)
    (hscan : Scan S v0 gone none v) :
    ∃ v1, deleteObj (release (f + 1)) v x = .ok v1 ∧ Scan S v0 (gone ++ [x]) none v1 := by
  obtain ⟨ox, hox, hres, _⟩ := hD x hx
  obtain ⟨hfl, hlength, hgap, ⟨ext, hext, hcnt⟩, hcells⟩ := hscan
  obtain ⟨o1, hx1, _, _, _, hk, _⟩ := hcells x ox hox
  obtain ⟨hf1, ha1⟩ := hk hxg (by simp) hres
  have hstart : Scan S v0 gone (some x) { v with deleted := v.deleted ++ [x] } := by
    refine ⟨hfl, hlength, hgap, ⟨ext ++ [x], by simp [hext], ?_⟩, ?_⟩
    · intro b o hb hr
      rw [List.count_append, hcnt b o hb hr]
      simp [List.count_append]
    · intro b o hb
      obtain ⟨ob, hob, h1, h2, h3, h4, h5⟩ := hcells b o hb
      exact ⟨ob, hob, h1, h2, h3, fun hg _ hr => h4 hg (by simp) hr, h5⟩
  obtain ⟨vm, hdm, hsm, om, hom, hma⟩ := destroyMembers_scan f S v0 gone x ox hD hgs hx hxg hox
    ox.fields.length { v with deleted := v.deleted ++ [x] } (le_refl _) hstart
    ⟨o1, hx1, by rw [hf1], ha1, fun j _ => by rw [hf1]⟩
  simp only [deleteObj, hx1]
  rw [hf1, hdm]
  simp only [hom]
  refine ⟨_, rfl, ?_⟩
  obtain ⟨mfl, mlength, mgap, ⟨mext, hmext, hmcnt⟩, mcells⟩ := hsm
  refine ⟨mfl, by simpa using mlength, ?_, ⟨mext, hmext, ?_⟩, ?_⟩
  · intro z
    simp only
    have h := gap_set_count vm.heap x om om.reference_count_ false z hom
    simp only [sub_self, ite_self, add_zero] at h
    rw [← mgap z, ← h]
  · intro b o hb hr
    rw [hmcnt b o hb hr]
    simp
  · intro b o hb
    obtain ⟨ob, hob, h1, h2, h3, h4, h5⟩ := mcells b o hb
    by_cases hxb : x = b
    · subst hxb
      rw [hom] at hob; injection hob with hob; subst hob
      refine ⟨{ om with alive := false }, by simp [List.getElem?_set_self (lt_of_get hom)],
        h1, h2, h3, ?_, fun _ => rfl⟩
      intro hg
      exact absurd (List.mem_append_right gone (List.mem_singleton_self x)) hg
    · refine ⟨ob, by simp [List.getElem?_set_ne hxb, hob], h1, h2, h3, ?_, ?_⟩
      · intro hg _ hr
        have hg1 : b ∉ gone := fun h => hg (List.mem_append_left _ h)
        have hne : some b ≠ some x := by
          intro h; injection h with h; exact hxb h.symm
        exact h4 hg1 hne hr
      · intro hg
        rcases List.mem_append.1 hg with h | h
        · exact h5 h
        · exact absurd (List.mem_singleton.1 h).symm hxb

/-- The second loop over `del_list`. -/
theorem deleteAll_scan (f : Nat) (S : List Nat) (v0 : World) (hD : Doomed S v0) :
    ∀ (L gone : List Nat) (v : World), (∀ b ∈ gone, b ∈ S) → (∀ b ∈ L, b ∈ S) → L.Nodup →
      (∀ b ∈ L, b ∉ gone) → Scan S v0 gone none v →
      ∃ v1, deleteAll (release (f + 1)) v L = .ok v1 ∧ Scan S v0 (gone ++ L) none v1 := by
  intro L
  induction L with
  | nil =>
    intro gone v _ _ _ _ hscan
    exact ⟨v, rfl, by simpa using hscan⟩
  | cons x L ih =>
    intro gone v hgs hLS hnd hLg hscan
    obtain ⟨vm, hdm, hsm⟩ := deleteObj_scan f S v0 gone x hD hgs (hLS x (by simp))
      (hLg x (by simp)) v hscan
    obtain ⟨hxL, hnd1⟩ := List.nodup_cons.1 hnd
    obtain ⟨v1, hv1, hs1⟩ := ih (gone ++ [x]) vm
      (fun b hb => by
        rcases List.mem_append.1 hb with h | h
        · exact hgs b h
        · rw [List.mem_singleton.1 h]; exact hLS x (by simp))
      (fun b hb => hLS b (by simp [hb])) hnd1
      (fun b hb hg => by
        rcases List.mem_append.1 hg with h | h
        · exact hLg b (by simp [hb]) h
        · rw [List.mem_singleton.1 h] at hb; exact hxL hb)
      hsm
    refine ⟨v1, by simp only [deleteAll, hdm]; exact hv1, ?_⟩
    simpa using hs1

/-- The state after the first loop is a state of the second loop. -/
theorem Scan.start (S : List Nat) (v0 : World) (hf : v0.first_release_ = false)
    (h0 : ∀ (b : Nat) (o : Obj), v0.heap[b]? = some o → b ∈ S → o.reference_count_ ≤ 0) :
    Scan S v0 [] none v0 := by
  refine ⟨hf, rfl, fun _ => rfl, ⟨[], by simp, fun _ _ _ _ => by simp⟩, ?_⟩
  intro b o hb
  exact ⟨o, hb, rfl, fun h => h, h0 b o hb, fun _ _ _ => ⟨rfl, rfl⟩, fun h => by cases h⟩

/-- The heap after the root scan: as before, or with one destroyed placeholder more. -/
theorem root_scan_heap (fuel : Nat) (w0 : World) (hf : w0.first_release_ = false)
    (t : Nat) (w1 w2 : World) (hi : Ptr.Init w0 w0.root_ = .ok (t, w1))
    (hrel : release (fuel + 1) w1 (some t) = .ok w2)
    (hroot : ∀ r, w0.root_ = some r → ∃ orr, w0.heap[r]? = some orr ∧ orr.reference_count_ ≠ 0) :
    w2.heap = w0.heap ∨ ∃ c, w2.heap = w0.heap ++ [c] ∧ c.fields = [] := by
  cases hr : w0.root_ with
  | none =>
    rw [hr] at hi
    simp only [Ptr.Init, Except.ok.injEq] at hi
    have ht : t = w0.heap.length := by
      have := congrArg Prod.fst hi
      exact this.symm
    have hw1 : w1 = (Ptr.NewPlaceholder w0).2 := by
      have := congrArg Prod.snd hi
      exact this.symm
    subst ht hw1
    have hph := NewPlaceholder_get w0 w0.heap.length
    simp only [if_true] at hph
    have h2 := releaseTail_last (release fuel) (Ptr.NewPlaceholder w0).2 w0.heap.length _ hph rfl
      (by simp)
    rw [← release_flag_false fuel _ _ (by simpa using hf), hrel] at h2
    injection h2 with h2
    right
    refine ⟨{ class_id := kObjClassId, interfaces := [], id_ := ⟨w0.counter + 1, kLoaded⟩,
              reference_count_ := 0, fields := [], alive := false }, ?_, rfl⟩
    rw [h2]
    simp only [NewPlaceholder_heap]
    simp
  | some r =>
    obtain ⟨orr, hor, hrc⟩ := hroot r hr
    obtain ⟨wa, hia, _, _, hra⟩ := root_temp fuel w0 r orr hf hor hrc
    rw [hr, hia] at hi
    simp only [Except.ok.injEq, Prod.mk.injEq] at hi
    obtain ⟨h1, h2⟩ := hi
    subst h1 h2
    rw [hra] at hrel
    injection hrel with hrel
    left
    rw [← hrel]

theorem nodup_delOrder (l : List Nat) (h : l.Nodup) : (delOrder l).Nodup :=
  (List.perm_insertionSort _ l).nodup_iff.2 h

/-- The scan of an outermost release, up to the two loops: `del_list` is duplicate-free
and holds the cells reachable from the handle, less the cells reachable from the root
when the handle is not bound to the root. -/
theorem release_scan_unfold (fuel : Nat) (w : World) (a : Nat)
    (hflag : w.first_release_ = true) (hc : Closed w.heap) (ha : a < w.heap.length)
    (hroot : ∀ r, w.root_ = some r → r ≠ a →
      ∃ orr, w.heap[r]? = some orr ∧ orr.reference_count_ ≠ 0) :
    ∃ (w2 : World) (S : List Nat), S.Nodup ∧
      (∀ x, x ∈ S ↔ (Reaches w.heap a x ∧ ∀ r, w.root_ = some r → r ≠ a → ¬ Reaches w.heap r x)) ∧
      w2.first_release_ = false ∧
      (w2.heap = w.heap ∨ ∃ c, w2.heap = w.heap ++ [c] ∧ c.fields = []) ∧
      (∃ extra, w2.deleted = w.deleted ++ extra ∧ ∀ e ∈ extra, w.heap.length ≤ e) ∧
      release (fuel + 2) w (some a) =
        match deleteAll (release (fuel + 1)) (zeroCounts w2 S) S with
        | .error e => .error e
        | .ok w3 =>
          if a ∈ S then .ok { w3 with first_release_ := true }
          else releaseTail (release (fuel + 1)) { w3 with first_release_ := true } a := by
  obtain ⟨heap, counter, root, ao, fr, reg, b2d, del, loads⟩ := w
  simp only at hflag hc ha hroot
  subst hflag
  rw [release_flag_true _ _ _ rfl]
  obtain ⟨D, hD, hDn, hDm⟩ := Serialize_reach heap a hc ha
  simp only [hD]
  by_cases hra : some a = root
  · subst hra
    refine ⟨⟨heap, counter, some a, ao, false, reg, b2d, del, loads⟩, delOrder D.objects_,
      nodup_delOrder _ hDn, ?_, rfl, Or.inl rfl, ⟨[], by simp, by simp⟩, ?_⟩
    · intro x
      rw [mem_delOrder, hDm x]
      constructor
      · intro h
        refine ⟨h, ?_⟩
        intro r hr hne
        injection hr with hr
        exact absurd hr.symm hne
      · intro h; exact h.1
    · simp only [ne_eq, not_true_eq_false, if_false]
      try rfl
  · have hroot' : ∀ r, (⟨heap, counter, root, ao, false, reg, b2d, del, loads⟩ : World).root_ = some r →
        ∃ orr, heap[r]? = some orr ∧ orr.reference_count_ ≠ 0 := by
      intro r hr
      simp only at hr
      exact hroot r hr (fun h => hra (by rw [hr, h]))
    obtain ⟨t, w1, R, w2, hi, hR, hrel, hRm, hf2, hfr, extra, hex, hge⟩ :=
      root_scan fuel ⟨heap, counter, root, ao, false, reg, b2d, del, loads⟩ rfl hc hroot'
    have hheap := root_scan_heap fuel ⟨heap, counter, root, ao, false, reg, b2d, del, loads⟩ rfl
      t w1 w2 hi hrel hroot'
    simp only at hi hRm hfr hex hge hheap
    refine ⟨w2, (delOrder D.objects_).filter (fun o => decide (o ∉ R.objects_)),
      (nodup_delOrder _ hDn).filter _, ?_, hf2, hheap, ⟨extra, hex, hge⟩, ?_⟩
    · intro x
      rw [List.mem_filter, mem_delOrder, hDm x]
      simp only [decide_eq_true_eq]
      rw [hRm x]
      constructor
      · rintro ⟨h1, h2⟩
        exact ⟨h1, fun r hr _ hreach => h2 ⟨r, hr, hreach⟩⟩
      · rintro ⟨h1, h2⟩
        refine ⟨h1, ?_⟩
        rintro ⟨r, hr, hreach⟩
        exact h2 r hr (fun h => hra (by rw [hr, h])) hreach
    · simp only [ne_eq, hra, not_false_eq_true, if_true, hi, hR, hrel]
      try rfl

theorem Reaches.resident {heap : List Obj} {a x : Nat} (h : Reaches heap a x) :
    Resident heap x := by
  obtain ⟨hres, htr⟩ := h
  rcases Relation.ReflTransGen.cases_tail htr with h | ⟨p, _, hstep⟩
  · rw [h]; exact hres
  · obtain ⟨_, _, _, _, _, hr⟩ := hstep
    exact hr

/-- A cell reachable from `r` other than `r` is bound by a member of a cell reachable
from `r`. -/
theorem Reaches.holder {heap : List Obj} {r z : Nat} (h : Reaches heap r z) (hne : z ≠ r) :
    ∃ p op T, Reaches heap r p ∧ heap[p]? = some op ∧ op.IsPlaceholder = false ∧
      Field.handle T (some z) ∈ op.fields := by
  obtain ⟨hres, htr⟩ := h
  rcases Relation.ReflTransGen.cases_tail htr with h | ⟨p, hp, hstep⟩
  · exact absurd h hne
  · obtain ⟨op, T, h1, h2, h3, _⟩ := hstep
    exact ⟨p, op, T, ⟨hres, hp⟩, h1, h2, h3⟩

theorem count_append_high (l extra : List Nat) (x n : Nat) (hx : x < n)
    (he : ∀ e ∈ extra, n ≤ e) : (l ++ extra).count x = l.count x := by
  have h0 : extra.count x = 0 := by
    rw [List.count_eq_zero]
    intro hmem
    have := he x hmem
    omega
  rw [List.count_append, h0]; rfl

/-- The scan of an outermost release, as the model runs it (the decrement of the count of
a cell that has been destroyed is a plain decrement here, and a write to freed memory in
the source): a heap whose handle members are bound, whose placeholders
have no members and whose reference counts cover the handle members bound to each cell
and the released handle `h` of user code, bound to the resident cell `a`; when `a` is not
the root, the root is bound by a handle that is not a member of a cell of the scan set
(a handle outside the heap, or a member of a resident cell outside the set).  Then the
outermost release returns; the scan set (the cells reachable from `a`, less those
reachable from the root when `a` is not the root) is destroyed, each cell given to
`delete` exactly once; every other resident cell, so every cell reachable from the root
when `a` is not the root, is neither destroyed nor loses a member; and `first_release_`
is true again. -/
theorem release_scan (fuel : Nat) (w : World) (a : Nat) (oa : Obj)
    (hflag : w.first_release_ = true) (hc : Closed w.heap)
    (hplain : ∀ o ∈ w.heap, o.IsPlaceholder = true → o.fields = [])
    (hacc : ∀ z, z < w.heap.length →
      refs w.heap z + (if z = a then 1 else 0) ≤ countOf w.heap z)
    (ha : w.heap[a]? = some oa) (hres : oa.IsPlaceholder = false)
    (hroot : ∀ r, w.root_ = some r → r ≠ a → ∃ orr, w.heap[r]? = some orr ∧
      (1 ≤ gap w.heap r ∨ ∃ p op T, w.heap[p]? = some op ∧ op.IsPlaceholder = false ∧
        Field.handle T (some r) ∈ op.fields ∧ ¬ ScanSet w a p)) :
    ∃ w1, release (fuel + 2) w (some a) = .ok w1 ∧ w1.first_release_ = true ∧
      (∀ x, ScanSet w a x → w1.deleted.count x = w.deleted.count x + 1 ∧
        (w1.heap[x]?).map (fun c => c.alive) = some false) ∧
      (∀ x o, w.heap[x]? = some o → o.IsPlaceholder = false → ¬ ScanSet w a x →
        w1.deleted.count x = w.deleted.count x ∧
        (w1.heap[x]?).map (fun c => (c.alive, c.fields)) = some (o.alive, o.fields)) := by
  have hgap0 : ∀ z, z < w.heap.length → 0 ≤ gap w.heap z := by
    intro z hz
    have := hacc z hz
    unfold gap
    by_cases hza : z = a
    · simp only [hza, if_true] at this ⊢; omega
    · simp only [hza, if_false] at this; omega
  have hrootc : ∀ r, w.root_ = some r → r ≠ a →
      ∃ orr, w.heap[r]? = some orr ∧ orr.reference_count_ ≠ 0 := by
    intro r hr hne
    obtain ⟨orr, hor, hh⟩ := hroot r hr hne
    refine ⟨orr, hor, ?_⟩
    have hcnt := gap_count w.heap r orr hor
    have hg := hgap0 r (lt_of_get hor)
    have hrn := refs_nonneg w.heap r
    rcases hh with h | ⟨p, op, T, hp, _, hm, _⟩
    · omega
    · have h1 := refs_ge_cell w.heap p op r hp
      have h2 := countRef_pos_of_mem op.fields T r hm
      omega
  obtain ⟨w2, S, hnd, hmem, hf2, hheap, ⟨extra, hex, hge⟩, hrel⟩ :=
    release_scan_unfold fuel w a hflag hc (lt_of_get ha) hrootc
  rw [hrel]
  have hcell2 : ∀ b : Nat, b < w.heap.length → w2.heap[b]? = w.heap[b]? := by
    intro b hb
    rcases hheap with h | ⟨c, h, _⟩
    · rw [h]
    · rw [h, List.getElem?_append_left hb]
  have hgap2 : ∀ z, z < w.heap.length → gap w2.heap z = gap w.heap z := by
    intro z hz
    rcases hheap with h | ⟨c, h, hcf⟩
    · rw [h]
    · rw [h, gap_append _ _ _ hz hcf]
  have hSmem : ∀ x, x ∈ S ↔ ScanSet w a x := hmem
  have hreach_a : Reaches w.heap a a := ⟨⟨oa, ha, hres⟩, Relation.ReflTransGen.refl⟩
  by_cases haS : a ∈ S
  · -- the handle's object is destroyed with the scan set
    have hv0cell : ∀ (b : Nat) (o : Obj), w.heap[b]? = some o →
        (zeroCounts w2 S).heap[b]? =
          some (if b ∈ S then { o with reference_count_ := 0 } else o) := by
      intro b o hb
      rw [zeroCounts_get, hcell2 b (lt_of_get hb), hb]
      by_cases hbS : b ∈ S <;> simp [hbS]
    have hgapv0 : ∀ z, z < w.heap.length → z ∉ S →
        gap (zeroCounts w2 S).heap z = gap w.heap z := by
      intro z hz hzS
      rw [zeroCounts_gap S z hzS, hgap2 z hz]
    have hD : Doomed S (zeroCounts w2 S) := by
      intro x hx
      have hrx := ((hSmem x).1 hx).1
      obtain ⟨ox, hox, hxres⟩ := hrx.resident
      refine ⟨{ ox with reference_count_ := 0 }, by rw [hv0cell x ox hox]; simp [hx], hxres, ?_⟩
      intro i T q hfi
      have hfm : Field.handle T q ∈ ox.fields := List.mem_iff_getElem?.2 ⟨i, hfi⟩
      obtain ⟨z, hq, hz⟩ := hc x ox T q hox hxres hfm
      subst hq
      obtain ⟨oz, hoz⟩ : ∃ oz, w.heap[z]? = some oz := ⟨w.heap[z], List.getElem?_eq_getElem hz⟩
      refine ⟨z, if z ∈ S then { oz with reference_count_ := 0 } else oz, rfl,
        hv0cell z oz hoz, ?_⟩
      by_cases hzS : z ∈ S
      · exact Or.inl hzS
      · right
        simp only [hzS, if_false]
        cases hzp : oz.IsPlaceholder with
        | true => exact Or.inl ⟨rfl, hplain oz (List.mem_iff_getElem?.2 ⟨z, hoz⟩) hzp⟩
        | false =>
          right
          refine ⟨rfl, ?_⟩
          have hstep : Step w.heap x z := ⟨ox, T, hox, hxres, hfm, ⟨oz, hoz, hzp⟩⟩
          have hrz : Reaches w.heap a z := ⟨hrx.1, hrx.2.tail hstep⟩
          have hnot : ¬ ScanSet w a z := fun h => hzS ((hSmem z).2 h)
          have hex2 : ∃ r, w.root_ = some r ∧ r ≠ a ∧ Reaches w.heap r z := by
            by_contra hcon
            apply hnot
            refine ⟨hrz, ?_⟩
            intro r hr hne hreach
            exact hcon ⟨r, hr, hne, hreach⟩
          obtain ⟨r, hr, hne, hreach⟩ := hex2
          have hg := hgapv0 z hz hzS
          by_cases hzr : z = r
          · subst hzr
            obtain ⟨orr, hor, hh⟩ := hroot z hr hne
            rcases hh with h | ⟨p, op, Tp, hp, hpr, hpm, hpn⟩
            · left; rw [hg]; exact h
            · right
              have hpS : p ∉ S := fun h => hpn ((hSmem p).1 h)
              refine ⟨by rw [hg]; exact hgap0 z hz, p, op, Tp, hpS, ?_, hpr, hpm⟩
              rw [hv0cell p op hp]; simp [hpS]
          · obtain ⟨p, op, Tp, hrp, hp, hpr, hpm⟩ := hreach.holder hzr
            right
            have hpS : p ∉ S := fun h => ((hSmem p).1 h).2 r hr hne hrp
            refine ⟨by rw [hg]; exact hgap0 z hz, p, op, Tp, hpS, ?_, hpr, hpm⟩
            rw [hv0cell p op hp]; simp [hpS]
    have hstart : Scan S (zeroCounts w2 S) [] none (zeroCounts w2 S) := by
      apply Scan.start
      · rw [(zeroCounts_fields S w2).1]; exact hf2
      · intro b o hb hbS
        rw [zeroCounts_get] at hb
        simp only [hbS, if_true] at hb
        cases hw : w2.heap[b]? with
        | none => rw [hw] at hb; cases hb
        | some c =>
          rw [hw] at hb
          simp only [Option.map_some', Option.some.injEq] at hb
          rw [← hb]
    obtain ⟨v1, hv1, hs1⟩ := deleteAll_scan fuel S (zeroCounts w2 S) hD S [] (zeroCounts w2 S)
      (fun b hb => by cases hb) (fun b hb => hb) hnd (fun b _ hb => by cases hb) hstart
    simp only [hv1, haS, if_true]
    refine ⟨_, rfl, rfl, ?_, ?_⟩
    all_goals
      obtain ⟨_, _, _, ⟨ext, hext, hcnt⟩, hcells⟩ := hs1
      simp only [List.nil_append, Option.toList, List.append_nil] at hcnt hcells
      rw [(zeroCounts_fields S w2).2.1, hex] at hext
    · intro x hx
      have hxS := (hSmem x).2 hx
      obtain ⟨ox, hox, hxres⟩ := hx.1.resident
      obtain ⟨o1, ho1, _, _, _, _, hdead⟩ := hcells x _ (hv0cell x ox hox)
      refine ⟨?_, by simp [ho1, hdead hxS]⟩
      simp only
      rw [hext, List.count_append, count_append_high _ _ _ _ (lt_of_get hox) hge,
        hcnt x _ (hv0cell x ox hox) (by simp only [hxS, if_true]; exact hxres),
        List.count_eq_one_of_mem hnd hxS]
    · intro x o hox hxres hx
      have hxS : x ∉ S := fun h => hx ((hSmem x).1 h)
      have hv0 := hv0cell x o hox
      simp only [hxS, if_false] at hv0
      obtain ⟨o1, ho1, _, _, _, hkeep, _⟩ := hcells x o hv0
      obtain ⟨h1, h2⟩ := hkeep hxS (by simp) hxres
      refine ⟨?_, by simp [ho1, h1, h2]⟩
      simp only
      rw [hext, List.count_append, count_append_high _ _ _ _ (lt_of_get hox) hge,
        hcnt x o hv0 hxres, List.count_eq_zero_of_not_mem hxS]
      rfl
  · -- the handle's object is reachable from the root: nothing is destroyed
    have hex2 : ∃ r, w.root_ = some r ∧ r ≠ a ∧ Reaches w.heap r a := by
      by_contra hcon
      apply haS
      rw [hSmem]
      refine ⟨hreach_a, ?_⟩
      intro r hr hne hreach
      exact hcon ⟨r, hr, hne, hreach⟩
    obtain ⟨r, hr, hne, hreach⟩ := hex2
    have hnone : ∀ x, ¬ ScanSet w a x := by
      intro x hx
      exact hx.2 r hr hne (hreach.comp hx.1)
    have hS : S = [] := by
      rw [List.eq_nil_iff_forall_not_mem]
      intro x hx
      exact hnone x ((hSmem x).1 hx)
    subst hS
    simp only [zeroCounts, List.foldl_nil, deleteAll, List.not_mem_nil, if_false]
    obtain ⟨p, op, Tp, _, hp, _, hpm⟩ := hreach.holder (Ne.symm hne)
    have hcount : oa.reference_count_ ≠ 1 := by
      have h1 := hacc a (lt_of_get ha)
      have h2 := refs_ge_cell w.heap p op a hp
      have h3 := countRef_pos_of_mem op.fields Tp a hpm
      simp only [countOf, ha, if_true] at h1
      omega
    have ha2 : ({ w2 with first_release_ := true } : World).heap[a]? = some oa := by
      simp only
      rw [hcell2 a (lt_of_get ha)]; exact ha
    rw [releaseTail_keep _ _ a oa ha2 hcount]
    refine ⟨_, rfl, by simp, fun x hx => absurd hx (hnone x), ?_⟩
    intro x o hox hxres _
    refine ⟨?_, ?_⟩
    · simp only [update_deleted]
      rw [hex, count_append_high _ _ _ _ (lt_of_get hox) hge]
    · simp only [update_heap_get]
      by_cases hax : a = x
      · subst hax
        rw [ha] at hox; injection hox with hox; subst hox
        simp [hcell2 a (lt_of_get ha), ha]
      · simp [hax, hcell2 x (lt_of_get hox), hox]

/-- An object reachable from the root that the scan does not keep: in `orphanRootWorld`
every reference count equals the number of
handles bound to the cell (the members, and the caller's handle `h` on cell 1), and the
root (cell 0) is reachable from the root; the outermost release of `h` nevertheless
destroys the root: the member of the force-destroyed cell 1 was its only handle. -/
theorem release_destroys_root :
    (∀ z, z < orphanRootWorld.heap.length →
      countOf orphanRootWorld.heap z =
        refs orphanRootWorld.heap z + (if z = 1 then 1 else 0)) ∧
    orphanRootWorld.root_ = some 0 ∧ Reaches orphanRootWorld.heap 0 0 ∧
    (release 3 orphanRootWorld (some 1)).toOption.map
      (fun w => (w.deleted, w.heap.map (fun c => c.alive), w.first_release_)) =
      some ([1, 0, 2], [false, false, false], true) :=
  ⟨by decide, rfl, ⟨⟨_, rfl, by decide⟩, Relation.ReflTransGen.refl⟩, by rfl⟩

theorem release_scan_witness :
    ∃ w1, release 2 scanWorld (some 1) = .ok w1 ∧ w1.first_release_ = true ∧
      (∀ x, ScanSet scanWorld 1 x → w1.deleted.count x = scanWorld.deleted.count x + 1 ∧
        (w1.heap[x]?).map (fun c => c.alive) = some false) ∧
      (∀ x o, scanWorld.heap[x]? = some o → o.IsPlaceholder = false → ¬ ScanSet scanWorld 1 x →
        w1.deleted.count x = scanWorld.deleted.count x ∧
        (w1.heap[x]?).map (fun c => (c.alive, c.fields)) = some (o.alive, o.fields)) :=
  release_scan 0 scanWorld 1 (mkNode 2 1 (some 2)) rfl (closedB_sound _ (by decide))
    (by decide) (by decide) rfl (by decide)
    (fun r hr _ => by
      have h0 : r = 0 := by
        have : scanWorld.root_ = some 0 := rfl
        rw [this] at hr
        injection hr with hr
        exact hr.symm
      subst h0
      exact ⟨mkNode 1 2 (some 3), rfl, Or.inl (by decide)⟩)

/-! ### The scan and the load, at failing inputs -/

/-- C7: the 2-cycle of the claim (`cycleWorld`: cells 0 and 1, each with its member bound
to the other, the caller's handle `h` bound to cell 0, neither reachable from a root).
The scan of `release` puts both cells in `del_list` and deletes them in address order.
`delete` of cell 0 leaves it destroyed, with count 0, while the member of cell 1 is still
bound to it; `delete` of cell 1 then runs the destructor of that member, and its
`--ptr_->reference_count_` writes to the destroyed cell 0, whose count goes from 0 to -1.
The model keeps a destroyed cell addressable, which makes the write visible; in the
source the write goes to freed memory, so releasing `h` is not a defined execution. -/
theorem release_two_cycle_writes_destroyed :
    (Ptr.Serialize cycleWorld.heap (some 0)).map (fun d => delOrder d.objects_) = .ok [0, 1] ∧
    (deleteObj (release 1) (zeroCounts { cycleWorld with first_release_ := false } [0, 1]) 0).map
        (fun w => (w.deleted, w.heap.map (fun c => (c.alive, c.reference_count_, c.fields)))) =
      .ok ([0], [(false, 0, [.handle kNodeClassId none]),
                 (true, -1, [.handle kNodeClassId (some 0)])]) ∧
    ((deleteObj (release 1) (zeroCounts { cycleWorld with first_release_ := false } [0, 1]) 0).bind
        (fun v => deleteObj (release 1) v 1)).map
        (fun w => (w.deleted, w.heap.map (fun c => (c.alive, c.reference_count_)))) =
      .ok ([0, 1], [(false, -1), (false, -1)]) ∧
    (release 2 cycleWorld (some 0)).map
        (fun w => (w.deleted, w.heap.map (fun c => (c.alive, c.reference_count_)))) =
      .ok ([2, 0, 1], [(false, -1), (false, -1), (false, 0)]) :=
  ⟨by rfl, by rfl, by rfl, by rfl⟩

/-- C19: in `chainWorld` every reference count equals the number of handles bound to the
cell (the members, and the caller's handle `h` on cell 1) and there is no root, so the
scan set of releasing `h` is `D = {0, 1}`, deleted in address order.  `delete` of cell 0
leaves it destroyed, with count 0, while the member of cell 1 is still bound to it;
`delete` of cell 1 then runs the destructor of that member, and its
`--ptr_->reference_count_` writes to the destroyed cell 0, whose count goes from 0 to -1.
The model keeps a destroyed cell addressable, which makes the write visible; in the
source the write goes to freed memory, so the release is not a defined execution. -/
theorem release_scan_writes_destroyed :
    (∀ z, z < chainWorld.heap.length →
      countOf chainWorld.heap z = refs chainWorld.heap z + (if z = 1 then 1 else 0)) ∧
    chainWorld.root_ = none ∧
    (Ptr.Serialize chainWorld.heap (some 1)).map (fun d => delOrder d.objects_) = .ok [0, 1] ∧
    (deleteObj (release 2) (zeroCounts { chainWorld with first_release_ := false } [0, 1]) 0).map
        (fun w => (w.deleted, w.heap.map (fun c => (c.alive, c.reference_count_, c.fields)))) =
      .ok ([0, 2], [(false, 0, [.handle kNodeClassId none]),
                    (true, 0, [.handle kNodeClassId (some 0)]), (false, 0, [])]) ∧
    ((deleteObj (release 2) (zeroCounts { chainWorld with first_release_ := false } [0, 1]) 0).bind
        (fun v => deleteObj (release 2) v 1)).map
        (fun w => (w.deleted, w.heap.map (fun c => (c.alive, c.reference_count_)))) =
      .ok ([0, 2, 1], [(false, -1), (false, 0), (false, 0)]) ∧
    (release 2 chainWorld (some 1)).map
        (fun w => (w.deleted, w.heap.map (fun c => (c.alive, c.reference_count_)))) =
      .ok ([3, 0, 2, 1], [(false, -1), (false, 0), (false, 0), (false, 0)]) :=
  ⟨by decide, rfl, by rfl, by rfl, by rfl, by rfl⟩

/-- C16: in a process with `Pair` and `Leaf` registered, no factory is registered for the
class id 12345, and `Registry::CreateClassById` returns the absent result for it, leaving
the process as it is.  `Obj::CreateClassById` then assigns `o->id_` through that null
result without a check, and so does `DeserializeObj` on a record that starts with this
class id, and `Ptr::Load` on a placeholder handle whose record does: the model's
`Fault.null` is this null dereference, which the source does not define; the
deserialization does not fail in a way the caller can observe. -/
theorem DeserializeObj_unknown_class_null :
    mapFind (pairWorld.registry_.getD []) 12345 = none ∧
    Registry.CreateClassById pairWorld 12345 = .ok (none, pairWorld) ∧
    Obj.CreateClassById pairWorld 12345 ⟨7, kLoaded⟩ = .error .null ∧
    DeserializeObj 3 (storeLoad [("7", [12345])]) pairWorld [7 ||| kLoaded] = .error .null ∧
    Ptr.Load 3 (storeLoad [("1", [12345])]) (Ptr.NewPlaceholder pairWorld).2 kLeafClassId
      (some 0) = .error .null :=
  ⟨by rfl, by rfl, by rfl, by rfl, by rfl⟩

/-- C9: user code `Pair::ptr g(new Pair()); g.Serialize(store)` in a process with `Pair` and
`Leaf` registered stores one record, under "1": the class id of `Pair` and the ids 2 and 3
of the placeholders of its two empty members.  In a fresh process of the same program a
placeholder handle `Pair::ptr h` has the id 1 and is falsy; the load facility returns
that record for "1", the class id is registered and has the capability `Pair`, and the
payload has one identity word for each member.  `h.Load(load)` does not make `h`
resident: `DeserializeObj` looks the member's id 2 up, asks the load facility for "2",
for which nothing was stored, and reads a class id from the empty stream. -/
theorem Load_empty_member_underflow :
    (Ptr.Serialize (bindHandle (Pair.create pairWorld).2 0).heap (some 0)).map
        (fun d => d.stored) = .ok [("1", [kPairClassId, 2 ||| kLoaded, 3 ||| kLoaded])] ∧
    Ptr.GetId (Ptr.NewPlaceholder pairWorld).2 (some 0) = .ok 1 ∧
    Ptr.toBool (Ptr.NewPlaceholder pairWorld).2 (some 0) = .ok false ∧
    (pairWorld.registry_.bind (fun r => mapFind r kPairClassId)).map
        (fun c => (c.class_id_, c.interfaces, c.fields.length)) =
      some (kPairClassId, [kPairClassId], 2) ∧
    Ptr.Load 4 (storeLoad [("1", [kPairClassId, 2 ||| kLoaded, 3 ||| kLoaded])])
      (Ptr.NewPlaceholder pairWorld).2 kPairClassId (some 0) = .error .underflow :=
  ⟨by rfl, by rfl, by rfl, by rfl, by rfl⟩

end aether
